import Mathlib

/-!
# arch/arm64/crypto/aes-glue.c

A shallow embedding of the AES mode-of-operation and MAC glue code.

Bytes and machine words are natural numbers; a buffer is a list of bytes.
Arithmetic that the C code performs on fixed-width integers is reduced
modulo the width explicitly.
-/

namespace AesGlue

/-! ## Byte buffers -/

/-- AES_BLOCK_SIZE of crypto/aes.h. -/
abbrev AES_BLOCK_SIZE : Nat := 16

/-- Bytes `[off, off + n)` of a buffer. -/
def load (mem : List Nat) (off n : Nat) : List Nat :=
  (mem.drop off).take n

/-- Overwrite the bytes of a buffer starting at `off` with `v`. -/
def store (mem : List Nat) (off : Nat) (v : List Nat) : List Nat :=
  mem.take off ++ v ++ mem.drop (off + v.length)

/-- Every element of the buffer is a byte. -/
def IsBytes (mem : List Nat) : Prop := ∀ b ∈ mem, b < 256

instance (mem : List Nat) : Decidable (IsBytes mem) := by
  unfold IsBytes; infer_instance

/-- Modelled from the spec: the byte-order helper be64_to_cpu, absent from the
sources; the value of eight bytes stored most significant byte first. -/
def be64_to_cpu (bs : List Nat) : Nat :=
  bs.foldl (fun acc x => acc * 256 + x) 0

/-- Modelled from the spec: the byte-order helper cpu_to_be64, absent from the
sources; the eight bytes of a 64-bit value, most significant byte first. -/
def cpu_to_be64 (v : Nat) : List Nat :=
  [v / 2 ^ 56 % 256, v / 2 ^ 48 % 256, v / 2 ^ 40 % 256, v / 2 ^ 32 % 256,
   v / 2 ^ 24 % 256, v / 2 ^ 16 % 256, v / 2 ^ 8 % 256, v % 256]

/-! ## CMAC subkey doubling -/

/-- The function cmac_gf128_mul_by_x: `y` and `x` are the byte offsets of the
two be128 objects inside `mem`; both halves of `x` are read into locals before
`y` is written. -/
def cmac_gf128_mul_by_x (mem : List Nat) (y x : Nat) : List Nat :=
  let a := be64_to_cpu (load mem x 8)
  let b := be64_to_cpu (load mem (x + 8) 8)
  let mem1 := store mem y (cpu_to_be64 (((a <<< 1) % 2 ^ 64) ||| (b >>> 63)))
  store mem1 (y + 8)
    (cpu_to_be64 (((b <<< 1) % 2 ^ 64) ^^^ (if a >>> 63 ≠ 0 then 0x87 else 0)))

/-- The 128-bit big-endian value of the be128 object at byte offset `off`:
field `a` is the high 64 bits, field `b` the low 64 bits. -/
def be128_val (mem : List Nat) (off : Nat) : Nat :=
  be64_to_cpu (load mem off 8) * 2 ^ 64 + be64_to_cpu (load mem (off + 8) 8)

/-- Doubling as the specification words it: shift left by one inside 128 bits
(the vacated low bit is 0), then xor 0x87 when the original top bit was 1. -/
def spec_double (X : Nat) : Nat :=
  (2 * X % 2 ^ 128) ^^^ (if X / 2 ^ 127 % 2 = 1 then 0x87 else 0)

/-! ## Collaborators outside the glue code -/

/-- Modelled from the spec: the errno EINVAL (errno-base.h), absent from the
sources; the invalid-length and invalid-key error is its negation. -/
def EINVAL : Int := 22

/-- Modelled from the spec: the structure crypto_aes_ctx (crypto/aes.h),
absent from the sources: the two round-key arrays and the raw key length in
bytes. -/
structure crypto_aes_ctx where
  key_enc : List Nat
  key_dec : List Nat
  key_length : Nat
deriving DecidableEq, Repr

/-- The AES primitive the glue code is built on, taken as a parameter: the two
key schedules of a raw key, the single-block cipher in both directions under a
round-key array and a round count, and the number of blocks after which
aes_mac_update yields when it is handed `n` blocks. -/
structure AesPrim where
  expand_enc : List Nat → List Nat
  expand_dec : List Nat → List Nat
  encrypt : List Nat → Nat → List Nat → List Nat
  decrypt : List Nat → Nat → List Nat → List Nat
  mac_yield : Nat → Nat

/-- What a run of the glue code does besides computing bytes: the accelerator
context brackets, the calls of the assembly primitives with their scalar
arguments, and each run of the single-block cipher inside a primitive. -/
inductive Event where
  | kernel_neon_begin
  | kernel_neon_end
  | skcipher_walk_virt (cryptlen : Nat)
  | skcipher_walk_done (res : Nat)
  | aes_ecb_encrypt (rk : List Nat) (rounds blocks : Nat)
  | aes_cbc_encrypt (rk : List Nat) (rounds blocks : Nat)
  | aes_cbc_decrypt (rk : List Nat) (rounds blocks : Nat)
  | aes_cbc_cts_encrypt (rk : List Nat) (rounds bytes : Nat)
  | aes_cbc_cts_decrypt (rk : List Nat) (rounds bytes : Nat)
  | aes_mac_update (rk : List Nat) (rounds blocks : Nat) (enc_before enc_after : Bool)
  | encrypt_block
  | decrypt_block
  | skcipher_walk_abort
  | crypto_shash_tfm_digest (len : Nat)
  | aes_ecb_decrypt (rk : List Nat) (rounds blocks : Nat)
  | aes_essiv_cbc_encrypt (rk1 : List Nat) (rounds blocks : Nat) (rk2 : List Nat)
  | aes_essiv_cbc_decrypt (rk1 : List Nat) (rounds blocks : Nat) (rk2 : List Nat)
  | aes_ctr_encrypt (rk : List Nat) (rounds bytes : Nat)
  | aes_xctr_encrypt (rk : List Nat) (rounds bytes byte_ctr : Nat)
  | aes_xts_encrypt (rk1 : List Nat) (rounds bytes : Nat) (rk2 : List Nat) (first : Nat)
  | aes_xts_decrypt (rk1 : List Nat) (rounds bytes : Nat) (rk2 : List Nat) (first : Nat)
deriving DecidableEq, Repr

/-- Number of single-block encryptions in a trace. -/
def encryptions (tr : List Event) : Nat := tr.count Event.encrypt_block

/-- Number of single-block decryptions in a trace. -/
def decryptions (tr : List Event) : Nat := tr.count Event.decrypt_block

/-- Modelled from the spec: aes_expandkey (aes-ce-setkey.h), absent from the
sources; expansion succeeds exactly for raw keys of 16, 24 or 32 bytes and
leaves the context alone otherwise. -/
def aes_expandkey (P : AesPrim) (ctx : crypto_aes_ctx) (in_key : List Nat)
    (key_len : Nat) : Int × crypto_aes_ctx :=
  if key_len = 16 ∨ key_len = 24 ∨ key_len = 32 then
    (0, { key_enc := P.expand_enc (in_key.take key_len),
          key_dec := P.expand_dec (in_key.take key_len),
          key_length := key_len })
  else
    (-EINVAL, ctx)

/-- Modelled from the spec: the helper crypto_xor (crypto/utils.h), absent
from the sources; xors the first `len` bytes of `src` into `dst`. -/
def crypto_xor : List Nat → List Nat → Nat → List Nat
  | d :: ds, s :: ss, n + 1 => (d ^^^ s) :: crypto_xor ds ss n
  | ds, _, _ => ds

/-- Modelled from the spec: aes_ecb_encrypt (aes-modes.S), absent from the
sources; every block is encrypted on its own. Returns the output bytes and the
events of the call. -/
def aes_ecb_encrypt (P : AesPrim) (inp rk : List Nat) (rounds blocks : Nat) :
    List Nat × List Event :=
  (((List.range blocks).map
      (fun i => P.encrypt rk rounds (load inp (AES_BLOCK_SIZE * i) AES_BLOCK_SIZE))).flatten,
   Event.aes_ecb_encrypt rk rounds blocks :: List.replicate blocks Event.encrypt_block)

/-- Chaining of `k` input blocks into the digest while `blocks` blocks are
still owed: each block is xored into the digest, which is then encrypted,
except after the very last owed block when `enc_after` is clear. Returns the
digest and the number of encryptions. -/
def mac_chain (P : AesPrim) (rk : List Nat) (rounds : Nat) (enc_after : Bool) :
    Nat → Nat → List Nat → List Nat → List Nat × Nat
  | 0, _, _, dg => (dg, 0)
  | k + 1, blocks, inp, dg =>
    let dg1 := crypto_xor dg (load inp 0 AES_BLOCK_SIZE) AES_BLOCK_SIZE
    if blocks = 1 ∧ enc_after = false then (dg1, 0)
    else
      let r := mac_chain P rk rounds enc_after k (blocks - 1)
        (inp.drop AES_BLOCK_SIZE) (P.encrypt rk rounds dg1)
      (r.1, r.2 + 1)

/-- Number of blocks one call of aes_mac_update completes when it is handed
`blocks` blocks: at least one, at most all of them. -/
def mac_progress (P : AesPrim) (blocks : Nat) : Nat :=
  if blocks = 0 then 0 else min blocks (max 1 (P.mac_yield blocks))

/-- Modelled from the spec: aes_mac_update (aes-modes.S), absent from the
sources; the digest is encrypted first when `enc_before` is set, then full
blocks are chained into it by repeated block encryption; the call may yield
early and returns the number of blocks it has not processed. Returns that
number, the digest and the events of the call. -/
def aes_mac_update (P : AesPrim) (inp rk : List Nat) (rounds blocks : Nat)
    (dg : List Nat) (enc_before enc_after : Bool) : Nat × List Nat × List Event :=
  let dg0 := if enc_before then P.encrypt rk rounds dg else dg
  let n0 := if enc_before then 1 else 0
  let k := mac_progress P blocks
  let r := mac_chain P rk rounds enc_after k blocks inp dg0
  (blocks - k, r.1,
   Event.aes_mac_update rk rounds blocks enc_before enc_after ::
     List.replicate (n0 + r.2) Event.encrypt_block)

/-! ## MAC transforms -/

/-- The structure mac_tfm_ctx: the cipher key and the derived constants. -/
structure mac_tfm_ctx where
  key : crypto_aes_ctx
  consts : List Nat
deriving DecidableEq, Repr

/-- The structure mac_desc_ctx: the running digest. -/
structure mac_desc_ctx where
  dg : List Nat
deriving DecidableEq, Repr

/-- The function cbcmac_setkey. -/
def cbcmac_setkey (P : AesPrim) (ctx : mac_tfm_ctx) (in_key : List Nat) (key_len : Nat) :
    Int × mac_tfm_ctx :=
  let r := aes_expandkey P ctx.key in_key key_len
  (r.1, { ctx with key := r.2 })

/-- The function cmac_setkey. Returns the error code, the transform context
and the events. -/
def cmac_setkey (P : AesPrim) (ctx : mac_tfm_ctx) (in_key : List Nat) (key_len : Nat) :
    Int × mac_tfm_ctx × List Event :=
  let rounds := 6 + key_len / 4
  let r := cbcmac_setkey P ctx in_key key_len
  if r.1 ≠ 0 then (r.1, r.2, [])
  else
    let ctx := r.2
    -- encrypt the zero vector
    let e := aes_ecb_encrypt P (List.replicate AES_BLOCK_SIZE 0) ctx.key.key_enc rounds 1
    let consts := store ctx.consts 0 e.1
    let consts := cmac_gf128_mul_by_x consts 0 0
    let consts := cmac_gf128_mul_by_x consts AES_BLOCK_SIZE 0
    (0, { ctx with consts := consts },
     [Event.kernel_neon_begin] ++ e.2 ++ [Event.kernel_neon_end])

/-- The table `ks` of xcbc_setkey: three blocks of 0x1, 0x2 and 0x3 bytes. -/
def xcbc_ks : List Nat :=
  List.replicate AES_BLOCK_SIZE 0x1 ++ List.replicate AES_BLOCK_SIZE 0x2 ++
    List.replicate AES_BLOCK_SIZE 0x3

/-- The function xcbc_setkey. Returns the error code, the transform context
and the events. -/
def xcbc_setkey (P : AesPrim) (ctx : mac_tfm_ctx) (in_key : List Nat) (key_len : Nat) :
    Int × mac_tfm_ctx × List Event :=
  let rounds := 6 + key_len / 4
  let r := cbcmac_setkey P ctx in_key key_len
  if r.1 ≠ 0 then (r.1, r.2, [])
  else
    let ctx := r.2
    let e0 := aes_ecb_encrypt P (xcbc_ks.drop 0) ctx.key.key_enc rounds 1
    let key := e0.1
    let e1 := aes_ecb_encrypt P (xcbc_ks.drop AES_BLOCK_SIZE) ctx.key.key_enc rounds 2
    let ctx := { ctx with consts := store ctx.consts 0 e1.1 }
    let r2 := cbcmac_setkey P ctx key AES_BLOCK_SIZE
    (r2.1, r2.2, [Event.kernel_neon_begin] ++ e0.2 ++ e1.2 ++ [Event.kernel_neon_end])

/-- The function mac_init. -/
def mac_init (_ctx : mac_desc_ctx) : Int × mac_desc_ctx :=
  (0, { dg := List.replicate AES_BLOCK_SIZE 0 })

/-- The do-while loop of mac_do_update with a bound on the number of further
passes: the primitive is called again on the blocks it left until none is
left. -/
def mac_do_update_loop (P : AesPrim) (ctx : crypto_aes_ctx) (enc_before : Bool) :
    Nat → List Nat → Nat → List Nat → List Nat × List Event
  | fuel, inp, blocks, dg =>
    let rounds := 6 + ctx.key_length / 4
    let r := aes_mac_update P inp ctx.key_enc rounds blocks dg enc_before (!enc_before)
    let ev := [Event.kernel_neon_begin] ++ r.2.2 ++ [Event.kernel_neon_end]
    match fuel with
    | 0 => (r.2.1, ev)
    | fuel + 1 =>
      if r.1 = 0 then (r.2.1, ev)
      else
        let r2 := mac_do_update_loop P ctx enc_before fuel
          (inp.drop ((blocks - r.1) * AES_BLOCK_SIZE)) r.1 r.2.1
        (r2.1, ev ++ r2.2)

/-- The function mac_do_update. Every call of the primitive on a non-empty
request completes at least one block, so `blocks` further passes always
suffice. Returns the digest and the events. -/
def mac_do_update (P : AesPrim) (ctx : crypto_aes_ctx) (inp : List Nat) (blocks : Nat)
    (dg : List Nat) (enc_before : Bool) : List Nat × List Event :=
  mac_do_update_loop P ctx enc_before blocks inp blocks dg

/-- The function mac_update. Returns the deferred byte count, the descriptor
context and the events. -/
def mac_update (P : AesPrim) (tctx : mac_tfm_ctx) (ctx : mac_desc_ctx) (p : List Nat)
    (len : Nat) : Nat × mac_desc_ctx × List Event :=
  let blocks := len / AES_BLOCK_SIZE
  let len := len % AES_BLOCK_SIZE
  let r := mac_do_update P tctx.key p blocks ctx.dg false
  (len, { dg := r.1 }, r.2)

/-- The function cbcmac_finup. Returns the error code, the descriptor context,
the output digest and the events. -/
def cbcmac_finup (P : AesPrim) (tctx : mac_tfm_ctx) (ctx : mac_desc_ctx) (src : List Nat)
    (len : Nat) : Int × mac_desc_ctx × List Nat × List Event :=
  if len ≠ 0 then
    let dg := crypto_xor ctx.dg src len
    let r := mac_do_update P tctx.key [] 0 dg true
    (0, { dg := r.1 }, load r.1 0 AES_BLOCK_SIZE, r.2)
  else
    (0, ctx, load ctx.dg 0 AES_BLOCK_SIZE, [])

/-- The function cmac_finup. Returns the error code, the descriptor context,
the output digest and the events. -/
def cmac_finup (P : AesPrim) (tctx : mac_tfm_ctx) (ctx : mac_desc_ctx) (src : List Nat)
    (len : Nat) : Int × mac_desc_ctx × List Nat × List Event :=
  let dg := crypto_xor ctx.dg src len
  let dg1 := if len ≠ AES_BLOCK_SIZE then dg.set len (dg.getD len 0 ^^^ 0x80) else dg
  let consts := if len ≠ AES_BLOCK_SIZE then tctx.consts.drop AES_BLOCK_SIZE else tctx.consts
  let r := mac_do_update P tctx.key consts 1 dg1 false
  (0, { dg := r.1 }, load r.1 0 AES_BLOCK_SIZE, r.2)

/-! ## Specification-level notions for the MAC claims -/

/-- Bytewise xor of two blocks. -/
def xor_block (a b : List Nat) : List Nat := List.zipWith (fun x y => x ^^^ y) a b

/-- The CBC-MAC chain of the specification, d' = E(d xor p_i), over the first
`n` blocks of `p`. -/
def cbcmac_chain (E : List Nat → List Nat) : Nat → List Nat → List Nat → List Nat
  | 0, _, d => d
  | n + 1, p, d =>
    cbcmac_chain E n (p.drop AES_BLOCK_SIZE) (E (xor_block d (load p 0 AES_BLOCK_SIZE)))

/-- The final partial block of the specification: `len` bytes of `src`, a
single 0x80 byte, zeros up to the block size. -/
def cmac_pad (src : List Nat) (len : Nat) : List Nat :=
  src.take len ++ 0x80 :: List.replicate (AES_BLOCK_SIZE - len - 1) 0

/-- The final partial block extended with zeros to the block size. -/
def zero_extend (src : List Nat) (len : Nat) : List Nat :=
  src.take len ++ List.replicate (AES_BLOCK_SIZE - len) 0

/-- The block cipher maps blocks to blocks. -/
def BlockPreserving (P : AesPrim) : Prop :=
  ∀ rk rounds b, b.length = AES_BLOCK_SIZE →
    (P.encrypt rk rounds b).length = AES_BLOCK_SIZE ∧
    (P.decrypt rk rounds b).length = AES_BLOCK_SIZE

/-- The block cipher maps byte blocks to byte blocks. -/
def BytePreserving (P : AesPrim) : Prop :=
  ∀ rk rounds b, IsBytes b → IsBytes (P.encrypt rk rounds b) ∧ IsBytes (P.decrypt rk rounds b)

/-! ## Requests, memory and the buffer cursor -/

/-- A scatterlist pointer: the buffer it refers to and the offset of its first
byte in that buffer. -/
structure scatterlist where
  id : Nat
  off : Nat
deriving DecidableEq, Repr

/-- Modelled from the spec: the helper scatterwalk_ffwd (crypto/scatterwalk.h),
absent from the sources; forward-seeks a buffer by `len` bytes. -/
def scatterwalk_ffwd (sg : scatterlist) (len : Nat) : scatterlist :=
  { sg with off := sg.off + len }

/-- The fields of an entry of aes_algs the cursor depends on. -/
structure skcipher_alg where
  cra_blocksize : Nat
  walksize : Nat
deriving DecidableEq, Repr

/-- The entry "cbc(aes)" of aes_algs. -/
def alg_cbc : skcipher_alg := { cra_blocksize := AES_BLOCK_SIZE, walksize := AES_BLOCK_SIZE }

/-- The entry "cts(cbc(aes))" of aes_algs. -/
def alg_cts_cbc : skcipher_alg :=
  { cra_blocksize := AES_BLOCK_SIZE, walksize := 2 * AES_BLOCK_SIZE }

/-- A transform: its algorithm entry and its key context. -/
structure crypto_skcipher where
  alg : skcipher_alg
  ctx : crypto_aes_ctx
deriving DecidableEq, Repr

/-- The structure skcipher_request; the IV pointer of a request and of all its
sub-requests is the one IV buffer of the state. -/
structure skcipher_request where
  src : scatterlist
  dst : scatterlist
  cryptlen : Nat
deriving DecidableEq, Repr

/-- The state a request runs in: the buffers by identity, the IV buffer and
the events so far. -/
structure World where
  mem : Nat → List Nat
  iv : List Nat
  trace : List Event

/-- The bytes from a scatterlist pointer onwards. -/
def World.view (w : World) (sg : scatterlist) : List Nat :=
  (w.mem sg.id).drop sg.off

/-- Write bytes at a scatterlist pointer. -/
def World.write (w : World) (sg : scatterlist) (v : List Nat) : World :=
  { w with mem := fun i => if i = sg.id then store (w.mem i) sg.off v else w.mem i }

/-- Append events to the trace. -/
def World.emit (w : World) (ev : List Event) : World :=
  { w with trace := w.trace ++ ev }

/-- The environment of the buffer cursor, taken as a parameter: the number of
contiguous bytes the segmented buffers offer at an offset when `total` bytes
remain, and the error (0 for none) with which mapping that run fails. -/
structure Cursor where
  chunk : Nat → Nat → Nat
  fail : Nat → Nat → Int

/-- The structure skcipher_walk: the position of the current run in source and
destination, the bytes of the request not yet committed, the length of the
current run, and the block size and stride of the algorithm. -/
structure skcipher_walk where
  src : scatterlist
  dst : scatterlist
  total : Nat
  nbytes : Nat
  blocksize : Nat
  stride : Nat
deriving DecidableEq, Repr

/-- Modelled from the spec: the step of the buffer cursor that maps the next
run (crypto/skcipher.c), absent from the sources. Fewer remaining bytes than a
block is the invalid-length error; a mapping failure is passed on; otherwise
the run has all contiguous bytes on offer, at least one stride (or all that
remains) and never more than remains. -/
def skcipher_walk_next (W : Cursor) (walk : skcipher_walk) : Int × skcipher_walk :=
  if walk.total < walk.blocksize then (-EINVAL, { walk with nbytes := 0 })
  else if W.fail walk.src.off walk.total ≠ 0 then
    (W.fail walk.src.off walk.total, { walk with nbytes := 0 })
  else
    (0, { walk with
            nbytes := max (min walk.stride walk.total)
              (min walk.total (W.chunk walk.src.off walk.total)) })

/-- Modelled from the spec: skcipher_walk_virt (crypto/skcipher.c), absent from
the sources; creates a cursor over a request and maps its first run. -/
def skcipher_walk_virt (W : Cursor) (alg : skcipher_alg) (req : skcipher_request) :
    Int × skcipher_walk :=
  let walk : skcipher_walk :=
    { src := req.src, dst := req.dst, total := req.cryptlen, nbytes := 0,
      blocksize := alg.cra_blocksize, stride := alg.walksize }
  if req.cryptlen = 0 then (0, walk) else skcipher_walk_next W walk

/-- Modelled from the spec: skcipher_walk_done (crypto/skcipher.c), absent from
the sources; commits the current run but for its last `res` bytes, which are
handed to the following run, and maps that run if bytes remain. -/
def skcipher_walk_done (W : Cursor) (walk : skcipher_walk) (res : Nat) :
    Int × skcipher_walk :=
  if walk.nbytes = 0 then (0, walk)
  else
    let n := walk.nbytes - res
    let walk1 : skcipher_walk :=
      { walk with
          src := scatterwalk_ffwd walk.src n, dst := scatterwalk_ffwd walk.dst n,
          total := walk.total - n, nbytes := 0 }
    if walk1.total ≠ 0 then skcipher_walk_next W walk1 else (0, walk1)

/-! ## CBC and CBC-CTS primitives -/

/-- The blocks of aes_cbc_encrypt: block[i] = E(block[i] xor chain), and the
chain becomes block[i]. Returns the output bytes and the final chain. -/
def cbc_encrypt_blocks (P : AesPrim) (rk : List Nat) (rounds : Nat) :
    Nat → List Nat → List Nat → List Nat × List Nat
  | 0, _, iv => ([], iv)
  | n + 1, inp, iv =>
    let c := P.encrypt rk rounds (xor_block (load inp 0 AES_BLOCK_SIZE) iv)
    let r := cbc_encrypt_blocks P rk rounds n (inp.drop AES_BLOCK_SIZE) c
    (c ++ r.1, r.2)

/-- The blocks of aes_cbc_decrypt: plain[i] = D(block[i]) xor chain, and the
chain becomes the ciphertext block[i]. Returns the output bytes and the final
chain. -/
def cbc_decrypt_blocks (P : AesPrim) (rk : List Nat) (rounds : Nat) :
    Nat → List Nat → List Nat → List Nat × List Nat
  | 0, _, iv => ([], iv)
  | n + 1, inp, iv =>
    let c := load inp 0 AES_BLOCK_SIZE
    let p := xor_block (P.decrypt rk rounds c) iv
    let r := cbc_decrypt_blocks P rk rounds n (inp.drop AES_BLOCK_SIZE) c
    (p ++ r.1, r.2)

/-- Modelled from the spec: aes_cbc_encrypt (aes-modes.S), absent from the
sources. Returns the output bytes, the IV buffer and the events of the call. -/
def aes_cbc_encrypt (P : AesPrim) (inp rk : List Nat) (rounds blocks : Nat) (iv : List Nat) :
    List Nat × List Nat × List Event :=
  let r := cbc_encrypt_blocks P rk rounds blocks inp iv
  (r.1, r.2, Event.aes_cbc_encrypt rk rounds blocks :: List.replicate blocks Event.encrypt_block)

/-- Modelled from the spec: aes_cbc_decrypt (aes-modes.S), absent from the
sources. Returns the output bytes, the IV buffer and the events of the call. -/
def aes_cbc_decrypt (P : AesPrim) (inp rk : List Nat) (rounds blocks : Nat) (iv : List Nat) :
    List Nat × List Nat × List Event :=
  let r := cbc_decrypt_blocks P rk rounds blocks inp iv
  (r.1, r.2, Event.aes_cbc_decrypt rk rounds blocks :: List.replicate blocks Event.decrypt_block)

/-- Modelled from the spec: aes_cbc_cts_encrypt (aes-modes.S), absent from the
sources; standard ciphertext stealing over one full block and a final block
of `bytes - 16` bytes: the full block is CBC-encrypted, the final block is
zero-extended, chained and encrypted into the first output slot, and the
second slot holds the truncated encryption of the full block. The IV buffer is
only read. Returns the output bytes and the events of the call. -/
def aes_cbc_cts_encrypt (P : AesPrim) (inp rk : List Nat) (rounds bytes : Nat)
    (iv : List Nat) : List Nat × List Event :=
  let d := bytes - AES_BLOCK_SIZE
  let x := P.encrypt rk rounds (xor_block (load inp 0 AES_BLOCK_SIZE) iv)
  let y := P.encrypt rk rounds (xor_block (zero_extend (inp.drop AES_BLOCK_SIZE) d) x)
  (y ++ x.take d,
   [Event.aes_cbc_cts_encrypt rk rounds bytes, Event.encrypt_block, Event.encrypt_block])

/-- Modelled from the spec: aes_cbc_cts_decrypt (aes-modes.S), absent from the
sources; the reverse of the stealing rearrangement followed by the final block
decryption. The IV buffer is only read. Returns the output bytes and the
events of the call. -/
def aes_cbc_cts_decrypt (P : AesPrim) (inp rk : List Nat) (rounds bytes : Nat)
    (iv : List Nat) : List Nat × List Event :=
  let d := bytes - AES_BLOCK_SIZE
  let z := P.decrypt rk rounds (load inp 0 AES_BLOCK_SIZE)
  let c2 := zero_extend (inp.drop AES_BLOCK_SIZE) d
  let p2 := (xor_block z c2).take d
  let x := c2.take d ++ z.drop d
  let p1 := xor_block (P.decrypt rk rounds x) iv
  (p1 ++ p2,
   [Event.aes_cbc_cts_decrypt rk rounds bytes, Event.decrypt_block, Event.decrypt_block])

/-! ## CBC and CBC-CTS -/

/-- Modelled from the spec: the macro DIV_ROUND_UP (linux/math.h), absent from
the sources, on unsigned 32-bit operands. -/
def DIV_ROUND_UP (n d : Nat) : Nat := (n + d - 1) % 2 ^ 32 / d

/-- The value of a 32-bit pattern read as a signed int. -/
def to_int (x : Nat) : Int := if x % 2 ^ 32 < 2 ^ 31 then (x % 2 ^ 32 : Nat) else (x % 2 ^ 32 : Nat) - 2 ^ 32

/-- The value of an int stored into an unsigned int. -/
def to_u32 (x : Int) : Nat := (x % 2 ^ 32).toNat

/-- The loop of cbc_encrypt_walk with a bound on the number of passes. Carries
the state, the cursor and the error code. -/
def cbc_encrypt_walk_loop (P : AesPrim) (W : Cursor) (ctx : crypto_aes_ctx) :
    Nat → World → skcipher_walk → Int → Int × World × skcipher_walk
  | 0, w, walk, err => (err, w, walk)
  | fuel + 1, w, walk, err =>
    let rounds := 6 + ctx.key_length / 4
    let blocks := walk.nbytes / AES_BLOCK_SIZE
    if blocks = 0 then (err, w, walk)
    else
      let r := aes_cbc_encrypt P (w.view walk.src) ctx.key_enc rounds blocks w.iv
      let w1 := { (w.emit ([Event.kernel_neon_begin] ++ r.2.2 ++ [Event.kernel_neon_end])).write
                    walk.dst r.1 with iv := r.2.1 }
      let d := skcipher_walk_done W walk (walk.nbytes % AES_BLOCK_SIZE)
      cbc_encrypt_walk_loop P W ctx fuel
        (w1.emit [Event.skcipher_walk_done (walk.nbytes % AES_BLOCK_SIZE)]) d.2 d.1

/-- The function cbc_encrypt_walk. Every pass commits at least one block, so
one pass per remaining byte always suffices. -/
def cbc_encrypt_walk (P : AesPrim) (W : Cursor) (ctx : crypto_aes_ctx) (w : World)
    (walk : skcipher_walk) : Int × World × skcipher_walk :=
  cbc_encrypt_walk_loop P W ctx (walk.total + 1) w walk 0

/-- The function cbc_encrypt. -/
def cbc_encrypt (P : AesPrim) (W : Cursor) (tfm : crypto_skcipher) (w : World)
    (req : skcipher_request) : Int × World :=
  let v := skcipher_walk_virt W tfm.alg req
  let w1 := w.emit [Event.skcipher_walk_virt req.cryptlen]
  if v.1 ≠ 0 then (v.1, w1)
  else
    let r := cbc_encrypt_walk P W tfm.ctx w1 v.2
    (r.1, r.2.1)

/-- The loop of cbc_decrypt_walk with a bound on the number of passes. -/
def cbc_decrypt_walk_loop (P : AesPrim) (W : Cursor) (ctx : crypto_aes_ctx) :
    Nat → World → skcipher_walk → Int → Int × World × skcipher_walk
  | 0, w, walk, err => (err, w, walk)
  | fuel + 1, w, walk, err =>
    let rounds := 6 + ctx.key_length / 4
    let blocks := walk.nbytes / AES_BLOCK_SIZE
    if blocks = 0 then (err, w, walk)
    else
      let r := aes_cbc_decrypt P (w.view walk.src) ctx.key_dec rounds blocks w.iv
      let w1 := { (w.emit ([Event.kernel_neon_begin] ++ r.2.2 ++ [Event.kernel_neon_end])).write
                    walk.dst r.1 with iv := r.2.1 }
      let d := skcipher_walk_done W walk (walk.nbytes % AES_BLOCK_SIZE)
      cbc_decrypt_walk_loop P W ctx fuel
        (w1.emit [Event.skcipher_walk_done (walk.nbytes % AES_BLOCK_SIZE)]) d.2 d.1

/-- The function cbc_decrypt_walk. -/
def cbc_decrypt_walk (P : AesPrim) (W : Cursor) (ctx : crypto_aes_ctx) (w : World)
    (walk : skcipher_walk) : Int × World × skcipher_walk :=
  cbc_decrypt_walk_loop P W ctx (walk.total + 1) w walk 0

/-- The function cbc_decrypt. -/
def cbc_decrypt (P : AesPrim) (W : Cursor) (tfm : crypto_skcipher) (w : World)
    (req : skcipher_request) : Int × World :=
  let v := skcipher_walk_virt W tfm.alg req
  let w1 := w.emit [Event.skcipher_walk_virt req.cryptlen]
  if v.1 ≠ 0 then (v.1, w1)
  else
    let r := cbc_decrypt_walk P W tfm.ctx w1 v.2
    (r.1, r.2.1)

/-- The part of cts_cbc_encrypt after the leading CBC blocks: the ciphertext
stealing over the sub-request at `src` and `dst`. -/
def cts_cbc_encrypt_tail (P : AesPrim) (W : Cursor) (tfm : crypto_skcipher) (w : World)
    (req : skcipher_request) (src dst : scatterlist) (cbc_blocks : Int) : Int × World :=
  let rounds := 6 + tfm.ctx.key_length / 4
  let subreq : skcipher_request :=
    { src := src, dst := dst,
      cryptlen := to_u32 ((req.cryptlen : Int) - cbc_blocks * AES_BLOCK_SIZE) }
  let v := skcipher_walk_virt W tfm.alg subreq
  let w1 := w.emit [Event.skcipher_walk_virt subreq.cryptlen]
  if v.1 ≠ 0 then (v.1, w1)
  else
    let walk := v.2
    let r := aes_cbc_cts_encrypt P (w1.view walk.src) tfm.ctx.key_enc rounds walk.nbytes w1.iv
    let w2 := (w1.emit ([Event.kernel_neon_begin] ++ r.2 ++ [Event.kernel_neon_end])).write
      walk.dst r.1
    ((skcipher_walk_done W walk 0).1, w2.emit [Event.skcipher_walk_done 0])

/-- The function cts_cbc_encrypt. Returns the error code and the state. -/
def cts_cbc_encrypt (P : AesPrim) (W : Cursor) (tfm : crypto_skcipher) (w : World)
    (req : skcipher_request) : Int × World :=
  let cbc_blocks : Int := to_int (DIV_ROUND_UP req.cryptlen AES_BLOCK_SIZE + 2 ^ 32 - 2)
  if req.cryptlen ≤ AES_BLOCK_SIZE ∧ req.cryptlen < AES_BLOCK_SIZE then (-EINVAL, w)
  else
    let cbc_blocks : Int := if req.cryptlen ≤ AES_BLOCK_SIZE then 1 else cbc_blocks
    if cbc_blocks > 0 then
      let subreq : skcipher_request :=
        { src := req.src, dst := req.dst, cryptlen := to_u32 (cbc_blocks * AES_BLOCK_SIZE) }
      let v := skcipher_walk_virt W tfm.alg subreq
      let w1 := w.emit [Event.skcipher_walk_virt subreq.cryptlen]
      let r := if v.1 ≠ 0 then (v.1, w1, v.2) else cbc_encrypt_walk P W tfm.ctx w1 v.2
      if r.1 ≠ 0 then (r.1, r.2.1)
      else if req.cryptlen = AES_BLOCK_SIZE then (0, r.2.1)
      else
        let src := scatterwalk_ffwd req.src subreq.cryptlen
        let dst := if req.dst ≠ req.src then scatterwalk_ffwd req.dst subreq.cryptlen else src
        cts_cbc_encrypt_tail P W tfm r.2.1 req src dst cbc_blocks
    else
      cts_cbc_encrypt_tail P W tfm w req req.src req.dst cbc_blocks

/-- The part of cts_cbc_decrypt after the leading CBC blocks. -/
def cts_cbc_decrypt_tail (P : AesPrim) (W : Cursor) (tfm : crypto_skcipher) (w : World)
    (req : skcipher_request) (src dst : scatterlist) (cbc_blocks : Int) : Int × World :=
  let rounds := 6 + tfm.ctx.key_length / 4
  let subreq : skcipher_request :=
    { src := src, dst := dst,
      cryptlen := to_u32 ((req.cryptlen : Int) - cbc_blocks * AES_BLOCK_SIZE) }
  let v := skcipher_walk_virt W tfm.alg subreq
  let w1 := w.emit [Event.skcipher_walk_virt subreq.cryptlen]
  if v.1 ≠ 0 then (v.1, w1)
  else
    let walk := v.2
    let r := aes_cbc_cts_decrypt P (w1.view walk.src) tfm.ctx.key_dec rounds walk.nbytes w1.iv
    let w2 := (w1.emit ([Event.kernel_neon_begin] ++ r.2 ++ [Event.kernel_neon_end])).write
      walk.dst r.1
    ((skcipher_walk_done W walk 0).1, w2.emit [Event.skcipher_walk_done 0])

/-- The function cts_cbc_decrypt. Returns the error code and the state. -/
def cts_cbc_decrypt (P : AesPrim) (W : Cursor) (tfm : crypto_skcipher) (w : World)
    (req : skcipher_request) : Int × World :=
  let cbc_blocks : Int := to_int (DIV_ROUND_UP req.cryptlen AES_BLOCK_SIZE + 2 ^ 32 - 2)
  if req.cryptlen ≤ AES_BLOCK_SIZE ∧ req.cryptlen < AES_BLOCK_SIZE then (-EINVAL, w)
  else
    let cbc_blocks : Int := if req.cryptlen ≤ AES_BLOCK_SIZE then 1 else cbc_blocks
    if cbc_blocks > 0 then
      let subreq : skcipher_request :=
        { src := req.src, dst := req.dst, cryptlen := to_u32 (cbc_blocks * AES_BLOCK_SIZE) }
      let v := skcipher_walk_virt W tfm.alg subreq
      let w1 := w.emit [Event.skcipher_walk_virt subreq.cryptlen]
      let r := if v.1 ≠ 0 then (v.1, w1, v.2) else cbc_decrypt_walk P W tfm.ctx w1 v.2
      if r.1 ≠ 0 then (r.1, r.2.1)
      else if req.cryptlen = AES_BLOCK_SIZE then (0, r.2.1)
      else
        let src := scatterwalk_ffwd req.src subreq.cryptlen
        let dst := if req.dst ≠ req.src then scatterwalk_ffwd req.dst subreq.cryptlen else src
        cts_cbc_decrypt_tail P W tfm r.2.1 req src dst cbc_blocks
    else
      cts_cbc_decrypt_tail P W tfm w req req.src req.dst cbc_blocks

/-! ## Specification-level notions for the CBC-CTS claims -/

/-- The transform of "cts(cbc(aes))" with a key context. -/
def cts_tfm (ctx : crypto_aes_ctx) : crypto_skcipher := { alg := alg_cts_cbc, ctx := ctx }

/-- The transform of "cbc(aes)" with a key context. -/
def cbc_tfm (ctx : crypto_aes_ctx) : crypto_skcipher := { alg := alg_cbc, ctx := ctx }

/-- Number of blocks handed to the plain CBC encryption primitive in a trace. -/
def cbc_blocks_done : List Event → Nat
  | [] => 0
  | Event.aes_cbc_encrypt _ _ blocks :: tr => blocks + cbc_blocks_done tr
  | _ :: tr => cbc_blocks_done tr

/-- Number of calls of the ciphertext-stealing primitives in a trace. -/
def cts_calls : List Event → Nat
  | [] => 0
  | Event.aes_cbc_cts_encrypt _ _ _ :: tr => 1 + cts_calls tr
  | Event.aes_cbc_cts_decrypt _ _ _ :: tr => 1 + cts_calls tr
  | _ :: tr => cts_calls tr

/-- The cursor never reports a mapping failure. -/
def Cursor.NoFail (W : Cursor) : Prop := ∀ off total, W.fail off total = 0

/-- The common shape of the loops of cbc_encrypt_walk and cbc_decrypt_walk:
each pass hands the whole blocks of the current run to a primitive `f` that
maps input bytes, a block count and the IV buffer to output bytes, the IV
buffer and its events. -/
def block_walk_loop (f : List Nat → Nat → List Nat → List Nat × List Nat × List Event)
    (W : Cursor) : Nat → World → skcipher_walk → Int → Int × World × skcipher_walk
  | 0, w, walk, err => (err, w, walk)
  | fuel + 1, w, walk, err =>
    let blocks := walk.nbytes / AES_BLOCK_SIZE
    if blocks = 0 then (err, w, walk)
    else
      let r := f (w.view walk.src) blocks w.iv
      let w1 := { (w.emit ([Event.kernel_neon_begin] ++ r.2.2 ++ [Event.kernel_neon_end])).write
                    walk.dst r.1 with iv := r.2.1 }
      let d := skcipher_walk_done W walk (walk.nbytes % AES_BLOCK_SIZE)
      block_walk_loop f W fuel
        (w1.emit [Event.skcipher_walk_done (walk.nbytes % AES_BLOCK_SIZE)]) d.2 d.1

/-- A pure block function `g` (block count, input, chain) that processes
blocks one after the other, carrying the chain. -/
structure Chained (g : Nat → List Nat → List Nat → List Nat × List Nat) : Prop where
  zero : ∀ inp iv, g 0 inp iv = ([], iv)
  add : ∀ a b inp iv, g (a + b) inp iv =
    ((g a inp iv).1 ++ (g b (inp.drop (16 * a)) (g a inp iv).2).1,
     (g b (inp.drop (16 * a)) (g a inp iv).2).2)
  len : ∀ n inp iv, 16 * n ≤ inp.length → iv.length = 16 →
    (g n inp iv).1.length = 16 * n ∧ (g n inp iv).2.length = 16

/-- A cursor in the middle of a request of `n` whole blocks: it has a run of
at least one block when blocks remain, and source and destination are the same
buffer position or different buffers. -/
structure WalkOK (walk : skcipher_walk) (n : Nat) : Prop where
  total : walk.total = 16 * n
  blocksize : walk.blocksize = 16
  stride : 16 ≤ walk.stride
  finished : n = 0 → walk.nbytes = 0
  run : 0 < n → 16 ≤ walk.nbytes ∧ walk.nbytes ≤ walk.total
  aliasing : walk.src = walk.dst ∨ walk.src.id ≠ walk.dst.id

/-- The block cipher's two directions are mutually inverse on blocks under the
two schedules of a key context. -/
def Inverse (P : AesPrim) (ctx : crypto_aes_ctx) : Prop :=
  ∀ b : List Nat, b.length = 16 →
    P.decrypt ctx.key_dec (6 + ctx.key_length / 4)
      (P.encrypt ctx.key_enc (6 + ctx.key_length / 4) b) = b

/-- Number of leading CBC blocks of a CBC-CTS request of more than one block. -/
def cts_lead (L : Nat) : Nat := (L + 15) / 16 - 2

/-- What cts_cbc_encrypt makes of `L` > 16 source bytes: plain CBC over the
leading blocks, ciphertext stealing over the rest. -/
def cts_enc_bytes (P : AesPrim) (ctx : crypto_aes_ctx) (L : Nat) (inp iv : List Nat) : List Nat :=
  let c := cbc_encrypt_blocks P ctx.key_enc (6 + ctx.key_length / 4) (cts_lead L) inp iv
  c.1 ++ (aes_cbc_cts_encrypt P (inp.drop (16 * cts_lead L)) ctx.key_enc
    (6 + ctx.key_length / 4) (L - 16 * cts_lead L) c.2).1

/-- What cts_cbc_decrypt makes of `L` > 16 source bytes. -/
def cts_dec_bytes (P : AesPrim) (ctx : crypto_aes_ctx) (L : Nat) (inp iv : List Nat) : List Nat :=
  let c := cbc_decrypt_blocks P ctx.key_dec (6 + ctx.key_length / 4) (cts_lead L) inp iv
  c.1 ++ (aes_cbc_cts_decrypt P (inp.drop (16 * cts_lead L)) ctx.key_dec
    (6 + ctx.key_length / 4) (L - 16 * cts_lead L) c.2).1

/-! ## Key setup of the two-key modes -/

/-- The structure crypto_aes_xts_ctx: data key and tweak key. -/
structure crypto_aes_xts_ctx where
  key1 : crypto_aes_ctx
  key2 : crypto_aes_ctx
deriving DecidableEq, Repr

/-- The structure crypto_aes_essiv_cbc_ctx: primary and secondary key and the
digest function of the hash transform allocated for it. -/
structure crypto_aes_essiv_cbc_ctx where
  key1 : crypto_aes_ctx
  key2 : crypto_aes_ctx
  hash : List Nat → List Nat

/-- Modelled from the spec: the constant SHA256_DIGEST_SIZE (crypto/sha2.h),
absent from the sources: a 256-bit digest. -/
def SHA256_DIGEST_SIZE : Nat := 32

/-- Modelled from the spec: the key check xts_verify_key (crypto/xts.h), absent
from the sources; a combined key of odd length is invalid, and a further key
policy `policy`, taken as a parameter, may reject a key of even length. -/
def xts_verify_key (policy : List Nat → Nat → Int) (in_key : List Nat) (key_len : Nat) : Int :=
  if key_len % 2 ≠ 0 then -EINVAL else policy in_key key_len

/-- Modelled from the spec: crypto_shash_tfm_digest (crypto/hash.h), absent
from the sources; fills the digest buffer with the digest of the first `len`
bytes of `data`. Returns the buffer and the event of the call. -/
def crypto_shash_tfm_digest (hash : List Nat → List Nat) (data : List Nat) (len : Nat) :
    List Nat × List Event :=
  ((hash (data.take len)).take SHA256_DIGEST_SIZE, [Event.crypto_shash_tfm_digest len])

/-- The function skcipher_aes_setkey. -/
def skcipher_aes_setkey (P : AesPrim) (ctx : crypto_aes_ctx) (in_key : List Nat)
    (key_len : Nat) : Int × crypto_aes_ctx :=
  aes_expandkey P ctx in_key key_len

/-- The function xts_set_key. Returns the error code and the context. -/
def xts_set_key (P : AesPrim) (policy : List Nat → Nat → Int) (ctx : crypto_aes_xts_ctx)
    (in_key : List Nat) (key_len : Nat) : Int × crypto_aes_xts_ctx :=
  let ret := xts_verify_key policy in_key key_len
  if ret ≠ 0 then (ret, ctx)
  else
    let r1 := aes_expandkey P ctx.key1 in_key (key_len / 2)
    if r1.1 = 0 then
      let r2 := aes_expandkey P ctx.key2 (in_key.drop (key_len / 2)) (key_len / 2)
      (r2.1, { key1 := r1.2, key2 := r2.2 })
    else (r1.1, { key1 := r1.2, key2 := ctx.key2 })

/-- The function essiv_cbc_set_key. Returns the error code, the context and
the events. -/
def essiv_cbc_set_key (P : AesPrim) (ctx : crypto_aes_essiv_cbc_ctx) (in_key : List Nat)
    (key_len : Nat) : Int × crypto_aes_essiv_cbc_ctx × List Event :=
  let r1 := aes_expandkey P ctx.key1 in_key key_len
  if r1.1 ≠ 0 then (r1.1, { ctx with key1 := r1.2 }, [])
  else
    let digest := crypto_shash_tfm_digest ctx.hash in_key key_len
    let r2 := aes_expandkey P ctx.key2 digest.1 SHA256_DIGEST_SIZE
    (r2.1, { ctx with key1 := r1.2, key2 := r2.2 }, digest.2)

/-! ## ECB -/

/-- The entry "ecb(aes)" of aes_algs. -/
def alg_ecb : skcipher_alg := { cra_blocksize := AES_BLOCK_SIZE, walksize := AES_BLOCK_SIZE }

/-- Modelled from the spec: aes_ecb_decrypt (aes-modes.S), absent from the
sources; every block is decrypted on its own. Returns the output bytes and the
events of the call. -/
def aes_ecb_decrypt (P : AesPrim) (inp rk : List Nat) (rounds blocks : Nat) :
    List Nat × List Event :=
  (((List.range blocks).map
      (fun i => P.decrypt rk rounds (load inp (AES_BLOCK_SIZE * i) AES_BLOCK_SIZE))).flatten,
   Event.aes_ecb_decrypt rk rounds blocks :: List.replicate blocks Event.decrypt_block)

/-- The loop of ecb_encrypt with a bound on the number of passes. Carries the
state, the cursor and the error code. -/
def ecb_encrypt_loop (P : AesPrim) (W : Cursor) (ctx : crypto_aes_ctx) (rounds : Nat) :
    Nat → World → skcipher_walk → Int → Int × World × skcipher_walk
  | 0, w, walk, err => (err, w, walk)
  | fuel + 1, w, walk, err =>
    let blocks := walk.nbytes / AES_BLOCK_SIZE
    if blocks = 0 then (err, w, walk)
    else
      let r := aes_ecb_encrypt P (w.view walk.src) ctx.key_enc rounds blocks
      let w1 := (w.emit ([Event.kernel_neon_begin] ++ r.2 ++ [Event.kernel_neon_end])).write
                    walk.dst r.1
      let d := skcipher_walk_done W walk (walk.nbytes % AES_BLOCK_SIZE)
      ecb_encrypt_loop P W ctx rounds fuel
        (w1.emit [Event.skcipher_walk_done (walk.nbytes % AES_BLOCK_SIZE)]) d.2 d.1

/-- The function ecb_encrypt. Every pass commits at least one block, so one
pass per byte of the request always suffices. -/
def ecb_encrypt (P : AesPrim) (W : Cursor) (tfm : crypto_skcipher) (w : World)
    (req : skcipher_request) : Int × World :=
  let rounds := 6 + tfm.ctx.key_length / 4
  let v := skcipher_walk_virt W tfm.alg req
  let r := ecb_encrypt_loop P W tfm.ctx rounds (req.cryptlen + 1)
    (w.emit [Event.skcipher_walk_virt req.cryptlen]) v.2 v.1
  (r.1, r.2.1)

/-- The loop of ecb_decrypt with a bound on the number of passes. -/
def ecb_decrypt_loop (P : AesPrim) (W : Cursor) (ctx : crypto_aes_ctx) (rounds : Nat) :
    Nat → World → skcipher_walk → Int → Int × World × skcipher_walk
  | 0, w, walk, err => (err, w, walk)
  | fuel + 1, w, walk, err =>
    let blocks := walk.nbytes / AES_BLOCK_SIZE
    if blocks = 0 then (err, w, walk)
    else
      let r := aes_ecb_decrypt P (w.view walk.src) ctx.key_dec rounds blocks
      let w1 := (w.emit ([Event.kernel_neon_begin] ++ r.2 ++ [Event.kernel_neon_end])).write
                    walk.dst r.1
      let d := skcipher_walk_done W walk (walk.nbytes % AES_BLOCK_SIZE)
      ecb_decrypt_loop P W ctx rounds fuel
        (w1.emit [Event.skcipher_walk_done (walk.nbytes % AES_BLOCK_SIZE)]) d.2 d.1

/-- The function ecb_decrypt. -/
def ecb_decrypt (P : AesPrim) (W : Cursor) (tfm : crypto_skcipher) (w : World)
    (req : skcipher_request) : Int × World :=
  let rounds := 6 + tfm.ctx.key_length / 4
  let v := skcipher_walk_virt W tfm.alg req
  let r := ecb_decrypt_loop P W tfm.ctx rounds (req.cryptlen + 1)
    (w.emit [Event.skcipher_walk_virt req.cryptlen]) v.2 v.1
  (r.1, r.2.1)

/-- The transform of "ecb(aes)" with a key context. -/
def ecb_tfm (ctx : crypto_aes_ctx) : crypto_skcipher := { alg := alg_ecb, ctx := ctx }

/-! ## ESSIV-CBC -/

/-- The entry "essiv(cbc(aes),sha256)" of aes_algs. -/
def alg_essiv_cbc : skcipher_alg :=
  { cra_blocksize := AES_BLOCK_SIZE, walksize := AES_BLOCK_SIZE }

/-- Modelled from the spec: aes_essiv_cbc_encrypt (aes-modes.S), absent from
the sources; the IV is encrypted once under the secondary key, an AES-256
schedule of 14 rounds, and ordinary CBC encryption under the primary key
starts from that value. Returns the output bytes, the IV buffer and the events
of the call. -/
def aes_essiv_cbc_encrypt (P : AesPrim) (inp rk1 : List Nat) (rounds blocks : Nat)
    (iv rk2 : List Nat) : List Nat × List Nat × List Event :=
  let r := cbc_encrypt_blocks P rk1 rounds blocks inp (P.encrypt rk2 14 iv)
  (r.1, r.2,
   Event.aes_essiv_cbc_encrypt rk1 rounds blocks rk2 :: Event.encrypt_block ::
     List.replicate blocks Event.encrypt_block)

/-- Modelled from the spec: aes_essiv_cbc_decrypt (aes-modes.S), absent from
the sources; the IV is encrypted once under the secondary key and ordinary CBC
decryption under the primary key starts from that value. Returns the output
bytes, the IV buffer and the events of the call. -/
def aes_essiv_cbc_decrypt (P : AesPrim) (inp rk1 : List Nat) (rounds blocks : Nat)
    (iv rk2 : List Nat) : List Nat × List Nat × List Event :=
  let r := cbc_decrypt_blocks P rk1 rounds blocks inp (P.encrypt rk2 14 iv)
  (r.1, r.2,
   Event.aes_essiv_cbc_decrypt rk1 rounds blocks rk2 :: Event.encrypt_block ::
     List.replicate blocks Event.decrypt_block)

/-- The function essiv_cbc_encrypt. Returns the error code and the state. -/
def essiv_cbc_encrypt (P : AesPrim) (W : Cursor) (ctx : crypto_aes_essiv_cbc_ctx) (w : World)
    (req : skcipher_request) : Int × World :=
  let rounds := 6 + ctx.key1.key_length / 4
  let v := skcipher_walk_virt W alg_essiv_cbc req
  let w1 := w.emit [Event.skcipher_walk_virt req.cryptlen]
  let walk := v.2
  let blocks := walk.nbytes / AES_BLOCK_SIZE
  let s : Int × World × skcipher_walk :=
    if blocks ≠ 0 then
      let r := aes_essiv_cbc_encrypt P (w1.view walk.src) ctx.key1.key_enc rounds blocks w1.iv
        ctx.key2.key_enc
      let w2 := { (w1.emit ([Event.kernel_neon_begin] ++ r.2.2 ++ [Event.kernel_neon_end])).write
                    walk.dst r.1 with iv := r.2.1 }
      let d := skcipher_walk_done W walk (walk.nbytes % AES_BLOCK_SIZE)
      (d.1, w2.emit [Event.skcipher_walk_done (walk.nbytes % AES_BLOCK_SIZE)], d.2)
    else (v.1, w1, walk)
  if s.1 ≠ 0 then (s.1, s.2.1)
  else
    let r := cbc_encrypt_walk P W ctx.key1 s.2.1 s.2.2
    (r.1, r.2.1)

/-- The function essiv_cbc_decrypt. Returns the error code and the state. -/
def essiv_cbc_decrypt (P : AesPrim) (W : Cursor) (ctx : crypto_aes_essiv_cbc_ctx) (w : World)
    (req : skcipher_request) : Int × World :=
  let rounds := 6 + ctx.key1.key_length / 4
  let v := skcipher_walk_virt W alg_essiv_cbc req
  let w1 := w.emit [Event.skcipher_walk_virt req.cryptlen]
  let walk := v.2
  let blocks := walk.nbytes / AES_BLOCK_SIZE
  let s : Int × World × skcipher_walk :=
    if blocks ≠ 0 then
      let r := aes_essiv_cbc_decrypt P (w1.view walk.src) ctx.key1.key_dec rounds blocks w1.iv
        ctx.key2.key_enc
      let w2 := { (w1.emit ([Event.kernel_neon_begin] ++ r.2.2 ++ [Event.kernel_neon_end])).write
                    walk.dst r.1 with iv := r.2.1 }
      let d := skcipher_walk_done W walk (walk.nbytes % AES_BLOCK_SIZE)
      (d.1, w2.emit [Event.skcipher_walk_done (walk.nbytes % AES_BLOCK_SIZE)], d.2)
    else (v.1, w1, walk)
  if s.1 ≠ 0 then (s.1, s.2.1)
  else
    let r := cbc_decrypt_walk P W ctx.key1 s.2.1 s.2.2
    (r.1, r.2.1)

/-! ## Specification-level notions for the block-mode claims -/

/-- A cursor of a mode with 16-byte blocks at a loop head, whether or not a
mapping has failed: its run is empty or holds at least one block and no more
than remains. -/
structure WalkSt (walk : skcipher_walk) : Prop where
  blocksize : walk.blocksize = 16
  stride : 16 ≤ walk.stride
  run : walk.nbytes = 0 ∨ (16 ≤ walk.nbytes ∧ walk.nbytes ≤ walk.total)

/-- The cursor over unsegmented buffers: every request is a single run and no
mapping fails. -/
def Cursor.whole : Cursor := { chunk := fun _ total => total, fail := fun _ _ => 0 }

/-- Number of calls of the ESSIV primitives in a trace; each of them encrypts
the IV once under the secondary key. -/
def essiv_calls : List Event → Nat
  | [] => 0
  | Event.aes_essiv_cbc_encrypt _ _ _ _ :: tr => 1 + essiv_calls tr
  | Event.aes_essiv_cbc_decrypt _ _ _ _ :: tr => 1 + essiv_calls tr
  | _ :: tr => essiv_calls tr

/-- The event is not a call of an ESSIV primitive. -/
def Event.notEssiv : Event → Prop
  | Event.aes_essiv_cbc_encrypt _ _ _ _ => False
  | Event.aes_essiv_cbc_decrypt _ _ _ _ => False
  | _ => True

/-- What essiv_cbc_encrypt is to compute on a plaintext of whole blocks:
ordinary CBC encryption under the primary key, started from the IV encrypted
under the secondary key. -/
def essiv_spec_encrypt (P : AesPrim) (ctx : crypto_aes_essiv_cbc_ctx) (iv pt : List Nat) :
    List Nat :=
  (cbc_encrypt_blocks P ctx.key1.key_enc (6 + ctx.key1.key_length / 4) (pt.length / 16) pt
    (P.encrypt ctx.key2.key_enc 14 iv)).1

/-! ## CTR and XCTR -/

/-- The entry "ctr(aes)" of aes_algs: a stream mode with cra_blocksize 1 whose
chunksize of 16 is the stride of the cursor. -/
def alg_ctr : skcipher_alg := { cra_blocksize := 1, walksize := AES_BLOCK_SIZE }

/-- The entry "xctr(aes)" of aes_algs: cra_blocksize 1, chunksize 16. -/
def alg_xctr : skcipher_alg := { cra_blocksize := 1, walksize := AES_BLOCK_SIZE }

/-- The value of a byte string stored most significant byte first. -/
def be128_to_cpu (bs : List Nat) : Nat := bs.foldl (fun acc x => acc * 256 + x) 0

/-- The 16 bytes of a 128-bit value, most significant byte first. -/
def cpu_to_be128 (v : Nat) : List Nat := (List.range 16).map (fun i => v / 256 ^ (15 - i) % 256)

/-- The 16 bytes of a 128-bit value, least significant byte first. -/
def cpu_to_le128 (v : Nat) : List Nat := (List.range 16).map (fun i => v / 256 ^ i % 256)

/-- Modelled from the spec: the counter step of CTR; the full-width big-endian
counter in the IV buffer is incremented by one. -/
def ctr_inc (ctr : List Nat) : List Nat := cpu_to_be128 ((be128_to_cpu ctr + 1) % 2 ^ 128)

/-- Modelled from the spec: the CTR keystream of `n` blocks, keystream block =
E(counter), the counter being incremented after each block. Returns the
keystream and the counter after it. -/
def ctr_stream (P : AesPrim) (rk : List Nat) (rounds : Nat) :
    Nat → List Nat → List Nat × List Nat
  | 0, ctr => ([], ctr)
  | n + 1, ctr =>
    let r := ctr_stream P rk rounds n (ctr_inc ctr)
    (P.encrypt rk rounds ctr ++ r.1, r.2)

/-- Modelled from the spec: aes_ctr_encrypt (aes-modes.S), absent from the
sources; output = input xor keystream over `bytes` bytes, a final partial
block using the leading bytes of its keystream block; the counter in the IV
buffer advances by one per block started. Returns the output bytes, the IV
buffer and the events of the call. -/
def aes_ctr_encrypt (P : AesPrim) (inp rk : List Nat) (rounds bytes : Nat) (ctr : List Nat) :
    List Nat × List Nat × List Event :=
  let ks := ctr_stream P rk rounds ((bytes + 15) / 16) ctr
  (xor_block (inp.take bytes) ks.1, ks.2,
   Event.aes_ctr_encrypt rk rounds bytes ::
     List.replicate ((bytes + 15) / 16) Event.encrypt_block)

/-- Modelled from the spec: the XCTR keystream of `n` blocks from block counter
`c`: keystream block = E(IV xor the little-endian block counter). -/
def xctr_stream (P : AesPrim) (rk : List Nat) (rounds : Nat) (iv : List Nat) :
    Nat → Nat → List Nat
  | 0, _ => []
  | n + 1, c =>
    P.encrypt rk rounds (xor_block iv (cpu_to_le128 c)) ++ xctr_stream P rk rounds iv n (c + 1)

/-- Modelled from the spec: aes_xctr_encrypt (aes-modes.S), absent from the
sources; output = input xor keystream over `bytes` bytes, the block counter
of the first block being one more than the number of whole blocks in the
running byte offset `byte_ctr`; the IV buffer is only read. Returns the output
bytes, the IV buffer and the events of the call. -/
def aes_xctr_encrypt (P : AesPrim) (inp rk : List Nat) (rounds bytes : Nat) (iv : List Nat)
    (byte_ctr : Nat) : List Nat × List Nat × List Event :=
  (xor_block (inp.take bytes)
     (xctr_stream P rk rounds iv ((bytes + 15) / 16) (byte_ctr / 16 + 1)), iv,
   Event.aes_xctr_encrypt rk rounds bytes byte_ctr ::
     List.replicate ((bytes + 15) / 16) Event.encrypt_block)

/-- The loop of ctr_encrypt with a bound on the number of passes; `buf` is
what the uninitialised scratch block of a pass holds. A run shorter than a
block is copied to the end of the scratch block, processed there and copied
back; any other run that is not the last is cut down to whole blocks by
clearing the low four bits of its length. -/
def ctr_encrypt_loop (P : AesPrim) (W : Cursor) (ctx : crypto_aes_ctx) (rounds : Nat)
    (buf : List Nat) : Nat → World → skcipher_walk → Int → Int × World × skcipher_walk
  | 0, w, walk, err => (err, w, walk)
  | fuel + 1, w, walk, err =>
    if walk.nbytes = 0 then (err, w, walk)
    else if walk.nbytes < AES_BLOCK_SIZE then
      let nbytes := walk.nbytes
      let buf0 := store buf (AES_BLOCK_SIZE - nbytes) (load (w.view walk.src) 0 nbytes)
      let r := aes_ctr_encrypt P (buf0.drop (AES_BLOCK_SIZE - nbytes)) ctx.key_enc rounds nbytes
        w.iv
      let buf1 := store buf0 (AES_BLOCK_SIZE - nbytes) r.1
      let w1 := { (w.emit ([Event.kernel_neon_begin] ++ r.2.2 ++ [Event.kernel_neon_end])).write
                    walk.dst (load buf1 (AES_BLOCK_SIZE - nbytes) nbytes) with iv := r.2.1 }
      let d := skcipher_walk_done W walk (walk.nbytes - nbytes)
      ctr_encrypt_loop P W ctx rounds buf fuel
        (w1.emit [Event.skcipher_walk_done (walk.nbytes - nbytes)]) d.2 d.1
    else
      let nbytes := if walk.nbytes < walk.total then walk.nbytes - walk.nbytes % AES_BLOCK_SIZE
        else walk.nbytes
      let r := aes_ctr_encrypt P (w.view walk.src) ctx.key_enc rounds nbytes w.iv
      let w1 := { (w.emit ([Event.kernel_neon_begin] ++ r.2.2 ++ [Event.kernel_neon_end])).write
                    walk.dst r.1 with iv := r.2.1 }
      let d := skcipher_walk_done W walk (walk.nbytes - nbytes)
      ctr_encrypt_loop P W ctx rounds buf fuel
        (w1.emit [Event.skcipher_walk_done (walk.nbytes - nbytes)]) d.2 d.1

/-- The function ctr_encrypt. Every pass commits at least one byte, so one
pass per byte of the request always suffices. -/
def ctr_encrypt (P : AesPrim) (W : Cursor) (tfm : crypto_skcipher) (buf : List Nat) (w : World)
    (req : skcipher_request) : Int × World :=
  let rounds := 6 + tfm.ctx.key_length / 4
  let v := skcipher_walk_virt W tfm.alg req
  let r := ctr_encrypt_loop P W tfm.ctx rounds buf (req.cryptlen + 1)
    (w.emit [Event.skcipher_walk_virt req.cryptlen]) v.2 v.1
  (r.1, r.2.1)

/-- The loop of xctr_encrypt with a bound on the number of passes; `buf` is
what the uninitialised scratch block of a pass holds and `byte_ctr` the
unsigned 32-bit running byte offset. -/
def xctr_encrypt_loop (P : AesPrim) (W : Cursor) (ctx : crypto_aes_ctx) (rounds : Nat)
    (buf : List Nat) : Nat → World → skcipher_walk → Int → Nat → Int × World × skcipher_walk
  | 0, w, walk, err, _ => (err, w, walk)
  | fuel + 1, w, walk, err, byte_ctr =>
    if walk.nbytes = 0 then (err, w, walk)
    else if walk.nbytes < AES_BLOCK_SIZE then
      let nbytes := walk.nbytes
      let buf0 := store buf (AES_BLOCK_SIZE - nbytes) (load (w.view walk.src) 0 nbytes)
      let r := aes_xctr_encrypt P (buf0.drop (AES_BLOCK_SIZE - nbytes)) ctx.key_enc rounds nbytes
        w.iv byte_ctr
      let buf1 := store buf0 (AES_BLOCK_SIZE - nbytes) r.1
      let w1 := { (w.emit ([Event.kernel_neon_begin] ++ r.2.2 ++ [Event.kernel_neon_end])).write
                    walk.dst (load buf1 (AES_BLOCK_SIZE - nbytes) nbytes) with iv := r.2.1 }
      let d := skcipher_walk_done W walk (walk.nbytes - nbytes)
      xctr_encrypt_loop P W ctx rounds buf fuel
        (w1.emit [Event.skcipher_walk_done (walk.nbytes - nbytes)]) d.2 d.1
        ((byte_ctr + nbytes) % 2 ^ 32)
    else
      let nbytes := if walk.nbytes < walk.total then walk.nbytes - walk.nbytes % AES_BLOCK_SIZE
        else walk.nbytes
      let r := aes_xctr_encrypt P (w.view walk.src) ctx.key_enc rounds nbytes w.iv byte_ctr
      let w1 := { (w.emit ([Event.kernel_neon_begin] ++ r.2.2 ++ [Event.kernel_neon_end])).write
                    walk.dst r.1 with iv := r.2.1 }
      let d := skcipher_walk_done W walk (walk.nbytes - nbytes)
      xctr_encrypt_loop P W ctx rounds buf fuel
        (w1.emit [Event.skcipher_walk_done (walk.nbytes - nbytes)]) d.2 d.1
        ((byte_ctr + nbytes) % 2 ^ 32)

/-- The function xctr_encrypt; the running byte offset starts at 0. -/
def xctr_encrypt (P : AesPrim) (W : Cursor) (tfm : crypto_skcipher) (buf : List Nat) (w : World)
    (req : skcipher_request) : Int × World :=
  let rounds := 6 + tfm.ctx.key_length / 4
  let v := skcipher_walk_virt W tfm.alg req
  let r := xctr_encrypt_loop P W tfm.ctx rounds buf (req.cryptlen + 1)
    (w.emit [Event.skcipher_walk_virt req.cryptlen]) v.2 v.1 0
  (r.1, r.2.1)

/-- The two entry points an entry of aes_algs registers. -/
structure skcipher_ops where
  encrypt : AesPrim → Cursor → crypto_skcipher → List Nat → World → skcipher_request →
    Int × World
  decrypt : AesPrim → Cursor → crypto_skcipher → List Nat → World → skcipher_request →
    Int × World

/-- The entry points of "ctr(aes)" in aes_algs: ctr_encrypt in both
directions. -/
def aes_algs_ctr : skcipher_ops := { encrypt := ctr_encrypt, decrypt := ctr_encrypt }

/-- The entry points of "xctr(aes)" in aes_algs: xctr_encrypt in both
directions. -/
def aes_algs_xctr : skcipher_ops := { encrypt := xctr_encrypt, decrypt := xctr_encrypt }

/-- The transform of "ctr(aes)" with a key context. -/
def ctr_tfm (ctx : crypto_aes_ctx) : crypto_skcipher := { alg := alg_ctr, ctx := ctx }

/-- The transform of "xctr(aes)" with a key context. -/
def xctr_tfm (ctx : crypto_aes_ctx) : crypto_skcipher := { alg := alg_xctr, ctx := ctx }

/-! ## Specification-level notions for the stream-mode claims -/

/-- The common shape of the loops of ctr_encrypt and xctr_encrypt: each pass
hands the bytes of the current run to a primitive `f` that maps input bytes, a
byte count, the IV buffer and the running byte offset to output bytes, the IV
buffer and its events. -/
def ctr_walk_loop (f : List Nat → Nat → List Nat → Nat → List Nat × List Nat × List Event)
    (W : Cursor) (buf : List Nat) :
    Nat → World → skcipher_walk → Int → Nat → Int × World × skcipher_walk
  | 0, w, walk, err, _ => (err, w, walk)
  | fuel + 1, w, walk, err, byte_ctr =>
    if walk.nbytes = 0 then (err, w, walk)
    else if walk.nbytes < AES_BLOCK_SIZE then
      let nbytes := walk.nbytes
      let buf0 := store buf (AES_BLOCK_SIZE - nbytes) (load (w.view walk.src) 0 nbytes)
      let r := f (buf0.drop (AES_BLOCK_SIZE - nbytes)) nbytes w.iv byte_ctr
      let buf1 := store buf0 (AES_BLOCK_SIZE - nbytes) r.1
      let w1 := { (w.emit ([Event.kernel_neon_begin] ++ r.2.2 ++ [Event.kernel_neon_end])).write
                    walk.dst (load buf1 (AES_BLOCK_SIZE - nbytes) nbytes) with iv := r.2.1 }
      let d := skcipher_walk_done W walk (walk.nbytes - nbytes)
      ctr_walk_loop f W buf fuel
        (w1.emit [Event.skcipher_walk_done (walk.nbytes - nbytes)]) d.2 d.1
        ((byte_ctr + nbytes) % 2 ^ 32)
    else
      let nbytes := if walk.nbytes < walk.total then walk.nbytes - walk.nbytes % AES_BLOCK_SIZE
        else walk.nbytes
      let r := f (w.view walk.src) nbytes w.iv byte_ctr
      let w1 := { (w.emit ([Event.kernel_neon_begin] ++ r.2.2 ++ [Event.kernel_neon_end])).write
                    walk.dst r.1 with iv := r.2.1 }
      let d := skcipher_walk_done W walk (walk.nbytes - nbytes)
      ctr_walk_loop f W buf fuel
        (w1.emit [Event.skcipher_walk_done (walk.nbytes - nbytes)]) d.2 d.1
        ((byte_ctr + nbytes) % 2 ^ 32)

/-- A pure stream function `g` (byte count, input, IV buffer, running byte
offset) that can be cut after any number of whole blocks, reads only the bytes
it processes and keeps lengths. -/
structure ByteChained (g : Nat → List Nat → List Nat → Nat → List Nat × List Nat) : Prop where
  zero : ∀ inp iv bc, g 0 inp iv bc = ([], iv)
  add : ∀ k b inp iv bc, 16 * k + b ≤ inp.length → iv.length = 16 →
    g (16 * k + b) inp iv bc =
      ((g (16 * k) inp iv bc).1 ++
        (g b (inp.drop (16 * k)) (g (16 * k) inp iv bc).2 (bc + 16 * k)).1,
       (g b (inp.drop (16 * k)) (g (16 * k) inp iv bc).2 (bc + 16 * k)).2)
  len : ∀ n inp iv bc, n ≤ inp.length → iv.length = 16 →
    (g n inp iv bc).1.length = n ∧ (g n inp iv bc).2.length = 16
  pre : ∀ n inp iv bc, g n (inp.take n) iv bc = g n inp iv bc

/-- A cursor of a stream mode in the middle of a request with `L` bytes left:
its run holds at least one block, or all that is left, and no more than is
left. -/
structure WalkCtr (walk : skcipher_walk) (L : Nat) : Prop where
  total : walk.total = L
  blocksize : walk.blocksize = 1
  stride : 16 ≤ walk.stride
  finished : L = 0 → walk.nbytes = 0
  run : 0 < L → min 16 L ≤ walk.nbytes ∧ walk.nbytes ≤ L
  aliasing : walk.src = walk.dst ∨ walk.src.id ≠ walk.dst.id

/-- The bytes CTR makes of `n` input bytes under a counter: input xor
keystream, and the counter after it. -/
def ctr_bytes (P : AesPrim) (rk : List Nat) (rounds : Nat) (n : Nat) (inp iv : List Nat)
    (_bc : Nat) : List Nat × List Nat :=
  ((aes_ctr_encrypt P inp rk rounds n iv).1, (aes_ctr_encrypt P inp rk rounds n iv).2.1)

/-- The bytes XCTR makes of `n` input bytes at the running byte offset `bc`. -/
def xctr_bytes (P : AesPrim) (rk : List Nat) (rounds : Nat) (n : Nat) (inp iv : List Nat)
    (bc : Nat) : List Nat × List Nat :=
  ((aes_xctr_encrypt P inp rk rounds n iv bc).1, (aes_xctr_encrypt P inp rk rounds n iv bc).2.1)

/-! ## XTS -/

/-- The entry "xts(aes)" of aes_algs: blocks of 16 bytes and a walksize of two
blocks. -/
def alg_xts : skcipher_alg :=
  { cra_blocksize := AES_BLOCK_SIZE, walksize := 2 * AES_BLOCK_SIZE }

/-- The value of a byte string stored least significant byte first. -/
def le128_to_cpu (bs : List Nat) : Nat := bs.foldr (fun x acc => x + 256 * acc) 0

/-- Modelled from the spec: the tweak update of XTS, a GF(2^128)
multiply-by-x of the previous tweak with the reduction polynomial 0x87 on
overflow of the top bit. -/
def xts_next_tweak (t : List Nat) : List Nat := cpu_to_le128 (spec_double (le128_to_cpu t))

/-- Modelled from the spec: the XTS transform of one block under a tweak,
E(block xor tweak) xor tweak, for either direction `X` of the block cipher. -/
def xts_block (X : List Nat → List Nat) (b t : List Nat) : List Nat :=
  xor_block (X (xor_block b t)) t

/-- Modelled from the spec: `n` whole blocks of XTS, each under its own tweak,
the tweak being updated after every block. Returns the output bytes and the
tweak after the last block. -/
def xts_blocks (X : List Nat → List Nat) : Nat → List Nat → List Nat → List Nat × List Nat
  | 0, _, t => ([], t)
  | n + 1, inp, t =>
    let r := xts_blocks X n (inp.drop AES_BLOCK_SIZE) (xts_next_tweak t)
    (xts_block X (load inp 0 AES_BLOCK_SIZE) t ++ r.1, r.2)

/-- Modelled from the spec: the ciphertext stealing of XTS encryption over the
last whole block and a final partial block of `tail` bytes at `rest`, `t` being
the tweak of the last whole block: that block is transformed under `t`, its
leading `tail` bytes become the final partial output, and the partial input
completed by its remaining bytes is transformed under the next tweak into the
last whole output block. -/
def xts_steal_encrypt (X : List Nat → List Nat) (rest : List Nat) (tail : Nat) (t : List Nat) :
    List Nat :=
  let cc := xts_block X (load rest 0 AES_BLOCK_SIZE) t
  let pp := (rest.drop AES_BLOCK_SIZE).take tail ++ cc.drop tail
  xts_block X pp (xts_next_tweak t) ++ cc.take tail

/-- Modelled from the spec: the ciphertext stealing of XTS decryption, undoing
xts_steal_encrypt: the last whole block is transformed under the later tweak,
the block reassembled from the partial input and its remaining bytes under the
earlier one. -/
def xts_steal_decrypt (X : List Nat → List Nat) (rest : List Nat) (tail : Nat) (t : List Nat) :
    List Nat :=
  let pp := xts_block X (load rest 0 AES_BLOCK_SIZE) (xts_next_tweak t)
  let cc := (rest.drop AES_BLOCK_SIZE).take tail ++ pp.drop tail
  xts_block X cc t ++ pp.take tail

/-- Modelled from the spec: XTS over `bytes` bytes from the tweak `t0`. Whole
blocks are transformed one by one; when `bytes` is not a multiple of 16, all
whole blocks but the last are transformed normally and `steal` combines the
last whole block and the final partial block. Returns the output bytes and the
tweak to go on with. -/
def xts_bytes (X : List Nat → List Nat) (steal : List Nat → Nat → List Nat → List Nat)
    (bytes : Nat) (inp t0 : List Nat) : List Nat × List Nat :=
  if bytes % AES_BLOCK_SIZE = 0 then xts_blocks X (bytes / AES_BLOCK_SIZE) inp t0
  else
    let r := xts_blocks X (bytes / AES_BLOCK_SIZE - 1) inp t0
    (r.1 ++ steal (inp.drop (AES_BLOCK_SIZE * (bytes / AES_BLOCK_SIZE - 1)))
        (bytes % AES_BLOCK_SIZE) r.2,
     xts_next_tweak r.2)

/-- Modelled from the spec: aes_xts_encrypt (aes-modes.S), absent from the
sources. With `first` set the tweak is seeded by encrypting the IV under the
tweak key, otherwise the IV buffer holds the tweak to go on with; the bytes
are transformed with the block cipher's encryption under the data key, and the
IV buffer receives the tweak to go on with. Returns the output bytes, the IV
buffer and the events of the call. -/
def aes_xts_encrypt (P : AesPrim) (inp rk1 : List Nat) (rounds bytes : Nat)
    (rk2 iv : List Nat) (first : Nat) : List Nat × List Nat × List Event :=
  let t0 := if first ≠ 0 then P.encrypt rk2 rounds iv else iv
  let r := xts_bytes (P.encrypt rk1 rounds) (xts_steal_encrypt (P.encrypt rk1 rounds)) bytes
    inp t0
  (r.1, r.2,
   Event.aes_xts_encrypt rk1 rounds bytes rk2 first ::
     List.replicate ((if first ≠ 0 then 1 else 0) + (bytes + 15) / 16) Event.encrypt_block)

/-- Modelled from the spec: aes_xts_decrypt (aes-modes.S), absent from the
sources; as aes_xts_encrypt with the block cipher's decryption under the data
key, the tweak still being seeded by encryption under the tweak key. -/
def aes_xts_decrypt (P : AesPrim) (inp rk1 : List Nat) (rounds bytes : Nat)
    (rk2 iv : List Nat) (first : Nat) : List Nat × List Nat × List Event :=
  let t0 := if first ≠ 0 then P.encrypt rk2 rounds iv else iv
  let r := xts_bytes (P.decrypt rk1 rounds) (xts_steal_decrypt (P.decrypt rk1 rounds)) bytes
    inp t0
  (r.1, r.2,
   Event.aes_xts_decrypt rk1 rounds bytes rk2 first ::
     (List.replicate (if first ≠ 0 then 1 else 0) Event.encrypt_block ++
      List.replicate ((bytes + 15) / 16) Event.decrypt_block))

/-- The part of xts_encrypt and xts_decrypt between the length check and the
loop: the cursor over the request or, when the request has a final partial
block and is not mapped as a single run, over a sub-request of its whole
blocks but the last. Returns the error code, the state, the cursor, the
request the loop runs on and `tail`. -/
def xts_start (W : Cursor) (w : World) (req : skcipher_request) :
    Int × World × skcipher_walk × skcipher_request × Nat :=
  let tail := req.cryptlen % AES_BLOCK_SIZE
  let v := skcipher_walk_virt W alg_xts req
  let w1 := w.emit [Event.skcipher_walk_virt req.cryptlen]
  if tail > 0 ∧ v.2.nbytes < v.2.total then
    let xts_blocks : Int := to_int (DIV_ROUND_UP req.cryptlen AES_BLOCK_SIZE + 2 ^ 32 - 2)
    let subreq : skcipher_request :=
      { src := req.src, dst := req.dst, cryptlen := to_u32 (xts_blocks * AES_BLOCK_SIZE) }
    let v2 := skcipher_walk_virt W alg_xts subreq
    (v2.1, w1.emit [Event.skcipher_walk_abort, Event.skcipher_walk_virt subreq.cryptlen],
     v2.2, subreq, tail)
  else (v.1, w1, v.2, req, 0)

/-- The loop of xts_encrypt with a bound on the number of passes. A run that
is not the last is cut down to whole blocks by clearing the low four bits of
its length; `first` is set in the first pass only. Carries the state, the
cursor, the error code and `first`. -/
def xts_encrypt_loop (P : AesPrim) (W : Cursor) (ctx : crypto_aes_xts_ctx) (rounds : Nat) :
    Nat → World → skcipher_walk → Int → Nat → Int × World × skcipher_walk × Nat
  | 0, w, walk, err, first => (err, w, walk, first)
  | fuel + 1, w, walk, err, first =>
    if walk.nbytes < AES_BLOCK_SIZE then (err, w, walk, first)
    else
      let nbytes := if walk.nbytes < walk.total then walk.nbytes - walk.nbytes % AES_BLOCK_SIZE
        else walk.nbytes
      let r := aes_xts_encrypt P (w.view walk.src) ctx.key1.key_enc rounds nbytes
        ctx.key2.key_enc w.iv first
      let w1 := { (w.emit ([Event.kernel_neon_begin] ++ r.2.2 ++ [Event.kernel_neon_end])).write
                    walk.dst r.1 with iv := r.2.1 }
      let d := skcipher_walk_done W walk (walk.nbytes - nbytes)
      xts_encrypt_loop P W ctx rounds fuel
        (w1.emit [Event.skcipher_walk_done (walk.nbytes - nbytes)]) d.2 d.1 0

/-- The part of xts_encrypt after the loop when a final partial block is
left: one call of the primitive on the last whole block and the partial
block, found by forward-seeking the buffers of the request the loop ran on. -/
def xts_encrypt_tail (P : AesPrim) (W : Cursor) (ctx : crypto_aes_xts_ctx) (rounds : Nat)
    (w : World) (req : skcipher_request) (tail first : Nat) : Int × World :=
  let src := scatterwalk_ffwd req.src req.cryptlen
  let dst := if req.dst ≠ req.src then scatterwalk_ffwd req.dst req.cryptlen else src
  let subreq : skcipher_request := { src := src, dst := dst, cryptlen := AES_BLOCK_SIZE + tail }
  let v := skcipher_walk_virt W alg_xts subreq
  let w1 := w.emit [Event.skcipher_walk_virt subreq.cryptlen]
  if v.1 ≠ 0 then (v.1, w1)
  else
    let walk := v.2
    let r := aes_xts_encrypt P (w1.view walk.src) ctx.key1.key_enc rounds walk.nbytes
        ctx.key2.key_enc w1.iv first
    let w2 := { (w1.emit ([Event.kernel_neon_begin] ++ r.2.2 ++ [Event.kernel_neon_end])).write
                  walk.dst r.1 with iv := r.2.1 }
    ((skcipher_walk_done W walk 0).1, w2.emit [Event.skcipher_walk_done 0])

/-- The function xts_encrypt. Every pass of the loop commits at least one
block, so one pass per byte of the request always suffices. -/
def xts_encrypt (P : AesPrim) (W : Cursor) (ctx : crypto_aes_xts_ctx) (w : World)
    (req : skcipher_request) : Int × World :=
  let rounds := 6 + ctx.key1.key_length / 4
  if req.cryptlen < AES_BLOCK_SIZE then (-EINVAL, w)
  else
    let s := xts_start W w req
    let l := xts_encrypt_loop P W ctx rounds (req.cryptlen + 1) s.2.1 s.2.2.1 s.1 1
    if l.1 ≠ 0 ∨ s.2.2.2.2 = 0 then (l.1, l.2.1)
    else xts_encrypt_tail P W ctx rounds l.2.1 s.2.2.2.1 s.2.2.2.2 l.2.2.2

/-- The loop of xts_decrypt with a bound on the number of passes. -/
def xts_decrypt_loop (P : AesPrim) (W : Cursor) (ctx : crypto_aes_xts_ctx) (rounds : Nat) :
    Nat → World → skcipher_walk → Int → Nat → Int × World × skcipher_walk × Nat
  | 0, w, walk, err, first => (err, w, walk, first)
  | fuel + 1, w, walk, err, first =>
    if walk.nbytes < AES_BLOCK_SIZE then (err, w, walk, first)
    else
      let nbytes := if walk.nbytes < walk.total then walk.nbytes - walk.nbytes % AES_BLOCK_SIZE
        else walk.nbytes
      let r := aes_xts_decrypt P (w.view walk.src) ctx.key1.key_dec rounds nbytes
        ctx.key2.key_enc w.iv first
      let w1 := { (w.emit ([Event.kernel_neon_begin] ++ r.2.2 ++ [Event.kernel_neon_end])).write
                    walk.dst r.1 with iv := r.2.1 }
      let d := skcipher_walk_done W walk (walk.nbytes - nbytes)
      xts_decrypt_loop P W ctx rounds fuel
        (w1.emit [Event.skcipher_walk_done (walk.nbytes - nbytes)]) d.2 d.1 0

/-- The part of xts_decrypt after the loop when a final partial block is
left. -/
def xts_decrypt_tail (P : AesPrim) (W : Cursor) (ctx : crypto_aes_xts_ctx) (rounds : Nat)
    (w : World) (req : skcipher_request) (tail first : Nat) : Int × World :=
  let src := scatterwalk_ffwd req.src req.cryptlen
  let dst := if req.dst ≠ req.src then scatterwalk_ffwd req.dst req.cryptlen else src
  let subreq : skcipher_request := { src := src, dst := dst, cryptlen := AES_BLOCK_SIZE + tail }
  let v := skcipher_walk_virt W alg_xts subreq
  let w1 := w.emit [Event.skcipher_walk_virt subreq.cryptlen]
  if v.1 ≠ 0 then (v.1, w1)
  else
    let walk := v.2
    let r := aes_xts_decrypt P (w1.view walk.src) ctx.key1.key_dec rounds walk.nbytes
        ctx.key2.key_enc w1.iv first
    let w2 := { (w1.emit ([Event.kernel_neon_begin] ++ r.2.2 ++ [Event.kernel_neon_end])).write
                  walk.dst r.1 with iv := r.2.1 }
    ((skcipher_walk_done W walk 0).1, w2.emit [Event.skcipher_walk_done 0])

/-- The function xts_decrypt. -/
def xts_decrypt (P : AesPrim) (W : Cursor) (ctx : crypto_aes_xts_ctx) (w : World)
    (req : skcipher_request) : Int × World :=
  let rounds := 6 + ctx.key1.key_length / 4
  if req.cryptlen < AES_BLOCK_SIZE then (-EINVAL, w)
  else
    let s := xts_start W w req
    let l := xts_decrypt_loop P W ctx rounds (req.cryptlen + 1) s.2.1 s.2.2.1 s.1 1
    if l.1 ≠ 0 ∨ s.2.2.2.2 = 0 then (l.1, l.2.1)
    else xts_decrypt_tail P W ctx rounds l.2.1 s.2.2.2.1 s.2.2.2.2 l.2.2.2

/-! ## Specification-level notions for the XTS claims -/

/-- The common shape of the loops of xts_encrypt and xts_decrypt, for a
primitive `f` that maps input bytes, a byte count, the IV buffer and `first`
to output bytes, the IV buffer and its events. -/
def xts_walk_loop (f : List Nat → Nat → List Nat → Nat → List Nat × List Nat × List Event)
    (W : Cursor) : Nat → World → skcipher_walk → Int → Nat → Int × World × skcipher_walk × Nat
  | 0, w, walk, err, first => (err, w, walk, first)
  | fuel + 1, w, walk, err, first =>
    if walk.nbytes < AES_BLOCK_SIZE then (err, w, walk, first)
    else
      let nbytes := if walk.nbytes < walk.total then walk.nbytes - walk.nbytes % AES_BLOCK_SIZE
        else walk.nbytes
      let r := f (w.view walk.src) nbytes w.iv first
      let w1 := { (w.emit ([Event.kernel_neon_begin] ++ r.2.2 ++ [Event.kernel_neon_end])).write
                    walk.dst r.1 with iv := r.2.1 }
      let d := skcipher_walk_done W walk (walk.nbytes - nbytes)
      xts_walk_loop f W fuel
        (w1.emit [Event.skcipher_walk_done (walk.nbytes - nbytes)]) d.2 d.1 0

/-- The common shape of the parts of xts_encrypt and xts_decrypt after the
loop, for a primitive `f`. -/
def xts_crypt_tail (f : List Nat → Nat → List Nat → Nat → List Nat × List Nat × List Event)
    (W : Cursor) (w : World) (req : skcipher_request) (tail first : Nat) : Int × World :=
  let src := scatterwalk_ffwd req.src req.cryptlen
  let dst := if req.dst ≠ req.src then scatterwalk_ffwd req.dst req.cryptlen else src
  let subreq : skcipher_request := { src := src, dst := dst, cryptlen := AES_BLOCK_SIZE + tail }
  let v := skcipher_walk_virt W alg_xts subreq
  let w1 := w.emit [Event.skcipher_walk_virt subreq.cryptlen]
  if v.1 ≠ 0 then (v.1, w1)
  else
    let walk := v.2
    let r := f (w1.view walk.src) walk.nbytes w1.iv first
    let w2 := { (w1.emit ([Event.kernel_neon_begin] ++ r.2.2 ++ [Event.kernel_neon_end])).write
                  walk.dst r.1 with iv := r.2.1 }
    ((skcipher_walk_done W walk 0).1, w2.emit [Event.skcipher_walk_done 0])

/-- The common shape of xts_encrypt and xts_decrypt, for a primitive `f`. -/
def xts_crypt (f : List Nat → Nat → List Nat → Nat → List Nat × List Nat × List Event)
    (W : Cursor) (w : World) (req : skcipher_request) : Int × World :=
  if req.cryptlen < AES_BLOCK_SIZE then (-EINVAL, w)
  else
    let s := xts_start W w req
    let l := xts_walk_loop f W (req.cryptlen + 1) s.2.1 s.2.2.1 s.1 1
    if l.1 ≠ 0 ∨ s.2.2.2.2 = 0 then (l.1, l.2.1)
    else xts_crypt_tail f W l.2.1 s.2.2.2.1 s.2.2.2.2 l.2.2.2

/-- A primitive `f` of the XTS kind over a chained block function `g` and a
tweak seeding `seed`: on whole blocks it is `g` from the seeded or continued
tweak; on a length with a final partial block the leading whole blocks but the
last can be split off; and it keeps lengths. -/
structure XtsPrim (f : List Nat → Nat → List Nat → Nat → List Nat × List Nat × List Event)
    (g : Nat → List Nat → List Nat → List Nat × List Nat) (seed : List Nat → List Nat) :
    Prop where
  chained : Chained g
  seed_len : ∀ iv, iv.length = 16 → (seed iv).length = 16
  whole : ∀ inp b iv first,
    (f inp (16 * b) iv first).1 = (g b inp (if first ≠ 0 then seed iv else iv)).1 ∧
    (f inp (16 * b) iv first).2.1 = (g b inp (if first ≠ 0 then seed iv else iv)).2
  split : ∀ inp L a iv first, L % 16 ≠ 0 → 16 * (a + 1) ≤ L →
    (f inp L iv first).1 =
      (g a inp (if first ≠ 0 then seed iv else iv)).1 ++
        (f (inp.drop (16 * a)) (L - 16 * a) (g a inp (if first ≠ 0 then seed iv else iv)).2 0).1
  len : ∀ inp L iv first, 16 ≤ L → L ≤ inp.length → iv.length = 16 →
    (f inp L iv first).1.length = L

/-! ## Specification-level notions for the round-count claim -/

/-- The round count an event passes to a block primitive, when the event is a
call of one. -/
def Event.rounds : Event → Option Nat
  | Event.aes_ecb_encrypt _ r _ => some r
  | Event.aes_ecb_decrypt _ r _ => some r
  | Event.aes_cbc_encrypt _ r _ => some r
  | Event.aes_cbc_decrypt _ r _ => some r
  | Event.aes_cbc_cts_encrypt _ r _ => some r
  | Event.aes_cbc_cts_decrypt _ r _ => some r
  | Event.aes_essiv_cbc_encrypt _ r _ _ => some r
  | Event.aes_essiv_cbc_decrypt _ r _ _ => some r
  | Event.aes_ctr_encrypt _ r _ => some r
  | Event.aes_xctr_encrypt _ r _ _ => some r
  | Event.aes_xts_encrypt _ r _ _ _ => some r
  | Event.aes_xts_decrypt _ r _ _ _ => some r
  | Event.aes_mac_update _ r _ _ _ => some r
  | _ => none

/-- The event is no call of a block primitive, or one that passes the round
count `R`. -/
def Event.passes (R : Nat) (e : Event) : Prop := ∀ r, e.rounds = some r → r = R

/-- Every call of a block primitive in the trace passes the round count `R`. -/
def RoundsOK (R : Nat) (tr : List Event) : Prop := ∀ e ∈ tr, e.passes R

/-- The second state continues the trace of the first by events that all
satisfy `Q`. -/
def Extends (Q : Event → Prop) (w w1 : World) : Prop :=
  ∃ tr, w1.trace = w.trace ++ tr ∧ ∀ e ∈ tr, Q e

/-! ## Specification-level notions for the claims on the phases of a request -/

/-- Number of bytes handed to the XTS primitives in a trace. -/
def xts_bytes_done : List Event → Nat
  | [] => 0
  | Event.aes_xts_encrypt _ _ bytes _ _ :: tr => bytes + xts_bytes_done tr
  | Event.aes_xts_decrypt _ _ bytes _ _ :: tr => bytes + xts_bytes_done tr
  | _ :: tr => xts_bytes_done tr

/-- The event is neither the creation nor the abort of a cursor. -/
def Event.notStart : Event → Prop
  | Event.skcipher_walk_virt _ => False
  | Event.skcipher_walk_abort => False
  | _ => True

/-- The sub-request of xts_encrypt and xts_decrypt over the whole blocks but
the last of a request with a final partial block. -/
def xts_lead_req (req : skcipher_request) : skcipher_request :=
  { src := req.src, dst := req.dst, cryptlen := 16 * cts_lead req.cryptlen }

/-- The loop of xts_encrypt as the function enters it after its start. -/
def xts_encrypt_bulk (P : AesPrim) (W : Cursor) (ctx : crypto_aes_xts_ctx) (w : World)
    (req : skcipher_request) : Int × World × skcipher_walk × Nat :=
  xts_encrypt_loop P W ctx (6 + ctx.key1.key_length / 4) (req.cryptlen + 1)
    (xts_start W w req).2.1 (xts_start W w req).2.2.1 (xts_start W w req).1 1

/-- The loop of xts_decrypt as the function enters it after its start. -/
def xts_decrypt_bulk (P : AesPrim) (W : Cursor) (ctx : crypto_aes_xts_ctx) (w : World)
    (req : skcipher_request) : Int × World × skcipher_walk × Nat :=
  xts_decrypt_loop P W ctx (6 + ctx.key1.key_length / 4) (req.cryptlen + 1)
    (xts_start W w req).2.1 (xts_start W w req).2.2.1 (xts_start W w req).1 1

/-! ## The local sub-request of the XTS functions -/

/-- The local variable `subreq` of xts_encrypt and xts_decrypt after the branch
that follows the creation of the first cursor: it is initialised, and the
request pointer redirected to it, only inside that branch; `none` stands for
the uninitialised variable. -/
def xts_subreq (W : Cursor) (req : skcipher_request) : Option skcipher_request :=
  let tail := req.cryptlen % AES_BLOCK_SIZE
  let v := skcipher_walk_virt W alg_xts req
  if tail > 0 ∧ v.2.nbytes < v.2.total then
    let xts_blocks : Int := to_int (DIV_ROUND_UP req.cryptlen AES_BLOCK_SIZE + 2 ^ 32 - 2)
    some { src := req.src, dst := req.dst, cryptlen := to_u32 (xts_blocks * AES_BLOCK_SIZE) }
  else none

/-- The request the tail step of xts_encrypt and xts_decrypt sets up in the
sub-request `sub`, read through the request pointer: both buffers are
forward-sought by the length of `sub`, and the length is one block plus
`tail`. -/
def xts_tail_req (sub : skcipher_request) (tail : Nat) : skcipher_request :=
  { src := scatterwalk_ffwd sub.src sub.cryptlen,
    dst := if sub.dst ≠ sub.src then scatterwalk_ffwd sub.dst sub.cryptlen
      else scatterwalk_ffwd sub.src sub.cryptlen,
    cryptlen := AES_BLOCK_SIZE + tail }

/-- The function xts_encrypt with the use of the local sub-request checked:
the result is `none` when the tail step is reached while the sub-request is
uninitialised. -/
def xts_encrypt_checked (P : AesPrim) (W : Cursor) (ctx : crypto_aes_xts_ctx) (w : World)
    (req : skcipher_request) : Option (Int × World) :=
  let rounds := 6 + ctx.key1.key_length / 4
  if req.cryptlen < AES_BLOCK_SIZE then some (-EINVAL, w)
  else
    let s := xts_start W w req
    let l := xts_encrypt_loop P W ctx rounds (req.cryptlen + 1) s.2.1 s.2.2.1 s.1 1
    if l.1 ≠ 0 ∨ s.2.2.2.2 = 0 then some (l.1, l.2.1)
    else
      match xts_subreq W req with
      | none => none
      | some sub => some (xts_encrypt_tail P W ctx rounds l.2.1 sub s.2.2.2.2 l.2.2.2)

/-- The function xts_decrypt with the use of the local sub-request checked. -/
def xts_decrypt_checked (P : AesPrim) (W : Cursor) (ctx : crypto_aes_xts_ctx) (w : World)
    (req : skcipher_request) : Option (Int × World) :=
  let rounds := 6 + ctx.key1.key_length / 4
  if req.cryptlen < AES_BLOCK_SIZE then some (-EINVAL, w)
  else
    let s := xts_start W w req
    let l := xts_decrypt_loop P W ctx rounds (req.cryptlen + 1) s.2.1 s.2.2.1 s.1 1
    if l.1 ≠ 0 ∨ s.2.2.2.2 = 0 then some (l.1, l.2.1)
    else
      match xts_subreq W req with
      | none => none
      | some sub => some (xts_decrypt_tail P W ctx rounds l.2.1 sub s.2.2.2.2 l.2.2.2)

/-! ## Monitors of traces -/

/-- Runs a monitor over a trace: `step` maps the state of the monitor and an
event to the next state, or to `none` when the event is not allowed in that
state; the result is the state after the last event, or `none` when an event
was not allowed. -/
def run_monitor {σ : Type} (step : σ → Event → Option σ) : σ → List Event → Option σ
  | s, [] => some s
  | s, e :: tr =>
    match step s e with
    | none => none
    | some s1 => run_monitor step s1 tr

/-- Monitor of the running byte offset of XCTR within one request. The state
is the number of bytes the calls seen so far have processed. A call of the
XCTR primitive is allowed when the byte offset it is passed equals that
number, and adds its byte count to it. -/
def xctr_ctr_step (seen : Nat) : Event → Option Nat
  | Event.aes_xctr_encrypt _ _ bytes byte_ctr =>
    if byte_ctr = seen then some (seen + bytes) else none
  | _ => some seen

/-- Monitor of the byte counts of CTR and XCTR within one request. The state
tells whether a call with a byte count that is not a multiple of 16 has been
seen. A call of the CTR or XCTR primitive is allowed when no such call has
been seen and its byte count is positive; a commit of a run is allowed when
the leftover it hands back is below 16 bytes. -/
def ctr_align_step (short : Bool) : Event → Option Bool
  | Event.aes_ctr_encrypt _ _ bytes =>
    if short = false ∧ 0 < bytes then some (decide (bytes % 16 ≠ 0)) else none
  | Event.aes_xctr_encrypt _ _ bytes _ =>
    if short = false ∧ 0 < bytes then some (decide (bytes % 16 ≠ 0)) else none
  | Event.skcipher_walk_done res => if res < 16 then some short else none
  | _ => some short

/-- Monitor of the accelerator context. The state tells whether the context is
held. kernel_neon_begin is allowed when it is not held and acquires it;
kernel_neon_end is allowed when it is held and releases it; an operation of
the cursor (creation, commit, abort) and the digest computation are allowed
only while it is not held; every other event is a call of a block primitive or
a single-block run inside one and is allowed only while it is held. -/
def neon_step (held : Bool) : Event → Option Bool
  | Event.kernel_neon_begin => if held then none else some true
  | Event.kernel_neon_end => if held then some false else none
  | Event.skcipher_walk_virt _ => if held then none else some false
  | Event.skcipher_walk_done _ => if held then none else some false
  | Event.skcipher_walk_abort => if held then none else some false
  | Event.crypto_shash_tfm_digest _ => if held then none else some false
  | _ => if held then some true else none

/-- The second state continues the trace of the first by events that the
monitor of the accelerator context accepts, starting and ending with the
context not held. -/
def Bracketed (w w1 : World) : Prop :=
  ∃ tr, w1.trace = w.trace ++ tr ∧ run_monitor neon_step false tr = some false

/-! ## Observations on the MAC loop and checked digest accesses -/

/-- Number of calls of aes_mac_update in a trace. -/
def mac_calls : List Event → Nat
  | [] => 0
  | Event.aes_mac_update _ _ _ _ _ :: tr => mac_calls tr + 1
  | _ :: tr => mac_calls tr

/-- What a call of aes_mac_update looks like when it comes from one of the
call sites of mac_do_update: the digest is encrypted first only when no block
is handed over, and the encrypt-after flag is the negation of the
encrypt-before flag. Every other event passes. -/
def Event.macSite : Event → Prop
  | Event.aes_mac_update _ _ blocks enc_before enc_after =>
    (enc_before = true → blocks = 0) ∧ enc_after = !enc_before
  | _ => True

/-- The primitive that never yields: aes_mac_update completes every block it
is handed in one call. -/
def no_yield (P : AesPrim) : AesPrim :=
  { P with mac_yield := fun n => n }

/-- The primitive that yields after every block. -/
def yield_each (P : AesPrim) : AesPrim :=
  { P with mac_yield := fun _ => 1 }

/-- The update `a[i] ^= v` of one byte of an array, refused when the index is
outside the array. -/
def xor_byte (a : List Nat) (i v : Nat) : Option (List Nat) :=
  if i < a.length then some (a.set i (a.getD i 0 ^^^ v)) else none

/-- The function cmac_finup with the accesses to the digest array checked
against its extent: the xor of `len` source bytes needs `len` bytes of digest,
the padding write needs its index inside the digest. -/
def cmac_finup_checked (P : AesPrim) (tctx : mac_tfm_ctx) (ctx : mac_desc_ctx)
    (src : List Nat) (len : Nat) : Option (Int × mac_desc_ctx × List Nat × List Event) :=
  if len ≤ ctx.dg.length then
    let dg := crypto_xor ctx.dg src len
    if len ≠ AES_BLOCK_SIZE then
      match xor_byte dg len 0x80 with
      | none => none
      | some dg1 =>
        let r := mac_do_update P tctx.key (tctx.consts.drop AES_BLOCK_SIZE) 1 dg1 false
        some (0, { dg := r.1 }, load r.1 0 AES_BLOCK_SIZE, r.2)
    else
      let r := mac_do_update P tctx.key tctx.consts 1 dg false
      some (0, { dg := r.1 }, load r.1 0 AES_BLOCK_SIZE, r.2)
  else none
/-! ## The scratch block of the stream-mode loops -/

/-- An access of a pass of ctr_encrypt or xctr_encrypt to its 16-byte scratch
block `buf`, with the offset in the block of the pointer used and the byte
count: `memcpy_to off n block` is memcpy(buf + off, src, n) and the block
after it; `prim_call dst_off src_off n block` is the call of the primitive
with dst = buf + dst_off and src = buf + src_off on n bytes and the block
after it; `memcpy_from off n bytes` is memcpy(walk.dst.virt.addr, buf + off,
n) and the bytes copied. -/
inductive ScratchOp where
  | memcpy_to (off n : Nat) (block : List Nat)
  | prim_call (dst_off src_off n : Nat) (block : List Nat)
  | memcpy_from (off n : Nat) (bytes : List Nat)
deriving DecidableEq, Repr

/-- The loop of ctr_encrypt with the accesses to the scratch block recorded:
a run shorter than a block is copied to buf + sizeof(buf) - nbytes, the
pointer memcpy returns becomes both src and dst of the primitive, and the
bytes at buf + sizeof(buf) - nbytes are copied to the destination run. Returns
the result of the loop and the accesses in order. -/
def ctr_encrypt_loop_scratch (P : AesPrim) (W : Cursor) (ctx : crypto_aes_ctx) (rounds : Nat)
    (buf : List Nat) :
    Nat → World → skcipher_walk → Int → (Int × World × skcipher_walk) × List ScratchOp
  | 0, w, walk, err => ((err, w, walk), [])
  | fuel + 1, w, walk, err =>
    if walk.nbytes = 0 then ((err, w, walk), [])
    else if walk.nbytes < AES_BLOCK_SIZE then
      let nbytes := walk.nbytes
      let off := AES_BLOCK_SIZE - nbytes
      let buf0 := store buf off (load (w.view walk.src) 0 nbytes)
      let r := aes_ctr_encrypt P (buf0.drop off) ctx.key_enc rounds nbytes w.iv
      let buf1 := store buf0 off r.1
      let out := load buf1 off nbytes
      let w1 := { (w.emit ([Event.kernel_neon_begin] ++ r.2.2 ++ [Event.kernel_neon_end])).write
                    walk.dst out with iv := r.2.1 }
      let d := skcipher_walk_done W walk (walk.nbytes - nbytes)
      let rest := ctr_encrypt_loop_scratch P W ctx rounds buf fuel
        (w1.emit [Event.skcipher_walk_done (walk.nbytes - nbytes)]) d.2 d.1
      (rest.1,
       [ScratchOp.memcpy_to off nbytes buf0, ScratchOp.prim_call off off nbytes buf1,
        ScratchOp.memcpy_from off nbytes out] ++ rest.2)
    else
      let nbytes := if walk.nbytes < walk.total then walk.nbytes - walk.nbytes % AES_BLOCK_SIZE
        else walk.nbytes
      let r := aes_ctr_encrypt P (w.view walk.src) ctx.key_enc rounds nbytes w.iv
      let w1 := { (w.emit ([Event.kernel_neon_begin] ++ r.2.2 ++ [Event.kernel_neon_end])).write
                    walk.dst r.1 with iv := r.2.1 }
      let d := skcipher_walk_done W walk (walk.nbytes - nbytes)
      ctr_encrypt_loop_scratch P W ctx rounds buf fuel
        (w1.emit [Event.skcipher_walk_done (walk.nbytes - nbytes)]) d.2 d.1

/-- The loop of xctr_encrypt with the accesses to the scratch block recorded,
as for ctr_encrypt. -/
def xctr_encrypt_loop_scratch (P : AesPrim) (W : Cursor) (ctx : crypto_aes_ctx) (rounds : Nat)
    (buf : List Nat) :
    Nat → World → skcipher_walk → Int → Nat → (Int × World × skcipher_walk) × List ScratchOp
  | 0, w, walk, err, _ => ((err, w, walk), [])
  | fuel + 1, w, walk, err, byte_ctr =>
    if walk.nbytes = 0 then ((err, w, walk), [])
    else if walk.nbytes < AES_BLOCK_SIZE then
      let nbytes := walk.nbytes
      let off := AES_BLOCK_SIZE - nbytes
      let buf0 := store buf off (load (w.view walk.src) 0 nbytes)
      let r := aes_xctr_encrypt P (buf0.drop off) ctx.key_enc rounds nbytes w.iv byte_ctr
      let buf1 := store buf0 off r.1
      let out := load buf1 off nbytes
      let w1 := { (w.emit ([Event.kernel_neon_begin] ++ r.2.2 ++ [Event.kernel_neon_end])).write
                    walk.dst out with iv := r.2.1 }
      let d := skcipher_walk_done W walk (walk.nbytes - nbytes)
      let rest := xctr_encrypt_loop_scratch P W ctx rounds buf fuel
        (w1.emit [Event.skcipher_walk_done (walk.nbytes - nbytes)]) d.2 d.1
        ((byte_ctr + nbytes) % 2 ^ 32)
      (rest.1,
       [ScratchOp.memcpy_to off nbytes buf0, ScratchOp.prim_call off off nbytes buf1,
        ScratchOp.memcpy_from off nbytes out] ++ rest.2)
    else
      let nbytes := if walk.nbytes < walk.total then walk.nbytes - walk.nbytes % AES_BLOCK_SIZE
        else walk.nbytes
      let r := aes_xctr_encrypt P (w.view walk.src) ctx.key_enc rounds nbytes w.iv byte_ctr
      let w1 := { (w.emit ([Event.kernel_neon_begin] ++ r.2.2 ++ [Event.kernel_neon_end])).write
                    walk.dst r.1 with iv := r.2.1 }
      let d := skcipher_walk_done W walk (walk.nbytes - nbytes)
      xctr_encrypt_loop_scratch P W ctx rounds buf fuel
        (w1.emit [Event.skcipher_walk_done (walk.nbytes - nbytes)]) d.2 d.1
        ((byte_ctr + nbytes) % 2 ^ 32)

/-- The function ctr_encrypt with the accesses to the scratch block
recorded. -/
def ctr_encrypt_scratch (P : AesPrim) (W : Cursor) (tfm : crypto_skcipher) (buf : List Nat)
    (w : World) (req : skcipher_request) : (Int × World) × List ScratchOp :=
  let rounds := 6 + tfm.ctx.key_length / 4
  let v := skcipher_walk_virt W tfm.alg req
  let r := ctr_encrypt_loop_scratch P W tfm.ctx rounds buf (req.cryptlen + 1)
    (w.emit [Event.skcipher_walk_virt req.cryptlen]) v.2 v.1
  ((r.1.1, r.1.2.1), r.2)

/-- The function xctr_encrypt with the accesses to the scratch block
recorded. -/
def xctr_encrypt_scratch (P : AesPrim) (W : Cursor) (tfm : crypto_skcipher) (buf : List Nat)
    (w : World) (req : skcipher_request) : (Int × World) × List ScratchOp :=
  let rounds := 6 + tfm.ctx.key_length / 4
  let v := skcipher_walk_virt W tfm.alg req
  let r := xctr_encrypt_loop_scratch P W tfm.ctx rounds buf (req.cryptlen + 1)
    (w.emit [Event.skcipher_walk_virt req.cryptlen]) v.2 v.1 0
  ((r.1.1, r.1.2.1), r.2)
/-! ## A small instance of the primitive, for evaluation -/

/-- A keyed involution on blocks standing in for the block cipher: every byte
is xored with the low byte of the first round-key word and the block is
reversed. -/
def toyBlock (rk : List Nat) (_rounds : Nat) (b : List Nat) : List Nat :=
  (b.map (fun x => x ^^^ (rk.headD 0 % 256))).reverse

/-- A small instance of the primitive: the raw key is its own schedule and
aes_mac_update yields after every second block. -/
def toyPrim : AesPrim where
  expand_enc := fun k => k
  expand_dec := fun k => k
  encrypt := toyBlock
  decrypt := toyBlock
  mac_yield := fun _ => 2

/-- A MAC transform context before any key is set. -/
def toyMacCtx : mac_tfm_ctx :=
  { key := { key_enc := [], key_dec := [], key_length := 0 },
    consts := List.replicate 32 0 }

/-- A 16-byte raw key. -/
def toyKey : List Nat := [1, 2, 3, 4, 5, 6, 7, 8, 9, 10, 11, 12, 13, 14, 15, 16]

/-- A MAC transform context holding the schedule of the 16-byte raw key and
two stored subkeys. -/
def toyMacKeyed : mac_tfm_ctx :=
  { key := { key_enc := toyKey, key_dec := toyKey, key_length := 16 },
    consts := List.range 32 }

/-- A message of 37 bytes. -/
def toyMsg : List Nat := (List.range 37).map (fun i => 3 * i + 1)

/-- A cursor over buffers cut into segments of 7 bytes that never fails. -/
def toyCursor : Cursor := { chunk := fun off _ => 7 - off % 7, fail := fun _ _ => 0 }

/-- A cursor whose first mapping fails with -ENOMEM. -/
def toyFailCursor : Cursor := { chunk := fun _ total => total, fail := fun _ _ => -12 }

/-- A state with a 70-byte source in buffer 0, zeroed buffers elsewhere and an
IV of 16 bytes. -/
def toyWorld : World :=
  { mem := fun i => if i = 0 then (List.range 70).map (fun x => x + 100) else List.replicate 70 0,
    iv := List.range 16, trace := [] }

/-- A key context for the small primitive. -/
def toyCtx : crypto_aes_ctx := { key_enc := [7], key_dec := [7], key_length := 16 }

/-- A request of `L` bytes from buffer 0 to buffer 1. -/
def toyReq (L : Nat) : skcipher_request :=
  { src := { id := 0, off := 0 }, dst := { id := 1, off := 0 }, cryptlen := L }

/-- A request of `L` bytes from buffer 1 to buffer 2. -/
def toyReqBack (L : Nat) : skcipher_request :=
  { src := { id := 1, off := 0 }, dst := { id := 2, off := 0 }, cryptlen := L }

/-- A 32-byte digest standing in for the hash transform: byte i is the sum of
the message bytes plus i, modulo 256. -/
def toyHash (m : List Nat) : List Nat := (List.range 32).map (fun i => (m.sum + i) % 256)

/-- An XTS context before any key is set. -/
def toyXtsEmpty : crypto_aes_xts_ctx :=
  { key1 := { key_enc := [], key_dec := [], key_length := 0 },
    key2 := { key_enc := [], key_dec := [], key_length := 0 } }

/-- An ESSIV context before any key is set. -/
def toyEssivEmpty : crypto_aes_essiv_cbc_ctx :=
  { key1 := { key_enc := [], key_dec := [], key_length := 0 },
    key2 := { key_enc := [], key_dec := [], key_length := 0 },
    hash := toyHash }

/-- An ESSIV context holding two schedules for the small primitive. -/
def toyEssivCtx : crypto_aes_essiv_cbc_ctx :=
  { key1 := toyCtx, key2 := { key_enc := [9], key_dec := [9], key_length := 32 },
    hash := toyHash }

/-- A key policy that accepts every key. -/
def toyPolicy : List Nat → Nat → Int := fun _ _ => 0

/-- What an uninitialised scratch block happens to hold. -/
def toyBuf : List Nat := List.replicate 16 170

/-- An XTS context holding two schedules for the small primitive. -/
def toyXtsCtx : crypto_aes_xts_ctx :=
  { key1 := toyCtx, key2 := { key_enc := [11], key_dec := [11], key_length := 16 } }

/-- A state whose buffers all hold 2^32 bytes. -/
def toyWorldLarge : World :=
  { mem := fun _ => List.replicate 4294967296 0, iv := List.range 16, trace := [] }

/-- A cursor over buffers that offer 20 contiguous bytes at every offset and
never fails. -/
def toyCursorWide : Cursor := { chunk := fun _ _ => 20, fail := fun _ _ => 0 }

/-! ## Buffer lemmas -/

theorem length_store (mem : List Nat) (off : Nat) (v : List Nat)
    (h : off + v.length ≤ mem.length) : (store mem off v).length = mem.length := by
  simp [store]; omega

theorem length_load (mem : List Nat) (off n : Nat)
    (h : off + n ≤ mem.length) : (load mem off n).length = n := by
  simp [load]; omega

theorem load_store_same (mem : List Nat) (off : Nat) (v : List Nat)
    (h : off ≤ mem.length) : load (store mem off v) off v.length = v := by
  unfold load store
  rw [List.append_assoc, List.drop_left' (by simp [h]), List.take_left' rfl]

theorem load_store_before (mem : List Nat) (off : Nat) (v : List Nat) (o n : Nat)
    (h : o + n ≤ off) (h2 : off ≤ mem.length) : load (store mem off v) o n = load mem o n := by
  unfold load store
  rw [List.append_assoc, List.drop_append_of_le_length (by simp; omega),
    List.take_append_of_le_length (by simp; omega)]
  rw [List.drop_take, List.take_take]
  congr 1; omega

theorem load_store_after (mem : List Nat) (off : Nat) (v : List Nat) (o n : Nat)
    (h : off + v.length ≤ o) (h2 : off ≤ mem.length) : load (store mem off v) o n = load mem o n := by
  unfold load store
  have : o = (List.take off mem ++ v).length + (o - off - v.length) := by simp; omega
  rw [this, ← List.drop_drop, List.drop_left' rfl, List.drop_drop]
  congr 2; simp; omega

theorem isBytes_store (mem : List Nat) (off : Nat) (v : List Nat)
    (hm : IsBytes mem) (hv : IsBytes v) : IsBytes (store mem off v) := by
  intro b hb
  simp only [store, List.mem_append] at hb
  rcases hb with (hb | hb) | hb
  · exact hm b (List.mem_of_mem_take hb)
  · exact hv b hb
  · exact hm b (List.mem_of_mem_drop hb)

theorem isBytes_load (mem : List Nat) (off n : Nat) (hm : IsBytes mem) : IsBytes (load mem off n) := by
  intro b hb
  exact hm b (List.mem_of_mem_drop (List.mem_of_mem_take hb))

theorem be64_roundtrip (v : Nat) (h : v < 2 ^ 64) : be64_to_cpu (cpu_to_be64 v) = v := by
  simp only [be64_to_cpu, cpu_to_be64, List.foldl]
  omega

theorem length_cpu_to_be64 (v : Nat) : (cpu_to_be64 v).length = 8 := rfl

theorem isBytes_cpu_to_be64 (v : Nat) : IsBytes (cpu_to_be64 v) := by
  intro b hb
  simp only [cpu_to_be64, List.mem_cons, List.mem_singleton, List.not_mem_nil, or_false] at hb
  omega

theorem be64_lt (bs : List Nat) (hl : bs.length = 8) (hb : IsBytes bs) : be64_to_cpu bs < 2 ^ 64 := by
  match bs, hl with
  | [b0, b1, b2, b3, b4, b5, b6, b7], _ =>
    have h0 := hb b0 (by simp)
    have h1 := hb b1 (by simp)
    have h2 := hb b2 (by simp)
    have h3 := hb b3 (by simp)
    have h4 := hb b4 (by simp)
    have h5 := hb b5 (by simp)
    have h6 := hb b6 (by simp)
    have h7 := hb b7 (by simp)
    simp only [be64_to_cpu, List.foldl]
    omega

/-! ## Doubling arithmetic -/

theorem xor_low (H L c : Nat) (hL : L < 2 ^ 64) (hc : c < 2 ^ 64) :
    (2 ^ 64 * H + L) ^^^ c = 2 ^ 64 * H + (L ^^^ c) := by
  apply Nat.eq_of_testBit_eq
  intro i
  have hx : L ^^^ c < 2 ^ 64 := Nat.xor_lt_two_pow hL hc
  rw [Nat.testBit_xor, Nat.testBit_mul_pow_two_add H hL, Nat.testBit_mul_pow_two_add H hx]
  by_cases h : i < 64
  · simp [h]
  · have : c.testBit i = false := Nat.testBit_lt_two_pow (Nat.lt_of_lt_of_le hc (Nat.pow_le_pow_right (by decide) (by omega)))
    simp [h, this]

theorem or_low (a b : Nat) (hb : b < 2 ^ 64) :
    ((a <<< 1) % 2 ^ 64) ||| (b >>> 63) = 2 * (a % 2 ^ 63) + b / 2 ^ 63 := by
  rw [Nat.shiftLeft_eq, Nat.shiftRight_eq_div_pow]
  have h1 : a * 2 ^ 1 % 2 ^ 64 = 2 ^ 1 * (a % 2 ^ 63) := by omega
  have h2 : b / 2 ^ 63 < 2 ^ 1 := by omega
  rw [h1, ← Nat.mul_add_lt_is_or h2]

theorem double_core (a b : Nat) (ha : a < 2 ^ 64) (hb : b < 2 ^ 64) :
    (((a <<< 1) % 2 ^ 64) ||| (b >>> 63)) * 2 ^ 64 +
      (((b <<< 1) % 2 ^ 64) ^^^ (if a >>> 63 ≠ 0 then 0x87 else 0)) =
    (2 * (a * 2 ^ 64 + b) % 2 ^ 128) ^^^ (if (a * 2 ^ 64 + b) / 2 ^ 127 % 2 = 1 then 0x87 else 0) := by
  rw [or_low a b hb]
  have hc : (if a >>> 63 ≠ 0 then 0x87 else 0) = (if (a * 2 ^ 64 + b) / 2 ^ 127 % 2 = 1 then 0x87 else 0) := by
    rw [Nat.shiftRight_eq_div_pow]
    have : (a / 2 ^ 63 ≠ 0) ↔ ((a * 2 ^ 64 + b) / 2 ^ 127 % 2 = 1) := by omega
    simp only [this]
  rw [hc]
  have h2 : 2 * (a * 2 ^ 64 + b) % 2 ^ 128 = 2 ^ 64 * (2 * (a % 2 ^ 63) + b / 2 ^ 63) + (b <<< 1) % 2 ^ 64 := by
    rw [Nat.shiftLeft_eq]; omega
  rw [h2, xor_low _ _ _ (Nat.mod_lt _ (by decide)) (by split <;> decide)]
  rw [Nat.mul_comm]

theorem mul_by_x_loads (mem : List Nat) (y : Nat) (A B : List Nat)
    (hA : A.length = 8) (hB : B.length = 8) (hy : y + 16 ≤ mem.length) :
    load (store (store mem y A) (y + 8) B) y 8 = A ∧
    load (store (store mem y A) (y + 8) B) (y + 8) 8 = B := by
  have hl : (store mem y A).length = mem.length := length_store mem y A (by omega)
  constructor
  · rw [load_store_before _ _ _ _ _ (by omega) (by omega)]
    have := load_store_same mem y A (by omega)
    rwa [hA] at this
  · have := load_store_same (store mem y A) (y + 8) B (by omega)
    rwa [hB] at this

theorem mul_by_x_spec (mem : List Nat) (y x : Nat)
    (hb : IsBytes mem) (hx : x + 16 ≤ mem.length) (hy : y + 16 ≤ mem.length) :
    be128_val (cmac_gf128_mul_by_x mem y x) y = spec_double (be128_val mem x) ∧
    (cmac_gf128_mul_by_x mem y x).length = mem.length ∧
    IsBytes (cmac_gf128_mul_by_x mem y x) ∧
    (∀ o n, o + n ≤ y ∨ y + 16 ≤ o →
      load (cmac_gf128_mul_by_x mem y x) o n = load mem o n) := by
  have ha : be64_to_cpu (load mem x 8) < 2 ^ 64 :=
    be64_lt _ (length_load mem x 8 (by omega)) (isBytes_load mem x 8 hb)
  have hb2 : be64_to_cpu (load mem (x + 8) 8) < 2 ^ 64 :=
    be64_lt _ (length_load mem (x + 8) 8 (by omega)) (isBytes_load mem (x + 8) 8 hb)
  refine ⟨?_, ?_, ?_, ?_⟩
  · unfold be128_val cmac_gf128_mul_by_x
    simp only []
    obtain ⟨h1, h2⟩ := mul_by_x_loads mem y
      (cpu_to_be64 (((be64_to_cpu (load mem x 8) <<< 1) % 2 ^ 64) |||
        (be64_to_cpu (load mem (x + 8) 8) >>> 63)))
      (cpu_to_be64 (((be64_to_cpu (load mem (x + 8) 8) <<< 1) % 2 ^ 64) ^^^
        (if be64_to_cpu (load mem x 8) >>> 63 ≠ 0 then 0x87 else 0)))
      rfl rfl hy
    rw [h1, h2, be64_roundtrip, be64_roundtrip]
    · exact double_core _ _ ha hb2
    · exact Nat.xor_lt_two_pow (Nat.mod_lt _ (by decide)) (by split <;> decide)
    · apply Nat.or_lt_two_pow (Nat.mod_lt _ (by decide))
      rw [Nat.shiftRight_eq_div_pow]; omega
  · unfold cmac_gf128_mul_by_x
    simp only []
    rw [length_store, length_store]
    · simp only [length_cpu_to_be64]; omega
    · rw [length_store]
      · simp only [length_cpu_to_be64]; omega
      · simp only [length_cpu_to_be64]; omega
  · unfold cmac_gf128_mul_by_x
    exact isBytes_store _ _ _ (isBytes_store _ _ _ hb (isBytes_cpu_to_be64 _))
      (isBytes_cpu_to_be64 _)
  · intro o n h
    unfold cmac_gf128_mul_by_x
    simp only []
    have hl : ∀ A : List Nat, A.length = 8 → (store mem y A).length = mem.length :=
      fun A hA => length_store mem y A (by omega)
    rcases h with h | h
    · rw [load_store_before _ _ _ _ _ (by omega) (by rw [hl _ (length_cpu_to_be64 _)]; omega),
        load_store_before _ _ _ _ _ (by omega) (by omega)]
    · rw [load_store_after _ _ _ _ _ (by simp only [length_cpu_to_be64]; omega)
          (by rw [hl _ (length_cpu_to_be64 _)]; omega),
        load_store_after _ _ _ _ _ (by simp only [length_cpu_to_be64]; omega) (by omega)]

/-! ## MAC lemmas -/

theorem length_crypto_xor (d s : List Nat) (n : Nat) : (crypto_xor d s n).length = d.length := by
  induction d generalizing s n with
  | nil => simp [crypto_xor]
  | cons a d ih =>
    cases s with
    | nil => simp [crypto_xor]
    | cons b s =>
      cases n with
      | zero => simp [crypto_xor]
      | succ n => simp [crypto_xor, ih]

theorem crypto_xor_eq_xor_block (d s : List Nat) (n : Nat) (h1 : d.length = s.length)
    (h2 : d.length ≤ n) : crypto_xor d s n = xor_block d s := by
  induction d generalizing s n with
  | nil => simp [crypto_xor, xor_block]
  | cons a d ih =>
    cases s with
    | nil => simp at h1
    | cons b s =>
      cases n with
      | zero => simp at h2
      | succ n =>
        simp only [List.length_cons, Nat.add_right_cancel_iff, Nat.add_le_add_iff_right] at h1 h2
        simp only [crypto_xor, xor_block, List.zipWith_cons_cons, ih s n h1 h2]

theorem length_xor_block (a b : List Nat) : (xor_block a b).length = min a.length b.length := by
  simp [xor_block]

theorem crypto_xor_zero_extend (d s : List Nat) (n m : Nat) (hd : d.length = m) (hn : n ≤ m)
    (hs : n ≤ s.length) :
    crypto_xor d s n = xor_block d (s.take n ++ List.replicate (m - n) 0) := by
  induction d generalizing s n m with
  | nil =>
    simp at hd; subst hd; simp at hn; subst hn; simp [crypto_xor, xor_block]
  | cons a d ih =>
    cases m with
    | zero => simp at hd
    | succ m =>
      simp only [List.length_cons, Nat.add_right_cancel_iff] at hd
      cases n with
      | zero =>
        have : crypto_xor (a :: d) s 0 = a :: d := by cases s <;> simp [crypto_xor]
        rw [this]
        have h0 := ih [] 0 m hd (Nat.zero_le _) (Nat.zero_le _)
        have hc : crypto_xor d [] 0 = d := by cases d <;> simp [crypto_xor]
        rw [hc] at h0
        simp only [List.take_zero, List.nil_append, Nat.sub_zero] at h0 ⊢
        rw [List.replicate_succ]
        simp only [xor_block, List.zipWith_cons_cons, Nat.xor_zero]
        exact congrArg (List.cons a) h0
      | succ n =>
        cases s with
        | nil => simp at hs
        | cons b s =>
          simp only [List.length_cons, Nat.add_le_add_iff_right] at hs hn
          simp only [crypto_xor, List.take_succ_cons, List.cons_append, xor_block,
            List.zipWith_cons_cons, Nat.add_sub_add_right]
          rw [ih s n m hd hn hs]; rfl

theorem crypto_xor_pad (d s : List Nat) (n m : Nat) (hd : d.length = m) (hn : n < m)
    (hs : n ≤ s.length) :
    (crypto_xor d s n).set n ((crypto_xor d s n).getD n 0 ^^^ 0x80) =
      xor_block d (s.take n ++ 0x80 :: List.replicate (m - n - 1) 0) := by
  induction d generalizing s n m with
  | nil => simp at hd; omega
  | cons a d ih =>
    cases m with
    | zero => simp at hd
    | succ m =>
      simp only [List.length_cons, Nat.add_right_cancel_iff] at hd
      cases n with
      | zero =>
        have : crypto_xor (a :: d) s 0 = a :: d := by cases s <;> simp [crypto_xor]
        rw [this]
        have h0 := crypto_xor_zero_extend d [] 0 m hd (Nat.zero_le _) (Nat.zero_le _)
        have hc : crypto_xor d [] 0 = d := by cases d <;> simp [crypto_xor]
        rw [hc] at h0
        simp only [List.take_zero, List.nil_append, Nat.sub_zero] at h0
        simp only [List.set_cons_zero, List.getD_cons_zero, List.take_zero, List.nil_append,
          Nat.sub_zero, Nat.add_sub_cancel, xor_block, List.zipWith_cons_cons]
        exact congrArg (List.cons (a ^^^ 128)) h0
      | succ n =>
        cases s with
        | nil => simp at hs
        | cons b s =>
          simp only [List.length_cons, Nat.add_le_add_iff_right] at hs
          have hn2 : n < m := by omega
          have := ih s n m hd hn2 hs
          simp only [crypto_xor, List.set_cons_succ, List.getD_cons_succ, List.take_succ_cons,
            List.cons_append, xor_block, List.zipWith_cons_cons, Nat.add_sub_add_right]
          rw [this]; rfl

theorem load_zero_eq (l : List Nat) (n : Nat) (h : l.length = n) : load l 0 n = l := by
  simp [load, ← h]

theorem encryptions_append (a b : List Event) :
    encryptions (a ++ b) = encryptions a + encryptions b := by
  simp [encryptions, List.count_append]

theorem encryptions_call (c : Event) (n : Nat) (hc : c ≠ Event.encrypt_block) :
    encryptions ([Event.kernel_neon_begin] ++ (c :: List.replicate n Event.encrypt_block) ++
      [Event.kernel_neon_end]) = n := by
  simp [encryptions, List.count_append, List.count_cons, hc, List.count_replicate]

theorem mac_progress_zero (P : AesPrim) : mac_progress P 0 = 0 := rfl

theorem mac_progress_pos (P : AesPrim) (b : Nat) (h : 0 < b) :
    1 ≤ mac_progress P b ∧ mac_progress P b ≤ b := by
  unfold mac_progress
  rw [if_neg (by omega)]
  omega

theorem mac_progress_one (P : AesPrim) : mac_progress P 1 = 1 := by
  have := mac_progress_pos P 1 (by decide); omega

theorem mac_chain_after (P : AesPrim) (hP : BlockPreserving P) (rk : List Nat) (rounds : Nat)
    (k blocks : Nat) (inp dg : List Nat) (hd : dg.length = AES_BLOCK_SIZE)
    (hi : AES_BLOCK_SIZE * k ≤ inp.length) :
    mac_chain P rk rounds true k blocks inp dg =
      (cbcmac_chain (P.encrypt rk rounds) k inp dg, k) := by
  induction k generalizing blocks inp dg with
  | zero => rfl
  | succ k ih =>
    have hl : (load inp 0 AES_BLOCK_SIZE).length = AES_BLOCK_SIZE :=
      length_load inp 0 AES_BLOCK_SIZE (by simp only [AES_BLOCK_SIZE] at hi ⊢; omega)
    have hx : crypto_xor dg (load inp 0 AES_BLOCK_SIZE) AES_BLOCK_SIZE =
        xor_block dg (load inp 0 AES_BLOCK_SIZE) :=
      crypto_xor_eq_xor_block _ _ _ (by rw [hd, hl]) (by rw [hd])
    have hxl : (xor_block dg (load inp 0 AES_BLOCK_SIZE)).length = AES_BLOCK_SIZE := by
      rw [length_xor_block, hd, hl]; simp
    simp only [mac_chain, hx, cbcmac_chain]
    rw [if_neg (by simp)]
    rw [ih (blocks - 1) (inp.drop AES_BLOCK_SIZE) _ (hP rk rounds _ hxl).1
      (by simp only [List.length_drop, AES_BLOCK_SIZE] at hi ⊢; omega)]

theorem length_cbcmac_chain (E : List Nat → List Nat)
    (hE : ∀ b, b.length = AES_BLOCK_SIZE → (E b).length = AES_BLOCK_SIZE)
    (n : Nat) (p d : List Nat) (hd : d.length = AES_BLOCK_SIZE)
    (hp : AES_BLOCK_SIZE * n ≤ p.length) :
    (cbcmac_chain E n p d).length = AES_BLOCK_SIZE := by
  induction n generalizing p d with
  | zero => exact hd
  | succ n ih =>
    have hl : (load p 0 AES_BLOCK_SIZE).length = AES_BLOCK_SIZE :=
      length_load p 0 AES_BLOCK_SIZE (by simp only [AES_BLOCK_SIZE] at hp ⊢; omega)
    simp only [cbcmac_chain]
    apply ih
    · apply hE; rw [length_xor_block, hd, hl]; simp
    · simp only [List.length_drop, AES_BLOCK_SIZE] at hp ⊢; omega

theorem cbcmac_chain_add (E : List Nat → List Nat) (k r : Nat) (p d : List Nat) :
    cbcmac_chain E (k + r) p d =
      cbcmac_chain E r (p.drop (k * AES_BLOCK_SIZE)) (cbcmac_chain E k p d) := by
  induction k generalizing p d with
  | zero => simp [cbcmac_chain]
  | succ k ih =>
    rw [Nat.add_right_comm]
    simp only [cbcmac_chain]
    rw [ih, List.drop_drop]
    congr 2
    simp only [AES_BLOCK_SIZE]; omega

theorem cbcmac_chain_congr (E : List Nat → List Nat) (n : Nat) (p q d : List Nat)
    (h : p.take (AES_BLOCK_SIZE * n) = q.take (AES_BLOCK_SIZE * n)) :
    cbcmac_chain E n p d = cbcmac_chain E n q d := by
  induction n generalizing p q d with
  | zero => rfl
  | succ n ih =>
    simp only [cbcmac_chain]
    have h1 : load p 0 AES_BLOCK_SIZE = load q 0 AES_BLOCK_SIZE := by
      have := congrArg (List.take AES_BLOCK_SIZE) h
      simp only [List.take_take] at this
      rw [Nat.min_eq_left (by simp only [AES_BLOCK_SIZE]; omega)] at this
      simpa [load] using this
    have h2 : (p.drop AES_BLOCK_SIZE).take (AES_BLOCK_SIZE * n) =
        (q.drop AES_BLOCK_SIZE).take (AES_BLOCK_SIZE * n) := by
      have := congrArg (List.drop AES_BLOCK_SIZE) h
      simp only [List.drop_take] at this
      have e : AES_BLOCK_SIZE * (n + 1) - AES_BLOCK_SIZE = AES_BLOCK_SIZE * n := by
        simp only [AES_BLOCK_SIZE]; omega
      rwa [e] at this
    rw [h1, ih _ _ _ h2]

/-- The loop of mac_do_update with the encrypt-before flag clear computes the
CBC-MAC chain over all its blocks, whatever the primitive's yield points. -/
theorem mac_do_update_loop_chain (P : AesPrim) (hP : BlockPreserving P) (ctx : crypto_aes_ctx)
    (blocks : Nat) : ∀ (fuel : Nat) (inp dg : List Nat), blocks ≤ fuel →
    dg.length = AES_BLOCK_SIZE → AES_BLOCK_SIZE * blocks ≤ inp.length →
    (mac_do_update_loop P ctx false fuel inp blocks dg).1 =
      cbcmac_chain (P.encrypt ctx.key_enc (6 + ctx.key_length / 4)) blocks inp dg ∧
    encryptions (mac_do_update_loop P ctx false fuel inp blocks dg).2 = blocks := by
  induction blocks using Nat.strong_induction_on with
  | _ blocks ih =>
    intro fuel inp dg hf hd hi
    have hk : blocks = 0 ∨ 0 < blocks := Nat.eq_zero_or_pos blocks
    rcases hk with hk | hk
    · subst hk
      cases fuel <;>
        simp [mac_do_update_loop, aes_mac_update, mac_progress_zero, mac_chain, cbcmac_chain,
          encryptions]
    · obtain ⟨k1, k2⟩ := mac_progress_pos P blocks hk
      have hch := mac_chain_after P hP ctx.key_enc (6 + ctx.key_length / 4)
        (mac_progress P blocks) blocks inp dg hd
        (Nat.le_trans (Nat.mul_le_mul_left _ k2) hi)
      cases fuel with
      | zero => omega
      | succ fuel =>
        rw [mac_do_update_loop]
        simp only [aes_mac_update, Bool.not_false, Bool.false_eq_true, if_false, hch,
          Nat.zero_add]
        by_cases hr : blocks - mac_progress P blocks = 0
        · have hkb : mac_progress P blocks = blocks := by omega
          rw [if_pos hr, hkb]
          exact ⟨rfl, encryptions_call _ _ (by simp)⟩
        · rw [if_neg hr]
          have hsub : blocks - (blocks - mac_progress P blocks) = mac_progress P blocks := by
            omega
          have hlt : blocks - mac_progress P blocks < blocks := by omega
          have hlen := length_cbcmac_chain (P.encrypt ctx.key_enc (6 + ctx.key_length / 4))
            (fun b hb => (hP _ _ b hb).1) (mac_progress P blocks) inp dg hd
            (Nat.le_trans (Nat.mul_le_mul_left _ k2) hi)
          have := ih (blocks - mac_progress P blocks) hlt fuel
            (inp.drop ((blocks - (blocks - mac_progress P blocks)) * AES_BLOCK_SIZE))
            (cbcmac_chain (P.encrypt ctx.key_enc (6 + ctx.key_length / 4))
              (mac_progress P blocks) inp dg)
            (by omega) hlen
            (by
              rw [hsub]
              simp only [List.length_drop, AES_BLOCK_SIZE] at hi ⊢
              have : 16 * (blocks - mac_progress P blocks) + mac_progress P blocks * 16 =
                  16 * blocks := by
                rw [Nat.mul_sub]; have := Nat.mul_le_mul_left 16 k2; omega
              omega)
          obtain ⟨h1, h2⟩ := this
          constructor
          · simp only []
            rw [h1, hsub, ← cbcmac_chain_add]
            congr 1; omega
          · simp only []
            rw [encryptions_append, h2, encryptions_call _ _ (by simp)]
            omega

theorem aes_mac_update_rem (P : AesPrim) (inp rk : List Nat) (rounds blocks : Nat)
    (dg : List Nat) (eb ea : Bool) :
    (aes_mac_update P inp rk rounds blocks dg eb ea).1 = blocks - mac_progress P blocks := rfl

/-- The bound on the passes of mac_do_update is never reached: any bound of at
least `blocks` gives the same result. -/
theorem mac_do_update_loop_fuel (P : AesPrim) (ctx : crypto_aes_ctx) (eb : Bool)
    (blocks : Nat) : ∀ (fuel : Nat) (inp dg : List Nat), blocks ≤ fuel →
    mac_do_update_loop P ctx eb fuel inp blocks dg =
      mac_do_update_loop P ctx eb blocks inp blocks dg := by
  induction blocks using Nat.strong_induction_on with
  | _ blocks ih =>
    intro fuel inp dg hf
    rcases Nat.eq_zero_or_pos blocks with hb | hb
    · subst hb
      cases fuel with
      | zero => rfl
      | succ fuel =>
        rw [mac_do_update_loop, mac_do_update_loop]
        simp only [aes_mac_update_rem, mac_progress_zero, Nat.sub_self, if_true]
    · obtain ⟨k1, k2⟩ := mac_progress_pos P blocks hb
      cases fuel with
      | zero => omega
      | succ fuel =>
        cases blocks with
        | zero => omega
        | succ b =>
          rw [mac_do_update_loop, mac_do_update_loop]
          simp only [aes_mac_update_rem]
          by_cases hr : b + 1 - mac_progress P (b + 1) = 0
          · simp only [hr, if_true]
          · simp only [hr, if_false]
            rw [ih (b + 1 - mac_progress P (b + 1)) (by omega) fuel _ _ (by omega),
              ih (b + 1 - mac_progress P (b + 1)) (by omega) b _ _ (by omega)]

/-- The do-while loop of mac_do_update: one call of the primitive, and the
function again on what the call left unless it left nothing. -/
theorem mac_do_update_unfold (P : AesPrim) (ctx : crypto_aes_ctx) (inp : List Nat)
    (blocks : Nat) (dg : List Nat) (eb : Bool) :
    mac_do_update P ctx inp blocks dg eb =
      (if (aes_mac_update P inp ctx.key_enc (6 + ctx.key_length / 4) blocks dg eb (!eb)).1 = 0
       then
        ((aes_mac_update P inp ctx.key_enc (6 + ctx.key_length / 4) blocks dg eb (!eb)).2.1,
         [Event.kernel_neon_begin] ++
           (aes_mac_update P inp ctx.key_enc (6 + ctx.key_length / 4) blocks dg eb (!eb)).2.2 ++
           [Event.kernel_neon_end])
       else
        ((mac_do_update P ctx
            (inp.drop ((blocks -
              (aes_mac_update P inp ctx.key_enc (6 + ctx.key_length / 4) blocks dg eb (!eb)).1) *
                AES_BLOCK_SIZE))
            (aes_mac_update P inp ctx.key_enc (6 + ctx.key_length / 4) blocks dg eb (!eb)).1
            (aes_mac_update P inp ctx.key_enc (6 + ctx.key_length / 4) blocks dg eb (!eb)).2.1
            eb).1,
         [Event.kernel_neon_begin] ++
           (aes_mac_update P inp ctx.key_enc (6 + ctx.key_length / 4) blocks dg eb (!eb)).2.2 ++
           [Event.kernel_neon_end] ++
           (mac_do_update P ctx
            (inp.drop ((blocks -
              (aes_mac_update P inp ctx.key_enc (6 + ctx.key_length / 4) blocks dg eb (!eb)).1) *
                AES_BLOCK_SIZE))
            (aes_mac_update P inp ctx.key_enc (6 + ctx.key_length / 4) blocks dg eb (!eb)).1
            (aes_mac_update P inp ctx.key_enc (6 + ctx.key_length / 4) blocks dg eb (!eb)).2.1
            eb).2)) := by
  unfold mac_do_update
  cases blocks with
  | zero =>
    rw [mac_do_update_loop]
    simp only [aes_mac_update_rem, mac_progress_zero, Nat.sub_self, if_true]
  | succ b =>
    obtain ⟨k1, k2⟩ := mac_progress_pos P (b + 1) (by omega)
    rw [mac_do_update_loop]
    simp only [aes_mac_update_rem]
    by_cases hr : b + 1 - mac_progress P (b + 1) = 0
    · simp only [hr, if_true]
    · simp only [hr, if_false]
      rw [mac_do_update_loop_fuel P ctx eb (b + 1 - mac_progress P (b + 1)) b _ _ (by omega)]

theorem load_store_within (mem : List Nat) (off : Nat) (v : List Nat) (o n : Nat)
    (h : o + n ≤ v.length) (h2 : off ≤ mem.length) :
    load (store mem off v) (off + o) n = load v o n := by
  unfold load store
  rw [List.append_assoc]
  have e : off + o = (List.take off mem).length + o := by simp [h2]
  rw [e, List.drop_append, List.drop_append_of_le_length (by omega),
    List.take_append_of_le_length (by simp; omega)]

theorem be128_val_store (mem v : List Nat) (off : Nat) (hv : v.length = 16)
    (h : off ≤ mem.length) : be128_val (store mem off v) off = be128_val v 0 := by
  unfold be128_val
  have h1 := load_store_within mem off v 0 8 (by omega) h
  have h2 := load_store_within mem off v 8 8 (by omega) h
  rw [Nat.add_zero] at h1
  rw [h1, h2]

theorem be128_val_congr (m1 m2 : List Nat) (off : Nat)
    (h : ∀ o n, off ≤ o ∧ o + n ≤ off + 16 → load m1 o n = load m2 o n) :
    be128_val m1 off = be128_val m2 off := by
  unfold be128_val
  rw [h off 8 (by omega), h (off + 8) 8 (by omega)]

theorem ecb_encrypt_one (P : AesPrim) (inp rk : List Nat) (rounds : Nat) :
    aes_ecb_encrypt P inp rk rounds 1 =
      (P.encrypt rk rounds (load inp 0 AES_BLOCK_SIZE),
       [Event.aes_ecb_encrypt rk rounds 1, Event.encrypt_block]) := by
  simp [aes_ecb_encrypt, List.range_succ]

theorem ecb_encrypt_two (P : AesPrim) (inp rk : List Nat) (rounds : Nat) :
    aes_ecb_encrypt P inp rk rounds 2 =
      (P.encrypt rk rounds (load inp 0 AES_BLOCK_SIZE) ++
        P.encrypt rk rounds (load inp AES_BLOCK_SIZE AES_BLOCK_SIZE),
       [Event.aes_ecb_encrypt rk rounds 2, Event.encrypt_block, Event.encrypt_block]) := by
  simp [aes_ecb_encrypt, List.range_succ, List.replicate_succ]

theorem aes_expandkey_ok (P : AesPrim) (ctx : crypto_aes_ctx) (in_key : List Nat)
    (key_len : Nat) (h : (aes_expandkey P ctx in_key key_len).1 = 0) :
    (aes_expandkey P ctx in_key key_len).2 =
      { key_enc := P.expand_enc (in_key.take key_len),
        key_dec := P.expand_dec (in_key.take key_len),
        key_length := key_len } := by
  unfold aes_expandkey at h ⊢
  split
  · rfl
  · rename_i hn; rw [if_neg hn] at h; simp [EINVAL] at h

theorem aes_expandkey_fail (P : AesPrim) (ctx : crypto_aes_ctx) (in_key : List Nat)
    (key_len : Nat) (h : (aes_expandkey P ctx in_key key_len).1 ≠ 0) :
    aes_expandkey P ctx in_key key_len = (-EINVAL, ctx) := by
  unfold aes_expandkey at h ⊢
  split
  · rename_i hn; rw [if_pos hn] at h; simp at h
  · rfl

theorem aes_expandkey_ok_iff (P : AesPrim) (ctx : crypto_aes_ctx) (in_key : List Nat)
    (key_len : Nat) :
    (aes_expandkey P ctx in_key key_len).1 = 0 ↔ key_len = 16 ∨ key_len = 24 ∨ key_len = 32 := by
  unfold aes_expandkey
  split
  · rename_i hn; simp [hn]
  · rename_i hn; simp [hn, EINVAL]

theorem mac_do_update_final (P : AesPrim) (ctx : crypto_aes_ctx) (dg : List Nat) :
    mac_do_update P ctx [] 0 dg true =
      (P.encrypt ctx.key_enc (6 + ctx.key_length / 4) dg,
       [Event.kernel_neon_begin,
        Event.aes_mac_update ctx.key_enc (6 + ctx.key_length / 4) 0 true false,
        Event.encrypt_block, Event.kernel_neon_end]) := rfl

theorem mac_do_update_one (P : AesPrim) (hP : BlockPreserving P) (ctx : crypto_aes_ctx)
    (inp dg : List Nat) (hd : dg.length = AES_BLOCK_SIZE) (hi : AES_BLOCK_SIZE ≤ inp.length) :
    (mac_do_update P ctx inp 1 dg false).1 =
      P.encrypt ctx.key_enc (6 + ctx.key_length / 4) (xor_block dg (load inp 0 AES_BLOCK_SIZE)) ∧
    encryptions (mac_do_update P ctx inp 1 dg false).2 = 1 := by
  have := mac_do_update_loop_chain P hP ctx 1 1 inp dg (Nat.le_refl _) hd (by simpa using hi)
  simpa [mac_do_update, cbcmac_chain] using this

/-- The digest after mac_update from any 16-byte digest. -/
theorem mac_update_from (P : AesPrim) (hP : BlockPreserving P) (tctx : mac_tfm_ctx)
    (ctx : mac_desc_ctx) (p : List Nat) (len : Nat) (hd : ctx.dg.length = AES_BLOCK_SIZE)
    (hp : len ≤ p.length) :
    (mac_update P tctx ctx p len).1 = len % 16 ∧
    (mac_update P tctx ctx p len).2.1.dg =
      cbcmac_chain (P.encrypt tctx.key.key_enc (6 + tctx.key.key_length / 4)) (len / 16) p
        ctx.dg ∧
    encryptions (mac_update P tctx ctx p len).2.2 = len / 16 := by
  have := mac_do_update_loop_chain P hP tctx.key (len / 16) (len / 16) p ctx.dg (Nat.le_refl _)
    hd (by simp only [AES_BLOCK_SIZE]; omega)
  exact ⟨rfl, this.1, this.2⟩

theorem toyBlock_length (rk : List Nat) (r : Nat) (b : List Nat) :
    (toyBlock rk r b).length = b.length := by
  simp [toyBlock]

theorem toyBlock_bytes (rk : List Nat) (r : Nat) (b : List Nat) (hb : IsBytes b) :
    IsBytes (toyBlock rk r b) := by
  intro x hx
  simp only [toyBlock, List.mem_reverse, List.mem_map] at hx
  obtain ⟨y, hy, rfl⟩ := hx
  exact Nat.xor_lt_two_pow (n := 8) (hb y hy) (Nat.mod_lt _ (by decide))

theorem toyBlock_involutive (rk : List Nat) (r : Nat) (b : List Nat) :
    toyBlock rk r (toyBlock rk r b) = b := by
  simp only [toyBlock, List.map_reverse, List.reverse_reverse, List.map_map]
  conv_rhs => rw [← List.map_id b]
  apply List.map_congr_left
  intro a _
  simp [Function.comp, Nat.xor_assoc]

theorem toyPrim_blockPreserving : BlockPreserving toyPrim := by
  intro rk r b hb
  exact ⟨by rw [← hb]; exact toyBlock_length rk r b, by rw [← hb]; exact toyBlock_length rk r b⟩

theorem toyPrim_bytePreserving : BytePreserving toyPrim :=
  fun rk r b hb => ⟨toyBlock_bytes rk r b hb, toyBlock_bytes rk r b hb⟩

/-! ## Cursor and block-loop lemmas -/

theorem store_nil (m : List Nat) (off : Nat) : store m off [] = m := by
  simp [store]

theorem store_store (m : List Nat) (off : Nat) (a b : List Nat) (h : off ≤ m.length) :
    store (store m off a) (off + a.length) b = store m off (a ++ b) := by
  unfold store
  have e1 : off + a.length = (List.take off m ++ a).length := by simp [h]
  rw [List.append_assoc (List.take off m) a, ← List.append_assoc (List.take off m) a, e1,
    List.take_left' rfl]
  congr 1
  · simp
  · rw [← e1]
    have e2 : off + a.length + b.length = (List.take off m ++ a).length + b.length := by
      rw [← e1]
    rw [e2, ← List.drop_drop, List.drop_left' rfl, List.drop_drop]
    congr 1
    simp only [List.length_append]
    omega

theorem drop_store_after (m : List Nat) (off : Nat) (v : List Nat) (k : Nat)
    (h : off ≤ m.length) (hk : off + v.length ≤ k) :
    (store m off v).drop k = m.drop k := by
  unfold store
  have e : k = (List.take off m ++ v).length + (k - off - v.length) := by simp; omega
  rw [e, ← List.drop_drop, List.drop_left' rfl, List.drop_drop]
  congr 1; simp; omega

theorem walk_next_ok (W : Cursor) (hW : W.NoFail) (walk : skcipher_walk) (n : Nat)
    (hn : 0 < n) (ht : walk.total = 16 * n) (hb : walk.blocksize = 16)
    (hs : 16 ≤ walk.stride) (ha : walk.src = walk.dst ∨ walk.src.id ≠ walk.dst.id) :
    (skcipher_walk_next W walk).1 = 0 ∧ WalkOK (skcipher_walk_next W walk).2 n ∧
    (skcipher_walk_next W walk).2.src = walk.src ∧
    (skcipher_walk_next W walk).2.dst = walk.dst := by
  unfold skcipher_walk_next
  rw [if_neg (by rw [ht, hb]; omega), if_neg (by simp [hW _ _])]
  refine ⟨rfl, ⟨ht, hb, hs, fun h => by omega, fun _ => ?_, ha⟩, rfl, rfl⟩
  simp only []
  constructor
  · apply Nat.le_trans _ (Nat.le_max_left _ _)
    apply Nat.le_min.mpr
    exact ⟨hs, by rw [ht]; omega⟩
  · apply Nat.max_le.mpr
    exact ⟨Nat.min_le_right _ _, Nat.min_le_left _ _⟩

theorem walk_done_ok (W : Cursor) (hW : W.NoFail) (walk : skcipher_walk) (n : Nat)
    (hn : 0 < n) (hw : WalkOK walk n) :
    (skcipher_walk_done W walk (walk.nbytes % 16)).1 = 0 ∧
    WalkOK (skcipher_walk_done W walk (walk.nbytes % 16)).2 (n - walk.nbytes / 16) ∧
    (skcipher_walk_done W walk (walk.nbytes % 16)).2.src =
      scatterwalk_ffwd walk.src (16 * (walk.nbytes / 16)) ∧
    (skcipher_walk_done W walk (walk.nbytes % 16)).2.dst =
      scatterwalk_ffwd walk.dst (16 * (walk.nbytes / 16)) := by
  obtain ⟨h16, hle⟩ := hw.run hn
  have ht := hw.total
  have hsub : walk.nbytes - walk.nbytes % 16 = 16 * (walk.nbytes / 16) := by omega
  have hbn : walk.nbytes / 16 ≤ n := by omega
  have hal : scatterwalk_ffwd walk.src (16 * (walk.nbytes / 16)) =
        scatterwalk_ffwd walk.dst (16 * (walk.nbytes / 16)) ∨
      (scatterwalk_ffwd walk.src (16 * (walk.nbytes / 16))).id ≠
        (scatterwalk_ffwd walk.dst (16 * (walk.nbytes / 16))).id := by
    rcases hw.aliasing with h | h
    · left; rw [h]
    · right; exact h
  have htot : walk.total - 16 * (walk.nbytes / 16) = 16 * (n - walk.nbytes / 16) := by
    omega
  unfold skcipher_walk_done
  rw [if_neg (by omega)]
  simp only [hsub, htot]
  by_cases hz : n - walk.nbytes / 16 = 0
  · rw [if_neg (by rw [hz]; simp)]
    rw [hz]
    exact ⟨rfl, ⟨rfl, hw.blocksize, hw.stride, fun _ => rfl, fun h => absurd h (by omega),
      hal⟩, rfl, rfl⟩
  · rw [if_pos (by omega)]
    exact walk_next_ok W hW _ _ (by omega) rfl hw.blocksize hw.stride hal

theorem world_write_mem_nil (w : World) (sg : scatterlist) : (w.write sg []).mem = w.mem := by
  funext i
  simp only [World.write]
  split
  · exact store_nil _ _
  · rfl

theorem world_at_after_write (w : World) (src dst : scatterlist) (v : List Nat) (k : Nat)
    (ha : src = dst ∨ src.id ≠ dst.id) (hk : v.length ≤ k)
    (hb : dst.off ≤ (w.mem dst.id).length) :
    (w.write dst v).view (scatterwalk_ffwd src k) = (w.view src).drop k := by
  simp only [World.view, World.write, scatterwalk_ffwd, List.drop_drop]
  rcases ha with h | h
  · subst h
    rw [if_pos rfl, drop_store_after _ _ _ _ hb (by omega)]
  · rw [if_neg h]

theorem world_write_write (w : World) (dst : scatterlist) (a b : List Nat) (iv : List Nat)
    (tr : List Event) (hb : dst.off ≤ (w.mem dst.id).length) :
    (({ mem := (w.write dst a).mem, iv := iv, trace := tr } : World).write
        (scatterwalk_ffwd dst a.length) b).mem = (w.write dst (a ++ b)).mem := by
  funext i
  simp only [World.write, scatterwalk_ffwd]
  by_cases h : i = dst.id
  · subst h
    simp only [if_true]
    exact store_store _ _ _ _ hb
  · simp only [if_neg h]

theorem world_write_length (w : World) (dst : scatterlist) (v : List Nat) (i : Nat)
    (h : dst.off + v.length ≤ (w.mem dst.id).length) :
    ((w.write dst v).mem i).length = (w.mem i).length := by
  simp only [World.write]
  split
  · rename_i hi; subst hi; exact length_store _ _ _ h
  · rfl

/-- The block loop over a request of `n` whole blocks writes to the
destination what the chained block function makes of the source and leaves
its final chain in the IV buffer, however the cursor cuts the request. -/
theorem block_walk_loop_spec
    (f : List Nat → Nat → List Nat → List Nat × List Nat × List Event)
    (g : Nat → List Nat → List Nat → List Nat × List Nat) (hg : Chained g)
    (hf : ∀ inp b iv, (f inp b iv).1 = (g b inp iv).1 ∧ (f inp b iv).2.1 = (g b inp iv).2)
    (W : Cursor) (hW : W.NoFail) (n : Nat) :
    ∀ (fuel : Nat) (w : World) (walk : skcipher_walk) (err : Int), n ≤ fuel →
      WalkOK walk n → w.iv.length = 16 →
      walk.src.off + 16 * n ≤ (w.mem walk.src.id).length →
      walk.dst.off + 16 * n ≤ (w.mem walk.dst.id).length →
      (block_walk_loop f W fuel w walk err).1 = (if n = 0 then err else 0) ∧
      (block_walk_loop f W fuel w walk err).2.1.mem =
        (w.write walk.dst (g n (w.view walk.src) w.iv).1).mem ∧
      (block_walk_loop f W fuel w walk err).2.1.iv = (g n (w.view walk.src) w.iv).2 := by
  induction n using Nat.strong_induction_on with
  | _ n ih =>
    intro fuel w walk err hfuel hw hiv hsrc hdst
    rcases Nat.eq_zero_or_pos n with hn | hn
    · subst hn
      have hnb := hw.finished rfl
      have hres : block_walk_loop f W fuel w walk err = (err, w, walk) := by
        cases fuel with
        | zero => rfl
        | succ fuel => simp [block_walk_loop, hnb]
      rw [hres, hg.zero]
      exact ⟨rfl, (world_write_mem_nil w walk.dst).symm, rfl⟩
    · obtain ⟨h16, hle⟩ := hw.run hn
      have ht := hw.total
      obtain ⟨d1, d2, d3, d4⟩ := walk_done_ok W hW walk n hn hw
      have hb1 : 1 ≤ walk.nbytes / 16 := by omega
      have hbn : walk.nbytes / 16 ≤ n := by omega
      cases fuel with
      | zero => omega
      | succ fuel =>
        obtain ⟨f1, f2⟩ := hf (w.view walk.src) (walk.nbytes / 16) w.iv
        have hsl : 16 * (walk.nbytes / 16) ≤ (w.view walk.src).length := by
          simp only [World.view, List.length_drop]; omega
        obtain ⟨l1, l2⟩ := hg.len (walk.nbytes / 16) (w.view walk.src) w.iv hsl hiv
        have hnz : ¬ (walk.nbytes / AES_BLOCK_SIZE = 0) := by
          show ¬ (walk.nbytes / 16 = 0)
          omega
        rw [block_walk_loop]
        simp only []
        rw [if_neg hnz]
        have hmem1 : ∀ tr1 tr2 : List Event,
            ((({ ((w.emit tr1).write walk.dst (f (w.view walk.src) (walk.nbytes / 16) w.iv).1) with
                iv := (f (w.view walk.src) (walk.nbytes / 16) w.iv).2.1 } : World).emit tr2) : World) =
            { mem := (w.write walk.dst (g (walk.nbytes / 16) (w.view walk.src) w.iv).1).mem,
              iv := (g (walk.nbytes / 16) (w.view walk.src) w.iv).2,
              trace := w.trace ++ tr1 ++ tr2 } := by
          intro tr1 tr2
          simp only [World.emit, World.write, f1, f2]
        rw [hmem1]
        have hih := ih (n - walk.nbytes / 16) (by omega) fuel
          { mem := (w.write walk.dst (g (walk.nbytes / 16) (w.view walk.src) w.iv).1).mem,
            iv := (g (walk.nbytes / 16) (w.view walk.src) w.iv).2,
            trace := w.trace ++
              ([Event.kernel_neon_begin] ++ (f (w.view walk.src) (walk.nbytes / 16) w.iv).2.2 ++
                [Event.kernel_neon_end]) ++ [Event.skcipher_walk_done (walk.nbytes % 16)] }
          (skcipher_walk_done W walk (walk.nbytes % 16)).2
          (skcipher_walk_done W walk (walk.nbytes % 16)).1 (by omega) d2 l2
          (by
            rw [d3]
            show walk.src.off + 16 * (walk.nbytes / 16) + 16 * (n - walk.nbytes / 16) ≤
              ((w.write walk.dst (g (walk.nbytes / 16) (w.view walk.src) w.iv).1).mem
                walk.src.id).length
            rw [world_write_length _ _ _ _ (by rw [l1]; omega)]; omega)
          (by
            rw [d4]
            show walk.dst.off + 16 * (walk.nbytes / 16) + 16 * (n - walk.nbytes / 16) ≤
              ((w.write walk.dst (g (walk.nbytes / 16) (w.view walk.src) w.iv).1).mem
                walk.dst.id).length
            rw [world_write_length _ _ _ _ (by rw [l1]; omega)]; omega)
        obtain ⟨i1, i2, i3⟩ := hih
        have hat : World.view
            ⟨(w.write walk.dst (g (walk.nbytes / 16) (w.view walk.src) w.iv).1).mem,
             (g (walk.nbytes / 16) (w.view walk.src) w.iv).2,
             w.trace ++
              ([Event.kernel_neon_begin] ++ (f (w.view walk.src) (walk.nbytes / 16) w.iv).2.2 ++
                [Event.kernel_neon_end]) ++ [Event.skcipher_walk_done (walk.nbytes % 16)]⟩
            (skcipher_walk_done W walk (walk.nbytes % 16)).2.src =
            (w.view walk.src).drop (16 * (walk.nbytes / 16)) := by
          rw [d3]
          exact world_at_after_write w walk.src walk.dst _ _ hw.aliasing (by rw [l1]) (by omega)
        rw [hat] at i2 i3
        have hadd := hg.add (walk.nbytes / 16) (n - walk.nbytes / 16) (w.view walk.src) w.iv
        rw [show walk.nbytes / 16 + (n - walk.nbytes / 16) = n from by omega] at hadd
        refine ⟨?_, ?_, ?_⟩
        · rw [i1, d1, if_neg (show ¬ n = 0 by omega)]
          split <;> rfl
        · rw [i2, d4, hadd]
          have := world_write_write w walk.dst (g (walk.nbytes / 16) (w.view walk.src) w.iv).1
            (g (n - walk.nbytes / 16) ((w.view walk.src).drop (16 * (walk.nbytes / 16)))
              (g (walk.nbytes / 16) (w.view walk.src) w.iv).2).1
            (g (walk.nbytes / 16) (w.view walk.src) w.iv).2
            (w.trace ++
              ([Event.kernel_neon_begin] ++ (f (w.view walk.src) (walk.nbytes / 16) w.iv).2.2 ++
                [Event.kernel_neon_end]) ++ [Event.skcipher_walk_done (walk.nbytes % 16)])
            (by omega)
          rw [l1] at this
          exact this
        · rw [i3, hadd]

theorem block_walk_loop_idle (f : List Nat → Nat → List Nat → List Nat × List Nat × List Event)
    (W : Cursor) (fuel : Nat) (w : World) (walk : skcipher_walk) (err : Int)
    (h : walk.nbytes / 16 = 0) :
    block_walk_loop f W fuel w walk err = (err, w, walk) := by
  cases fuel with
  | zero => rfl
  | succ fuel => rw [block_walk_loop]; simp only [h, if_true]

theorem walk_next_total (W : Cursor) (walk : skcipher_walk) :
    (skcipher_walk_next W walk).2.total = walk.total := by
  unfold skcipher_walk_next
  split
  · rfl
  · split <;> rfl

theorem walk_done_total (W : Cursor) (walk : skcipher_walk) (res : Nat)
    (hn : walk.nbytes ≠ 0) :
    (skcipher_walk_done W walk res).2.total = walk.total - (walk.nbytes - res) ∧
    (walk.total - (walk.nbytes - res) = 0 → (skcipher_walk_done W walk res).2.nbytes = 0) := by
  unfold skcipher_walk_done
  rw [if_neg hn]
  simp only []
  split
  · rename_i h
    exact ⟨walk_next_total W _, fun h0 => absurd h0 h⟩
  · exact ⟨rfl, fun _ => rfl⟩

/-- The bound on the passes of a block loop is never reached: every pass
commits at least one block, so any bound above the remaining byte count gives
the same result. -/
theorem block_walk_loop_fuel
    (f : List Nat → Nat → List Nat → List Nat × List Nat × List Event) (W : Cursor)
    (t : Nat) : ∀ (fuel : Nat) (w : World) (walk : skcipher_walk) (err : Int),
    walk.total = t → t + 1 ≤ fuel →
    block_walk_loop f W fuel w walk err = block_walk_loop f W (t + 1) w walk err := by
  induction t using Nat.strong_induction_on with
  | _ t ih =>
    intro fuel w walk err ht hf
    by_cases hb : walk.nbytes / 16 = 0
    · rw [block_walk_loop_idle f W fuel w walk err hb,
        block_walk_loop_idle f W (t + 1) w walk err hb]
    · cases fuel with
      | zero => omega
      | succ fuel =>
        have hnz : ¬ (walk.nbytes / AES_BLOCK_SIZE = 0) := hb
        rw [block_walk_loop, block_walk_loop]
        simp only []
        rw [if_neg hnz, if_neg hnz]
        obtain ⟨d1, d2⟩ := walk_done_total W walk (walk.nbytes % AES_BLOCK_SIZE)
          (by intro h0; rw [h0] at hb; exact hb rfl)
        have hsub : 16 ≤ walk.nbytes - walk.nbytes % 16 := by omega
        by_cases hz : walk.total - (walk.nbytes - walk.nbytes % 16) = 0
        · have hn0 := d2 hz
          rw [block_walk_loop_idle f W fuel _ _ _ (by rw [hn0]),
            block_walk_loop_idle f W t _ _ _ (by rw [hn0])]
        · have hlt : walk.total - (walk.nbytes - walk.nbytes % 16) < t := by omega
          rw [ih _ hlt fuel _ _ _ d1 (by omega), ih _ hlt t _ _ _ d1 (by omega)]

/-! ## CBC lemmas -/

theorem cbc_encrypt_walk_loop_eq (P : AesPrim) (W : Cursor) (ctx : crypto_aes_ctx) (fuel : Nat) :
    ∀ (w : World) (walk : skcipher_walk) (err : Int),
    cbc_encrypt_walk_loop P W ctx fuel w walk err =
      block_walk_loop
        (fun inp b iv => aes_cbc_encrypt P inp ctx.key_enc (6 + ctx.key_length / 4) b iv)
        W fuel w walk err := by
  induction fuel with
  | zero => intro w walk err; rfl
  | succ fuel ih =>
    intro w walk err
    rw [cbc_encrypt_walk_loop, block_walk_loop]
    simp only [ih]

theorem cbc_decrypt_walk_loop_eq (P : AesPrim) (W : Cursor) (ctx : crypto_aes_ctx) (fuel : Nat) :
    ∀ (w : World) (walk : skcipher_walk) (err : Int),
    cbc_decrypt_walk_loop P W ctx fuel w walk err =
      block_walk_loop
        (fun inp b iv => aes_cbc_decrypt P inp ctx.key_dec (6 + ctx.key_length / 4) b iv)
        W fuel w walk err := by
  induction fuel with
  | zero => intro w walk err; rfl
  | succ fuel ih =>
    intro w walk err
    rw [cbc_decrypt_walk_loop, block_walk_loop]
    simp only [ih]

theorem load_length_of_le (inp : List Nat) (h : 16 ≤ inp.length) : (load inp 0 16).length = 16 :=
  length_load inp 0 16 (by omega)

theorem cbc_encrypt_blocks_len (P : AesPrim) (hP : BlockPreserving P) (rk : List Nat) (r : Nat)
    (n : Nat) : ∀ (inp iv : List Nat), 16 * n ≤ inp.length → iv.length = 16 →
    (cbc_encrypt_blocks P rk r n inp iv).1.length = 16 * n ∧
    (cbc_encrypt_blocks P rk r n inp iv).2.length = 16 := by
  induction n with
  | zero => intro inp iv _ hiv; exact ⟨rfl, hiv⟩
  | succ n ih =>
    intro inp iv hin hiv
    have hl := load_length_of_le inp (by omega)
    have hc : (P.encrypt rk r (xor_block (load inp 0 16) iv)).length = 16 :=
      (hP rk r _ (by rw [length_xor_block, hl, hiv]; rfl)).1
    obtain ⟨i1, i2⟩ := ih (inp.drop 16) (P.encrypt rk r (xor_block (load inp 0 16) iv))
      (by simp only [List.length_drop]; omega) hc
    simp only [cbc_encrypt_blocks, List.length_append]
    exact ⟨by rw [hc, i1]; omega, i2⟩

theorem cbc_decrypt_blocks_len (P : AesPrim) (hP : BlockPreserving P) (rk : List Nat) (r : Nat)
    (n : Nat) : ∀ (inp iv : List Nat), 16 * n ≤ inp.length → iv.length = 16 →
    (cbc_decrypt_blocks P rk r n inp iv).1.length = 16 * n ∧
    (cbc_decrypt_blocks P rk r n inp iv).2.length = 16 := by
  induction n with
  | zero => intro inp iv _ hiv; exact ⟨rfl, hiv⟩
  | succ n ih =>
    intro inp iv hin hiv
    have hl := load_length_of_le inp (by omega)
    have hc : (xor_block (P.decrypt rk r (load inp 0 16)) iv).length = 16 := by
      rw [length_xor_block, (hP rk r _ hl).2, hiv]; rfl
    obtain ⟨i1, i2⟩ := ih (inp.drop 16) (load inp 0 16)
      (by simp only [List.length_drop]; omega) hl
    simp only [cbc_decrypt_blocks, List.length_append]
    exact ⟨by rw [hc, i1]; omega, i2⟩

theorem cbc_encrypt_blocks_add (P : AesPrim) (rk : List Nat) (r : Nat) (a b : Nat) :
    ∀ (inp iv : List Nat), cbc_encrypt_blocks P rk r (a + b) inp iv =
      ((cbc_encrypt_blocks P rk r a inp iv).1 ++
        (cbc_encrypt_blocks P rk r b (inp.drop (16 * a)) (cbc_encrypt_blocks P rk r a inp iv).2).1,
       (cbc_encrypt_blocks P rk r b (inp.drop (16 * a))
        (cbc_encrypt_blocks P rk r a inp iv).2).2) := by
  induction a with
  | zero => intro inp iv; simp [cbc_encrypt_blocks]
  | succ a ih =>
    intro inp iv
    rw [Nat.add_right_comm]
    simp only [cbc_encrypt_blocks, ih, List.drop_drop, List.append_assoc]
    rw [show 16 + 16 * a = 16 * (a + 1) from by omega]

theorem cbc_decrypt_blocks_add (P : AesPrim) (rk : List Nat) (r : Nat) (a b : Nat) :
    ∀ (inp iv : List Nat), cbc_decrypt_blocks P rk r (a + b) inp iv =
      ((cbc_decrypt_blocks P rk r a inp iv).1 ++
        (cbc_decrypt_blocks P rk r b (inp.drop (16 * a)) (cbc_decrypt_blocks P rk r a inp iv).2).1,
       (cbc_decrypt_blocks P rk r b (inp.drop (16 * a))
        (cbc_decrypt_blocks P rk r a inp iv).2).2) := by
  induction a with
  | zero => intro inp iv; simp [cbc_decrypt_blocks]
  | succ a ih =>
    intro inp iv
    rw [Nat.add_right_comm]
    simp only [cbc_decrypt_blocks, ih, List.drop_drop, List.append_assoc]
    rw [show 16 + 16 * a = 16 * (a + 1) from by omega]

theorem cbc_encrypt_chained (P : AesPrim) (hP : BlockPreserving P) (rk : List Nat) (r : Nat) :
    Chained (cbc_encrypt_blocks P rk r) :=
  ⟨fun _ _ => rfl, fun a b inp iv => cbc_encrypt_blocks_add P rk r a b inp iv,
   fun n inp iv h1 h2 => cbc_encrypt_blocks_len P hP rk r n inp iv h1 h2⟩

theorem cbc_decrypt_chained (P : AesPrim) (hP : BlockPreserving P) (rk : List Nat) (r : Nat) :
    Chained (cbc_decrypt_blocks P rk r) :=
  ⟨fun _ _ => rfl, fun a b inp iv => cbc_decrypt_blocks_add P rk r a b inp iv,
   fun n inp iv h1 h2 => cbc_decrypt_blocks_len P hP rk r n inp iv h1 h2⟩

theorem xor_block_cancel (a b : List Nat) (h : a.length ≤ b.length) :
    xor_block (xor_block a b) b = a := by
  induction a generalizing b with
  | nil => simp [xor_block]
  | cons x a ih =>
    cases b with
    | nil => simp at h
    | cons y b =>
      simp only [List.length_cons, Nat.add_le_add_iff_right] at h
      have := ih b h
      simp only [xor_block, List.zipWith_cons_cons] at this ⊢
      rw [this, Nat.xor_assoc, Nat.xor_self, Nat.xor_zero]

/-- CBC decryption undoes CBC encryption block by block and ends with the
same chain. -/
theorem cbc_blocks_round_trip (P : AesPrim) (hP : BlockPreserving P) (ctx : crypto_aes_ctx)
    (hI : Inverse P ctx) (n : Nat) : ∀ (pt iv rest : List Nat), 16 * n ≤ pt.length →
    iv.length = 16 →
    cbc_decrypt_blocks P ctx.key_dec (6 + ctx.key_length / 4) n
      ((cbc_encrypt_blocks P ctx.key_enc (6 + ctx.key_length / 4) n pt iv).1 ++ rest) iv =
    (pt.take (16 * n), (cbc_encrypt_blocks P ctx.key_enc (6 + ctx.key_length / 4) n pt iv).2) := by
  induction n with
  | zero => intro pt iv rest _ _; simp [cbc_decrypt_blocks, cbc_encrypt_blocks]
  | succ n ih =>
    intro pt iv rest hpt hiv
    have hl := load_length_of_le pt (by omega)
    have hxl : (xor_block (load pt 0 16) iv).length = 16 := by
      rw [length_xor_block, hl, hiv]; rfl
    have hc : (P.encrypt ctx.key_enc (6 + ctx.key_length / 4)
        (xor_block (load pt 0 16) iv)).length = 16 := (hP _ _ _ hxl).1
    simp only [cbc_encrypt_blocks, cbc_decrypt_blocks]
    generalize hcdef : P.encrypt ctx.key_enc (6 + ctx.key_length / 4)
      (xor_block (load pt 0 16) iv) = c at hc
    have hld : load (c ++ (cbc_encrypt_blocks P ctx.key_enc (6 + ctx.key_length / 4) n
        (pt.drop 16) c).1 ++ rest) 0 16 = c := by
      simp only [load, List.drop_zero, List.append_assoc]
      exact List.take_left' hc
    have hdr : (c ++ (cbc_encrypt_blocks P ctx.key_enc (6 + ctx.key_length / 4) n
        (pt.drop 16) c).1 ++ rest).drop 16 =
        (cbc_encrypt_blocks P ctx.key_enc (6 + ctx.key_length / 4) n (pt.drop 16) c).1 ++
          rest := by
      rw [List.append_assoc]; exact List.drop_left' hc
    rw [hld, hdr, ih (pt.drop 16) c rest (by simp only [List.length_drop]; omega) hc]
    have hD : P.decrypt ctx.key_dec (6 + ctx.key_length / 4) c = xor_block (load pt 0 16) iv := by
      rw [← hcdef]; exact hI _ hxl
    rw [hD, xor_block_cancel _ _ (by rw [hl, hiv])]
    simp only [Prod.mk.injEq, and_true]
    rw [show 16 * (n + 1) = 16 + 16 * n from by omega, List.take_add]
    simp [load]

/-! ## Ciphertext-stealing lemmas -/

theorem xor_block_zeros_left (a : List Nat) (n : Nat) (h : a.length ≤ n) :
    xor_block (List.replicate n 0) a = a := by
  induction a generalizing n with
  | nil => simp [xor_block]
  | cons x a ih =>
    cases n with
    | zero => simp at h
    | succ n =>
      simp only [List.length_cons, Nat.add_le_add_iff_right] at h
      have := ih n h
      simp only [xor_block, List.replicate_succ, List.zipWith_cons_cons, Nat.zero_xor] at this ⊢
      rw [this]

theorem length_zero_extend (src : List Nat) (d : Nat) (hd : d ≤ 16) (hs : d ≤ src.length) :
    (zero_extend src d).length = 16 := by
  simp only [zero_extend, AES_BLOCK_SIZE, List.length_append, List.length_take,
    List.length_replicate]
  omega

theorem zero_extend_take (src : List Nat) (d : Nat) (hs : d ≤ src.length) :
    (zero_extend src d).take d = src.take d := by
  unfold zero_extend
  exact List.take_left' (by simp; omega)

theorem zero_extend_drop (src : List Nat) (d : Nat) (hs : d ≤ src.length) :
    (zero_extend src d).drop d = List.replicate (16 - d) 0 := by
  unfold zero_extend
  exact List.drop_left' (by simp; omega)

theorem zero_extend_append (a rest : List Nat) (d : Nat) (ha : a.length = d) :
    zero_extend (a ++ rest) d = a ++ List.replicate (16 - d) 0 := by
  unfold zero_extend
  rw [List.take_left' ha]

/-- The stealing rearrangement of aes_cbc_cts_decrypt undoes that of
aes_cbc_cts_encrypt under the same chain. -/
theorem cts_prim_round_trip (P : AesPrim) (hP : BlockPreserving P) (ctx : crypto_aes_ctx)
    (hI : Inverse P ctx) (inp iv rest : List Nat) (bytes : Nat) (hb1 : 17 ≤ bytes)
    (hb2 : bytes ≤ 32) (hin : bytes ≤ inp.length) (hiv : iv.length = 16) :
    (aes_cbc_cts_decrypt P
      ((aes_cbc_cts_encrypt P inp ctx.key_enc (6 + ctx.key_length / 4) bytes iv).1 ++ rest)
      ctx.key_dec (6 + ctx.key_length / 4) bytes iv).1 = inp.take bytes := by
  have hl := load_length_of_le inp (by omega)
  have hd1 : bytes - 16 ≤ 16 := by omega
  have hd2 : bytes - 16 ≤ (inp.drop 16).length := by simp only [List.length_drop]; omega
  have hzl := length_zero_extend (inp.drop 16) (bytes - 16) hd1 hd2
  have hxin : (xor_block (load inp 0 16) iv).length = 16 := by
    rw [length_xor_block, hl, hiv]; rfl
  have hxl : (P.encrypt ctx.key_enc (6 + ctx.key_length / 4)
      (xor_block (load inp 0 16) iv)).length = 16 := (hP _ _ _ hxin).1
  have hDx := hI _ hxin
  simp only [aes_cbc_cts_encrypt, aes_cbc_cts_decrypt]
  show xor_block (P.decrypt ctx.key_dec (6 + ctx.key_length / 4) _) iv ++ _ = _
  generalize P.encrypt ctx.key_enc (6 + ctx.key_length / 4) (xor_block (load inp 0 16) iv) = x
    at hxl hDx
  have hyin : (xor_block (zero_extend (inp.drop 16) (bytes - 16)) x).length = 16 := by
    rw [length_xor_block, hzl, hxl]; rfl
  have hyl : (P.encrypt ctx.key_enc (6 + ctx.key_length / 4)
      (xor_block (zero_extend (inp.drop 16) (bytes - 16)) x)).length = 16 := (hP _ _ _ hyin).1
  have hDy := hI _ hyin
  generalize P.encrypt ctx.key_enc (6 + ctx.key_length / 4)
    (xor_block (zero_extend (inp.drop 16) (bytes - 16)) x) = y at hyl hDy
  have hld : load (y ++ x.take (bytes - 16) ++ rest) 0 16 = y := by
    simp only [load, List.drop_zero, List.append_assoc]
    exact List.take_left' hyl
  have hdr : (y ++ x.take (bytes - 16) ++ rest).drop 16 = x.take (bytes - 16) ++ rest := by
    rw [List.append_assoc]; exact List.drop_left' hyl
  have hxt : (x.take (bytes - 16)).length = bytes - 16 := by
    rw [List.length_take, hxl]; omega
  simp only [hld, hdr, hDy, zero_extend_append _ rest _ hxt]
  have hp2 : (xor_block (xor_block (zero_extend (inp.drop 16) (bytes - 16)) x)
      (x.take (bytes - 16) ++ List.replicate (16 - (bytes - 16)) 0)).take (bytes - 16) =
      (inp.drop 16).take (bytes - 16) := by
    simp only [xor_block, List.take_zipWith]
    rw [List.take_left' hxt, zero_extend_take _ _ hd2]
    exact xor_block_cancel _ _ (by rw [hxt, List.length_take]; omega)
  have hx' : (x.take (bytes - 16) ++ List.replicate (16 - (bytes - 16)) 0).take (bytes - 16) ++
      (xor_block (zero_extend (inp.drop 16) (bytes - 16)) x).drop (bytes - 16) = x := by
    rw [List.take_left' hxt]
    simp only [xor_block, List.drop_zipWith]
    rw [zero_extend_drop _ _ hd2]
    have := xor_block_zeros_left (x.drop (bytes - 16)) (16 - (bytes - 16))
      (by rw [List.length_drop, hxl])
    simp only [xor_block] at this
    rw [this, List.take_append_drop]
  rw [hp2, hx', hDx, xor_block_cancel _ _ (by rw [hl, hiv])]
  have : inp.take bytes = inp.take (16 + (bytes - 16)) := by congr 1; omega
  rw [this, List.take_add]
  simp [load]

/-! ## CBC-CTS lemmas -/

theorem walk_virt_one_block (W : Cursor) (alg : skcipher_alg) (req : skcipher_request)
    (hb : alg.cra_blocksize = 16) (hs : 16 ≤ alg.walksize) (hl : req.cryptlen = 16)
    (hf : W.fail req.src.off 16 = 0) :
    skcipher_walk_virt W alg req =
      (0, { src := req.src, dst := req.dst, total := 16, nbytes := 16,
            blocksize := 16, stride := alg.walksize }) := by
  unfold skcipher_walk_virt skcipher_walk_next
  simp only [hl, hb, hf]
  rw [if_neg (by decide), if_neg (by decide), if_neg (by simp)]
  have : max (min alg.walksize 16) (min 16 (W.chunk req.src.off 16)) = 16 := by omega
  rw [this]

theorem walk_virt_fail (W : Cursor) (alg : skcipher_alg) (req : skcipher_request)
    (hb : alg.cra_blocksize = 16) (hl : req.cryptlen = 16)
    (hf : W.fail req.src.off 16 ≠ 0) :
    (skcipher_walk_virt W alg req).1 = W.fail req.src.off 16 := by
  unfold skcipher_walk_virt skcipher_walk_next
  simp only [hl, hb]
  rw [if_neg (by decide), if_neg (by decide), if_pos hf]

theorem cbc_encrypt_walk_loop_idle (P : AesPrim) (W : Cursor) (ctx : crypto_aes_ctx)
    (fuel : Nat) (w : World) (walk : skcipher_walk) (err : Int) (h : walk.nbytes = 0) :
    cbc_encrypt_walk_loop P W ctx fuel w walk err = (err, w, walk) := by
  cases fuel with
  | zero => rfl
  | succ fuel => rw [cbc_encrypt_walk_loop]; simp [h]

theorem cbc_decrypt_walk_loop_idle (P : AesPrim) (W : Cursor) (ctx : crypto_aes_ctx)
    (fuel : Nat) (w : World) (walk : skcipher_walk) (err : Int) (h : walk.nbytes = 0) :
    cbc_decrypt_walk_loop P W ctx fuel w walk err = (err, w, walk) := by
  cases fuel with
  | zero => rfl
  | succ fuel => rw [cbc_decrypt_walk_loop]; simp [h]

theorem walk_done_last (W : Cursor) (walk : skcipher_walk) (res : Nat)
    (hn : walk.nbytes ≠ 0) (ht : walk.total - (walk.nbytes - res) = 0) :
    skcipher_walk_done W walk res =
      (0, { walk with
              src := scatterwalk_ffwd walk.src (walk.nbytes - res),
              dst := scatterwalk_ffwd walk.dst (walk.nbytes - res),
              total := walk.total - (walk.nbytes - res), nbytes := 0 }) := by
  unfold skcipher_walk_done
  rw [if_neg hn]
  simp only [ht, ne_eq, not_true_eq_false, if_false]

theorem cbc_encrypt_walk_one (P : AesPrim) (W : Cursor) (ctx : crypto_aes_ctx) (w : World)
    (walk : skcipher_walk) (ht : walk.total = 16) (hn : walk.nbytes = 16) :
    (cbc_encrypt_walk P W ctx w walk).1 = 0 ∧
    (cbc_encrypt_walk P W ctx w walk).2.1 =
      { mem := (w.write walk.dst
          (cbc_encrypt_blocks P ctx.key_enc (6 + ctx.key_length / 4) 1 (w.view walk.src) w.iv).1).mem,
        iv := (cbc_encrypt_blocks P ctx.key_enc (6 + ctx.key_length / 4) 1
          (w.view walk.src) w.iv).2,
        trace := w.trace ++
          [Event.kernel_neon_begin, Event.aes_cbc_encrypt ctx.key_enc (6 + ctx.key_length / 4) 1,
           Event.encrypt_block, Event.kernel_neon_end, Event.skcipher_walk_done 0] } := by
  have hd := walk_done_last W walk (walk.nbytes % AES_BLOCK_SIZE) (by rw [hn]; decide)
    (by rw [hn, ht]; decide)
  unfold cbc_encrypt_walk
  rw [cbc_encrypt_walk_loop]
  simp only []
  rw [if_neg (by rw [hn]; decide), hd, cbc_encrypt_walk_loop_idle _ _ _ _ _ _ _ rfl]
  simp only [hn, aes_cbc_encrypt, World.emit, World.write, List.append_assoc]
  exact ⟨trivial, rfl⟩

theorem cbc_decrypt_walk_one (P : AesPrim) (W : Cursor) (ctx : crypto_aes_ctx) (w : World)
    (walk : skcipher_walk) (ht : walk.total = 16) (hn : walk.nbytes = 16) :
    (cbc_decrypt_walk P W ctx w walk).1 = 0 ∧
    (cbc_decrypt_walk P W ctx w walk).2.1 =
      { mem := (w.write walk.dst
          (cbc_decrypt_blocks P ctx.key_dec (6 + ctx.key_length / 4) 1 (w.view walk.src) w.iv).1).mem,
        iv := (cbc_decrypt_blocks P ctx.key_dec (6 + ctx.key_length / 4) 1
          (w.view walk.src) w.iv).2,
        trace := w.trace ++
          [Event.kernel_neon_begin, Event.aes_cbc_decrypt ctx.key_dec (6 + ctx.key_length / 4) 1,
           Event.decrypt_block, Event.kernel_neon_end, Event.skcipher_walk_done 0] } := by
  have hd := walk_done_last W walk (walk.nbytes % AES_BLOCK_SIZE) (by rw [hn]; decide)
    (by rw [hn, ht]; decide)
  unfold cbc_decrypt_walk
  rw [cbc_decrypt_walk_loop]
  simp only []
  rw [if_neg (by rw [hn]; decide), hd, cbc_decrypt_walk_loop_idle _ _ _ _ _ _ _ rfl]
  simp only [hn, aes_cbc_decrypt, World.emit, World.write, List.append_assoc]
  exact ⟨trivial, rfl⟩

theorem cts_subreq_one (req : skcipher_request) (h : req.cryptlen = 16) :
    ({ src := req.src, dst := req.dst, cryptlen := 16 } : skcipher_request) = req := by
  cases req with
  | mk s d c =>
    simp only at h
    subst h
    rfl

theorem to_u32_one_block : to_u32 (1 * ((16 : Nat) : Int)) = 16 := by decide

theorem cts_cbc_encrypt_16 (P : AesPrim) (W : Cursor) (tfm : crypto_skcipher) (w : World)
    (req : skcipher_request) (h : req.cryptlen = 16) :
    cts_cbc_encrypt P W tfm w req =
      (if (skcipher_walk_virt W tfm.alg req).1 ≠ 0 then
        ((skcipher_walk_virt W tfm.alg req).1, w.emit [Event.skcipher_walk_virt 16])
      else if (cbc_encrypt_walk P W tfm.ctx (w.emit [Event.skcipher_walk_virt 16])
          (skcipher_walk_virt W tfm.alg req).2).1 ≠ 0 then
        ((cbc_encrypt_walk P W tfm.ctx (w.emit [Event.skcipher_walk_virt 16])
          (skcipher_walk_virt W tfm.alg req).2).1,
         (cbc_encrypt_walk P W tfm.ctx (w.emit [Event.skcipher_walk_virt 16])
          (skcipher_walk_virt W tfm.alg req).2).2.1)
      else
        (0, (cbc_encrypt_walk P W tfm.ctx (w.emit [Event.skcipher_walk_virt 16])
          (skcipher_walk_virt W tfm.alg req).2).2.1)) := by
  have c1 : ¬ ((16 : Nat) < 16) := by decide
  have c2 : ((16 : Nat) ≤ 16) := by decide
  have c3 : ((1 : Int) > 0) := by decide
  unfold cts_cbc_encrypt
  simp only [h, AES_BLOCK_SIZE, c1, c2, c3, if_true, if_false, and_false, to_u32_one_block,
    cts_subreq_one req h]
  by_cases hv : (skcipher_walk_virt W tfm.alg req).1 = 0
  · simp only [hv, ne_eq, not_true_eq_false, if_false, if_true]
  · simp only [hv, ne_eq, not_false_eq_true, if_true]

theorem cts_cbc_decrypt_16 (P : AesPrim) (W : Cursor) (tfm : crypto_skcipher) (w : World)
    (req : skcipher_request) (h : req.cryptlen = 16) :
    cts_cbc_decrypt P W tfm w req =
      (if (skcipher_walk_virt W tfm.alg req).1 ≠ 0 then
        ((skcipher_walk_virt W tfm.alg req).1, w.emit [Event.skcipher_walk_virt 16])
      else if (cbc_decrypt_walk P W tfm.ctx (w.emit [Event.skcipher_walk_virt 16])
          (skcipher_walk_virt W tfm.alg req).2).1 ≠ 0 then
        ((cbc_decrypt_walk P W tfm.ctx (w.emit [Event.skcipher_walk_virt 16])
          (skcipher_walk_virt W tfm.alg req).2).1,
         (cbc_decrypt_walk P W tfm.ctx (w.emit [Event.skcipher_walk_virt 16])
          (skcipher_walk_virt W tfm.alg req).2).2.1)
      else
        (0, (cbc_decrypt_walk P W tfm.ctx (w.emit [Event.skcipher_walk_virt 16])
          (skcipher_walk_virt W tfm.alg req).2).2.1)) := by
  have c1 : ¬ ((16 : Nat) < 16) := by decide
  have c2 : ((16 : Nat) ≤ 16) := by decide
  have c3 : ((1 : Int) > 0) := by decide
  unfold cts_cbc_decrypt
  simp only [h, AES_BLOCK_SIZE, c1, c2, c3, if_true, if_false, and_false, to_u32_one_block,
    cts_subreq_one req h]
  by_cases hv : (skcipher_walk_virt W tfm.alg req).1 = 0
  · simp only [hv, ne_eq, not_true_eq_false, if_false, if_true]
  · simp only [hv, ne_eq, not_false_eq_true, if_true]

/-- The state after a single plain CBC block encryption of a request. -/
theorem cts_cbc_encrypt_16_ok (P : AesPrim) (W : Cursor) (alg : skcipher_alg)
    (ctx : crypto_aes_ctx) (w : World) (req : skcipher_request)
    (hb : alg.cra_blocksize = 16) (hs : 16 ≤ alg.walksize) (h : req.cryptlen = 16)
    (hf : W.fail req.src.off 16 = 0) :
    cts_cbc_encrypt P W { alg := alg, ctx := ctx } w req =
      (0, { mem := (w.write req.dst
              (cbc_encrypt_blocks P ctx.key_enc (6 + ctx.key_length / 4) 1
                (w.view req.src) w.iv).1).mem,
            iv := (cbc_encrypt_blocks P ctx.key_enc (6 + ctx.key_length / 4) 1
              (w.view req.src) w.iv).2,
            trace := w.trace ++
              [Event.skcipher_walk_virt 16, Event.kernel_neon_begin,
               Event.aes_cbc_encrypt ctx.key_enc (6 + ctx.key_length / 4) 1,
               Event.encrypt_block, Event.kernel_neon_end, Event.skcipher_walk_done 0] }) := by
  rw [cts_cbc_encrypt_16 P W _ w req h]
  simp only [walk_virt_one_block W alg req hb hs h hf]
  obtain ⟨a1, a2⟩ := cbc_encrypt_walk_one P W ctx (w.emit [Event.skcipher_walk_virt 16])
    { src := req.src, dst := req.dst, total := 16, nbytes := 16, blocksize := 16,
      stride := alg.walksize } rfl rfl
  rw [if_neg (by simp), if_neg (by rw [a1]; simp), a2]
  simp only [World.emit, World.write, World.view, List.append_assoc, List.singleton_append]

theorem cts_cbc_decrypt_16_ok (P : AesPrim) (W : Cursor) (alg : skcipher_alg)
    (ctx : crypto_aes_ctx) (w : World) (req : skcipher_request)
    (hb : alg.cra_blocksize = 16) (hs : 16 ≤ alg.walksize) (h : req.cryptlen = 16)
    (hf : W.fail req.src.off 16 = 0) :
    cts_cbc_decrypt P W { alg := alg, ctx := ctx } w req =
      (0, { mem := (w.write req.dst
              (cbc_decrypt_blocks P ctx.key_dec (6 + ctx.key_length / 4) 1
                (w.view req.src) w.iv).1).mem,
            iv := (cbc_decrypt_blocks P ctx.key_dec (6 + ctx.key_length / 4) 1
              (w.view req.src) w.iv).2,
            trace := w.trace ++
              [Event.skcipher_walk_virt 16, Event.kernel_neon_begin,
               Event.aes_cbc_decrypt ctx.key_dec (6 + ctx.key_length / 4) 1,
               Event.decrypt_block, Event.kernel_neon_end, Event.skcipher_walk_done 0] }) := by
  rw [cts_cbc_decrypt_16 P W _ w req h]
  simp only [walk_virt_one_block W alg req hb hs h hf]
  obtain ⟨a1, a2⟩ := cbc_decrypt_walk_one P W ctx (w.emit [Event.skcipher_walk_virt 16])
    { src := req.src, dst := req.dst, total := 16, nbytes := 16, blocksize := 16,
      stride := alg.walksize } rfl rfl
  rw [if_neg (by simp), if_neg (by rw [a1]; simp), a2]
  simp only [World.emit, World.write, World.view, List.append_assoc, List.singleton_append]

theorem cbc_encrypt_16_ok (P : AesPrim) (W : Cursor) (alg : skcipher_alg)
    (ctx : crypto_aes_ctx) (w : World) (req : skcipher_request)
    (hb : alg.cra_blocksize = 16) (hs : 16 ≤ alg.walksize) (h : req.cryptlen = 16)
    (hf : W.fail req.src.off 16 = 0) :
    cbc_encrypt P W { alg := alg, ctx := ctx } w req =
      cts_cbc_encrypt P W { alg := alg, ctx := ctx } w req := by
  rw [cts_cbc_encrypt_16 P W _ w req h]
  unfold cbc_encrypt
  simp only [walk_virt_one_block W alg req hb hs h hf, h]
  obtain ⟨a1, a2⟩ := cbc_encrypt_walk_one P W ctx (w.emit [Event.skcipher_walk_virt 16])
    { src := req.src, dst := req.dst, total := 16, nbytes := 16, blocksize := 16,
      stride := alg.walksize } rfl rfl
  rw [if_neg (by simp), if_neg (by simp), if_neg (by rw [a1]; simp)]
  exact Prod.ext a1 rfl

theorem cbc_decrypt_16_ok (P : AesPrim) (W : Cursor) (alg : skcipher_alg)
    (ctx : crypto_aes_ctx) (w : World) (req : skcipher_request)
    (hb : alg.cra_blocksize = 16) (hs : 16 ≤ alg.walksize) (h : req.cryptlen = 16)
    (hf : W.fail req.src.off 16 = 0) :
    cbc_decrypt P W { alg := alg, ctx := ctx } w req =
      cts_cbc_decrypt P W { alg := alg, ctx := ctx } w req := by
  rw [cts_cbc_decrypt_16 P W _ w req h]
  unfold cbc_decrypt
  simp only [walk_virt_one_block W alg req hb hs h hf, h]
  obtain ⟨a1, a2⟩ := cbc_decrypt_walk_one P W ctx (w.emit [Event.skcipher_walk_virt 16])
    { src := req.src, dst := req.dst, total := 16, nbytes := 16, blocksize := 16,
      stride := alg.walksize } rfl rfl
  rw [if_neg (by simp), if_neg (by simp), if_neg (by rw [a1]; simp)]
  exact Prod.ext a1 rfl

theorem cts_cbc_blocks_val (L : Nat) (h1 : 16 < L) (h2 : L + 15 < 2 ^ 32) :
    to_int (DIV_ROUND_UP L AES_BLOCK_SIZE + 2 ^ 32 - 2) = ((cts_lead L : Nat) : Int) := by
  unfold to_int DIV_ROUND_UP cts_lead
  simp only [AES_BLOCK_SIZE]
  split <;> omega

theorem to_u32_lead (n : Nat) (h : 16 * n < 2 ^ 32) :
    to_u32 (((n : Nat) : Int) * ((16 : Nat) : Int)) = 16 * n := by
  unfold to_u32
  omega

theorem to_u32_tail (L n : Nat) (h : 16 * n ≤ L) (h2 : L < 2 ^ 32) :
    to_u32 ((L : Int) - ((n : Nat) : Int) * ((16 : Nat) : Int)) = L - 16 * n := by
  unfold to_u32
  omega

theorem cts_tail_bounds (L : Nat) (h1 : 16 < L) :
    16 * cts_lead L + 17 ≤ L ∧ L ≤ 16 * cts_lead L + 32 := by
  unfold cts_lead
  omega
theorem walk_virt_tail (W : Cursor) (sub : skcipher_request) (t : Nat)
    (ht1 : 17 ≤ t) (ht2 : t ≤ 32) (hc : sub.cryptlen = t) (hf : W.fail sub.src.off t = 0) :
    skcipher_walk_virt W alg_cts_cbc sub =
      (0, { src := sub.src, dst := sub.dst, total := t, nbytes := t,
            blocksize := 16, stride := 32 }) := by
  unfold skcipher_walk_virt skcipher_walk_next
  simp only [hc, alg_cts_cbc, AES_BLOCK_SIZE, hf]
  rw [if_neg (by omega), if_neg (by omega), if_neg (by simp)]
  have : max (min (2 * 16) t) (min t (W.chunk sub.src.off t)) = t := by omega
  rw [this]

theorem cts_encrypt_tail_ok (P : AesPrim) (W : Cursor) (ctx : crypto_aes_ctx) (w : World)
    (req : skcipher_request) (src dst : scatterlist) (cb : Int) (t : Nat)
    (hval : to_u32 ((req.cryptlen : Int) - cb * ((16 : Nat) : Int)) = t)
    (ht1 : 17 ≤ t) (ht2 : t ≤ 32) (hf : W.fail src.off t = 0) :
    cts_cbc_encrypt_tail P W (cts_tfm ctx) w req src dst cb =
      (0, { mem := (w.write dst
              (aes_cbc_cts_encrypt P (w.view src) ctx.key_enc (6 + ctx.key_length / 4) t
                w.iv).1).mem,
            iv := w.iv,
            trace := w.trace ++
              [Event.skcipher_walk_virt t, Event.kernel_neon_begin,
               Event.aes_cbc_cts_encrypt ctx.key_enc (6 + ctx.key_length / 4) t,
               Event.encrypt_block, Event.encrypt_block, Event.kernel_neon_end,
               Event.skcipher_walk_done 0] }) := by
  have hv := walk_virt_tail W { src := src, dst := dst, cryptlen := t } t ht1 ht2 rfl hf
  have hd := walk_done_last W
    { src := src, dst := dst, total := t, nbytes := t, blocksize := 16, stride := 32 } 0
    (by simp only [ne_eq]; omega) (by simp)
  unfold cts_cbc_encrypt_tail
  simp only [AES_BLOCK_SIZE, hval, cts_tfm, hv, hd]
  rw [if_neg (by simp)]
  simp only [aes_cbc_cts_encrypt, World.emit, World.write, World.view, List.append_assoc,
    List.singleton_append, List.cons_append, List.nil_append]

theorem cts_decrypt_tail_ok (P : AesPrim) (W : Cursor) (ctx : crypto_aes_ctx) (w : World)
    (req : skcipher_request) (src dst : scatterlist) (cb : Int) (t : Nat)
    (hval : to_u32 ((req.cryptlen : Int) - cb * ((16 : Nat) : Int)) = t)
    (ht1 : 17 ≤ t) (ht2 : t ≤ 32) (hf : W.fail src.off t = 0) :
    cts_cbc_decrypt_tail P W (cts_tfm ctx) w req src dst cb =
      (0, { mem := (w.write dst
              (aes_cbc_cts_decrypt P (w.view src) ctx.key_dec (6 + ctx.key_length / 4) t
                w.iv).1).mem,
            iv := w.iv,
            trace := w.trace ++
              [Event.skcipher_walk_virt t, Event.kernel_neon_begin,
               Event.aes_cbc_cts_decrypt ctx.key_dec (6 + ctx.key_length / 4) t,
               Event.decrypt_block, Event.decrypt_block, Event.kernel_neon_end,
               Event.skcipher_walk_done 0] }) := by
  have hv := walk_virt_tail W { src := src, dst := dst, cryptlen := t } t ht1 ht2 rfl hf
  have hd := walk_done_last W
    { src := src, dst := dst, total := t, nbytes := t, blocksize := 16, stride := 32 } 0
    (by simp only [ne_eq]; omega) (by simp)
  unfold cts_cbc_decrypt_tail
  simp only [AES_BLOCK_SIZE, hval, cts_tfm, hv, hd]
  rw [if_neg (by simp)]
  simp only [aes_cbc_cts_decrypt, World.emit, World.write, World.view, List.append_assoc,
    List.singleton_append, List.cons_append, List.nil_append]

theorem walk_virt_blocks (W : Cursor) (hW : W.NoFail) (alg : skcipher_alg)
    (sub : skcipher_request) (n : Nat) (hb : alg.cra_blocksize = 16) (hs : 16 ≤ alg.walksize)
    (hn : 0 < n) (hc : sub.cryptlen = 16 * n)
    (hal : sub.src = sub.dst ∨ sub.src.id ≠ sub.dst.id) :
    (skcipher_walk_virt W alg sub).1 = 0 ∧ WalkOK (skcipher_walk_virt W alg sub).2 n ∧
    (skcipher_walk_virt W alg sub).2.src = sub.src ∧
    (skcipher_walk_virt W alg sub).2.dst = sub.dst := by
  unfold skcipher_walk_virt
  simp only []
  rw [if_neg (by omega)]
  exact walk_next_ok W hW _ n hn hc hb hs hal

/-- Plain CBC encryption over a request of `n` whole blocks, however the
cursor cuts it. -/
theorem cbc_phase_encrypt (P : AesPrim) (hP : BlockPreserving P) (W : Cursor) (hW : W.NoFail)
    (alg : skcipher_alg) (ctx : crypto_aes_ctx) (w : World) (sub : skcipher_request) (n : Nat)
    (ev : List Event)
    (hb : alg.cra_blocksize = 16) (hs : 16 ≤ alg.walksize) (hn : 0 < n)
    (hc : sub.cryptlen = 16 * n) (hiv : w.iv.length = 16)
    (hsrc : sub.src.off + 16 * n ≤ (w.mem sub.src.id).length)
    (hdst : sub.dst.off + 16 * n ≤ (w.mem sub.dst.id).length)
    (hal : sub.src = sub.dst ∨ sub.src.id ≠ sub.dst.id) :
    (skcipher_walk_virt W alg sub).1 = 0 ∧
    (cbc_encrypt_walk P W ctx (w.emit ev) (skcipher_walk_virt W alg sub).2).1 = 0 ∧
    (cbc_encrypt_walk P W ctx (w.emit ev) (skcipher_walk_virt W alg sub).2).2.1.mem =
      (w.write sub.dst
        (cbc_encrypt_blocks P ctx.key_enc (6 + ctx.key_length / 4) n (w.view sub.src) w.iv).1).mem ∧
    (cbc_encrypt_walk P W ctx (w.emit ev) (skcipher_walk_virt W alg sub).2).2.1.iv =
      (cbc_encrypt_blocks P ctx.key_enc (6 + ctx.key_length / 4) n (w.view sub.src) w.iv).2 := by
  obtain ⟨v1, v2, v3, v4⟩ := walk_virt_blocks W hW alg sub n hb hs hn hc hal
  have hspec := block_walk_loop_spec
    (fun inp b iv => aes_cbc_encrypt P inp ctx.key_enc (6 + ctx.key_length / 4) b iv)
    (cbc_encrypt_blocks P ctx.key_enc (6 + ctx.key_length / 4))
    (cbc_encrypt_chained P hP _ _) (fun _ _ _ => ⟨rfl, rfl⟩) W hW n
    ((skcipher_walk_virt W alg sub).2.total + 1) (w.emit ev) (skcipher_walk_virt W alg sub).2 0
    (by rw [v2.total]; omega) v2 hiv (by rw [v3]; exact hsrc) (by rw [v4]; exact hdst)
  rw [v3, v4, if_neg (by omega)] at hspec
  unfold cbc_encrypt_walk
  rw [cbc_encrypt_walk_loop_eq]
  exact ⟨v1, hspec.1, hspec.2.1, hspec.2.2⟩

/-- Plain CBC decryption over a request of `n` whole blocks, however the
cursor cuts it. -/
theorem cbc_phase_decrypt (P : AesPrim) (hP : BlockPreserving P) (W : Cursor) (hW : W.NoFail)
    (alg : skcipher_alg) (ctx : crypto_aes_ctx) (w : World) (sub : skcipher_request) (n : Nat)
    (ev : List Event)
    (hb : alg.cra_blocksize = 16) (hs : 16 ≤ alg.walksize) (hn : 0 < n)
    (hc : sub.cryptlen = 16 * n) (hiv : w.iv.length = 16)
    (hsrc : sub.src.off + 16 * n ≤ (w.mem sub.src.id).length)
    (hdst : sub.dst.off + 16 * n ≤ (w.mem sub.dst.id).length)
    (hal : sub.src = sub.dst ∨ sub.src.id ≠ sub.dst.id) :
    (skcipher_walk_virt W alg sub).1 = 0 ∧
    (cbc_decrypt_walk P W ctx (w.emit ev) (skcipher_walk_virt W alg sub).2).1 = 0 ∧
    (cbc_decrypt_walk P W ctx (w.emit ev) (skcipher_walk_virt W alg sub).2).2.1.mem =
      (w.write sub.dst
        (cbc_decrypt_blocks P ctx.key_dec (6 + ctx.key_length / 4) n (w.view sub.src) w.iv).1).mem ∧
    (cbc_decrypt_walk P W ctx (w.emit ev) (skcipher_walk_virt W alg sub).2).2.1.iv =
      (cbc_decrypt_blocks P ctx.key_dec (6 + ctx.key_length / 4) n (w.view sub.src) w.iv).2 := by
  obtain ⟨v1, v2, v3, v4⟩ := walk_virt_blocks W hW alg sub n hb hs hn hc hal
  have hspec := block_walk_loop_spec
    (fun inp b iv => aes_cbc_decrypt P inp ctx.key_dec (6 + ctx.key_length / 4) b iv)
    (cbc_decrypt_blocks P ctx.key_dec (6 + ctx.key_length / 4))
    (cbc_decrypt_chained P hP _ _) (fun _ _ _ => ⟨rfl, rfl⟩) W hW n
    ((skcipher_walk_virt W alg sub).2.total + 1) (w.emit ev) (skcipher_walk_virt W alg sub).2 0
    (by rw [v2.total]; omega) v2 hiv (by rw [v3]; exact hsrc) (by rw [v4]; exact hdst)
  rw [v3, v4, if_neg (by omega)] at hspec
  unfold cbc_decrypt_walk
  rw [cbc_decrypt_walk_loop_eq]
  exact ⟨v1, hspec.1, hspec.2.1, hspec.2.2⟩

theorem view_of_mem (w w2 : World) (src dst : scatterlist) (v : List Nat) (k : Nat)
    (hm : w2.mem = (w.write dst v).mem) (ha : src = dst ∨ src.id ≠ dst.id)
    (hk : v.length ≤ k) (hb : dst.off ≤ (w.mem dst.id).length) :
    w2.view (scatterwalk_ffwd src k) = (w.view src).drop k := by
  rw [← world_at_after_write w src dst v k ha hk hb]
  simp only [World.view, hm]

theorem write_of_mem (w w2 : World) (dst : scatterlist) (a b : List Nat)
    (hm : w2.mem = (w.write dst a).mem) (hb : dst.off ≤ (w.mem dst.id).length) :
    (w2.write (scatterwalk_ffwd dst a.length) b).mem = (w.write dst (a ++ b)).mem := by
  rw [← world_write_write w dst a b w2.iv w2.trace hb]
  simp only [World.write, hm]

theorem ffwd_dst_eq (req : skcipher_request) (k : Nat) :
    (if req.dst ≠ req.src then scatterwalk_ffwd req.dst k else scatterwalk_ffwd req.src k) =
      scatterwalk_ffwd req.dst k := by
  by_cases h : req.dst = req.src
  · rw [if_neg (by simp [h]), h]
  · rw [if_pos h]

/-- What cts_cbc_encrypt makes of a request of more than one block: it returns
0 and the destination holds plain CBC over the leading blocks followed by the
stolen tail. -/
theorem cts_encrypt_effect (P : AesPrim) (hP : BlockPreserving P) (W : Cursor) (hW : W.NoFail)
    (ctx : crypto_aes_ctx) (w : World) (req : skcipher_request)
    (h1 : 16 < req.cryptlen) (h2 : req.cryptlen + 15 < 2 ^ 32) (hiv : w.iv.length = 16)
    (hsrc : req.src.off + req.cryptlen ≤ (w.mem req.src.id).length)
    (hdst : req.dst.off + req.cryptlen ≤ (w.mem req.dst.id).length)
    (hal : req.src = req.dst ∨ req.src.id ≠ req.dst.id) :
    (cts_cbc_encrypt P W (cts_tfm ctx) w req).1 = 0 ∧
    (cts_cbc_encrypt P W (cts_tfm ctx) w req).2.mem =
      (w.write req.dst (cts_enc_bytes P ctx req.cryptlen (w.view req.src) w.iv)).mem := by
  have hcb := cts_cbc_blocks_val req.cryptlen h1 h2
  obtain ⟨b1, b2⟩ := cts_tail_bounds req.cryptlen h1
  have c1 : ¬ (req.cryptlen ≤ 16) := by omega
  have c2 : ¬ (req.cryptlen = 16) := by omega
  unfold cts_cbc_encrypt
  simp only [AES_BLOCK_SIZE, c1, false_and, if_false]
  simp only [AES_BLOCK_SIZE] at hcb
  rw [hcb]
  by_cases hn : cts_lead req.cryptlen = 0
  · rw [if_neg (by rw [hn]; decide)]
    have ht := to_u32_tail req.cryptlen (cts_lead req.cryptlen) (by omega) (by omega)
    rw [hn] at ht
    have := cts_encrypt_tail_ok P W ctx w req req.src req.dst ((0 : Nat) : Int) req.cryptlen
      (by rw [ht]; omega) (by omega) (by omega) (hW _ _)
    rw [hn, this]
    refine ⟨rfl, ?_⟩
    simp only [cts_enc_bytes, hn, cbc_encrypt_blocks, List.nil_append, Nat.mul_zero,
      List.drop_zero, Nat.sub_zero]
  · have hnpos : 0 < cts_lead req.cryptlen := Nat.pos_of_ne_zero hn
    rw [if_pos (by omega)]
    have hu := to_u32_lead (cts_lead req.cryptlen) (by omega)
    rw [hu]
    obtain ⟨p1, p2, p3, p4⟩ := cbc_phase_encrypt P hP W hW alg_cts_cbc ctx w
      { src := req.src, dst := req.dst, cryptlen := 16 * cts_lead req.cryptlen }
      (cts_lead req.cryptlen) [Event.skcipher_walk_virt (16 * cts_lead req.cryptlen)]
      rfl (by decide) hnpos rfl hiv (by simp only []; omega) (by simp only []; omega) hal
    simp only [cts_tfm, p1, p2, c2, ne_eq, not_true_eq_false, if_false, ffwd_dst_eq]
    have ht := to_u32_tail req.cryptlen (cts_lead req.cryptlen) (by omega) (by omega)
    obtain ⟨l1, l2⟩ := cbc_encrypt_blocks_len P hP ctx.key_enc (6 + ctx.key_length / 4)
      (cts_lead req.cryptlen) (w.view req.src) w.iv
      (by simp only [World.view, List.length_drop]; omega) hiv
    have htl := cts_encrypt_tail_ok P W ctx
      (cbc_encrypt_walk P W ctx
        (w.emit [Event.skcipher_walk_virt (16 * cts_lead req.cryptlen)])
        (skcipher_walk_virt W alg_cts_cbc
          { src := req.src, dst := req.dst, cryptlen := 16 * cts_lead req.cryptlen }).2).2.1
      req (scatterwalk_ffwd req.src (16 * cts_lead req.cryptlen))
      (scatterwalk_ffwd req.dst (16 * cts_lead req.cryptlen))
      ((cts_lead req.cryptlen : Nat) : Int) (req.cryptlen - 16 * cts_lead req.cryptlen)
      ht (by omega) (by omega) (hW _ _)
    simp only [cts_tfm] at htl
    rw [htl]
    refine ⟨rfl, ?_⟩
    simp only []
    rw [view_of_mem w _ req.src req.dst _ (16 * cts_lead req.cryptlen) p3 hal (by rw [l1])
      (by omega), p4]
    have hw := write_of_mem w _ req.dst _
      (aes_cbc_cts_encrypt P ((w.view req.src).drop (16 * cts_lead req.cryptlen)) ctx.key_enc
        (6 + ctx.key_length / 4) (req.cryptlen - 16 * cts_lead req.cryptlen)
        (cbc_encrypt_blocks P ctx.key_enc (6 + ctx.key_length / 4) (cts_lead req.cryptlen)
          (w.view req.src) w.iv).2).1 p3 (by omega)
    rw [l1] at hw
    rw [hw]
    rfl

/-- What cts_cbc_decrypt makes of a request of more than one block: it returns
0 and the destination holds plain CBC decryption of the leading blocks
followed by the unstolen tail. -/
theorem cts_decrypt_effect (P : AesPrim) (hP : BlockPreserving P) (W : Cursor) (hW : W.NoFail)
    (ctx : crypto_aes_ctx) (w : World) (req : skcipher_request)
    (h1 : 16 < req.cryptlen) (h2 : req.cryptlen + 15 < 2 ^ 32) (hiv : w.iv.length = 16)
    (hsrc : req.src.off + req.cryptlen ≤ (w.mem req.src.id).length)
    (hdst : req.dst.off + req.cryptlen ≤ (w.mem req.dst.id).length)
    (hal : req.src = req.dst ∨ req.src.id ≠ req.dst.id) :
    (cts_cbc_decrypt P W (cts_tfm ctx) w req).1 = 0 ∧
    (cts_cbc_decrypt P W (cts_tfm ctx) w req).2.mem =
      (w.write req.dst (cts_dec_bytes P ctx req.cryptlen (w.view req.src) w.iv)).mem := by
  have hcb := cts_cbc_blocks_val req.cryptlen h1 h2
  obtain ⟨b1, b2⟩ := cts_tail_bounds req.cryptlen h1
  have c1 : ¬ (req.cryptlen ≤ 16) := by omega
  have c2 : ¬ (req.cryptlen = 16) := by omega
  unfold cts_cbc_decrypt
  simp only [AES_BLOCK_SIZE, c1, false_and, if_false]
  simp only [AES_BLOCK_SIZE] at hcb
  rw [hcb]
  by_cases hn : cts_lead req.cryptlen = 0
  · rw [if_neg (by rw [hn]; decide)]
    have ht := to_u32_tail req.cryptlen (cts_lead req.cryptlen) (by omega) (by omega)
    rw [hn] at ht
    have := cts_decrypt_tail_ok P W ctx w req req.src req.dst ((0 : Nat) : Int) req.cryptlen
      (by rw [ht]; omega) (by omega) (by omega) (hW _ _)
    rw [hn, this]
    refine ⟨rfl, ?_⟩
    simp only [cts_dec_bytes, hn, cbc_decrypt_blocks, List.nil_append, Nat.mul_zero,
      List.drop_zero, Nat.sub_zero]
  · have hnpos : 0 < cts_lead req.cryptlen := Nat.pos_of_ne_zero hn
    rw [if_pos (by omega)]
    have hu := to_u32_lead (cts_lead req.cryptlen) (by omega)
    rw [hu]
    obtain ⟨p1, p2, p3, p4⟩ := cbc_phase_decrypt P hP W hW alg_cts_cbc ctx w
      { src := req.src, dst := req.dst, cryptlen := 16 * cts_lead req.cryptlen }
      (cts_lead req.cryptlen) [Event.skcipher_walk_virt (16 * cts_lead req.cryptlen)]
      rfl (by decide) hnpos rfl hiv (by simp only []; omega) (by simp only []; omega) hal
    simp only [cts_tfm, p1, p2, c2, ne_eq, not_true_eq_false, if_false, ffwd_dst_eq]
    have ht := to_u32_tail req.cryptlen (cts_lead req.cryptlen) (by omega) (by omega)
    obtain ⟨l1, l2⟩ := cbc_decrypt_blocks_len P hP ctx.key_dec (6 + ctx.key_length / 4)
      (cts_lead req.cryptlen) (w.view req.src) w.iv
      (by simp only [World.view, List.length_drop]; omega) hiv
    have htl := cts_decrypt_tail_ok P W ctx
      (cbc_decrypt_walk P W ctx
        (w.emit [Event.skcipher_walk_virt (16 * cts_lead req.cryptlen)])
        (skcipher_walk_virt W alg_cts_cbc
          { src := req.src, dst := req.dst, cryptlen := 16 * cts_lead req.cryptlen }).2).2.1
      req (scatterwalk_ffwd req.src (16 * cts_lead req.cryptlen))
      (scatterwalk_ffwd req.dst (16 * cts_lead req.cryptlen))
      ((cts_lead req.cryptlen : Nat) : Int) (req.cryptlen - 16 * cts_lead req.cryptlen)
      ht (by omega) (by omega) (hW _ _)
    simp only [cts_tfm] at htl
    rw [htl]
    refine ⟨rfl, ?_⟩
    simp only []
    rw [view_of_mem w _ req.src req.dst _ (16 * cts_lead req.cryptlen) p3 hal (by rw [l1])
      (by omega), p4]
    have hw := write_of_mem w _ req.dst _
      (aes_cbc_cts_decrypt P ((w.view req.src).drop (16 * cts_lead req.cryptlen)) ctx.key_dec
        (6 + ctx.key_length / 4) (req.cryptlen - 16 * cts_lead req.cryptlen)
        (cbc_decrypt_blocks P ctx.key_dec (6 + ctx.key_length / 4) (cts_lead req.cryptlen)
          (w.view req.src) w.iv).2).1 p3 (by omega)
    rw [l1] at hw
    rw [hw]
    rfl

theorem view_after_write (w w1 : World) (dst : scatterlist) (v : List Nat)
    (hm : w1.mem = (w.write dst v).mem) (hb : dst.off ≤ (w.mem dst.id).length) :
    w1.view dst = v ++ (w.mem dst.id).drop (dst.off + v.length) := by
  simp only [World.view, hm, World.write, if_true, store]
  rw [List.append_assoc, List.drop_left' (by simp [hb])]

theorem load_after_write (w1 w2 : World) (dst : scatterlist) (v : List Nat) (L : Nat)
    (hm : w2.mem = (w1.write dst v).mem) (hb : dst.off ≤ (w1.mem dst.id).length)
    (hl : v.length = L) :
    load (w2.mem dst.id) dst.off L = v := by
  simp only [hm, World.write, if_true]
  rw [← hl]
  exact load_store_same _ _ _ hb

theorem length_cts_encrypt (P : AesPrim) (hP : BlockPreserving P) (inp rk : List Nat)
    (r t : Nat) (iv : List Nat) (ht1 : 17 ≤ t) (ht2 : t ≤ 32) (hin : t ≤ inp.length)
    (hiv : iv.length = 16) :
    (aes_cbc_cts_encrypt P inp rk r t iv).1.length = t := by
  have hl := load_length_of_le inp (by omega)
  have hx : (P.encrypt rk r (xor_block (load inp 0 16) iv)).length = 16 :=
    (hP _ _ _ (by rw [length_xor_block, hl, hiv]; rfl)).1
  have hz := length_zero_extend (inp.drop 16) (t - 16) (by omega)
    (by simp only [List.length_drop]; omega)
  have hy : (P.encrypt rk r (xor_block (zero_extend (inp.drop 16) (t - 16))
      (P.encrypt rk r (xor_block (load inp 0 16) iv)))).length = 16 :=
    (hP _ _ _ (by rw [length_xor_block, hz, hx]; rfl)).1
  simp only [aes_cbc_cts_encrypt, AES_BLOCK_SIZE, List.length_append, List.length_take]
  rw [hy, hx]
  omega

/-- On bytes, what cts_cbc_decrypt computes undoes what cts_cbc_encrypt
computes. -/
theorem cts_bytes_round_trip (P : AesPrim) (hP : BlockPreserving P) (ctx : crypto_aes_ctx)
    (hI : Inverse P ctx) (L : Nat) (h1 : 16 < L) (inp iv rest : List Nat)
    (hin : L ≤ inp.length) (hiv : iv.length = 16) :
    cts_dec_bytes P ctx L (cts_enc_bytes P ctx L inp iv ++ rest) iv = inp.take L ∧
    (cts_enc_bytes P ctx L inp iv).length = L := by
  obtain ⟨b1, b2⟩ := cts_tail_bounds L h1
  obtain ⟨l1, l2⟩ := cbc_encrypt_blocks_len P hP ctx.key_enc (6 + ctx.key_length / 4)
    (cts_lead L) inp iv (by omega) hiv
  have hrt := cbc_blocks_round_trip P hP ctx hI (cts_lead L) inp iv
    ((aes_cbc_cts_encrypt P (inp.drop (16 * cts_lead L)) ctx.key_enc
      (6 + ctx.key_length / 4) (L - 16 * cts_lead L)
      (cbc_encrypt_blocks P ctx.key_enc (6 + ctx.key_length / 4) (cts_lead L) inp iv).2).1 ++
      rest) (by omega) hiv
  have hct := cts_prim_round_trip P hP ctx hI (inp.drop (16 * cts_lead L))
    (cbc_encrypt_blocks P ctx.key_enc (6 + ctx.key_length / 4) (cts_lead L) inp iv).2 rest
    (L - 16 * cts_lead L) (by omega) (by omega)
    (by simp only [List.length_drop]; omega) l2
  have hlt := length_cts_encrypt P hP (inp.drop (16 * cts_lead L)) ctx.key_enc
    (6 + ctx.key_length / 4) (L - 16 * cts_lead L)
    (cbc_encrypt_blocks P ctx.key_enc (6 + ctx.key_length / 4) (cts_lead L) inp iv).2
    (by omega) (by omega) (by simp only [List.length_drop]; omega) l2
  constructor
  · simp only [cts_dec_bytes, cts_enc_bytes, List.append_assoc]
    rw [hrt, List.drop_left' l1, hct]
    have : inp.take L = inp.take (16 * cts_lead L + (L - 16 * cts_lead L)) := by
      congr 1; omega
    rw [this, List.take_add]
  · simp only [cts_enc_bytes, List.length_append]
    rw [l1, hlt]; omega

theorem cbc_blocks_done_append (a b : List Event) :
    cbc_blocks_done (a ++ b) = cbc_blocks_done a + cbc_blocks_done b := by
  induction a with
  | nil => simp [cbc_blocks_done]
  | cons e a ih =>
    cases e <;> simp only [List.cons_append, cbc_blocks_done, List.append_eq, ih]; omega

theorem cts_calls_append (a b : List Event) :
    cts_calls (a ++ b) = cts_calls a + cts_calls b := by
  induction a with
  | nil => simp [cts_calls]
  | cons e a ih =>
    cases e <;> simp only [List.cons_append, cts_calls, List.append_eq, ih] <;> omega

theorem cts_cbc_encrypt_16_fail (P : AesPrim) (W : Cursor) (alg : skcipher_alg)
    (ctx : crypto_aes_ctx) (w : World) (req : skcipher_request)
    (hb : alg.cra_blocksize = 16) (h : req.cryptlen = 16)
    (hf : W.fail req.src.off 16 ≠ 0) :
    cts_cbc_encrypt P W { alg := alg, ctx := ctx } w req =
      (W.fail req.src.off 16, w.emit [Event.skcipher_walk_virt 16]) ∧
    cbc_encrypt P W { alg := alg, ctx := ctx } w req =
      (W.fail req.src.off 16, w.emit [Event.skcipher_walk_virt 16]) := by
  have hv := walk_virt_fail W alg req hb h hf
  constructor
  · rw [cts_cbc_encrypt_16 P W _ w req h]
    simp only []
    rw [if_pos (by rw [hv]; exact hf), hv]
  · unfold cbc_encrypt
    simp only []
    rw [if_pos (by rw [hv]; exact hf), hv, h]

theorem cts_cbc_decrypt_16_fail (P : AesPrim) (W : Cursor) (alg : skcipher_alg)
    (ctx : crypto_aes_ctx) (w : World) (req : skcipher_request)
    (hb : alg.cra_blocksize = 16) (h : req.cryptlen = 16)
    (hf : W.fail req.src.off 16 ≠ 0) :
    cts_cbc_decrypt P W { alg := alg, ctx := ctx } w req =
      (W.fail req.src.off 16, w.emit [Event.skcipher_walk_virt 16]) ∧
    cbc_decrypt P W { alg := alg, ctx := ctx } w req =
      (W.fail req.src.off 16, w.emit [Event.skcipher_walk_virt 16]) := by
  have hv := walk_virt_fail W alg req hb h hf
  constructor
  · rw [cts_cbc_decrypt_16 P W _ w req h]
    simp only []
    rw [if_pos (by rw [hv]; exact hf), hv]
  · unfold cbc_decrypt
    simp only []
    rw [if_pos (by rw [hv]; exact hf), hv, h]

theorem cts_cbc_blocks_small (L : Nat) (h1 : 16 < L) (h2 : L ≤ 32) :
    to_int (DIV_ROUND_UP L AES_BLOCK_SIZE + 2 ^ 32 - 2) = 0 := by
  unfold to_int DIV_ROUND_UP
  simp only [AES_BLOCK_SIZE]
  split <;> omega

theorem cts_cbc_encrypt_small (P : AesPrim) (W : Cursor) (tfm : crypto_skcipher) (w : World)
    (req : skcipher_request) (h1 : 16 < req.cryptlen) (h2 : req.cryptlen ≤ 32) :
    cts_cbc_encrypt P W tfm w req = cts_cbc_encrypt_tail P W tfm w req req.src req.dst 0 := by
  have c1 : ¬ (req.cryptlen ≤ 16) := by omega
  have hcb := cts_cbc_blocks_small req.cryptlen h1 h2
  unfold cts_cbc_encrypt
  simp only [AES_BLOCK_SIZE, c1, false_and, if_false]
  simp only [AES_BLOCK_SIZE] at hcb
  rw [hcb, if_neg (by decide)]

theorem walk_virt_tail_fail (W : Cursor) (sub : skcipher_request) (t : Nat)
    (ht1 : 17 ≤ t) (hc : sub.cryptlen = t) (hf : W.fail sub.src.off t ≠ 0) :
    (skcipher_walk_virt W alg_cts_cbc sub).1 = W.fail sub.src.off t := by
  unfold skcipher_walk_virt skcipher_walk_next
  simp only [hc, alg_cts_cbc, AES_BLOCK_SIZE]
  rw [if_neg (by omega), if_neg (by omega), if_pos hf]

theorem cts_encrypt_tail_fail (P : AesPrim) (W : Cursor) (ctx : crypto_aes_ctx) (w : World)
    (req : skcipher_request) (src dst : scatterlist) (cb : Int) (t : Nat)
    (hval : to_u32 ((req.cryptlen : Int) - cb * ((16 : Nat) : Int)) = t)
    (ht1 : 17 ≤ t) (hf : W.fail src.off t ≠ 0) :
    cts_cbc_encrypt_tail P W (cts_tfm ctx) w req src dst cb =
      (W.fail src.off t, w.emit [Event.skcipher_walk_virt t]) := by
  have hv := walk_virt_tail_fail W { src := src, dst := dst, cryptlen := t } t ht1 rfl hf
  unfold cts_cbc_encrypt_tail
  simp only [AES_BLOCK_SIZE, hval, cts_tfm]
  rw [if_pos (by rw [hv]; exact hf), hv]


theorem toyCursor_noFail : toyCursor.NoFail := fun _ _ => rfl

theorem toyPrim_inverse : Inverse toyPrim toyCtx :=
  fun b _ => toyBlock_involutive [7] (6 + 16 / 4) b

theorem walk_next_cases (W : Cursor) (walk : skcipher_walk) (hb : walk.blocksize = 16)
    (hs : 16 ≤ walk.stride) :
    (skcipher_walk_next W walk).2.total = walk.total ∧
    WalkSt (skcipher_walk_next W walk).2 ∧
    ((walk.total < 16 ∧ (skcipher_walk_next W walk).1 = -EINVAL ∧
        (skcipher_walk_next W walk).2.nbytes = 0) ∨
     (16 ≤ walk.total ∧ W.fail walk.src.off walk.total ≠ 0 ∧
        (skcipher_walk_next W walk).1 = W.fail walk.src.off walk.total ∧
        (skcipher_walk_next W walk).2.nbytes = 0) ∨
     (16 ≤ walk.total ∧ W.fail walk.src.off walk.total = 0 ∧
        (skcipher_walk_next W walk).1 = 0 ∧ 16 ≤ (skcipher_walk_next W walk).2.nbytes ∧
        (skcipher_walk_next W walk).2.nbytes ≤ walk.total)) := by
  unfold skcipher_walk_next
  by_cases h1 : walk.total < walk.blocksize
  · rw [if_pos h1]
    exact ⟨rfl, ⟨hb, hs, Or.inl rfl⟩, Or.inl ⟨by omega, rfl, rfl⟩⟩
  · rw [if_neg h1]
    by_cases h2 : W.fail walk.src.off walk.total ≠ 0
    · rw [if_pos h2]
      exact ⟨rfl, ⟨hb, hs, Or.inl rfl⟩, Or.inr (Or.inl ⟨by omega, h2, rfl, rfl⟩)⟩
    · rw [if_neg h2]
      have hlo : 16 ≤ max (min walk.stride walk.total)
          (min walk.total (W.chunk walk.src.off walk.total)) := by
        apply Nat.le_trans _ (Nat.le_max_left _ _)
        apply Nat.le_min.mpr
        exact ⟨hs, by omega⟩
      have hhi : max (min walk.stride walk.total)
          (min walk.total (W.chunk walk.src.off walk.total)) ≤ walk.total := by
        apply Nat.max_le.mpr
        exact ⟨Nat.min_le_right _ _, Nat.min_le_left _ _⟩
      exact ⟨rfl, ⟨hb, hs, Or.inr ⟨hlo, hhi⟩⟩,
        Or.inr (Or.inr ⟨by omega, by simpa using h2, rfl, hlo, hhi⟩)⟩

/-- Committing the whole blocks of a run: what remains, and the three ways the
next run can be empty. -/
theorem walk_done_cases (W : Cursor) (walk : skcipher_walk) (hst : WalkSt walk)
    (h16 : 16 ≤ walk.nbytes) :
    (skcipher_walk_done W walk (walk.nbytes % 16)).2.total =
        walk.total - 16 * (walk.nbytes / 16) ∧
    WalkSt (skcipher_walk_done W walk (walk.nbytes % 16)).2 ∧
    ((skcipher_walk_done W walk (walk.nbytes % 16)).2.nbytes = 0 →
      (walk.total - 16 * (walk.nbytes / 16) = 0 ∧
        (skcipher_walk_done W walk (walk.nbytes % 16)).1 = 0) ∨
      (walk.total - 16 * (walk.nbytes / 16) ≠ 0 ∧ walk.total - 16 * (walk.nbytes / 16) < 16 ∧
        (skcipher_walk_done W walk (walk.nbytes % 16)).1 = -EINVAL) ∨
      (16 ≤ walk.total - 16 * (walk.nbytes / 16) ∧
        (skcipher_walk_done W walk (walk.nbytes % 16)).1 ≠ 0 ∧
        ¬ W.NoFail)) := by
  have hsub : walk.nbytes - walk.nbytes % 16 = 16 * (walk.nbytes / 16) := by omega
  unfold skcipher_walk_done
  rw [if_neg (by omega)]
  simp only [hsub]
  by_cases hz : walk.total - 16 * (walk.nbytes / 16) ≠ 0
  · rw [if_pos hz]
    obtain ⟨n1, n2, n3⟩ := walk_next_cases W
      { walk with
          src := scatterwalk_ffwd walk.src (16 * (walk.nbytes / 16)),
          dst := scatterwalk_ffwd walk.dst (16 * (walk.nbytes / 16)),
          total := walk.total - 16 * (walk.nbytes / 16), nbytes := 0 }
      hst.blocksize hst.stride
    refine ⟨n1, n2, fun h0 => ?_⟩
    rcases n3 with ⟨a, b, _⟩ | ⟨a, b, c, _⟩ | ⟨a, b, c, d, e⟩
    · exact Or.inr (Or.inl ⟨hz, a, b⟩)
    · refine Or.inr (Or.inr ⟨a, by rw [c]; exact b, fun hN => b (hN _ _)⟩)
    · omega
  · rw [if_neg hz]
    exact ⟨rfl, ⟨hst.blocksize, hst.stride, Or.inl rfl⟩, fun _ => Or.inl ⟨by omega, rfl⟩⟩

/-- The error code of a block loop over a request with a final partial block
is never 0. -/
theorem block_walk_loop_err_rem
    (f : List Nat → Nat → List Nat → List Nat × List Nat × List Event) (W : Cursor) :
    ∀ (fuel : Nat) (w : World) (walk : skcipher_walk) (err : Int),
      walk.total < fuel → WalkSt walk → walk.total % 16 ≠ 0 →
      (walk.nbytes = 0 → err ≠ 0 ∧ (W.NoFail → err = -EINVAL)) →
      (block_walk_loop f W fuel w walk err).1 ≠ 0 ∧
      (W.NoFail → (block_walk_loop f W fuel w walk err).1 = -EINVAL) := by
  intro fuel
  induction fuel with
  | zero => intro w walk err h; omega
  | succ fuel ih =>
    intro w walk err hfuel hst hrem herr
    rcases hst.run with h0 | ⟨h16, hle⟩
    · rw [block_walk_loop_idle f W _ w walk err (by rw [h0])]
      exact herr h0
    · have hnz : ¬ (walk.nbytes / AES_BLOCK_SIZE = 0) := by
        show ¬ (walk.nbytes / 16 = 0)
        omega
      obtain ⟨d1, d2, d3⟩ := walk_done_cases W walk hst h16
      rw [block_walk_loop]
      simp only []
      rw [if_neg hnz]
      apply ih
      · show (skcipher_walk_done W walk (walk.nbytes % 16)).2.total < fuel
        rw [d1]; omega
      · exact d2
      · show (skcipher_walk_done W walk (walk.nbytes % 16)).2.total % 16 ≠ 0
        rw [d1]; omega
      · intro hn0
        rcases d3 hn0 with ⟨a, _⟩ | ⟨_, _, c⟩ | ⟨_, b, c⟩
        · omega
        · exact ⟨by rw [c]; simp [EINVAL], fun _ => c⟩
        · exact ⟨b, fun hN => absurd hN c⟩

/-- The error code of a block loop over a request of whole blocks is 0 when no
mapping fails. -/
theorem block_walk_loop_err_whole
    (f : List Nat → Nat → List Nat → List Nat × List Nat × List Event) (W : Cursor)
    (hW : W.NoFail) :
    ∀ (fuel : Nat) (w : World) (walk : skcipher_walk) (err : Int),
      walk.total < fuel → WalkSt walk → walk.total % 16 = 0 →
      (walk.nbytes = 0 → err = 0) →
      (block_walk_loop f W fuel w walk err).1 = 0 := by
  intro fuel
  induction fuel with
  | zero => intro w walk err h; omega
  | succ fuel ih =>
    intro w walk err hfuel hst hrem herr
    rcases hst.run with h0 | ⟨h16, hle⟩
    · rw [block_walk_loop_idle f W _ w walk err (by rw [h0])]
      exact herr h0
    · have hnz : ¬ (walk.nbytes / AES_BLOCK_SIZE = 0) := by
        show ¬ (walk.nbytes / 16 = 0)
        omega
      obtain ⟨d1, d2, d3⟩ := walk_done_cases W walk hst h16
      rw [block_walk_loop]
      simp only []
      rw [if_neg hnz]
      apply ih
      · show (skcipher_walk_done W walk (walk.nbytes % 16)).2.total < fuel
        rw [d1]; omega
      · exact d2
      · show (skcipher_walk_done W walk (walk.nbytes % 16)).2.total % 16 = 0
        rw [d1]; omega
      · intro hn0
        rcases d3 hn0 with ⟨_, b⟩ | ⟨a, b, _⟩ | ⟨_, _, c⟩
        · exact b
        · omega
        · exact absurd hW c

theorem ecb_encrypt_loop_eq (P : AesPrim) (W : Cursor) (ctx : crypto_aes_ctx) (rounds : Nat) :
    ∀ (fuel : Nat) (w : World) (walk : skcipher_walk) (err : Int),
      ecb_encrypt_loop P W ctx rounds fuel w walk err =
        block_walk_loop (fun inp b iv =>
          ((aes_ecb_encrypt P inp ctx.key_enc rounds b).1, iv,
           (aes_ecb_encrypt P inp ctx.key_enc rounds b).2)) W fuel w walk err := by
  intro fuel
  induction fuel with
  | zero => intro w walk err; rfl
  | succ fuel ih =>
    intro w walk err
    rw [ecb_encrypt_loop, block_walk_loop]
    simp only []
    split
    · rfl
    · rw [ih]; rfl

theorem ecb_decrypt_loop_eq (P : AesPrim) (W : Cursor) (ctx : crypto_aes_ctx) (rounds : Nat) :
    ∀ (fuel : Nat) (w : World) (walk : skcipher_walk) (err : Int),
      ecb_decrypt_loop P W ctx rounds fuel w walk err =
        block_walk_loop (fun inp b iv =>
          ((aes_ecb_decrypt P inp ctx.key_dec rounds b).1, iv,
           (aes_ecb_decrypt P inp ctx.key_dec rounds b).2)) W fuel w walk err := by
  intro fuel
  induction fuel with
  | zero => intro w walk err; rfl
  | succ fuel ih =>
    intro w walk err
    rw [ecb_decrypt_loop, block_walk_loop]
    simp only []
    split
    · rfl
    · rw [ih]; rfl

/-- The error code of a block loop run on the cursor of a request, for an
algorithm with 16-byte blocks. -/
theorem block_request_err
    (f : List Nat → Nat → List Nat → List Nat × List Nat × List Event) (W : Cursor)
    (alg : skcipher_alg) (w : World) (req : skcipher_request)
    (hb : alg.cra_blocksize = 16) (hs : 16 ≤ alg.walksize) :
    (req.cryptlen % 16 ≠ 0 →
      (block_walk_loop f W (req.cryptlen + 1) w (skcipher_walk_virt W alg req).2
        (skcipher_walk_virt W alg req).1).1 ≠ 0 ∧
      (W.NoFail → (block_walk_loop f W (req.cryptlen + 1) w (skcipher_walk_virt W alg req).2
        (skcipher_walk_virt W alg req).1).1 = -EINVAL) ∧
      (req.cryptlen < 16 → (block_walk_loop f W (req.cryptlen + 1) w
        (skcipher_walk_virt W alg req).2 (skcipher_walk_virt W alg req).1).1 = -EINVAL)) ∧
    (req.cryptlen % 16 = 0 → W.NoFail →
      (block_walk_loop f W (req.cryptlen + 1) w (skcipher_walk_virt W alg req).2
        (skcipher_walk_virt W alg req).1).1 = 0) := by
  by_cases hz : req.cryptlen = 0
  · have hv : skcipher_walk_virt W alg req =
        (0, { src := req.src, dst := req.dst, total := req.cryptlen, nbytes := 0,
              blocksize := alg.cra_blocksize, stride := alg.walksize }) := by
      unfold skcipher_walk_virt
      simp only [hz, if_true]
    rw [hv]
    constructor
    · intro h; omega
    · intro _ _
      rw [block_walk_loop_idle f W _ w _ _ (by show 0 / 16 = 0; decide)]
  · have hv : skcipher_walk_virt W alg req =
        skcipher_walk_next W
          { src := req.src, dst := req.dst, total := req.cryptlen, nbytes := 0,
            blocksize := alg.cra_blocksize, stride := alg.walksize } := by
      unfold skcipher_walk_virt
      simp only [hz, if_false]
    rw [hv]
    obtain ⟨n1, n2, n3⟩ := walk_next_cases W
      { src := req.src, dst := req.dst, total := req.cryptlen, nbytes := 0,
        blocksize := alg.cra_blocksize, stride := alg.walksize } hb hs
    have n1' : (skcipher_walk_next W
          { src := req.src, dst := req.dst, total := req.cryptlen, nbytes := 0,
            blocksize := alg.cra_blocksize, stride := alg.walksize }).2.total =
        req.cryptlen := n1
    constructor
    · intro hrem
      have hmain := block_walk_loop_err_rem f W (req.cryptlen + 1) w _
        (skcipher_walk_next W
          { src := req.src, dst := req.dst, total := req.cryptlen, nbytes := 0,
            blocksize := alg.cra_blocksize, stride := alg.walksize }).1
        (by rw [n1']; omega) n2 (by rw [n1']; exact hrem)
        (by
          intro hn0
          rcases n3 with ⟨_, b, _⟩ | ⟨_, b, c, _⟩ | ⟨_, _, _, d, _⟩
          · exact ⟨by rw [b]; simp [EINVAL], fun _ => b⟩
          · exact ⟨by rw [c]; exact b, fun hN => absurd (hN _ _) b⟩
          · omega)
      refine ⟨hmain.1, hmain.2, fun hlt => ?_⟩
      rcases n3 with ⟨_, b, c⟩ | ⟨a, _⟩ | ⟨a, _⟩
      · rw [block_walk_loop_idle f W _ w _ _ (by rw [c]), b]
      · exact absurd hlt (by
          show ¬ req.cryptlen < 16
          have : (16 : Nat) ≤ req.cryptlen := a
          omega)
      · exact absurd hlt (by
          show ¬ req.cryptlen < 16
          have : (16 : Nat) ≤ req.cryptlen := a
          omega)
    · intro hrem hW
      apply block_walk_loop_err_whole f W hW
      · rw [n1']; omega
      · exact n2
      · rw [n1']; exact hrem
      · intro hn0
        rcases n3 with ⟨a, _⟩ | ⟨_, b, _⟩ | ⟨_, _, _, d, _⟩
        · have : req.cryptlen < 16 := a
          omega
        · exact absurd (hW _ _) b
        · omega

theorem load_append_head (a b : List Nat) (h : a.length = 16) : load (a ++ b) 0 16 = a := by
  simp only [load, List.drop_zero]
  rw [List.take_append_of_le_length (by omega), List.take_of_length_le (by omega)]

theorem load_append_tail (a b : List Nat) (j k : Nat) (h : a.length = 16) :
    load (a ++ b) (16 * (j + 1)) k = load b (16 * j) k := by
  simp only [load]
  rw [List.drop_append_eq_append_drop, List.drop_of_length_le (by omega), List.nil_append]
  congr 2
  omega

theorem load_drop_block (inp : List Nat) (j k : Nat) :
    load (inp.drop 16) (16 * j) k = load inp (16 * (j + 1)) k := by
  simp only [load, List.drop_drop]
  congr 2
  omega

/-- Block i of CBC encryption is the encryption of input block i xored with
output block i-1, the IV for the first block. -/
theorem cbc_encrypt_blocks_block (P : AesPrim) (hP : BlockPreserving P) (rk : List Nat)
    (r : Nat) (n : Nat) : ∀ (inp iv : List Nat) (i : Nat), i < n → 16 * n ≤ inp.length →
    iv.length = 16 →
    load (cbc_encrypt_blocks P rk r n inp iv).1 (16 * i) 16 =
      P.encrypt rk r (xor_block (load inp (16 * i) 16)
        (if i = 0 then iv else load (cbc_encrypt_blocks P rk r n inp iv).1 (16 * (i - 1)) 16)) := by
  induction n with
  | zero => intro inp iv i hi; omega
  | succ n ih =>
    intro inp iv i hi hin hiv
    have hl := load_length_of_le inp (by omega)
    have hc : (P.encrypt rk r (xor_block (load inp 0 16) iv)).length = 16 :=
      (hP rk r _ (by rw [length_xor_block, hl, hiv]; rfl)).1
    simp only [cbc_encrypt_blocks]
    cases i with
    | zero =>
      show load _ 0 16 = _
      rw [load_append_head _ _ hc]
      simp
    | succ j =>
      rw [load_append_tail _ _ _ _ hc, if_neg (by omega),
        ih (inp.drop 16) _ j (by omega) (by simp only [List.length_drop]; omega) hc,
        load_drop_block]
      congr 2
      cases j with
      | zero =>
        show _ = load _ 0 16
        rw [load_append_head _ _ hc]; simp
      | succ k =>
        rw [if_neg (by omega)]
        show _ = load _ (16 * (k + 1)) 16
        rw [load_append_tail _ _ _ _ hc]
        rfl

/-- Block i of CBC decryption is the decryption of input block i xored with
input block i-1, the IV for the first block. -/
theorem cbc_decrypt_blocks_block (P : AesPrim) (hP : BlockPreserving P) (rk : List Nat)
    (r : Nat) (n : Nat) : ∀ (inp iv : List Nat) (i : Nat), i < n → 16 * n ≤ inp.length →
    iv.length = 16 →
    load (cbc_decrypt_blocks P rk r n inp iv).1 (16 * i) 16 =
      xor_block (P.decrypt rk r (load inp (16 * i) 16))
        (if i = 0 then iv else load inp (16 * (i - 1)) 16) := by
  induction n with
  | zero => intro inp iv i hi; omega
  | succ n ih =>
    intro inp iv i hi hin hiv
    have hl := load_length_of_le inp (by omega)
    have hd : (P.decrypt rk r (load inp 0 16)).length = 16 := (hP rk r _ hl).2
    have hp : (xor_block (P.decrypt rk r (load inp 0 16)) iv).length = 16 := by
      rw [length_xor_block, hd, hiv]; rfl
    simp only [cbc_decrypt_blocks]
    cases i with
    | zero =>
      show load _ 0 16 = _
      rw [load_append_head _ _ hp]
      simp
    | succ j =>
      rw [load_append_tail _ _ _ _ hp, if_neg (by omega),
        ih (inp.drop 16) _ j (by omega) (by simp only [List.length_drop]; omega) hl,
        load_drop_block]
      congr 1
      cases j with
      | zero => simp
      | succ k =>
        rw [if_neg (by omega), load_drop_block]
        rfl

theorem walk_virt_empty (W : Cursor) (alg : skcipher_alg) (req : skcipher_request)
    (h : req.cryptlen = 0) :
    skcipher_walk_virt W alg req =
      (0, { src := req.src, dst := req.dst, total := req.cryptlen, nbytes := 0,
            blocksize := alg.cra_blocksize, stride := alg.walksize }) := by
  unfold skcipher_walk_virt
  simp only [h, if_true]

/-- What cbc_encrypt makes of a request of `n` whole blocks, however the cursor
cuts it. -/
theorem cbc_encrypt_effect (P : AesPrim) (hP : BlockPreserving P) (W : Cursor) (hW : W.NoFail)
    (ctx : crypto_aes_ctx) (w : World) (req : skcipher_request) (n : Nat)
    (hc : req.cryptlen = 16 * n) (hiv : w.iv.length = 16)
    (hsrc : req.src.off + 16 * n ≤ (w.mem req.src.id).length)
    (hdst : req.dst.off + 16 * n ≤ (w.mem req.dst.id).length)
    (hal : req.src = req.dst ∨ req.src.id ≠ req.dst.id) :
    (cbc_encrypt P W (cbc_tfm ctx) w req).1 = 0 ∧
    (cbc_encrypt P W (cbc_tfm ctx) w req).2.mem =
      (w.write req.dst
        (cbc_encrypt_blocks P ctx.key_enc (6 + ctx.key_length / 4) n (w.view req.src) w.iv).1).mem ∧
    (cbc_encrypt P W (cbc_tfm ctx) w req).2.iv =
      (cbc_encrypt_blocks P ctx.key_enc (6 + ctx.key_length / 4) n (w.view req.src) w.iv).2 := by
  rcases Nat.eq_zero_or_pos n with hn | hn
  · subst hn
    have hv := walk_virt_empty W alg_cbc req (by omega)
    unfold cbc_encrypt cbc_encrypt_walk
    simp only [cbc_tfm, hv, ne_eq, not_true_eq_false, if_false]
    rw [cbc_encrypt_walk_loop_idle _ _ _ _ _ _ _ rfl]
    exact ⟨rfl, (world_write_mem_nil w req.dst).symm, rfl⟩
  · obtain ⟨p1, p2, p3, p4⟩ := cbc_phase_encrypt P hP W hW alg_cbc ctx w req n
      [Event.skcipher_walk_virt req.cryptlen] rfl (by decide) hn hc hiv hsrc hdst hal
    unfold cbc_encrypt
    simp only [cbc_tfm, p1, ne_eq, not_true_eq_false, if_false]
    exact ⟨p2, p3, p4⟩

/-- What cbc_decrypt makes of a request of `n` whole blocks, however the cursor
cuts it. -/
theorem cbc_decrypt_effect (P : AesPrim) (hP : BlockPreserving P) (W : Cursor) (hW : W.NoFail)
    (ctx : crypto_aes_ctx) (w : World) (req : skcipher_request) (n : Nat)
    (hc : req.cryptlen = 16 * n) (hiv : w.iv.length = 16)
    (hsrc : req.src.off + 16 * n ≤ (w.mem req.src.id).length)
    (hdst : req.dst.off + 16 * n ≤ (w.mem req.dst.id).length)
    (hal : req.src = req.dst ∨ req.src.id ≠ req.dst.id) :
    (cbc_decrypt P W (cbc_tfm ctx) w req).1 = 0 ∧
    (cbc_decrypt P W (cbc_tfm ctx) w req).2.mem =
      (w.write req.dst
        (cbc_decrypt_blocks P ctx.key_dec (6 + ctx.key_length / 4) n (w.view req.src) w.iv).1).mem ∧
    (cbc_decrypt P W (cbc_tfm ctx) w req).2.iv =
      (cbc_decrypt_blocks P ctx.key_dec (6 + ctx.key_length / 4) n (w.view req.src) w.iv).2 := by
  rcases Nat.eq_zero_or_pos n with hn | hn
  · subst hn
    have hv := walk_virt_empty W alg_cbc req (by omega)
    unfold cbc_decrypt cbc_decrypt_walk
    simp only [cbc_tfm, hv, ne_eq, not_true_eq_false, if_false]
    rw [cbc_decrypt_walk_loop_idle _ _ _ _ _ _ _ rfl]
    exact ⟨rfl, (world_write_mem_nil w req.dst).symm, rfl⟩
  · obtain ⟨p1, p2, p3, p4⟩ := cbc_phase_decrypt P hP W hW alg_cbc ctx w req n
      [Event.skcipher_walk_virt req.cryptlen] rfl (by decide) hn hc hiv hsrc hdst hal
    unfold cbc_decrypt
    simp only [cbc_tfm, p1, ne_eq, not_true_eq_false, if_false]
    exact ⟨p2, p3, p4⟩

theorem whole_noFail : Cursor.whole.NoFail := fun _ _ => rfl

/-- A block of the destination after a write of whole blocks there. -/
theorem load_view_written (w w1 : World) (dst : scatterlist) (v : List Nat) (i n : Nat)
    (hm : w1.mem = (w.write dst v).mem) (hb : dst.off ≤ (w.mem dst.id).length)
    (hl : v.length = 16 * n) (hi : i < n) :
    load (w1.view dst) (16 * i) 16 = load v (16 * i) 16 := by
  rw [view_after_write w w1 dst v hm hb]
  simp only [load]
  rw [List.drop_append_of_le_length (by omega), List.take_append_of_le_length]
  simp only [List.length_drop]
  omega

/-- A block loop entered after a first call that already processed the whole
blocks of the first run from a chain value `iv0`: the two together write what
the chained block function makes of all `n` blocks from `iv0`. -/
theorem block_walk_first
    (f : List Nat → Nat → List Nat → List Nat × List Nat × List Event)
    (g : Nat → List Nat → List Nat → List Nat × List Nat) (hg : Chained g)
    (hf : ∀ inp b iv, (f inp b iv).1 = (g b inp iv).1 ∧ (f inp b iv).2.1 = (g b inp iv).2)
    (W : Cursor) (hW : W.NoFail) (n : Nat) (hn : 0 < n) (fuel : Nat) (w : World)
    (walk : skcipher_walk) (iv0 : List Nat) (tr : List Event)
    (hfuel : n - walk.nbytes / 16 ≤ fuel) (hw : WalkOK walk n) (hiv0 : iv0.length = 16)
    (hsrc : walk.src.off + 16 * n ≤ (w.mem walk.src.id).length)
    (hdst : walk.dst.off + 16 * n ≤ (w.mem walk.dst.id).length) :
    (skcipher_walk_done W walk (walk.nbytes % 16)).1 = 0 ∧
    (block_walk_loop f W fuel
      ⟨(w.write walk.dst (g (walk.nbytes / 16) (w.view walk.src) iv0).1).mem,
       (g (walk.nbytes / 16) (w.view walk.src) iv0).2, tr⟩
      (skcipher_walk_done W walk (walk.nbytes % 16)).2 0).1 = 0 ∧
    (block_walk_loop f W fuel
      ⟨(w.write walk.dst (g (walk.nbytes / 16) (w.view walk.src) iv0).1).mem,
       (g (walk.nbytes / 16) (w.view walk.src) iv0).2, tr⟩
      (skcipher_walk_done W walk (walk.nbytes % 16)).2 0).2.1.mem =
        (w.write walk.dst (g n (w.view walk.src) iv0).1).mem ∧
    (block_walk_loop f W fuel
      ⟨(w.write walk.dst (g (walk.nbytes / 16) (w.view walk.src) iv0).1).mem,
       (g (walk.nbytes / 16) (w.view walk.src) iv0).2, tr⟩
      (skcipher_walk_done W walk (walk.nbytes % 16)).2 0).2.1.iv =
        (g n (w.view walk.src) iv0).2 := by
  obtain ⟨h16, hle⟩ := hw.run hn
  have ht := hw.total
  obtain ⟨d1, d2, d3, d4⟩ := walk_done_ok W hW walk n hn hw
  have hb1 : 1 ≤ walk.nbytes / 16 := by omega
  have hbn : walk.nbytes / 16 ≤ n := by omega
  have hsl : 16 * (walk.nbytes / 16) ≤ (w.view walk.src).length := by
    simp only [World.view, List.length_drop]; omega
  obtain ⟨l1, l2⟩ := hg.len (walk.nbytes / 16) (w.view walk.src) iv0 hsl hiv0
  have hih := block_walk_loop_spec f g hg hf W hW (n - walk.nbytes / 16) fuel
    ⟨(w.write walk.dst (g (walk.nbytes / 16) (w.view walk.src) iv0).1).mem,
     (g (walk.nbytes / 16) (w.view walk.src) iv0).2, tr⟩
    (skcipher_walk_done W walk (walk.nbytes % 16)).2 0 (by omega) d2 l2
    (by
      rw [d3]
      show walk.src.off + 16 * (walk.nbytes / 16) + 16 * (n - walk.nbytes / 16) ≤
        ((w.write walk.dst (g (walk.nbytes / 16) (w.view walk.src) iv0).1).mem
          walk.src.id).length
      rw [world_write_length _ _ _ _ (by rw [l1]; omega)]; omega)
    (by
      rw [d4]
      show walk.dst.off + 16 * (walk.nbytes / 16) + 16 * (n - walk.nbytes / 16) ≤
        ((w.write walk.dst (g (walk.nbytes / 16) (w.view walk.src) iv0).1).mem
          walk.dst.id).length
      rw [world_write_length _ _ _ _ (by rw [l1]; omega)]; omega)
  obtain ⟨i1, i2, i3⟩ := hih
  have hat : World.view
      ⟨(w.write walk.dst (g (walk.nbytes / 16) (w.view walk.src) iv0).1).mem,
       (g (walk.nbytes / 16) (w.view walk.src) iv0).2, tr⟩
      (skcipher_walk_done W walk (walk.nbytes % 16)).2.src =
      (w.view walk.src).drop (16 * (walk.nbytes / 16)) := by
    rw [d3]
    exact world_at_after_write w walk.src walk.dst _ _ hw.aliasing (by rw [l1]) (by omega)
  rw [hat] at i2 i3
  have hadd := hg.add (walk.nbytes / 16) (n - walk.nbytes / 16) (w.view walk.src) iv0
  rw [show walk.nbytes / 16 + (n - walk.nbytes / 16) = n from by omega] at hadd
  refine ⟨d1, ?_, ?_, ?_⟩
  · rw [i1]; split <;> rfl
  · rw [i2, d4, hadd]
    have := world_write_write w walk.dst (g (walk.nbytes / 16) (w.view walk.src) iv0).1
      (g (n - walk.nbytes / 16) ((w.view walk.src).drop (16 * (walk.nbytes / 16)))
        (g (walk.nbytes / 16) (w.view walk.src) iv0).2).1
      (g (walk.nbytes / 16) (w.view walk.src) iv0).2 tr (by omega)
    rw [l1] at this
    exact this
  · rw [i3, hadd]

/-- What essiv_cbc_encrypt makes of a request of `n` > 0 whole blocks, however
the cursor cuts it: CBC encryption under the primary key from the IV encrypted
under the secondary key. -/
theorem essiv_cbc_encrypt_effect (P : AesPrim) (hP : BlockPreserving P) (W : Cursor)
    (hW : W.NoFail) (ctx : crypto_aes_essiv_cbc_ctx) (w : World) (req : skcipher_request)
    (n : Nat) (hn : 0 < n)
    (hc : req.cryptlen = 16 * n) (hiv : w.iv.length = 16)
    (hsrc : req.src.off + 16 * n ≤ (w.mem req.src.id).length)
    (hdst : req.dst.off + 16 * n ≤ (w.mem req.dst.id).length)
    (hal : req.src = req.dst ∨ req.src.id ≠ req.dst.id) :
    (essiv_cbc_encrypt P W ctx w req).1 = 0 ∧
    (essiv_cbc_encrypt P W ctx w req).2.mem =
      (w.write req.dst
        (cbc_encrypt_blocks P ctx.key1.key_enc (6 + ctx.key1.key_length / 4) n
          (w.view req.src) (P.encrypt ctx.key2.key_enc 14 w.iv)).1).mem ∧
    (essiv_cbc_encrypt P W ctx w req).2.iv =
      (cbc_encrypt_blocks P ctx.key1.key_enc (6 + ctx.key1.key_length / 4) n
          (w.view req.src) (P.encrypt ctx.key2.key_enc 14 w.iv)).2 := by
  obtain ⟨v1, v2, v3, v4⟩ := walk_virt_blocks W hW alg_essiv_cbc req n rfl (by decide) hn hc hal
  obtain ⟨h16, hle⟩ := v2.run hn
  have hnz : (skcipher_walk_virt W alg_essiv_cbc req).2.nbytes / 16 ≠ 0 := by omega
  have hfirst := fun tr => block_walk_first
    (fun inp b iv => aes_cbc_encrypt P inp ctx.key1.key_enc (6 + ctx.key1.key_length / 4) b iv)
    (cbc_encrypt_blocks P ctx.key1.key_enc (6 + ctx.key1.key_length / 4))
    (cbc_encrypt_chained P hP _ _) (fun _ _ _ => ⟨rfl, rfl⟩) W hW n hn
    ((skcipher_walk_done W (skcipher_walk_virt W alg_essiv_cbc req).2
      ((skcipher_walk_virt W alg_essiv_cbc req).2.nbytes % 16)).2.total + 1) w
    (skcipher_walk_virt W alg_essiv_cbc req).2 (P.encrypt ctx.key2.key_enc 14 w.iv) tr
    (by
      have := (walk_done_ok W hW _ n hn v2).2.1.total
      rw [this]; omega)
    v2 (hP _ _ _ hiv).1 (by rw [v3]; exact hsrc) (by rw [v4]; exact hdst)
  rw [v3, v4] at hfirst
  unfold essiv_cbc_encrypt cbc_encrypt_walk
  simp only [AES_BLOCK_SIZE, ne_eq, hnz, not_false_eq_true, if_true]
  rw [cbc_encrypt_walk_loop_eq]
  have h := hfirst (w.trace ++ [Event.skcipher_walk_virt req.cryptlen] ++
    ([Event.kernel_neon_begin] ++ (aes_essiv_cbc_encrypt P
      ((w.emit [Event.skcipher_walk_virt req.cryptlen]).view
        (skcipher_walk_virt W alg_essiv_cbc req).2.src) ctx.key1.key_enc
      (6 + ctx.key1.key_length / 4) ((skcipher_walk_virt W alg_essiv_cbc req).2.nbytes / 16)
      w.iv ctx.key2.key_enc).2.2 ++ [Event.kernel_neon_end]) ++
    [Event.skcipher_walk_done ((skcipher_walk_virt W alg_essiv_cbc req).2.nbytes % 16)])
  obtain ⟨h1, h2, h3, h4⟩ := h
  rw [if_neg (by rw [h1]; simp)]
  rw [v3, v4]
  exact ⟨h2, h3, h4⟩

/-- The events a block loop adds to the trace are those of its primitive calls
and the brackets around them. -/
theorem block_walk_loop_trace
    (f : List Nat → Nat → List Nat → List Nat × List Nat × List Event) (W : Cursor)
    (Q : Event → Prop) (hf : ∀ inp b iv, ∀ e ∈ (f inp b iv).2.2, Q e)
    (h1 : Q Event.kernel_neon_begin) (h2 : Q Event.kernel_neon_end)
    (h3 : ∀ r, Q (Event.skcipher_walk_done r)) :
    ∀ (fuel : Nat) (w : World) (walk : skcipher_walk) (err : Int),
      ∃ tr, (block_walk_loop f W fuel w walk err).2.1.trace = w.trace ++ tr ∧
        ∀ e ∈ tr, Q e := by
  intro fuel
  induction fuel with
  | zero => intro w walk err; exact ⟨[], by simp [block_walk_loop], by simp⟩
  | succ fuel ih =>
    intro w walk err
    rw [block_walk_loop]
    simp only []
    split
    · exact ⟨[], by simp, by simp⟩
    · obtain ⟨tr, t1, t2⟩ := ih
        (({ (w.emit ([Event.kernel_neon_begin] ++
            (f (w.view walk.src) (walk.nbytes / AES_BLOCK_SIZE) w.iv).2.2 ++
            [Event.kernel_neon_end])).write walk.dst
              (f (w.view walk.src) (walk.nbytes / AES_BLOCK_SIZE) w.iv).1 with
            iv := (f (w.view walk.src) (walk.nbytes / AES_BLOCK_SIZE) w.iv).2.1 } : World).emit
          [Event.skcipher_walk_done (walk.nbytes % AES_BLOCK_SIZE)])
        (skcipher_walk_done W walk (walk.nbytes % AES_BLOCK_SIZE)).2
        (skcipher_walk_done W walk (walk.nbytes % AES_BLOCK_SIZE)).1
      refine ⟨([Event.kernel_neon_begin] ++
            (f (w.view walk.src) (walk.nbytes / AES_BLOCK_SIZE) w.iv).2.2 ++
            [Event.kernel_neon_end]) ++
          [Event.skcipher_walk_done (walk.nbytes % AES_BLOCK_SIZE)] ++ tr, ?_, ?_⟩
      · rw [t1]
        simp only [World.emit, World.write, List.append_assoc]
      · intro e he
        simp only [List.mem_append, List.mem_singleton] at he
        rcases he with ((((he | he) | he) | he) | he)
        · rw [he]; exact h1
        · exact hf _ _ _ e he
        · rw [he]; exact h2
        · rw [he]; exact h3 _
        · exact t2 e he

theorem essiv_calls_append (a b : List Event) :
    essiv_calls (a ++ b) = essiv_calls a + essiv_calls b := by
  induction a with
  | nil => simp [essiv_calls]
  | cons e a ih =>
    cases e <;> simp [essiv_calls, ih, List.append_eq] <;> omega

theorem essiv_calls_none (tr : List Event) (h : ∀ e ∈ tr, Event.notEssiv e) :
    essiv_calls tr = 0 := by
  induction tr with
  | nil => rfl
  | cons e tr ih =>
    have he := h e (List.mem_cons_self _ _)
    have ht := ih (fun e he => h e (List.mem_cons_of_mem _ he))
    cases e <;> simp [essiv_calls, ht, Event.notEssiv] at he ⊢

theorem notEssiv_replicate (n : Nat) (c : Event) (hc : Event.notEssiv c) :
    ∀ e ∈ List.replicate n c, Event.notEssiv e := by
  intro e he
  rw [(List.mem_replicate.mp he).2]
  exact hc

/-- CBC encryption of `n` blocks reads only the first `n` blocks of its
input. -/
theorem cbc_encrypt_blocks_take (P : AesPrim) (rk : List Nat) (r : Nat) (n : Nat) :
    ∀ (inp iv : List Nat) (k : Nat), 16 * n ≤ k →
    cbc_encrypt_blocks P rk r n (inp.take k) iv = cbc_encrypt_blocks P rk r n inp iv := by
  induction n with
  | zero => intro inp iv k _; rfl
  | succ n ih =>
    intro inp iv k hk
    simp only [cbc_encrypt_blocks]
    have h1 : load (inp.take k) 0 AES_BLOCK_SIZE = load inp 0 AES_BLOCK_SIZE := by
      simp only [load, List.drop_zero, List.take_take, AES_BLOCK_SIZE]
      rw [Nat.min_eq_left (by omega)]
    rw [h1, show AES_BLOCK_SIZE = 16 from rfl, List.drop_take, ih _ _ (k - 16) (by omega)]

/-- CBC decryption of `n` blocks reads only the first `n` blocks of its
input. -/
theorem cbc_decrypt_blocks_take (P : AesPrim) (rk : List Nat) (r : Nat) (n : Nat) :
    ∀ (inp iv : List Nat) (k : Nat), 16 * n ≤ k →
    cbc_decrypt_blocks P rk r n (inp.take k) iv = cbc_decrypt_blocks P rk r n inp iv := by
  induction n with
  | zero => intro inp iv k _; rfl
  | succ n ih =>
    intro inp iv k hk
    simp only [cbc_decrypt_blocks]
    have h1 : load (inp.take k) 0 AES_BLOCK_SIZE = load inp 0 AES_BLOCK_SIZE := by
      simp only [load, List.drop_zero, List.take_take, AES_BLOCK_SIZE]
      rw [Nat.min_eq_left (by omega)]
    rw [h1, show AES_BLOCK_SIZE = 16 from rfl, List.drop_take, ih _ _ (k - 16) (by omega)]

/-- The first bytes of the destination after a write there. -/
theorem load_view_whole (w w1 : World) (dst : scatterlist) (v : List Nat)
    (hm : w1.mem = (w.write dst v).mem) (hb : dst.off ≤ (w.mem dst.id).length) :
    load (w1.view dst) 0 v.length = v := by
  rw [view_after_write w w1 dst v hm hb]
  simp only [load, List.drop_zero]
  rw [List.take_append_of_le_length (by omega), List.take_of_length_le (by omega)]

/-- Round trip through memory: when one request writes `v` at its destination
and a second request, reading there, writes what `G` makes of the bytes it
finds, and `G` recovers `x` from `v` whatever follows it, the second
destination holds `x`. -/
theorem round_trip_load (w we wd : World) (iv : List Nat) (tr : List Event)
    (req dreq : skcipher_request) (v x : List Nat) (G : List Nat → List Nat)
    (he : we.mem = (w.write req.dst v).mem)
    (hds : dreq.src = req.dst)
    (hdst : req.dst.off + v.length ≤ (w.mem req.dst.id).length)
    (hddst : dreq.dst.off ≤ (w.mem dreq.dst.id).length)
    (hd : wd.mem = ((⟨we.mem, iv, tr⟩ : World).write dreq.dst
      (G (World.view ⟨we.mem, iv, tr⟩ dreq.src))).mem)
    (hG : ∀ rest, G (v ++ rest) = x) :
    load (wd.mem dreq.dst.id) dreq.dst.off x.length = x := by
  have hview : World.view ⟨we.mem, iv, tr⟩ dreq.src =
      v ++ (w.mem req.dst.id).drop (req.dst.off + v.length) := by
    rw [hds]
    exact view_after_write w ⟨we.mem, iv, tr⟩ req.dst v he (by omega)
  rw [hview, hG] at hd
  have hlen : ((⟨we.mem, iv, tr⟩ : World).mem dreq.dst.id).length = (w.mem dreq.dst.id).length := by
    show (we.mem dreq.dst.id).length = _
    rw [he]
    exact world_write_length _ _ _ _ hdst
  exact load_after_write ⟨we.mem, iv, tr⟩ wd dreq.dst x x.length hd (by rw [hlen]; exact hddst) rfl

/-- What essiv_cbc_decrypt makes of a request of `n` > 0 whole blocks, however
the cursor cuts it: CBC decryption under the primary key from the IV encrypted
under the secondary key. -/
theorem essiv_cbc_decrypt_effect (P : AesPrim) (hP : BlockPreserving P) (W : Cursor)
    (hW : W.NoFail) (ctx : crypto_aes_essiv_cbc_ctx) (w : World) (req : skcipher_request)
    (n : Nat) (hn : 0 < n)
    (hc : req.cryptlen = 16 * n) (hiv : w.iv.length = 16)
    (hsrc : req.src.off + 16 * n ≤ (w.mem req.src.id).length)
    (hdst : req.dst.off + 16 * n ≤ (w.mem req.dst.id).length)
    (hal : req.src = req.dst ∨ req.src.id ≠ req.dst.id) :
    (essiv_cbc_decrypt P W ctx w req).1 = 0 ∧
    (essiv_cbc_decrypt P W ctx w req).2.mem =
      (w.write req.dst
        (cbc_decrypt_blocks P ctx.key1.key_dec (6 + ctx.key1.key_length / 4) n
          (w.view req.src) (P.encrypt ctx.key2.key_enc 14 w.iv)).1).mem ∧
    (essiv_cbc_decrypt P W ctx w req).2.iv =
      (cbc_decrypt_blocks P ctx.key1.key_dec (6 + ctx.key1.key_length / 4) n
          (w.view req.src) (P.encrypt ctx.key2.key_enc 14 w.iv)).2 := by
  obtain ⟨v1, v2, v3, v4⟩ := walk_virt_blocks W hW alg_essiv_cbc req n rfl (by decide) hn hc hal
  obtain ⟨h16, hle⟩ := v2.run hn
  have hnz : (skcipher_walk_virt W alg_essiv_cbc req).2.nbytes / 16 ≠ 0 := by omega
  have hfirst := fun tr => block_walk_first
    (fun inp b iv => aes_cbc_decrypt P inp ctx.key1.key_dec (6 + ctx.key1.key_length / 4) b iv)
    (cbc_decrypt_blocks P ctx.key1.key_dec (6 + ctx.key1.key_length / 4))
    (cbc_decrypt_chained P hP _ _) (fun _ _ _ => ⟨rfl, rfl⟩) W hW n hn
    ((skcipher_walk_done W (skcipher_walk_virt W alg_essiv_cbc req).2
      ((skcipher_walk_virt W alg_essiv_cbc req).2.nbytes % 16)).2.total + 1) w
    (skcipher_walk_virt W alg_essiv_cbc req).2 (P.encrypt ctx.key2.key_enc 14 w.iv) tr
    (by
      have := (walk_done_ok W hW _ n hn v2).2.1.total
      rw [this]; omega)
    v2 (hP _ _ _ hiv).1 (by rw [v3]; exact hsrc) (by rw [v4]; exact hdst)
  rw [v3, v4] at hfirst
  unfold essiv_cbc_decrypt cbc_decrypt_walk
  simp only [AES_BLOCK_SIZE, ne_eq, hnz, not_false_eq_true, if_true]
  rw [cbc_decrypt_walk_loop_eq]
  have h := hfirst (w.trace ++ [Event.skcipher_walk_virt req.cryptlen] ++
    ([Event.kernel_neon_begin] ++ (aes_essiv_cbc_decrypt P
      ((w.emit [Event.skcipher_walk_virt req.cryptlen]).view
        (skcipher_walk_virt W alg_essiv_cbc req).2.src) ctx.key1.key_dec
      (6 + ctx.key1.key_length / 4) ((skcipher_walk_virt W alg_essiv_cbc req).2.nbytes / 16)
      w.iv ctx.key2.key_enc).2.2 ++ [Event.kernel_neon_end]) ++
    [Event.skcipher_walk_done ((skcipher_walk_virt W alg_essiv_cbc req).2.nbytes % 16)])
  obtain ⟨h1, h2, h3, h4⟩ := h
  rw [if_neg (by rw [h1]; simp)]
  rw [v3, v4]
  exact ⟨h2, h3, h4⟩

theorem essiv_cbc_encrypt_empty (P : AesPrim) (W : Cursor) (ctx : crypto_aes_essiv_cbc_ctx)
    (w : World) (req : skcipher_request) (h : req.cryptlen = 0) :
    essiv_cbc_encrypt P W ctx w req = (0, w.emit [Event.skcipher_walk_virt req.cryptlen]) := by
  have hv := walk_virt_empty W alg_essiv_cbc req h
  unfold essiv_cbc_encrypt cbc_encrypt_walk
  simp only [hv, AES_BLOCK_SIZE, Nat.zero_div, ne_eq, not_true_eq_false, if_false]
  rw [cbc_encrypt_walk_loop_idle _ _ _ _ _ _ _ rfl]

theorem essiv_cbc_decrypt_empty (P : AesPrim) (W : Cursor) (ctx : crypto_aes_essiv_cbc_ctx)
    (w : World) (req : skcipher_request) (h : req.cryptlen = 0) :
    essiv_cbc_decrypt P W ctx w req = (0, w.emit [Event.skcipher_walk_virt req.cryptlen]) := by
  have hv := walk_virt_empty W alg_essiv_cbc req h
  unfold essiv_cbc_decrypt cbc_decrypt_walk
  simp only [hv, AES_BLOCK_SIZE, Nat.zero_div, ne_eq, not_true_eq_false, if_false]
  rw [cbc_decrypt_walk_loop_idle _ _ _ _ _ _ _ rfl]

theorem notEssiv_cbc_encrypt (P : AesPrim) (inp rk : List Nat) (r b : Nat) (iv : List Nat) :
    ∀ e ∈ (aes_cbc_encrypt P inp rk r b iv).2.2, Event.notEssiv e := by
  intro e he
  simp only [aes_cbc_encrypt, List.mem_cons] at he
  rcases he with he | he
  · rw [he]; exact True.intro
  · exact notEssiv_replicate _ Event.encrypt_block True.intro e he

theorem notEssiv_cbc_decrypt (P : AesPrim) (inp rk : List Nat) (r b : Nat) (iv : List Nat) :
    ∀ e ∈ (aes_cbc_decrypt P inp rk r b iv).2.2, Event.notEssiv e := by
  intro e he
  simp only [aes_cbc_decrypt, List.mem_cons] at he
  rcases he with he | he
  · rw [he]; exact True.intro
  · exact notEssiv_replicate _ Event.decrypt_block True.intro e he

/-- A block loop whose primitive is not an ESSIV primitive adds no call of
one to the trace. -/
theorem block_walk_loop_essiv_calls
    (f : List Nat → Nat → List Nat → List Nat × List Nat × List Event)
    (hf : ∀ inp b iv, ∀ e ∈ (f inp b iv).2.2, Event.notEssiv e) (W : Cursor)
    (fuel : Nat) (w : World) (walk : skcipher_walk) (err : Int) :
    essiv_calls (block_walk_loop f W fuel w walk err).2.1.trace = essiv_calls w.trace := by
  obtain ⟨tr, t1, t2⟩ := block_walk_loop_trace f W Event.notEssiv hf True.intro True.intro
    (fun _ => True.intro) fuel w walk err
  rw [t1, essiv_calls_append, essiv_calls_none tr t2, Nat.add_zero]

/-- A request of at least one whole block calls the ESSIV encryption primitive
exactly once. -/
theorem essiv_cbc_encrypt_calls (P : AesPrim) (W : Cursor) (hW : W.NoFail)
    (ctx : crypto_aes_essiv_cbc_ctx) (w : World) (req : skcipher_request)
    (n : Nat) (hn : 0 < n) (hc : req.cryptlen = 16 * n)
    (hal : req.src = req.dst ∨ req.src.id ≠ req.dst.id) :
    essiv_calls (essiv_cbc_encrypt P W ctx w req).2.trace = essiv_calls w.trace + 1 := by
  obtain ⟨v1, v2, v3, v4⟩ := walk_virt_blocks W hW alg_essiv_cbc req n rfl (by decide) hn hc hal
  obtain ⟨h16, hle⟩ := v2.run hn
  have hnz : (skcipher_walk_virt W alg_essiv_cbc req).2.nbytes / 16 ≠ 0 := by omega
  have d1 := (walk_done_ok W hW _ n hn v2).1
  unfold essiv_cbc_encrypt cbc_encrypt_walk
  simp only [AES_BLOCK_SIZE, ne_eq, hnz, not_false_eq_true, if_true]
  rw [cbc_encrypt_walk_loop_eq, if_neg (by rw [d1]; simp)]
  simp only []
  rw [block_walk_loop_essiv_calls _ (fun inp b iv => notEssiv_cbc_encrypt P inp _ _ b iv)]
  simp only [World.emit, World.write, aes_essiv_cbc_encrypt, essiv_calls_append, essiv_calls,
    List.singleton_append, List.cons_append, List.append_eq,
    essiv_calls_none _ (notEssiv_replicate _ Event.encrypt_block True.intro)]

/-- A request of at least one whole block calls the ESSIV decryption primitive
exactly once. -/
theorem essiv_cbc_decrypt_calls (P : AesPrim) (W : Cursor) (hW : W.NoFail)
    (ctx : crypto_aes_essiv_cbc_ctx) (w : World) (req : skcipher_request)
    (n : Nat) (hn : 0 < n) (hc : req.cryptlen = 16 * n)
    (hal : req.src = req.dst ∨ req.src.id ≠ req.dst.id) :
    essiv_calls (essiv_cbc_decrypt P W ctx w req).2.trace = essiv_calls w.trace + 1 := by
  obtain ⟨v1, v2, v3, v4⟩ := walk_virt_blocks W hW alg_essiv_cbc req n rfl (by decide) hn hc hal
  obtain ⟨h16, hle⟩ := v2.run hn
  have hnz : (skcipher_walk_virt W alg_essiv_cbc req).2.nbytes / 16 ≠ 0 := by omega
  have d1 := (walk_done_ok W hW _ n hn v2).1
  unfold essiv_cbc_decrypt cbc_decrypt_walk
  simp only [AES_BLOCK_SIZE, ne_eq, hnz, not_false_eq_true, if_true]
  rw [cbc_decrypt_walk_loop_eq, if_neg (by rw [d1]; simp)]
  simp only []
  rw [block_walk_loop_essiv_calls _ (fun inp b iv => notEssiv_cbc_decrypt P inp _ _ b iv)]
  simp only [World.emit, World.write, aes_essiv_cbc_decrypt, essiv_calls_append, essiv_calls,
    List.singleton_append, List.cons_append, List.append_eq,
    essiv_calls_none _ (notEssiv_replicate _ Event.decrypt_block True.intro)]

theorem ctr_encrypt_loop_eq (P : AesPrim) (W : Cursor) (ctx : crypto_aes_ctx) (rounds : Nat)
    (buf : List Nat) : ∀ (fuel : Nat) (w : World) (walk : skcipher_walk) (err : Int) (bc : Nat),
      ctr_encrypt_loop P W ctx rounds buf fuel w walk err =
        ctr_walk_loop (fun inp n iv _ => aes_ctr_encrypt P inp ctx.key_enc rounds n iv)
          W buf fuel w walk err bc := by
  intro fuel
  induction fuel with
  | zero => intro w walk err bc; rfl
  | succ fuel ih =>
    intro w walk err bc
    rw [ctr_encrypt_loop, ctr_walk_loop]
    simp only []
    split
    · rfl
    · split
      · rw [ih]
      · rw [ih]

theorem xctr_encrypt_loop_eq (P : AesPrim) (W : Cursor) (ctx : crypto_aes_ctx) (rounds : Nat)
    (buf : List Nat) : ∀ (fuel : Nat) (w : World) (walk : skcipher_walk) (err : Int) (bc : Nat),
      xctr_encrypt_loop P W ctx rounds buf fuel w walk err bc =
        ctr_walk_loop (fun inp n iv c => aes_xctr_encrypt P inp ctx.key_enc rounds n iv c)
          W buf fuel w walk err bc := by
  intro fuel
  induction fuel with
  | zero => intro w walk err bc; rfl
  | succ fuel ih =>
    intro w walk err bc
    rw [xctr_encrypt_loop, ctr_walk_loop]
    simp only []
    split
    · rfl
    · split
      · rw [ih]
      · rw [ih]

theorem ctr_walk_loop_idle (f : List Nat → Nat → List Nat → Nat → List Nat × List Nat × List Event)
    (W : Cursor) (buf : List Nat) (fuel : Nat) (w : World) (walk : skcipher_walk) (err : Int)
    (bc : Nat) (h : walk.nbytes = 0) :
    ctr_walk_loop f W buf fuel w walk err bc = (err, w, walk) := by
  cases fuel with
  | zero => rfl
  | succ fuel => rw [ctr_walk_loop]; simp only [h, if_true]

theorem walk_next_ctr (W : Cursor) (hW : W.NoFail) (walk : skcipher_walk) (L : Nat)
    (hL : 0 < L) (ht : walk.total = L) (hb : walk.blocksize = 1)
    (hs : 16 ≤ walk.stride) (ha : walk.src = walk.dst ∨ walk.src.id ≠ walk.dst.id) :
    (skcipher_walk_next W walk).1 = 0 ∧ WalkCtr (skcipher_walk_next W walk).2 L ∧
    (skcipher_walk_next W walk).2.src = walk.src ∧
    (skcipher_walk_next W walk).2.dst = walk.dst := by
  unfold skcipher_walk_next
  rw [if_neg (by rw [ht, hb]; omega), if_neg (by simp [hW _ _])]
  refine ⟨rfl, ⟨ht, hb, hs, fun h => by omega, fun _ => ?_, ha⟩, rfl, rfl⟩
  simp only []
  constructor
  · apply Nat.le_trans _ (Nat.le_max_left _ _)
    apply Nat.le_min.mpr
    exact ⟨Nat.le_trans (Nat.min_le_left _ _) hs, by rw [ht]; exact Nat.min_le_right _ _⟩
  · apply Nat.max_le.mpr
    exact ⟨by rw [ht]; exact Nat.min_le_right _ _, by rw [ht]; exact Nat.min_le_left _ _⟩

theorem walk_virt_ctr (W : Cursor) (hW : W.NoFail) (alg : skcipher_alg)
    (req : skcipher_request) (hb : alg.cra_blocksize = 1) (hs : 16 ≤ alg.walksize)
    (hal : req.src = req.dst ∨ req.src.id ≠ req.dst.id) :
    (skcipher_walk_virt W alg req).1 = 0 ∧ WalkCtr (skcipher_walk_virt W alg req).2 req.cryptlen ∧
    (skcipher_walk_virt W alg req).2.src = req.src ∧
    (skcipher_walk_virt W alg req).2.dst = req.dst := by
  by_cases hz : req.cryptlen = 0
  · rw [walk_virt_empty W alg req hz]
    exact ⟨rfl, ⟨rfl, hb, hs, fun _ => rfl, fun h => by omega, hal⟩, rfl, rfl⟩
  · unfold skcipher_walk_virt
    simp only []
    rw [if_neg hz]
    exact walk_next_ctr W hW _ req.cryptlen (by omega) rfl hb hs hal

/-- Committing the first `c` bytes of a run of a stream-mode cursor. -/
theorem walk_done_ctr (W : Cursor) (hW : W.NoFail) (walk : skcipher_walk) (L : Nat)
    (hw : WalkCtr walk L) (c : Nat) (hc : 0 < c) (hcn : c ≤ walk.nbytes) :
    (skcipher_walk_done W walk (walk.nbytes - c)).1 = 0 ∧
    WalkCtr (skcipher_walk_done W walk (walk.nbytes - c)).2 (L - c) ∧
    (skcipher_walk_done W walk (walk.nbytes - c)).2.src = scatterwalk_ffwd walk.src c ∧
    (skcipher_walk_done W walk (walk.nbytes - c)).2.dst = scatterwalk_ffwd walk.dst c := by
  have hsub : walk.nbytes - (walk.nbytes - c) = c := by omega
  have hal : scatterwalk_ffwd walk.src c = scatterwalk_ffwd walk.dst c ∨
      (scatterwalk_ffwd walk.src c).id ≠ (scatterwalk_ffwd walk.dst c).id := by
    rcases hw.aliasing with h | h
    · left; rw [h]
    · right; exact h
  unfold skcipher_walk_done
  rw [if_neg (by omega)]
  simp only [hsub]
  by_cases hz : walk.total - c ≠ 0
  · rw [if_pos hz]
    have := walk_next_ctr W hW
      { walk with src := scatterwalk_ffwd walk.src c, dst := scatterwalk_ffwd walk.dst c,
                  total := walk.total - c, nbytes := 0 } (L - c)
      (by have := hw.total; omega) (by rw [← hw.total]) hw.blocksize hw.stride hal
    exact this
  · rw [if_neg hz]
    have h0 : L - c = 0 := by have := hw.total; omega
    exact ⟨rfl, ⟨by rw [h0]; show walk.total - c = 0; omega, hw.blocksize, hw.stride,
      fun _ => rfl, fun h => by omega, hal⟩, rfl, rfl⟩

theorem drop_store_end (buf v : List Nat) (off : Nat) (h : off + v.length = buf.length) :
    (store buf off v).drop off = v := by
  simp only [store]
  rw [List.append_assoc, List.drop_left' (by simp; omega),
    List.drop_of_length_le (by omega), List.append_nil]

/-- The number of bytes a pass of a stream-mode loop hands to the primitive:
the whole run when it is shorter than a block or the last one, its whole
blocks otherwise. -/
theorem ctr_pass_bytes (walk : skcipher_walk) (L : Nat) (hL : 0 < L) (hw : WalkCtr walk L) :
    0 < (if walk.nbytes < 16 then walk.nbytes
         else if walk.nbytes < walk.total then walk.nbytes - walk.nbytes % 16
         else walk.nbytes) ∧
    (if walk.nbytes < 16 then walk.nbytes
         else if walk.nbytes < walk.total then walk.nbytes - walk.nbytes % 16
         else walk.nbytes) ≤ walk.nbytes ∧
    ((if walk.nbytes < 16 then walk.nbytes
         else if walk.nbytes < walk.total then walk.nbytes - walk.nbytes % 16
         else walk.nbytes) = L ∨
     (16 ≤ walk.nbytes ∧ walk.nbytes < L ∧
      (if walk.nbytes < 16 then walk.nbytes
         else if walk.nbytes < walk.total then walk.nbytes - walk.nbytes % 16
         else walk.nbytes) = 16 * (walk.nbytes / 16))) := by
  obtain ⟨h1, h2⟩ := hw.run hL
  have ht := hw.total
  by_cases ha : walk.nbytes < 16
  · rw [if_pos ha]
    refine ⟨by omega, Nat.le_refl _, Or.inl ?_⟩
    have : L ≤ walk.nbytes := by
      rcases Nat.le_total 16 L with h | h
      · rw [Nat.min_eq_left h] at h1; omega
      · rw [Nat.min_eq_right h] at h1; exact h1
    omega
  · rw [if_neg ha]
    by_cases hb : walk.nbytes < walk.total
    · rw [if_pos hb]
      exact ⟨by omega, by omega, Or.inr ⟨by omega, by omega, by omega⟩⟩
    · rw [if_neg hb]
      exact ⟨by omega, Nat.le_refl _, Or.inl (by omega)⟩

/-- One pass of a stream-mode loop: the primitive's output for the bytes of
the pass is written at the destination, the IV buffer takes the primitive's,
and the loop goes on behind the committed bytes. -/
theorem ctr_walk_pass
    (f : List Nat → Nat → List Nat → Nat → List Nat × List Nat × List Event)
    (g : Nat → List Nat → List Nat → Nat → List Nat × List Nat) (hg : ByteChained g)
    (hf : ∀ inp n iv bc, (f inp n iv bc).1 = (g n inp iv bc).1 ∧
      (f inp n iv bc).2.1 = (g n inp iv bc).2)
    (W : Cursor) (buf : List Nat) (hbuf : buf.length = 16) (L : Nat) (hL : 0 < L)
    (fuel : Nat) (w : World) (walk : skcipher_walk) (err : Int) (bc : Nat)
    (hw : WalkCtr walk L) (hiv : w.iv.length = 16)
    (hsrc : walk.src.off + L ≤ (w.mem walk.src.id).length) (c : Nat)
    (hc : c = (if walk.nbytes < 16 then walk.nbytes
         else if walk.nbytes < walk.total then walk.nbytes - walk.nbytes % 16
         else walk.nbytes)) :
    ∃ tr, ctr_walk_loop f W buf (fuel + 1) w walk err bc =
      ctr_walk_loop f W buf fuel
        ⟨(w.write walk.dst (g c (w.view walk.src) w.iv bc).1).mem,
         (g c (w.view walk.src) w.iv bc).2, tr⟩
        (skcipher_walk_done W walk (walk.nbytes - c)).2
        (skcipher_walk_done W walk (walk.nbytes - c)).1 ((bc + c) % 2 ^ 32) := by
  obtain ⟨h1, h2⟩ := hw.run hL
  have ht := hw.total
  have hn0 : ¬ walk.nbytes = 0 := by
    rcases Nat.le_total 16 L with h | h
    · rw [Nat.min_eq_left h] at h1; omega
    · rw [Nat.min_eq_right h] at h1; omega
  have hvl : L ≤ (w.view walk.src).length := by
    simp only [World.view, List.length_drop]; omega
  rw [ctr_walk_loop]
  simp only [AES_BLOCK_SIZE]
  rw [if_neg hn0]
  by_cases ha : walk.nbytes < 16
  · rw [if_pos ha] at hc ⊢
    subst hc
    have hll : (load (w.view walk.src) 0 walk.nbytes).length = walk.nbytes :=
      length_load _ _ _ (by omega)
    have hdrop : (store buf (16 - walk.nbytes) (load (w.view walk.src) 0 walk.nbytes)).drop
        (16 - walk.nbytes) = (w.view walk.src).take walk.nbytes := by
      rw [drop_store_end _ _ _ (by rw [hll, hbuf]; omega)]
      simp [load]
    rw [hdrop]
    obtain ⟨f1, f2⟩ := hf ((w.view walk.src).take walk.nbytes) walk.nbytes w.iv bc
    rw [hg.pre] at f1 f2
    have hgl := (hg.len walk.nbytes (w.view walk.src) w.iv bc (by omega) hiv).1
    have hld : load (store (store buf (16 - walk.nbytes) (load (w.view walk.src) 0 walk.nbytes))
        (16 - walk.nbytes) (f ((w.view walk.src).take walk.nbytes) walk.nbytes w.iv bc).1)
        (16 - walk.nbytes) walk.nbytes = (g walk.nbytes (w.view walk.src) w.iv bc).1 := by
      rw [f1]
      have := load_store_same
        (store buf (16 - walk.nbytes) (load (w.view walk.src) 0 walk.nbytes))
        (16 - walk.nbytes) (g walk.nbytes (w.view walk.src) w.iv bc).1
        (by rw [length_store _ _ _ (by rw [hll, hbuf]; omega), hbuf]; omega)
      rw [hgl] at this
      exact this
    rw [hld, f2]
    exact ⟨_, rfl⟩
  · rw [if_neg ha] at hc ⊢
    rw [← hc]
    obtain ⟨f1, f2⟩ := hf (w.view walk.src) c w.iv bc
    rw [f1, f2]
    exact ⟨_, rfl⟩

/-- The loop of a stream mode over a request with `L` bytes left writes to the
destination what the chained stream function makes of the source, however the
cursor cuts the request. -/
theorem ctr_walk_loop_spec
    (f : List Nat → Nat → List Nat → Nat → List Nat × List Nat × List Event)
    (g : Nat → List Nat → List Nat → Nat → List Nat × List Nat) (hg : ByteChained g)
    (hf : ∀ inp n iv bc, (f inp n iv bc).1 = (g n inp iv bc).1 ∧
      (f inp n iv bc).2.1 = (g n inp iv bc).2)
    (W : Cursor) (hW : W.NoFail) (buf : List Nat) (hbuf : buf.length = 16) (L : Nat) :
    ∀ (fuel : Nat) (w : World) (walk : skcipher_walk) (err : Int) (bc : Nat), L ≤ fuel →
      WalkCtr walk L → w.iv.length = 16 →
      walk.src.off + L ≤ (w.mem walk.src.id).length →
      walk.dst.off + L ≤ (w.mem walk.dst.id).length → bc + L < 2 ^ 32 →
      (ctr_walk_loop f W buf fuel w walk err bc).1 = (if L = 0 then err else 0) ∧
      (ctr_walk_loop f W buf fuel w walk err bc).2.1.mem =
        (w.write walk.dst (g L (w.view walk.src) w.iv bc).1).mem ∧
      (ctr_walk_loop f W buf fuel w walk err bc).2.1.iv = (g L (w.view walk.src) w.iv bc).2 := by
  induction L using Nat.strong_induction_on with
  | _ L ih =>
    intro fuel w walk err bc hfuel hw hiv hsrc hdst hbc
    rcases Nat.eq_zero_or_pos L with hL | hL
    · subst hL
      rw [ctr_walk_loop_idle f W buf fuel w walk err bc (hw.finished rfl), hg.zero]
      exact ⟨rfl, (world_write_mem_nil w walk.dst).symm, rfl⟩
    · cases fuel with
      | zero => omega
      | succ fuel =>
        obtain ⟨c0, c1, c2⟩ := ctr_pass_bytes walk L hL hw
        generalize hc : (if walk.nbytes < 16 then walk.nbytes
           else if walk.nbytes < walk.total then walk.nbytes - walk.nbytes % 16
           else walk.nbytes) = c at c0 c1 c2
        obtain ⟨tr, hpass⟩ := ctr_walk_pass f g hg hf W buf hbuf L hL fuel w walk err bc hw hiv
          hsrc c hc.symm
        have hcL : c ≤ L := by
          rcases c2 with h | ⟨_, h, h2⟩
          · omega
          · omega
        have hbc' : (bc + c) % 2 ^ 32 = bc + c := Nat.mod_eq_of_lt (by omega)
        rw [hbc'] at hpass
        rw [hpass]
        have hvl : L ≤ (w.view walk.src).length := by
          simp only [World.view, List.length_drop]; omega
        obtain ⟨l1, l2⟩ := hg.len c (w.view walk.src) w.iv bc (by omega) hiv
        obtain ⟨d1, d2, d3, d4⟩ := walk_done_ctr W hW walk L hw c c0 c1
        have hih := ih (L - c) (by omega) fuel
          ⟨(w.write walk.dst (g c (w.view walk.src) w.iv bc).1).mem,
           (g c (w.view walk.src) w.iv bc).2, tr⟩
          (skcipher_walk_done W walk (walk.nbytes - c)).2
          (skcipher_walk_done W walk (walk.nbytes - c)).1 (bc + c) (by omega) d2 l2
          (by
            rw [d3]
            show walk.src.off + c + (L - c) ≤
              ((w.write walk.dst (g c (w.view walk.src) w.iv bc).1).mem walk.src.id).length
            rw [world_write_length _ _ _ _ (by rw [l1]; omega)]; omega)
          (by
            rw [d4]
            show walk.dst.off + c + (L - c) ≤
              ((w.write walk.dst (g c (w.view walk.src) w.iv bc).1).mem walk.dst.id).length
            rw [world_write_length _ _ _ _ (by rw [l1]; omega)]; omega)
          (by omega)
        obtain ⟨i1, i2, i3⟩ := hih
        have hat : World.view
            ⟨(w.write walk.dst (g c (w.view walk.src) w.iv bc).1).mem,
             (g c (w.view walk.src) w.iv bc).2, tr⟩
            (skcipher_walk_done W walk (walk.nbytes - c)).2.src =
            (w.view walk.src).drop c := by
          rw [d3]
          exact world_at_after_write w walk.src walk.dst _ _ hw.aliasing (by rw [l1]) (by omega)
        rw [hat] at i2 i3
        have hww := world_write_write w walk.dst (g c (w.view walk.src) w.iv bc).1
          (g (L - c) ((w.view walk.src).drop c) (g c (w.view walk.src) w.iv bc).2 (bc + c)).1
          (g c (w.view walk.src) w.iv bc).2 tr (by omega)
        rw [l1] at hww
        have hsum : g L (w.view walk.src) w.iv bc =
            ((g c (w.view walk.src) w.iv bc).1 ++
              (g (L - c) ((w.view walk.src).drop c) (g c (w.view walk.src) w.iv bc).2
                (bc + c)).1,
             (g (L - c) ((w.view walk.src).drop c) (g c (w.view walk.src) w.iv bc).2
                (bc + c)).2) := by
          rcases c2 with h | ⟨_, _, h⟩
          · rw [h, Nat.sub_self, hg.zero, List.append_nil]
          · have := hg.add (walk.nbytes / 16) (L - c) (w.view walk.src) w.iv bc
              (by omega) hiv
            rw [← h, show c + (L - c) = L from by omega] at this
            exact this
        refine ⟨?_, ?_, ?_⟩
        · rw [i1, d1, if_neg (show ¬ L = 0 by omega)]
          split <;> rfl
        · rw [i2, d4, hsum]
          exact hww
        · rw [i3, hsum]

theorem length_cpu_to_be128 (v : Nat) : (cpu_to_be128 v).length = 16 := by
  simp [cpu_to_be128]

theorem length_cpu_to_le128 (v : Nat) : (cpu_to_le128 v).length = 16 := by
  simp [cpu_to_le128]

theorem length_ctr_inc (ctr : List Nat) : (ctr_inc ctr).length = 16 :=
  length_cpu_to_be128 _

theorem xor_block_append (a1 a2 k1 k2 : List Nat) (h : a1.length = k1.length) :
    xor_block (a1 ++ a2) (k1 ++ k2) = xor_block a1 k1 ++ xor_block a2 k2 := by
  unfold xor_block
  exact List.zipWith_append _ _ _ _ _ h

theorem ctr_stream_len (P : AesPrim) (hP : BlockPreserving P) (rk : List Nat) (r : Nat)
    (n : Nat) : ∀ (iv : List Nat), iv.length = 16 →
    (ctr_stream P rk r n iv).1.length = 16 * n ∧ (ctr_stream P rk r n iv).2.length = 16 := by
  induction n with
  | zero => intro iv hiv; exact ⟨rfl, hiv⟩
  | succ n ih =>
    intro iv hiv
    obtain ⟨i1, i2⟩ := ih (ctr_inc iv) (length_ctr_inc iv)
    simp only [ctr_stream, List.length_append]
    exact ⟨by rw [(hP rk r iv hiv).1, i1]; show 16 + 16 * n = 16 * (n + 1); omega, i2⟩

theorem ctr_stream_add (P : AesPrim) (rk : List Nat) (r : Nat) (a b : Nat) :
    ∀ (iv : List Nat), ctr_stream P rk r (a + b) iv =
      ((ctr_stream P rk r a iv).1 ++ (ctr_stream P rk r b (ctr_stream P rk r a iv).2).1,
       (ctr_stream P rk r b (ctr_stream P rk r a iv).2).2) := by
  induction a with
  | zero => intro iv; simp [ctr_stream]
  | succ a ih =>
    intro iv
    rw [Nat.add_right_comm]
    simp only [ctr_stream, ih, List.append_assoc]

theorem xctr_stream_len (P : AesPrim) (hP : BlockPreserving P) (rk : List Nat) (r : Nat)
    (iv : List Nat) (hiv : iv.length = 16) (n : Nat) : ∀ (c : Nat),
    (xctr_stream P rk r iv n c).length = 16 * n := by
  induction n with
  | zero => intro c; rfl
  | succ n ih =>
    intro c
    simp only [xctr_stream, List.length_append]
    rw [(hP rk r _ (by rw [length_xor_block, hiv, length_cpu_to_le128]; rfl)).1, ih]
    show 16 + 16 * n = 16 * (n + 1)
    omega

theorem xctr_stream_add (P : AesPrim) (rk : List Nat) (r : Nat) (iv : List Nat) (a b : Nat) :
    ∀ (c : Nat), xctr_stream P rk r iv (a + b) c =
      xctr_stream P rk r iv a c ++ xctr_stream P rk r iv b (c + a) := by
  induction a with
  | zero => intro c; simp [xctr_stream]
  | succ a ih =>
    intro c
    rw [Nat.add_right_comm]
    simp only [xctr_stream, ih, List.append_assoc]
    rw [show c + 1 + a = c + (a + 1) from by omega]

/-- CTR as a chained stream function. -/
theorem ctr_bytes_chained (P : AesPrim) (hP : BlockPreserving P) (rk : List Nat) (r : Nat) :
    ByteChained (ctr_bytes P rk r) := by
  refine ⟨fun inp iv bc => ?_, fun k b inp iv bc hin hiv => ?_, fun n inp iv bc hin hiv => ?_,
    fun n inp iv bc => ?_⟩
  · simp [ctr_bytes, aes_ctr_encrypt, ctr_stream, xor_block]
  · obtain ⟨s1, s2⟩ := ctr_stream_len P hP rk r k iv hiv
    simp only [ctr_bytes, aes_ctr_encrypt]
    rw [show (16 * k + b + 15) / 16 = k + (b + 15) / 16 from by omega,
      show (16 * k + 15) / 16 = k from by omega, ctr_stream_add, List.take_add,
      xor_block_append _ _ _ _ (by rw [List.length_take, s1]; omega)]
  · obtain ⟨s1, s2⟩ := ctr_stream_len P hP rk r ((n + 15) / 16) iv hiv
    simp only [ctr_bytes, aes_ctr_encrypt]
    refine ⟨?_, s2⟩
    rw [length_xor_block, List.length_take, s1]
    omega
  · simp only [ctr_bytes, aes_ctr_encrypt, List.take_take, Nat.min_self]

/-- XCTR as a chained stream function. -/
theorem xctr_bytes_chained (P : AesPrim) (hP : BlockPreserving P) (rk : List Nat) (r : Nat) :
    ByteChained (xctr_bytes P rk r) := by
  refine ⟨fun inp iv bc => ?_, fun k b inp iv bc hin hiv => ?_, fun n inp iv bc hin hiv => ?_,
    fun n inp iv bc => ?_⟩
  · simp [xctr_bytes, aes_xctr_encrypt, xctr_stream, xor_block]
  · have s1 := xctr_stream_len P hP rk r iv hiv k (bc / 16 + 1)
    simp only [xctr_bytes, aes_xctr_encrypt]
    rw [show (16 * k + b + 15) / 16 = k + (b + 15) / 16 from by omega,
      show (16 * k + 15) / 16 = k from by omega, xctr_stream_add, List.take_add,
      xor_block_append _ _ _ _ (by rw [List.length_take, s1]; omega),
      show (bc + 16 * k) / 16 + 1 = bc / 16 + 1 + k from by omega]
  · have s1 := xctr_stream_len P hP rk r iv hiv ((n + 15) / 16) (bc / 16 + 1)
    simp only [xctr_bytes, aes_xctr_encrypt]
    refine ⟨?_, hiv⟩
    rw [length_xor_block, List.length_take, s1]
    omega
  · simp only [xctr_bytes, aes_xctr_encrypt, List.take_take, Nat.min_self]

/-- Xoring a keystream twice gives the input back, whatever follows the
first result. -/
theorem xor_stream_twice (inp ks rest : List Nat) (n : Nat) (hin : n ≤ inp.length)
    (hks : n ≤ ks.length) :
    xor_block ((xor_block (inp.take n) ks ++ rest).take n) ks = inp.take n := by
  have hl : (xor_block (inp.take n) ks).length = n := by
    rw [length_xor_block, List.length_take]; omega
  rw [List.take_append_of_le_length (by omega), List.take_of_length_le (by omega)]
  exact xor_block_cancel _ _ (by rw [List.length_take]; omega)

theorem ctr_bytes_twice (P : AesPrim) (hP : BlockPreserving P) (rk : List Nat) (r : Nat)
    (n : Nat) (inp iv rest : List Nat) (bc : Nat) (hin : n ≤ inp.length) (hiv : iv.length = 16) :
    (ctr_bytes P rk r n ((ctr_bytes P rk r n inp iv bc).1 ++ rest) iv bc).1 = inp.take n := by
  simp only [ctr_bytes, aes_ctr_encrypt]
  exact xor_stream_twice inp _ rest n hin
    (by rw [(ctr_stream_len P hP rk r _ iv hiv).1]; omega)

theorem xctr_bytes_twice (P : AesPrim) (hP : BlockPreserving P) (rk : List Nat) (r : Nat)
    (n : Nat) (inp iv rest : List Nat) (bc : Nat) (hin : n ≤ inp.length) (hiv : iv.length = 16) :
    (xctr_bytes P rk r n ((xctr_bytes P rk r n inp iv bc).1 ++ rest) iv bc).1 = inp.take n := by
  simp only [xctr_bytes, aes_xctr_encrypt]
  exact xor_stream_twice inp _ rest n hin
    (by rw [xctr_stream_len P hP rk r iv hiv]; omega)

/-- What ctr_encrypt makes of a request, however the cursor cuts it. -/
theorem ctr_encrypt_effect (P : AesPrim) (hP : BlockPreserving P) (W : Cursor) (hW : W.NoFail)
    (ctx : crypto_aes_ctx) (buf : List Nat) (hbuf : buf.length = 16) (w : World)
    (req : skcipher_request) (hlen : req.cryptlen < 2 ^ 32) (hiv : w.iv.length = 16)
    (hsrc : req.src.off + req.cryptlen ≤ (w.mem req.src.id).length)
    (hdst : req.dst.off + req.cryptlen ≤ (w.mem req.dst.id).length)
    (hal : req.src = req.dst ∨ req.src.id ≠ req.dst.id) :
    (ctr_encrypt P W (ctr_tfm ctx) buf w req).1 = 0 ∧
    (ctr_encrypt P W (ctr_tfm ctx) buf w req).2.mem =
      (w.write req.dst (ctr_bytes P ctx.key_enc (6 + ctx.key_length / 4) req.cryptlen
        (w.view req.src) w.iv 0).1).mem := by
  obtain ⟨v1, v2, v3, v4⟩ := walk_virt_ctr W hW alg_ctr req rfl (by decide) hal
  have hspec := ctr_walk_loop_spec
    (fun inp n iv _ => aes_ctr_encrypt P inp ctx.key_enc (6 + ctx.key_length / 4) n iv)
    (ctr_bytes P ctx.key_enc (6 + ctx.key_length / 4)) (ctr_bytes_chained P hP _ _)
    (fun _ _ _ _ => ⟨rfl, rfl⟩) W hW buf hbuf req.cryptlen (req.cryptlen + 1)
    (w.emit [Event.skcipher_walk_virt req.cryptlen]) (skcipher_walk_virt W alg_ctr req).2
    (skcipher_walk_virt W alg_ctr req).1 0 (by omega) v2 hiv
    (by rw [v3]; exact hsrc) (by rw [v4]; exact hdst) (by omega)
  rw [v1, v3, v4] at hspec
  unfold ctr_encrypt
  simp only [ctr_tfm]
  rw [ctr_encrypt_loop_eq _ _ _ _ _ _ _ _ _ 0, v1]
  refine ⟨?_, hspec.2.1⟩
  rw [hspec.1]
  split <;> rfl

/-- What xctr_encrypt makes of a request, however the cursor cuts it. -/
theorem xctr_encrypt_effect (P : AesPrim) (hP : BlockPreserving P) (W : Cursor) (hW : W.NoFail)
    (ctx : crypto_aes_ctx) (buf : List Nat) (hbuf : buf.length = 16) (w : World)
    (req : skcipher_request) (hlen : req.cryptlen < 2 ^ 32) (hiv : w.iv.length = 16)
    (hsrc : req.src.off + req.cryptlen ≤ (w.mem req.src.id).length)
    (hdst : req.dst.off + req.cryptlen ≤ (w.mem req.dst.id).length)
    (hal : req.src = req.dst ∨ req.src.id ≠ req.dst.id) :
    (xctr_encrypt P W (xctr_tfm ctx) buf w req).1 = 0 ∧
    (xctr_encrypt P W (xctr_tfm ctx) buf w req).2.mem =
      (w.write req.dst (xctr_bytes P ctx.key_enc (6 + ctx.key_length / 4) req.cryptlen
        (w.view req.src) w.iv 0).1).mem := by
  obtain ⟨v1, v2, v3, v4⟩ := walk_virt_ctr W hW alg_xctr req rfl (by decide) hal
  have hspec := ctr_walk_loop_spec
    (fun inp n iv c => aes_xctr_encrypt P inp ctx.key_enc (6 + ctx.key_length / 4) n iv c)
    (xctr_bytes P ctx.key_enc (6 + ctx.key_length / 4)) (xctr_bytes_chained P hP _ _)
    (fun _ _ _ _ => ⟨rfl, rfl⟩) W hW buf hbuf req.cryptlen (req.cryptlen + 1)
    (w.emit [Event.skcipher_walk_virt req.cryptlen]) (skcipher_walk_virt W alg_xctr req).2
    (skcipher_walk_virt W alg_xctr req).1 0 (by omega) v2 hiv
    (by rw [v3]; exact hsrc) (by rw [v4]; exact hdst) (by omega)
  rw [v1, v3, v4] at hspec
  unfold xctr_encrypt
  simp only [xctr_tfm]
  rw [xctr_encrypt_loop_eq, v1]
  refine ⟨?_, hspec.2.1⟩
  rw [hspec.1]
  split <;> rfl

theorem xts_walk_loop_idle
    (f : List Nat → Nat → List Nat → Nat → List Nat × List Nat × List Event)
    (W : Cursor) (fuel : Nat) (w : World) (walk : skcipher_walk) (err : Int) (first : Nat)
    (h : walk.nbytes < 16) :
    xts_walk_loop f W fuel w walk err first = (err, w, walk, first) := by
  cases fuel with
  | zero => rfl
  | succ fuel => rw [xts_walk_loop]; simp only [AES_BLOCK_SIZE, h, if_true]

/-- One pass of the XTS loop over a cursor with whole blocks left hands the
whole blocks of the run to the primitive. -/
theorem xts_walk_pass
    (f : List Nat → Nat → List Nat → Nat → List Nat × List Nat × List Event)
    (W : Cursor) (n : Nat) (hn : 0 < n) (fuel : Nat) (w : World) (walk : skcipher_walk)
    (err : Int) (first : Nat) (hw : WalkOK walk n) :
    xts_walk_loop f W (fuel + 1) w walk err first =
      xts_walk_loop f W fuel
        (({ (w.emit ([Event.kernel_neon_begin] ++
              (f (w.view walk.src) (16 * (walk.nbytes / 16)) w.iv first).2.2 ++
              [Event.kernel_neon_end])).write walk.dst
              (f (w.view walk.src) (16 * (walk.nbytes / 16)) w.iv first).1 with
            iv := (f (w.view walk.src) (16 * (walk.nbytes / 16)) w.iv first).2.1 } : World).emit
          [Event.skcipher_walk_done (walk.nbytes % 16)])
        (skcipher_walk_done W walk (walk.nbytes % 16)).2
        (skcipher_walk_done W walk (walk.nbytes % 16)).1 0 := by
  obtain ⟨h16, hle⟩ := hw.run hn
  have ht := hw.total
  have hnb : (if walk.nbytes < walk.total then walk.nbytes - walk.nbytes % 16 else walk.nbytes) =
      16 * (walk.nbytes / 16) := by
    split <;> omega
  have hres : walk.nbytes - 16 * (walk.nbytes / 16) = walk.nbytes % 16 := by omega
  rw [xts_walk_loop]
  simp only [AES_BLOCK_SIZE]
  rw [if_neg (by omega), hnb, hres]

/-- After its first pass the XTS loop over whole blocks is the block loop. -/
theorem xts_walk_loop_aligned
    (f : List Nat → Nat → List Nat → Nat → List Nat × List Nat × List Event)
    (W : Cursor) (hW : W.NoFail) :
    ∀ (fuel n : Nat) (w : World) (walk : skcipher_walk) (err : Int), WalkOK walk n →
      xts_walk_loop f W fuel w walk err 0 =
        ((block_walk_loop (fun inp b iv => f inp (16 * b) iv 0) W fuel w walk err).1,
         (block_walk_loop (fun inp b iv => f inp (16 * b) iv 0) W fuel w walk err).2.1,
         (block_walk_loop (fun inp b iv => f inp (16 * b) iv 0) W fuel w walk err).2.2, 0) := by
  intro fuel
  induction fuel with
  | zero => intro n w walk err _; rfl
  | succ fuel ih =>
    intro n w walk err hw
    rcases Nat.eq_zero_or_pos n with hn | hn
    · have h0 := hw.finished hn
      rw [xts_walk_loop_idle f W _ w walk err 0 (by omega),
        block_walk_loop_idle _ W _ w walk err (by rw [h0])]
    · obtain ⟨h16, hle⟩ := hw.run hn
      rw [xts_walk_pass f W n hn fuel w walk err 0 hw,
        ih (n - walk.nbytes / 16) _ _ _ (walk_done_ok W hW walk n hn hw).2.1]
      have hnz : ¬ (walk.nbytes / AES_BLOCK_SIZE = 0) := by
        show ¬ (walk.nbytes / 16 = 0)
        omega
      conv => rhs; rw [block_walk_loop]
      simp only []
      rw [if_neg hnz]

/-- The XTS loop over a request of `n` > 0 whole blocks, entered with `first`
set: the destination receives the blocks from the seeded tweak, the IV buffer
the tweak to go on with, and `first` is cleared. -/
theorem xts_walk_bulk
    (f : List Nat → Nat → List Nat → Nat → List Nat × List Nat × List Event)
    (g : Nat → List Nat → List Nat → List Nat × List Nat) (seed : List Nat → List Nat)
    (hX : XtsPrim f g seed) (W : Cursor) (hW : W.NoFail) (n : Nat) (hn : 0 < n) (fuel : Nat)
    (w : World) (walk : skcipher_walk) (err : Int)
    (hfuel : n ≤ fuel) (hw : WalkOK walk n) (hiv : w.iv.length = 16)
    (hsrc : walk.src.off + 16 * n ≤ (w.mem walk.src.id).length)
    (hdst : walk.dst.off + 16 * n ≤ (w.mem walk.dst.id).length) :
    (xts_walk_loop f W fuel w walk err 1).1 = 0 ∧
    (xts_walk_loop f W fuel w walk err 1).2.1.mem =
      (w.write walk.dst (g n (w.view walk.src) (seed w.iv)).1).mem ∧
    (xts_walk_loop f W fuel w walk err 1).2.1.iv = (g n (w.view walk.src) (seed w.iv)).2 ∧
    (xts_walk_loop f W fuel w walk err 1).2.2.2 = 0 := by
  obtain ⟨h16, hle⟩ := hw.run hn
  cases fuel with
  | zero => omega
  | succ fuel =>
    rw [xts_walk_pass f W n hn fuel w walk err 1 hw,
      xts_walk_loop_aligned f W hW fuel (n - walk.nbytes / 16) _ _ _
        (walk_done_ok W hW walk n hn hw).2.1]
    obtain ⟨f1, f2⟩ := hX.whole (w.view walk.src) (walk.nbytes / 16) w.iv 1
    rw [if_pos (by decide)] at f1 f2
    have hfirst := block_walk_first (fun inp b iv => f inp (16 * b) iv 0) g hX.chained
      (fun inp b iv => by
        have := hX.whole inp b iv 0
        rw [if_neg (by decide)] at this
        exact this)
      W hW n hn fuel w walk (seed w.iv)
      (w.trace ++ ([Event.kernel_neon_begin] ++
          (f (w.view walk.src) (16 * (walk.nbytes / 16)) w.iv 1).2.2 ++
          [Event.kernel_neon_end]) ++ [Event.skcipher_walk_done (walk.nbytes % 16)])
      (by omega) hw (hX.seed_len _ hiv) hsrc hdst
    have hworld : (({ (w.emit ([Event.kernel_neon_begin] ++
              (f (w.view walk.src) (16 * (walk.nbytes / 16)) w.iv 1).2.2 ++
              [Event.kernel_neon_end])).write walk.dst
              (f (w.view walk.src) (16 * (walk.nbytes / 16)) w.iv 1).1 with
            iv := (f (w.view walk.src) (16 * (walk.nbytes / 16)) w.iv 1).2.1 } : World).emit
          [Event.skcipher_walk_done (walk.nbytes % 16)]) =
        ⟨(w.write walk.dst (g (walk.nbytes / 16) (w.view walk.src) (seed w.iv)).1).mem,
         (g (walk.nbytes / 16) (w.view walk.src) (seed w.iv)).2,
         w.trace ++ ([Event.kernel_neon_begin] ++
          (f (w.view walk.src) (16 * (walk.nbytes / 16)) w.iv 1).2.2 ++
          [Event.kernel_neon_end]) ++ [Event.skcipher_walk_done (walk.nbytes % 16)]⟩ := by
      simp only [World.emit, World.write, f1, f2]
    rw [hworld, hfirst.1]
    exact ⟨hfirst.2.1, hfirst.2.2.1, hfirst.2.2.2, rfl⟩

/-- The XTS loop over a request mapped as a single run, whatever its length:
one call of the primitive on all its bytes. -/
theorem xts_walk_single
    (f : List Nat → Nat → List Nat → Nat → List Nat × List Nat × List Event)
    (W : Cursor) (fuel : Nat) (w : World) (walk : skcipher_walk) (err : Int) (first : Nat)
    (h16 : 16 ≤ walk.nbytes) (hall : walk.nbytes = walk.total) :
    (xts_walk_loop f W (fuel + 1) w walk err first).1 = 0 ∧
    (xts_walk_loop f W (fuel + 1) w walk err first).2.1.mem =
      (w.write walk.dst (f (w.view walk.src) walk.nbytes w.iv first).1).mem := by
  have hd := walk_done_last W walk 0 (by omega) (by omega)
  have hsub : walk.nbytes - walk.nbytes = 0 := by omega
  rw [xts_walk_loop]
  simp only [AES_BLOCK_SIZE]
  rw [if_neg (by omega), if_neg (by omega), hsub, hd]
  rw [xts_walk_loop_idle f W fuel _ _ _ _ (by show 0 < 16; decide)]
  exact ⟨rfl, rfl⟩

theorem walk_virt_xts (W : Cursor) (hW : W.NoFail) (req : skcipher_request)
    (hL : 16 ≤ req.cryptlen) :
    skcipher_walk_virt W alg_xts req =
      (0, { src := req.src, dst := req.dst, total := req.cryptlen,
            nbytes := max (min 32 req.cryptlen)
              (min req.cryptlen (W.chunk req.src.off req.cryptlen)),
            blocksize := 16, stride := 32 }) := by
  unfold skcipher_walk_virt skcipher_walk_next
  simp only [alg_xts, AES_BLOCK_SIZE, hW _ _]
  rw [if_neg (by omega), if_neg (by omega), if_neg (by simp)]

/-- The request is not cut short of its final partial block: the loop runs on
the cursor over the whole request. -/
theorem xts_start_direct (W : Cursor) (w : World) (req : skcipher_request)
    (hc : ¬ (req.cryptlen % 16 > 0 ∧
      (skcipher_walk_virt W alg_xts req).2.nbytes < (skcipher_walk_virt W alg_xts req).2.total)) :
    xts_start W w req =
      ((skcipher_walk_virt W alg_xts req).1, w.emit [Event.skcipher_walk_virt req.cryptlen],
       (skcipher_walk_virt W alg_xts req).2, req, 0) := by
  have hc' : ¬ (req.cryptlen % AES_BLOCK_SIZE > 0 ∧
      (skcipher_walk_virt W alg_xts req).2.nbytes <
        (skcipher_walk_virt W alg_xts req).2.total) := hc
  unfold xts_start
  dsimp only
  rw [if_neg hc']

/-- The request is cut short of its final partial block: the loop runs on a
sub-request of its whole blocks but the last. -/
theorem xts_start_stolen (W : Cursor) (w : World) (req : skcipher_request)
    (hL : 16 ≤ req.cryptlen) (hU : req.cryptlen + 15 < 2 ^ 32)
    (hc : req.cryptlen % 16 > 0 ∧
      (skcipher_walk_virt W alg_xts req).2.nbytes < (skcipher_walk_virt W alg_xts req).2.total) :
    xts_start W w req =
      ((skcipher_walk_virt W alg_xts
          { src := req.src, dst := req.dst, cryptlen := 16 * cts_lead req.cryptlen }).1,
       (w.emit [Event.skcipher_walk_virt req.cryptlen]).emit
         [Event.skcipher_walk_abort, Event.skcipher_walk_virt (16 * cts_lead req.cryptlen)],
       (skcipher_walk_virt W alg_xts
          { src := req.src, dst := req.dst, cryptlen := 16 * cts_lead req.cryptlen }).2,
       { src := req.src, dst := req.dst, cryptlen := 16 * cts_lead req.cryptlen },
       req.cryptlen % 16) := by
  have hgt : 16 < req.cryptlen := by omega
  have hcb := cts_cbc_blocks_val req.cryptlen hgt hU
  have hlead : 16 * cts_lead req.cryptlen < 2 ^ 32 := by
    have := cts_tail_bounds req.cryptlen hgt; omega
  have hu := to_u32_lead (cts_lead req.cryptlen) hlead
  have hc' : req.cryptlen % AES_BLOCK_SIZE > 0 ∧
      (skcipher_walk_virt W alg_xts req).2.nbytes <
        (skcipher_walk_virt W alg_xts req).2.total := hc
  have hu' : to_u32 (((cts_lead req.cryptlen : Nat) : Int) * ((AES_BLOCK_SIZE : Nat) : Int)) =
      16 * cts_lead req.cryptlen := hu
  unfold xts_start
  dsimp only
  rw [if_pos hc', hcb, hu']

/-- The call on the last whole block and the partial block. -/
theorem xts_crypt_tail_ok
    (f : List Nat → Nat → List Nat → Nat → List Nat × List Nat × List Event)
    (W : Cursor) (hW : W.NoFail) (w : World) (req : skcipher_request) (tail first : Nat)
    (ht1 : 0 < tail) (ht2 : tail < 16) :
    (xts_crypt_tail f W w req tail first).1 = 0 ∧
    (xts_crypt_tail f W w req tail first).2.mem =
      (w.write (scatterwalk_ffwd req.dst req.cryptlen)
        (f (w.view (scatterwalk_ffwd req.src req.cryptlen)) (16 + tail) w.iv first).1).mem := by
  have hv3 := walk_virt_tail W
    { src := scatterwalk_ffwd req.src req.cryptlen,
      dst := scatterwalk_ffwd req.dst req.cryptlen,
      cryptlen := 16 + tail } (16 + tail) (by omega) (by omega) rfl (hW _ _)
  have hv3' : skcipher_walk_virt W alg_xts
      { src := scatterwalk_ffwd req.src req.cryptlen,
        dst := scatterwalk_ffwd req.dst req.cryptlen,
        cryptlen := 16 + tail } = _ := hv3
  have hdone := walk_done_last W
    { src := scatterwalk_ffwd req.src req.cryptlen,
      dst := scatterwalk_ffwd req.dst req.cryptlen,
      total := 16 + tail, nbytes := 16 + tail,
      blocksize := 16, stride := 32 } 0 (by show ¬ (16 + tail = 0); omega)
    (by show 16 + tail - (16 + tail - 0) = 0; omega)
  unfold xts_crypt_tail
  simp only [AES_BLOCK_SIZE, ffwd_dst_eq, hv3', ne_eq, not_true_eq_false, if_false, hdone]
  exact ⟨trivial, rfl⟩

theorem scatterwalk_ffwd_zero (sg : scatterlist) : scatterwalk_ffwd sg 0 = sg := rfl

/-- What xts_crypt makes of a request of at least one block, however the
cursor cuts it: what one call of the primitive makes of the whole request. -/
theorem xts_crypt_effect
    (f : List Nat → Nat → List Nat → Nat → List Nat × List Nat × List Event)
    (g : Nat → List Nat → List Nat → List Nat × List Nat) (seed : List Nat → List Nat)
    (hX : XtsPrim f g seed) (W : Cursor) (hW : W.NoFail) (w : World) (req : skcipher_request)
    (hL : 16 ≤ req.cryptlen) (hU : req.cryptlen + 15 < 2 ^ 32) (hiv : w.iv.length = 16)
    (hsrc : req.src.off + req.cryptlen ≤ (w.mem req.src.id).length)
    (hdst : req.dst.off + req.cryptlen ≤ (w.mem req.dst.id).length)
    (hal : req.src = req.dst ∨ req.src.id ≠ req.dst.id) :
    (xts_crypt f W w req).1 = 0 ∧
    (xts_crypt f W w req).2.mem =
      (w.write req.dst (f (w.view req.src) req.cryptlen w.iv 1).1).mem := by
  have c0 : ¬ req.cryptlen < AES_BLOCK_SIZE := by show ¬ req.cryptlen < 16; omega
  have hvl : req.cryptlen ≤ (w.view req.src).length := by
    simp only [World.view, List.length_drop]; omega
  unfold xts_crypt
  rw [if_neg c0]
  dsimp only
  by_cases hc : req.cryptlen % 16 > 0 ∧
      (skcipher_walk_virt W alg_xts req).2.nbytes < (skcipher_walk_virt W alg_xts req).2.total
  · rw [xts_start_stolen W w req hL hU hc]
    dsimp only
    have hgt : 16 < req.cryptlen := by omega
    obtain ⟨tb1, tb2⟩ := cts_tail_bounds req.cryptlen hgt
    have htail : 16 + req.cryptlen % 16 = req.cryptlen - 16 * cts_lead req.cryptlen := by
      unfold cts_lead; omega
    have htl : ¬ (req.cryptlen % 16 = 0) := by omega
    rcases Nat.eq_zero_or_pos (cts_lead req.cryptlen) with hz | hp
    · rw [hz] at htail ⊢
      have hv := walk_virt_empty W alg_xts
        { src := req.src, dst := req.dst, cryptlen := 16 * 0 } rfl
      rw [hv, xts_walk_loop_idle f W _ _ _ _ _ (by show 0 < 16; decide)]
      dsimp only
      rw [if_neg (by simp [htl])]
      obtain ⟨t1, t2⟩ := xts_crypt_tail_ok f W hW
        ((w.emit [Event.skcipher_walk_virt req.cryptlen]).emit
          [Event.skcipher_walk_abort, Event.skcipher_walk_virt (16 * 0)])
        { src := req.src, dst := req.dst, cryptlen := 16 * 0 } (req.cryptlen % 16) 1
        (by omega) (by omega)
      refine ⟨t1, ?_⟩
      rw [t2, htail]
      rfl
    · obtain ⟨v1, v2, v3, v4⟩ := walk_virt_blocks W hW alg_xts
        { src := req.src, dst := req.dst, cryptlen := 16 * cts_lead req.cryptlen }
        (cts_lead req.cryptlen) rfl (by decide) hp rfl hal
      obtain ⟨b1, b2, b3, b4⟩ := xts_walk_bulk f g seed hX W hW (cts_lead req.cryptlen) hp
        (req.cryptlen + 1)
        ((w.emit [Event.skcipher_walk_virt req.cryptlen]).emit
          [Event.skcipher_walk_abort, Event.skcipher_walk_virt (16 * cts_lead req.cryptlen)])
        (skcipher_walk_virt W alg_xts
          { src := req.src, dst := req.dst, cryptlen := 16 * cts_lead req.cryptlen }).2
        (skcipher_walk_virt W alg_xts
          { src := req.src, dst := req.dst, cryptlen := 16 * cts_lead req.cryptlen }).1
        (by omega) v2 hiv
        (by rw [v3]; show req.src.off + 16 * cts_lead req.cryptlen ≤
              (w.mem req.src.id).length; omega)
        (by rw [v4]; show req.dst.off + 16 * cts_lead req.cryptlen ≤
              (w.mem req.dst.id).length; omega)
      rw [v3, v4] at b2
      rw [v3] at b3
      generalize hl : xts_walk_loop f W (req.cryptlen + 1)
        ((w.emit [Event.skcipher_walk_virt req.cryptlen]).emit
          [Event.skcipher_walk_abort, Event.skcipher_walk_virt (16 * cts_lead req.cryptlen)])
        (skcipher_walk_virt W alg_xts
          { src := req.src, dst := req.dst, cryptlen := 16 * cts_lead req.cryptlen }).2
        (skcipher_walk_virt W alg_xts
          { src := req.src, dst := req.dst, cryptlen := 16 * cts_lead req.cryptlen }).1 1 = l
        at b1 b2 b3 b4
      rw [if_neg (by rw [b1]; simp [htl])]
      obtain ⟨t1, t2⟩ := xts_crypt_tail_ok f W hW l.2.1
        { src := req.src, dst := req.dst, cryptlen := 16 * cts_lead req.cryptlen }
        (req.cryptlen % 16) l.2.2.2 (by omega) (by omega)
      refine ⟨t1, ?_⟩
      have b2' : l.2.1.mem = (w.write req.dst
          (g (cts_lead req.cryptlen) (w.view req.src) (seed w.iv)).1).mem := b2
      have b3' : l.2.1.iv = (g (cts_lead req.cryptlen) (w.view req.src) (seed w.iv)).2 := b3
      obtain ⟨l1, _⟩ := hX.chained.len (cts_lead req.cryptlen) (w.view req.src) (seed w.iv)
        (by omega) (hX.seed_len _ hiv)
      have hview := view_of_mem w l.2.1 req.src req.dst _ (16 * cts_lead req.cryptlen) b2' hal
        (by rw [l1]) (by omega)
      have hwrite := write_of_mem w l.2.1 req.dst
        (g (cts_lead req.cryptlen) (w.view req.src) (seed w.iv)).1
        (f ((w.view req.src).drop (16 * cts_lead req.cryptlen))
          (req.cryptlen - 16 * cts_lead req.cryptlen)
          (g (cts_lead req.cryptlen) (w.view req.src) (seed w.iv)).2 0).1 b2' (by omega)
      rw [l1] at hwrite
      have hsplit := hX.split (w.view req.src) req.cryptlen (cts_lead req.cryptlen) w.iv 1 htl
        (by omega)
      rw [if_pos (by decide)] at hsplit
      rw [t2, hsplit, ← hwrite, b4, b3', htail]
      show (l.2.1.write (scatterwalk_ffwd req.dst (16 * cts_lead req.cryptlen))
        (f (l.2.1.view (scatterwalk_ffwd req.src (16 * cts_lead req.cryptlen))) _ _ 0).1).mem = _
      rw [hview]
  · rw [xts_start_direct W w req hc]
    dsimp only
    rw [if_pos (Or.inr rfl)]
    dsimp only
    rw [walk_virt_xts W hW req hL] at hc ⊢
    dsimp only at hc ⊢
    have hlo : 16 ≤ max (min 32 req.cryptlen)
        (min req.cryptlen (W.chunk req.src.off req.cryptlen)) := by omega
    have hhi : max (min 32 req.cryptlen)
        (min req.cryptlen (W.chunk req.src.off req.cryptlen)) ≤ req.cryptlen := by omega
    by_cases ht : req.cryptlen % 16 = 0
    · have hn : 0 < req.cryptlen / 16 := by omega
      have hLn : req.cryptlen = 16 * (req.cryptlen / 16) := by omega
      obtain ⟨b1, b2, _, _⟩ := xts_walk_bulk f g seed hX W hW (req.cryptlen / 16) hn
        (req.cryptlen + 1) (w.emit [Event.skcipher_walk_virt req.cryptlen])
        { src := req.src, dst := req.dst, total := req.cryptlen,
          nbytes := max (min 32 req.cryptlen)
            (min req.cryptlen (W.chunk req.src.off req.cryptlen)),
          blocksize := 16, stride := 32 } 0 (by omega)
        ⟨hLn, rfl, (by show 16 ≤ 32; decide), fun h => by omega, fun _ => ⟨hlo, hhi⟩, hal⟩ hiv
        (by show req.src.off + 16 * (req.cryptlen / 16) ≤ (w.mem req.src.id).length; omega)
        (by show req.dst.off + 16 * (req.cryptlen / 16) ≤ (w.mem req.dst.id).length; omega)
      refine ⟨b1, ?_⟩
      rw [b2]
      have hwh := (hX.whole (w.view req.src) (req.cryptlen / 16) w.iv 1).1
      rw [if_pos (by decide), ← hLn] at hwh
      rw [hwh]
      rfl
    · have hall : max (min 32 req.cryptlen)
          (min req.cryptlen (W.chunk req.src.off req.cryptlen)) = req.cryptlen := by omega
      obtain ⟨s1, s2⟩ := xts_walk_single f W req.cryptlen
        (w.emit [Event.skcipher_walk_virt req.cryptlen])
        { src := req.src, dst := req.dst, total := req.cryptlen,
          nbytes := max (min 32 req.cryptlen)
            (min req.cryptlen (W.chunk req.src.off req.cryptlen)),
          blocksize := 16, stride := 32 } 0 1 hlo hall
      refine ⟨s1, ?_⟩
      rw [s2]
      dsimp only
      rw [hall]
      rfl

theorem length_xts_next_tweak (t : List Nat) : (xts_next_tweak t).length = 16 :=
  length_cpu_to_le128 _

theorem length_xts_block (X : List Nat → List Nat)
    (hX : ∀ b, b.length = 16 → (X b).length = 16) (b t : List Nat) (hb : b.length = 16)
    (ht : t.length = 16) : (xts_block X b t).length = 16 := by
  unfold xts_block
  rw [length_xor_block, hX _ (by rw [length_xor_block, hb, ht]; rfl), ht]
  rfl

theorem xts_blocks_len (X : List Nat → List Nat)
    (hX : ∀ b, b.length = 16 → (X b).length = 16) (n : Nat) :
    ∀ (inp t : List Nat), 16 * n ≤ inp.length → t.length = 16 →
    (xts_blocks X n inp t).1.length = 16 * n ∧ (xts_blocks X n inp t).2.length = 16 := by
  induction n with
  | zero => intro inp t _ ht; exact ⟨rfl, ht⟩
  | succ n ih =>
    intro inp t hin ht
    have hl := load_length_of_le inp (by omega)
    obtain ⟨i1, i2⟩ := ih (inp.drop 16) (xts_next_tweak t)
      (by simp only [List.length_drop]; omega) (length_xts_next_tweak t)
    simp only [xts_blocks, List.length_append]
    refine ⟨?_, i2⟩
    rw [show AES_BLOCK_SIZE = 16 from rfl, length_xts_block X hX _ _ hl ht, i1]
    omega

theorem xts_blocks_add (X : List Nat → List Nat) (a b : Nat) :
    ∀ (inp t : List Nat), xts_blocks X (a + b) inp t =
      ((xts_blocks X a inp t).1 ++
        (xts_blocks X b (inp.drop (16 * a)) (xts_blocks X a inp t).2).1,
       (xts_blocks X b (inp.drop (16 * a)) (xts_blocks X a inp t).2).2) := by
  induction a with
  | zero => intro inp t; simp [xts_blocks]
  | succ a ih =>
    intro inp t
    rw [Nat.add_right_comm]
    simp only [xts_blocks, ih, List.drop_drop, List.append_assoc, AES_BLOCK_SIZE]
    rw [show 16 + 16 * a = 16 * (a + 1) from by omega]

theorem xts_blocks_chained (X : List Nat → List Nat)
    (hX : ∀ b, b.length = 16 → (X b).length = 16) : Chained (xts_blocks X) :=
  ⟨fun _ _ => rfl, fun a b inp t => xts_blocks_add X a b inp t,
   fun n inp t h1 h2 => xts_blocks_len X hX n inp t h1 h2⟩

/-- The tweak after `n` blocks depends neither on the data nor on the
direction of the block cipher. -/
theorem xts_blocks_tweak (X Y : List Nat → List Nat) (n : Nat) :
    ∀ (inp inp2 t : List Nat), (xts_blocks X n inp t).2 = (xts_blocks Y n inp2 t).2 := by
  induction n with
  | zero => intro inp inp2 t; rfl
  | succ n ih =>
    intro inp inp2 t
    simp only [xts_blocks]
    exact ih _ _ _

/-- The XTS transform of a block under a tweak is undone by the transform with
the inverse direction of the block cipher under the same tweak. -/
theorem xts_block_inverse (E D : List Nat → List Nat)
    (hE : ∀ b, b.length = 16 → (E b).length = 16)
    (hI : ∀ b, b.length = 16 → D (E b) = b) (b t : List Nat) (hb : b.length = 16)
    (ht : t.length = 16) : xts_block D (xts_block E b t) t = b := by
  unfold xts_block
  have hx : (xor_block b t).length = 16 := by rw [length_xor_block, hb, ht]; rfl
  rw [xor_block_cancel _ _ (by rw [hE _ hx, ht]), hI _ hx,
    xor_block_cancel _ _ (by rw [hb, ht])]

theorem xts_blocks_round_trip (E D : List Nat → List Nat)
    (hE : ∀ b, b.length = 16 → (E b).length = 16)
    (hI : ∀ b, b.length = 16 → D (E b) = b) (n : Nat) :
    ∀ (pt t rest : List Nat), 16 * n ≤ pt.length → t.length = 16 →
    (xts_blocks D n ((xts_blocks E n pt t).1 ++ rest) t).1 = pt.take (16 * n) := by
  induction n with
  | zero => intro pt t rest _ _; simp [xts_blocks]
  | succ n ih =>
    intro pt t rest hpt ht
    have hl := load_length_of_le pt (by omega)
    have hc := length_xts_block E hE _ _ hl ht
    simp only [xts_blocks, AES_BLOCK_SIZE, List.append_assoc]
    rw [load_append_head _ _ hc, List.drop_left' hc,
      xts_block_inverse E D hE hI _ _ hl ht,
      ih (pt.drop 16) _ rest (by simp only [List.length_drop]; omega) (length_xts_next_tweak t)]
    have : load pt 0 16 = pt.take 16 := by simp [load]
    rw [this, show 16 * (n + 1) = 16 + 16 * n from by omega, List.take_add]

theorem length_xts_steal_encrypt (X : List Nat → List Nat)
    (hX : ∀ b, b.length = 16 → (X b).length = 16) (rest : List Nat) (tail : Nat) (t : List Nat)
    (ht2 : tail < 16) (hr : 16 + tail ≤ rest.length) (ht : t.length = 16) :
    (xts_steal_encrypt X rest tail t).length = 16 + tail := by
  have hl := load_length_of_le rest (by omega)
  have hcc := length_xts_block X hX _ _ hl ht
  have hpp : ((rest.drop 16).take tail ++ (xts_block X (load rest 0 16) t).drop tail).length =
      16 := by
    simp only [List.length_append, List.length_take, List.length_drop, hcc]
    omega
  simp only [xts_steal_encrypt, AES_BLOCK_SIZE, List.length_append, List.length_take]
  rw [length_xts_block X hX _ _ hpp (length_xts_next_tweak t), hcc]
  omega

theorem length_xts_steal_decrypt (X : List Nat → List Nat)
    (hX : ∀ b, b.length = 16 → (X b).length = 16) (rest : List Nat) (tail : Nat) (t : List Nat)
    (ht2 : tail < 16) (hr : 16 + tail ≤ rest.length) (ht : t.length = 16) :
    (xts_steal_decrypt X rest tail t).length = 16 + tail := by
  have hl := load_length_of_le rest (by omega)
  have hpp := length_xts_block X hX _ _ hl (length_xts_next_tweak t)
  have hcc : ((rest.drop 16).take tail ++
      (xts_block X (load rest 0 16) (xts_next_tweak t)).drop tail).length = 16 := by
    simp only [List.length_append, List.length_take, List.length_drop, hpp]
    omega
  simp only [xts_steal_decrypt, AES_BLOCK_SIZE, List.length_append, List.length_take]
  rw [length_xts_block X hX _ _ hcc ht, hpp]
  omega

/-- A primitive that computes xts_bytes from the seeded or continued tweak is
of the XTS kind. -/
theorem xts_prim_of_bytes
    (f : List Nat → Nat → List Nat → Nat → List Nat × List Nat × List Event)
    (X : List Nat → List Nat) (steal : List Nat → Nat → List Nat → List Nat)
    (seed : List Nat → List Nat)
    (hXl : ∀ b, b.length = 16 → (X b).length = 16)
    (hsl : ∀ iv, iv.length = 16 → (seed iv).length = 16)
    (hst : ∀ rest tail t, tail < 16 → 16 + tail ≤ rest.length → t.length = 16 →
      (steal rest tail t).length = 16 + tail)
    (hf : ∀ inp bytes iv first,
      (f inp bytes iv first).1 =
        (xts_bytes X steal bytes inp (if first ≠ 0 then seed iv else iv)).1 ∧
      (f inp bytes iv first).2.1 =
        (xts_bytes X steal bytes inp (if first ≠ 0 then seed iv else iv)).2) :
    XtsPrim f (xts_blocks X) seed := by
  refine ⟨xts_blocks_chained X hXl, hsl, fun inp b iv first => ?_,
    fun inp L a iv first hL ha => ?_, fun inp L iv first h16 hin hiv => ?_⟩
  · obtain ⟨f1, f2⟩ := hf inp (16 * b) iv first
    rw [f1, f2]
    unfold xts_bytes
    simp only [AES_BLOCK_SIZE]
    rw [if_pos (by omega), show 16 * b / 16 = b from by omega]
    exact ⟨rfl, rfl⟩
  · have f1 := (hf inp L iv first).1
    generalize (if first ≠ 0 then seed iv else iv) = t0 at f1 ⊢
    have f2 := (hf (inp.drop (16 * a)) (L - 16 * a) (xts_blocks X a inp t0).2 0).1
    rw [if_neg (show ¬ (0 ≠ 0) by decide)] at f2
    rw [f1, f2]
    unfold xts_bytes
    simp only [AES_BLOCK_SIZE]
    rw [if_neg hL, if_neg (by omega)]
    simp only []
    have hm : L / 16 - 1 = a + ((L - 16 * a) / 16 - 1) := by omega
    rw [hm, xts_blocks_add, List.drop_drop, List.append_assoc]
    simp only []
    rw [show 16 * a + 16 * ((L - 16 * a) / 16 - 1) = 16 * (a + ((L - 16 * a) / 16 - 1))
      from by omega, show (L - 16 * a) % 16 = L % 16 from by omega]
  · rw [(hf inp L iv first).1]
    have ht0 : (if first ≠ 0 then seed iv else iv).length = 16 := by
      split
      · exact hsl _ hiv
      · exact hiv
    unfold xts_bytes
    simp only [AES_BLOCK_SIZE]
    by_cases hL : L % 16 = 0
    · rw [if_pos hL, (xts_blocks_len X hXl (L / 16) inp _ (by omega) ht0).1]
      omega
    · rw [if_neg hL]
      simp only [List.length_append]
      obtain ⟨b1, b2⟩ := xts_blocks_len X hXl (L / 16 - 1) inp _ (by omega) ht0
      rw [b1, hst _ _ _ (by omega) (by simp only [List.length_drop]; omega) b2]
      omega

theorem xts_encrypt_prim (P : AesPrim) (hP : BlockPreserving P) (rk1 rk2 : List Nat) (r : Nat) :
    XtsPrim (fun inp bytes iv first => aes_xts_encrypt P inp rk1 r bytes rk2 iv first)
      (xts_blocks (P.encrypt rk1 r)) (P.encrypt rk2 r) :=
  xts_prim_of_bytes _ _ (xts_steal_encrypt (P.encrypt rk1 r)) _
    (fun b hb => (hP rk1 r b hb).1) (fun iv hiv => (hP rk2 r iv hiv).1)
    (fun rest tail t h1 h2 h3 =>
      length_xts_steal_encrypt _ (fun b hb => (hP rk1 r b hb).1) rest tail t h1 h2 h3)
    (fun _ _ _ _ => ⟨rfl, rfl⟩)

theorem xts_decrypt_prim (P : AesPrim) (hP : BlockPreserving P) (rk1 rk2 : List Nat) (r : Nat) :
    XtsPrim (fun inp bytes iv first => aes_xts_decrypt P inp rk1 r bytes rk2 iv first)
      (xts_blocks (P.decrypt rk1 r)) (P.encrypt rk2 r) :=
  xts_prim_of_bytes _ _ (xts_steal_decrypt (P.decrypt rk1 r)) _
    (fun b hb => (hP rk1 r b hb).2) (fun iv hiv => (hP rk2 r iv hiv).1)
    (fun rest tail t h1 h2 h3 =>
      length_xts_steal_decrypt _ (fun b hb => (hP rk1 r b hb).2) rest tail t h1 h2 h3)
    (fun _ _ _ _ => ⟨rfl, rfl⟩)

/-- Ciphertext stealing of XTS decryption undoes that of encryption. -/
theorem xts_steal_round_trip (E D : List Nat → List Nat)
    (hE : ∀ b, b.length = 16 → (E b).length = 16)
    (hI : ∀ b, b.length = 16 → D (E b) = b) (rest0 rest : List Nat) (tail : Nat) (t : List Nat)
    (ht2 : tail < 16) (hr : 16 + tail ≤ rest0.length) (ht : t.length = 16) :
    xts_steal_decrypt D (xts_steal_encrypt E rest0 tail t ++ rest) tail t =
      rest0.take (16 + tail) := by
  have hl := load_length_of_le rest0 (by omega)
  have hcc := length_xts_block E hE _ _ hl ht
  have hpp : ((rest0.drop 16).take tail ++ (xts_block E (load rest0 0 16) t).drop tail).length =
      16 := by
    simp only [List.length_append, List.length_take, List.length_drop, hcc]
    omega
  have hc1 := length_xts_block E hE _ _ hpp (length_xts_next_tweak t)
  have htk : ((rest0.drop 16).take tail).length = tail := by
    simp only [List.length_take, List.length_drop]; omega
  have hctk : ((xts_block E (load rest0 0 16) t).take tail).length = tail := by
    rw [List.length_take, hcc]; omega
  simp only [xts_steal_decrypt, xts_steal_encrypt, AES_BLOCK_SIZE, List.append_assoc]
  rw [load_append_head _ _ hc1, List.drop_left' hc1,
    xts_block_inverse E D hE hI _ _ hpp (length_xts_next_tweak t),
    List.take_left' hctk, List.drop_left' htk, List.take_append_drop,
    xts_block_inverse E D hE hI _ _ hl ht, List.take_left' htk, List.take_add]
  simp [load]

/-- XTS decryption of what XTS encryption makes of `L` >= 16 bytes, from the
same tweak, gives the `L` bytes back, whatever follows them. -/
theorem xts_bytes_round_trip (E D : List Nat → List Nat)
    (hE : ∀ b, b.length = 16 → (E b).length = 16)
    (hI : ∀ b, b.length = 16 → D (E b) = b) (L : Nat) (pt t rest : List Nat)
    (h16 : 16 ≤ L) (hpt : L ≤ pt.length) (ht : t.length = 16) :
    (xts_bytes D (xts_steal_decrypt D) L
      ((xts_bytes E (xts_steal_encrypt E) L pt t).1 ++ rest) t).1 = pt.take L := by
  unfold xts_bytes
  simp only [AES_BLOCK_SIZE]
  by_cases hL : L % 16 = 0
  · rw [if_pos hL, if_pos hL, xts_blocks_round_trip E D hE hI _ pt t rest (by omega) ht]
    congr 1
    omega
  · rw [if_neg hL, if_neg hL]
    simp only [List.append_assoc]
    obtain ⟨b1, b2⟩ := xts_blocks_len E hE (L / 16 - 1) pt t (by omega) ht
    rw [xts_blocks_round_trip E D hE hI _ pt t _ (by omega) ht,
      xts_blocks_tweak D E (L / 16 - 1) _ pt t,
      List.drop_left' b1,
      xts_steal_round_trip E D hE hI _ rest _ _ (by omega)
        (by simp only [List.length_drop]; omega) b2]
    have : L = 16 * (L / 16 - 1) + (16 + L % 16) := by omega
    conv => rhs; rw [this, List.take_add]

theorem xts_encrypt_loop_eq (P : AesPrim) (W : Cursor) (ctx : crypto_aes_xts_ctx) (rounds : Nat) :
    ∀ (fuel : Nat) (w : World) (walk : skcipher_walk) (err : Int) (first : Nat),
      xts_encrypt_loop P W ctx rounds fuel w walk err first =
        xts_walk_loop (fun inp bytes iv fst =>
          aes_xts_encrypt P inp ctx.key1.key_enc rounds bytes ctx.key2.key_enc iv fst)
          W fuel w walk err first := by
  intro fuel
  induction fuel with
  | zero => intro w walk err first; rfl
  | succ fuel ih =>
    intro w walk err first
    rw [xts_encrypt_loop, xts_walk_loop]
    simp only []
    split
    · rfl
    · rw [ih]

theorem xts_decrypt_loop_eq (P : AesPrim) (W : Cursor) (ctx : crypto_aes_xts_ctx) (rounds : Nat) :
    ∀ (fuel : Nat) (w : World) (walk : skcipher_walk) (err : Int) (first : Nat),
      xts_decrypt_loop P W ctx rounds fuel w walk err first =
        xts_walk_loop (fun inp bytes iv fst =>
          aes_xts_decrypt P inp ctx.key1.key_dec rounds bytes ctx.key2.key_enc iv fst)
          W fuel w walk err first := by
  intro fuel
  induction fuel with
  | zero => intro w walk err first; rfl
  | succ fuel ih =>
    intro w walk err first
    rw [xts_decrypt_loop, xts_walk_loop]
    simp only []
    split
    · rfl
    · rw [ih]

theorem xts_encrypt_eq (P : AesPrim) (W : Cursor) (ctx : crypto_aes_xts_ctx) (w : World)
    (req : skcipher_request) :
    xts_encrypt P W ctx w req =
      xts_crypt (fun inp bytes iv fst =>
        aes_xts_encrypt P inp ctx.key1.key_enc (6 + ctx.key1.key_length / 4) bytes
          ctx.key2.key_enc iv fst) W w req := by
  unfold xts_encrypt xts_crypt
  dsimp only
  rw [xts_encrypt_loop_eq]
  rfl

theorem xts_decrypt_eq (P : AesPrim) (W : Cursor) (ctx : crypto_aes_xts_ctx) (w : World)
    (req : skcipher_request) :
    xts_decrypt P W ctx w req =
      xts_crypt (fun inp bytes iv fst =>
        aes_xts_decrypt P inp ctx.key1.key_dec (6 + ctx.key1.key_length / 4) bytes
          ctx.key2.key_enc iv fst) W w req := by
  unfold xts_decrypt xts_crypt
  dsimp only
  rw [xts_decrypt_loop_eq]
  rfl

/-- What xts_encrypt makes of a request of at least one block, however the
cursor cuts it. -/
theorem xts_encrypt_effect (P : AesPrim) (hP : BlockPreserving P) (W : Cursor) (hW : W.NoFail)
    (ctx : crypto_aes_xts_ctx) (w : World) (req : skcipher_request)
    (hL : 16 ≤ req.cryptlen) (hU : req.cryptlen + 15 < 2 ^ 32) (hiv : w.iv.length = 16)
    (hsrc : req.src.off + req.cryptlen ≤ (w.mem req.src.id).length)
    (hdst : req.dst.off + req.cryptlen ≤ (w.mem req.dst.id).length)
    (hal : req.src = req.dst ∨ req.src.id ≠ req.dst.id) :
    (xts_encrypt P W ctx w req).1 = 0 ∧
    (xts_encrypt P W ctx w req).2.mem =
      (w.write req.dst
        (xts_bytes (P.encrypt ctx.key1.key_enc (6 + ctx.key1.key_length / 4))
          (xts_steal_encrypt (P.encrypt ctx.key1.key_enc (6 + ctx.key1.key_length / 4)))
          req.cryptlen (w.view req.src)
          (P.encrypt ctx.key2.key_enc (6 + ctx.key1.key_length / 4) w.iv)).1).mem := by
  rw [xts_encrypt_eq]
  exact xts_crypt_effect _ _ _ (xts_encrypt_prim P hP _ _ _) W hW w req hL hU hiv hsrc hdst hal

/-- What xts_decrypt makes of a request of at least one block, however the
cursor cuts it. -/
theorem xts_decrypt_effect (P : AesPrim) (hP : BlockPreserving P) (W : Cursor) (hW : W.NoFail)
    (ctx : crypto_aes_xts_ctx) (w : World) (req : skcipher_request)
    (hL : 16 ≤ req.cryptlen) (hU : req.cryptlen + 15 < 2 ^ 32) (hiv : w.iv.length = 16)
    (hsrc : req.src.off + req.cryptlen ≤ (w.mem req.src.id).length)
    (hdst : req.dst.off + req.cryptlen ≤ (w.mem req.dst.id).length)
    (hal : req.src = req.dst ∨ req.src.id ≠ req.dst.id) :
    (xts_decrypt P W ctx w req).1 = 0 ∧
    (xts_decrypt P W ctx w req).2.mem =
      (w.write req.dst
        (xts_bytes (P.decrypt ctx.key1.key_dec (6 + ctx.key1.key_length / 4))
          (xts_steal_decrypt (P.decrypt ctx.key1.key_dec (6 + ctx.key1.key_length / 4)))
          req.cryptlen (w.view req.src)
          (P.encrypt ctx.key2.key_enc (6 + ctx.key1.key_length / 4) w.iv)).1).mem := by
  rw [xts_decrypt_eq]
  exact xts_crypt_effect _ _ _ (xts_decrypt_prim P hP _ _ _) W hW w req hL hU hiv hsrc hdst hal

theorem extends_refl (Q : Event → Prop) (w : World) : Extends Q w w :=
  ⟨[], by simp, by simp⟩

theorem extends_trans (Q : Event → Prop) (w w1 w2 : World) (h1 : Extends Q w w1)
    (h2 : Extends Q w1 w2) : Extends Q w w2 := by
  obtain ⟨t1, a1, b1⟩ := h1
  obtain ⟨t2, a2, b2⟩ := h2
  refine ⟨t1 ++ t2, by rw [a2, a1, List.append_assoc], fun e he => ?_⟩
  rcases List.mem_append.mp he with h | h
  · exact b1 e h
  · exact b2 e h

theorem extends_emit (Q : Event → Prop) (w : World) (ev : List Event) (h : ∀ e ∈ ev, Q e) :
    Extends Q w (w.emit ev) := ⟨ev, rfl, h⟩

theorem extends_of_trace (Q : Event → Prop) (w w1 w2 : World) (h : Extends Q w w1)
    (ht : w2.trace = w1.trace) : Extends Q w w2 := by
  obtain ⟨t1, a1, b1⟩ := h
  exact ⟨t1, by rw [ht, a1], b1⟩

/-- One call of a primitive between the accelerator brackets, the write of
its output and the commit of the run. -/
theorem extends_call (Q : Event → Prop) (w : World) (ev : List Event) (dst : scatterlist)
    (out iv : List Nat) (res : Nat) (h : ∀ e ∈ ev, Q e)
    (h1 : Q Event.kernel_neon_begin) (h2 : Q Event.kernel_neon_end)
    (h3 : ∀ r, Q (Event.skcipher_walk_done r)) :
    Extends Q w
      (({ (w.emit ([Event.kernel_neon_begin] ++ ev ++ [Event.kernel_neon_end])).write dst out
          with iv := iv } : World).emit [Event.skcipher_walk_done res]) := by
  refine ⟨([Event.kernel_neon_begin] ++ ev ++ [Event.kernel_neon_end]) ++
    [Event.skcipher_walk_done res], ?_, ?_⟩
  · simp only [World.emit, World.write, List.append_assoc]
  · intro e he
    simp only [List.mem_append, List.mem_singleton] at he
    rcases he with (((he | he) | he) | he)
    · rw [he]; exact h1
    · exact h e he
    · rw [he]; exact h2
    · rw [he]; exact h3 _

theorem block_walk_loop_extends
    (f : List Nat → Nat → List Nat → List Nat × List Nat × List Event) (W : Cursor)
    (Q : Event → Prop) (hf : ∀ inp b iv, ∀ e ∈ (f inp b iv).2.2, Q e)
    (h1 : Q Event.kernel_neon_begin) (h2 : Q Event.kernel_neon_end)
    (h3 : ∀ r, Q (Event.skcipher_walk_done r))
    (fuel : Nat) (w : World) (walk : skcipher_walk) (err : Int) :
    Extends Q w (block_walk_loop f W fuel w walk err).2.1 :=
  block_walk_loop_trace f W Q hf h1 h2 h3 fuel w walk err

theorem ctr_walk_loop_extends
    (f : List Nat → Nat → List Nat → Nat → List Nat × List Nat × List Event) (W : Cursor)
    (buf : List Nat) (Q : Event → Prop) (hf : ∀ inp n iv bc, ∀ e ∈ (f inp n iv bc).2.2, Q e)
    (h1 : Q Event.kernel_neon_begin) (h2 : Q Event.kernel_neon_end)
    (h3 : ∀ r, Q (Event.skcipher_walk_done r)) :
    ∀ (fuel : Nat) (w : World) (walk : skcipher_walk) (err : Int) (bc : Nat),
      Extends Q w (ctr_walk_loop f W buf fuel w walk err bc).2.1 := by
  intro fuel
  induction fuel with
  | zero => intro w walk err bc; exact extends_refl Q w
  | succ fuel ih =>
    intro w walk err bc
    rw [ctr_walk_loop]
    simp only []
    split
    · exact extends_refl Q w
    · split
      · exact extends_trans Q _ _ _ (extends_call Q w _ _ _ _ _ (hf _ _ _ _) h1 h2 h3)
          (ih _ _ _ _)
      · exact extends_trans Q _ _ _ (extends_call Q w _ _ _ _ _ (hf _ _ _ _) h1 h2 h3)
          (ih _ _ _ _)

theorem xts_walk_loop_extends
    (f : List Nat → Nat → List Nat → Nat → List Nat × List Nat × List Event) (W : Cursor)
    (Q : Event → Prop) (hf : ∀ inp n iv first, ∀ e ∈ (f inp n iv first).2.2, Q e)
    (h1 : Q Event.kernel_neon_begin) (h2 : Q Event.kernel_neon_end)
    (h3 : ∀ r, Q (Event.skcipher_walk_done r)) :
    ∀ (fuel : Nat) (w : World) (walk : skcipher_walk) (err : Int) (first : Nat),
      Extends Q w (xts_walk_loop f W fuel w walk err first).2.1 := by
  intro fuel
  induction fuel with
  | zero => intro w walk err first; exact extends_refl Q w
  | succ fuel ih =>
    intro w walk err first
    rw [xts_walk_loop]
    simp only []
    split
    · exact extends_refl Q w
    · exact extends_trans Q _ _ _ (extends_call Q w _ _ _ _ _ (hf _ _ _ _) h1 h2 h3)
        (ih _ _ _ _)

/-- Continuing a trace by events that pass the round count keeps the round
count of every call. -/
theorem roundsOK_extends (R : Nat) (w w1 : World)
    (h : Extends (Event.passes R) w w1) (h0 : RoundsOK R w.trace) :
    RoundsOK R w1.trace := by
  obtain ⟨tr, a, b⟩ := h
  intro e he
  rw [a] at he
  rcases List.mem_append.mp he with h | h
  · exact h0 e h
  · exact b e h

theorem rounds_replicate (R n : Nat) (c : Event) (hc : c.rounds = none) :
    ∀ e ∈ List.replicate n c, e.passes R := by
  intro e he r hr
  rw [(List.mem_replicate.mp he).2, hc] at hr
  cases hr

/-- A call event followed by single-block events passes the round count of
the call. -/
theorem rounds_call (R : Nat) (c : Event) (tl : List Event) (hc : c.rounds = some R)
    (ht : ∀ e ∈ tl, e.rounds = none) :
    ∀ e ∈ c :: tl, e.passes R := by
  intro e he r hr
  rcases List.mem_cons.mp he with h | h
  · rw [h, hc] at hr
    exact (Option.some.inj hr).symm
  · rw [ht e h] at hr
    cases hr

theorem rounds_none_replicate (n : Nat) (c : Event) (hc : c.rounds = none) :
    ∀ e ∈ List.replicate n c, e.rounds = none := by
  intro e he
  rw [(List.mem_replicate.mp he).2, hc]


theorem extends_events (Q : Event → Prop) (w w2 : World) (evs : List Event)
    (ht : w2.trace = w.trace ++ evs) (h : ∀ e ∈ evs, Q e) : Extends Q w w2 := ⟨evs, ht, h⟩

theorem passes_none (R : Nat) (e : Event) (h : e.rounds = none) : e.passes R := by
  intro r hr
  rw [h] at hr
  cases hr

theorem passes_list (R : Nat) (evs : List Event) (h : ∀ e ∈ evs, e.rounds = none) :
    ∀ e ∈ evs, e.passes R := fun e he => passes_none R e (h e he)

/-- The events of a bracketed call pass the round count when the events of the
primitive do. -/
theorem passes_bracket (R : Nat) (ev : List Event) (res : Nat) (h : ∀ e ∈ ev, e.passes R) :
    ∀ e ∈ ([Event.kernel_neon_begin] ++ ev ++ [Event.kernel_neon_end]) ++
      [Event.skcipher_walk_done res], e.passes R := by
  intro e he
  simp only [List.mem_append, List.mem_singleton] at he
  rcases he with (((he | he) | he) | he)
  · rw [he]; exact passes_none R _ rfl
  · exact h e he
  · rw [he]; exact passes_none R _ rfl
  · rw [he]; exact passes_none R _ rfl

theorem passes_ecb_encrypt (P : AesPrim) (inp rk : List Nat) (R b : Nat) :
    ∀ e ∈ (aes_ecb_encrypt P inp rk R b).2, e.passes R :=
  rounds_call R _ _ rfl (rounds_none_replicate _ _ rfl)

theorem passes_ecb_decrypt (P : AesPrim) (inp rk : List Nat) (R b : Nat) :
    ∀ e ∈ (aes_ecb_decrypt P inp rk R b).2, e.passes R :=
  rounds_call R _ _ rfl (rounds_none_replicate _ _ rfl)

theorem passes_cbc_encrypt (P : AesPrim) (inp rk : List Nat) (R b : Nat) (iv : List Nat) :
    ∀ e ∈ (aes_cbc_encrypt P inp rk R b iv).2.2, e.passes R :=
  rounds_call R _ _ rfl (rounds_none_replicate _ _ rfl)

theorem passes_cbc_decrypt (P : AesPrim) (inp rk : List Nat) (R b : Nat) (iv : List Nat) :
    ∀ e ∈ (aes_cbc_decrypt P inp rk R b iv).2.2, e.passes R :=
  rounds_call R _ _ rfl (rounds_none_replicate _ _ rfl)

theorem passes_cbc_cts_encrypt (P : AesPrim) (inp rk : List Nat) (R b : Nat) (iv : List Nat) :
    ∀ e ∈ (aes_cbc_cts_encrypt P inp rk R b iv).2, e.passes R :=
  rounds_call R _ _ rfl (by
    intro e he
    simp only [List.mem_cons, List.mem_singleton, List.not_mem_nil, or_false] at he
    rcases he with h | h <;> rw [h] <;> rfl)

theorem passes_cbc_cts_decrypt (P : AesPrim) (inp rk : List Nat) (R b : Nat) (iv : List Nat) :
    ∀ e ∈ (aes_cbc_cts_decrypt P inp rk R b iv).2, e.passes R :=
  rounds_call R _ _ rfl (by
    intro e he
    simp only [List.mem_cons, List.mem_singleton, List.not_mem_nil, or_false] at he
    rcases he with h | h <;> rw [h] <;> rfl)

theorem passes_essiv_encrypt (P : AesPrim) (inp rk : List Nat) (R b : Nat) (iv rk2 : List Nat) :
    ∀ e ∈ (aes_essiv_cbc_encrypt P inp rk R b iv rk2).2.2, e.passes R :=
  rounds_call R _ _ rfl (by
    intro e he
    rcases List.mem_cons.mp he with h | h
    · rw [h]; rfl
    · exact rounds_none_replicate _ Event.encrypt_block rfl e h)

theorem passes_essiv_decrypt (P : AesPrim) (inp rk : List Nat) (R b : Nat) (iv rk2 : List Nat) :
    ∀ e ∈ (aes_essiv_cbc_decrypt P inp rk R b iv rk2).2.2, e.passes R :=
  rounds_call R _ _ rfl (by
    intro e he
    rcases List.mem_cons.mp he with h | h
    · rw [h]; rfl
    · exact rounds_none_replicate _ Event.decrypt_block rfl e h)

theorem passes_ctr_encrypt (P : AesPrim) (inp rk : List Nat) (R b : Nat) (iv : List Nat) :
    ∀ e ∈ (aes_ctr_encrypt P inp rk R b iv).2.2, e.passes R :=
  rounds_call R _ _ rfl (rounds_none_replicate _ _ rfl)

theorem passes_xctr_encrypt (P : AesPrim) (inp rk : List Nat) (R b : Nat) (iv : List Nat)
    (bc : Nat) : ∀ e ∈ (aes_xctr_encrypt P inp rk R b iv bc).2.2, e.passes R :=
  rounds_call R _ _ rfl (rounds_none_replicate _ _ rfl)

theorem passes_xts_encrypt (P : AesPrim) (inp rk : List Nat) (R b : Nat) (rk2 iv : List Nat)
    (first : Nat) : ∀ e ∈ (aes_xts_encrypt P inp rk R b rk2 iv first).2.2, e.passes R :=
  rounds_call R _ _ rfl (rounds_none_replicate _ _ rfl)

theorem passes_xts_decrypt (P : AesPrim) (inp rk : List Nat) (R b : Nat) (rk2 iv : List Nat)
    (first : Nat) : ∀ e ∈ (aes_xts_decrypt P inp rk R b rk2 iv first).2.2, e.passes R :=
  rounds_call R _ _ rfl (by
    intro e he
    rcases List.mem_append.mp he with h | h
    · exact rounds_none_replicate _ Event.encrypt_block rfl e h
    · exact rounds_none_replicate _ Event.decrypt_block rfl e h)

theorem passes_mac_update (P : AesPrim) (inp rk : List Nat) (R b : Nat) (dg : List Nat)
    (eb ea : Bool) : ∀ e ∈ (aes_mac_update P inp rk R b dg eb ea).2.2, e.passes R :=
  rounds_call R _ _ rfl (rounds_none_replicate _ _ rfl)

theorem passes_virt (R n : Nat) : ∀ e ∈ [Event.skcipher_walk_virt n], e.passes R := by
  intro e he
  rw [List.mem_singleton.mp he]
  exact passes_none R _ rfl

theorem passes_abort_virt (R n : Nat) :
    ∀ e ∈ [Event.skcipher_walk_abort, Event.skcipher_walk_virt n], e.passes R := by
  intro e he
  simp only [List.mem_cons, List.mem_singleton, List.not_mem_nil, or_false] at he
  rcases he with h | h <;> rw [h] <;> exact passes_none R _ rfl

/-- One call of a primitive between the accelerator brackets that leaves the
IV buffer alone, the write of its output and the commit of the run. -/
theorem passes_call (R : Nat) (w : World) (ev : List Event) (dst : scatterlist)
    (out : List Nat) (res : Nat) (h : ∀ e ∈ ev, e.passes R) :
    Extends (Event.passes R) w
      (((w.emit ([Event.kernel_neon_begin] ++ ev ++ [Event.kernel_neon_end])).write dst out).emit
        [Event.skcipher_walk_done res]) :=
  extends_events _ _ _ _ (by simp only [World.emit, World.write, List.append_assoc])
    (passes_bracket R ev res h)

/-- One call of a primitive between the accelerator brackets, the write of its
output, the update of the IV buffer and the commit of the run. -/
theorem passes_call_iv (R : Nat) (w : World) (ev : List Event) (dst : scatterlist)
    (out iv : List Nat) (res : Nat) (h : ∀ e ∈ ev, e.passes R) :
    Extends (Event.passes R) w
      (({ (w.emit ([Event.kernel_neon_begin] ++ ev ++ [Event.kernel_neon_end])).write dst out
          with iv := iv } : World).emit [Event.skcipher_walk_done res]) :=
  extends_events _ _ _ _ (by simp only [World.emit, World.write, List.append_assoc])
    (passes_bracket R ev res h)

theorem block_walk_loop_passes
    (f : List Nat → Nat → List Nat → List Nat × List Nat × List Event) (W : Cursor) (R : Nat)
    (hf : ∀ inp b iv, ∀ e ∈ (f inp b iv).2.2, e.passes R)
    (fuel : Nat) (w : World) (walk : skcipher_walk) (err : Int) :
    Extends (Event.passes R) w (block_walk_loop f W fuel w walk err).2.1 :=
  block_walk_loop_extends f W _ hf (passes_none R _ rfl) (passes_none R _ rfl)
    (fun _ => passes_none R _ rfl) fuel w walk err

theorem ecb_encrypt_extends (P : AesPrim) (W : Cursor) (tfm : crypto_skcipher) (w : World)
    (req : skcipher_request) :
    Extends (Event.passes (6 + tfm.ctx.key_length / 4)) w (ecb_encrypt P W tfm w req).2 := by
  unfold ecb_encrypt
  dsimp only
  rw [ecb_encrypt_loop_eq]
  exact extends_trans _ _ _ _ (extends_emit _ w _ (passes_virt _ _))
    (block_walk_loop_passes _ W _ (fun inp b _ => passes_ecb_encrypt P inp _ _ b) _ _ _ _)

theorem ecb_decrypt_extends (P : AesPrim) (W : Cursor) (tfm : crypto_skcipher) (w : World)
    (req : skcipher_request) :
    Extends (Event.passes (6 + tfm.ctx.key_length / 4)) w (ecb_decrypt P W tfm w req).2 := by
  unfold ecb_decrypt
  dsimp only
  rw [ecb_decrypt_loop_eq]
  exact extends_trans _ _ _ _ (extends_emit _ w _ (passes_virt _ _))
    (block_walk_loop_passes _ W _ (fun inp b _ => passes_ecb_decrypt P inp _ _ b) _ _ _ _)

theorem cbc_encrypt_walk_extends (P : AesPrim) (W : Cursor) (ctx : crypto_aes_ctx) (w : World)
    (walk : skcipher_walk) :
    Extends (Event.passes (6 + ctx.key_length / 4)) w (cbc_encrypt_walk P W ctx w walk).2.1 := by
  unfold cbc_encrypt_walk
  rw [cbc_encrypt_walk_loop_eq]
  exact block_walk_loop_passes _ W _ (fun inp b iv => passes_cbc_encrypt P inp _ _ b iv) _ _ _ _

theorem cbc_decrypt_walk_extends (P : AesPrim) (W : Cursor) (ctx : crypto_aes_ctx) (w : World)
    (walk : skcipher_walk) :
    Extends (Event.passes (6 + ctx.key_length / 4)) w (cbc_decrypt_walk P W ctx w walk).2.1 := by
  unfold cbc_decrypt_walk
  rw [cbc_decrypt_walk_loop_eq]
  exact block_walk_loop_passes _ W _ (fun inp b iv => passes_cbc_decrypt P inp _ _ b iv) _ _ _ _

theorem cbc_encrypt_extends (P : AesPrim) (W : Cursor) (tfm : crypto_skcipher) (w : World)
    (req : skcipher_request) :
    Extends (Event.passes (6 + tfm.ctx.key_length / 4)) w (cbc_encrypt P W tfm w req).2 := by
  unfold cbc_encrypt
  dsimp only
  split
  · exact extends_emit _ w _ (passes_virt _ _)
  · exact extends_trans _ _ _ _ (extends_emit _ w _ (passes_virt _ _))
      (cbc_encrypt_walk_extends P W tfm.ctx _ _)

theorem cbc_decrypt_extends (P : AesPrim) (W : Cursor) (tfm : crypto_skcipher) (w : World)
    (req : skcipher_request) :
    Extends (Event.passes (6 + tfm.ctx.key_length / 4)) w (cbc_decrypt P W tfm w req).2 := by
  unfold cbc_decrypt
  dsimp only
  split
  · exact extends_emit _ w _ (passes_virt _ _)
  · exact extends_trans _ _ _ _ (extends_emit _ w _ (passes_virt _ _))
      (cbc_decrypt_walk_extends P W tfm.ctx _ _)

theorem cts_cbc_encrypt_tail_extends (P : AesPrim) (W : Cursor) (tfm : crypto_skcipher)
    (w : World) (req : skcipher_request) (src dst : scatterlist) (cb : Int) :
    Extends (Event.passes (6 + tfm.ctx.key_length / 4)) w
      (cts_cbc_encrypt_tail P W tfm w req src dst cb).2 := by
  unfold cts_cbc_encrypt_tail
  dsimp only
  split
  · exact extends_emit _ w _ (passes_virt _ _)
  · exact extends_trans _ _ _ _ (extends_emit _ w _ (passes_virt _ _))
      (passes_call _ _ _ _ _ 0 (passes_cbc_cts_encrypt P _ _ _ _ _))

theorem cts_cbc_decrypt_tail_extends (P : AesPrim) (W : Cursor) (tfm : crypto_skcipher)
    (w : World) (req : skcipher_request) (src dst : scatterlist) (cb : Int) :
    Extends (Event.passes (6 + tfm.ctx.key_length / 4)) w
      (cts_cbc_decrypt_tail P W tfm w req src dst cb).2 := by
  unfold cts_cbc_decrypt_tail
  dsimp only
  split
  · exact extends_emit _ w _ (passes_virt _ _)
  · exact extends_trans _ _ _ _ (extends_emit _ w _ (passes_virt _ _))
      (passes_call _ _ _ _ _ 0 (passes_cbc_cts_decrypt P _ _ _ _ _))

theorem cts_cbc_encrypt_extends (P : AesPrim) (W : Cursor) (tfm : crypto_skcipher) (w : World)
    (req : skcipher_request) :
    Extends (Event.passes (6 + tfm.ctx.key_length / 4)) w (cts_cbc_encrypt P W tfm w req).2 := by
  unfold cts_cbc_encrypt
  dsimp only
  by_cases h1 : req.cryptlen ≤ AES_BLOCK_SIZE ∧ req.cryptlen < AES_BLOCK_SIZE
  · rw [if_pos h1]
    exact extends_refl _ w
  · rw [if_neg h1]
    generalize (if req.cryptlen ≤ AES_BLOCK_SIZE then (1 : Int)
      else to_int (DIV_ROUND_UP req.cryptlen AES_BLOCK_SIZE + 2 ^ 32 - 2)) = cb
    by_cases h2 : cb > 0
    · rw [if_pos h2]
      generalize (skcipher_walk_virt W tfm.alg
        { src := req.src, dst := req.dst, cryptlen := to_u32 (cb * ↑AES_BLOCK_SIZE) }) = v
      have hr : Extends (Event.passes (6 + tfm.ctx.key_length / 4)) w
          (if v.1 ≠ 0 then
              (v.1, w.emit [Event.skcipher_walk_virt (to_u32 (cb * ↑AES_BLOCK_SIZE))], v.2)
            else cbc_encrypt_walk P W tfm.ctx
              (w.emit [Event.skcipher_walk_virt (to_u32 (cb * ↑AES_BLOCK_SIZE))]) v.2).2.1 := by
        split
        · exact extends_emit _ w _ (passes_virt _ _)
        · exact extends_trans _ _ _ _ (extends_emit _ w _ (passes_virt _ _))
            (cbc_encrypt_walk_extends P W tfm.ctx _ _)
      generalize (if v.1 ≠ 0 then
              (v.1, w.emit [Event.skcipher_walk_virt (to_u32 (cb * ↑AES_BLOCK_SIZE))], v.2)
            else cbc_encrypt_walk P W tfm.ctx
              (w.emit [Event.skcipher_walk_virt (to_u32 (cb * ↑AES_BLOCK_SIZE))]) v.2) = r
        at hr
      split
      · exact hr
      · split
        · exact hr
        · exact extends_trans _ _ _ _ hr (cts_cbc_encrypt_tail_extends P W tfm _ req _ _ _)
    · rw [if_neg h2]
      exact cts_cbc_encrypt_tail_extends P W tfm w req _ _ _

theorem cts_cbc_decrypt_extends (P : AesPrim) (W : Cursor) (tfm : crypto_skcipher) (w : World)
    (req : skcipher_request) :
    Extends (Event.passes (6 + tfm.ctx.key_length / 4)) w (cts_cbc_decrypt P W tfm w req).2 := by
  unfold cts_cbc_decrypt
  dsimp only
  by_cases h1 : req.cryptlen ≤ AES_BLOCK_SIZE ∧ req.cryptlen < AES_BLOCK_SIZE
  · rw [if_pos h1]
    exact extends_refl _ w
  · rw [if_neg h1]
    generalize (if req.cryptlen ≤ AES_BLOCK_SIZE then (1 : Int)
      else to_int (DIV_ROUND_UP req.cryptlen AES_BLOCK_SIZE + 2 ^ 32 - 2)) = cb
    by_cases h2 : cb > 0
    · rw [if_pos h2]
      generalize (skcipher_walk_virt W tfm.alg
        { src := req.src, dst := req.dst, cryptlen := to_u32 (cb * ↑AES_BLOCK_SIZE) }) = v
      have hr : Extends (Event.passes (6 + tfm.ctx.key_length / 4)) w
          (if v.1 ≠ 0 then
              (v.1, w.emit [Event.skcipher_walk_virt (to_u32 (cb * ↑AES_BLOCK_SIZE))], v.2)
            else cbc_decrypt_walk P W tfm.ctx
              (w.emit [Event.skcipher_walk_virt (to_u32 (cb * ↑AES_BLOCK_SIZE))]) v.2).2.1 := by
        split
        · exact extends_emit _ w _ (passes_virt _ _)
        · exact extends_trans _ _ _ _ (extends_emit _ w _ (passes_virt _ _))
            (cbc_decrypt_walk_extends P W tfm.ctx _ _)
      generalize (if v.1 ≠ 0 then
              (v.1, w.emit [Event.skcipher_walk_virt (to_u32 (cb * ↑AES_BLOCK_SIZE))], v.2)
            else cbc_decrypt_walk P W tfm.ctx
              (w.emit [Event.skcipher_walk_virt (to_u32 (cb * ↑AES_BLOCK_SIZE))]) v.2) = r
        at hr
      split
      · exact hr
      · split
        · exact hr
        · exact extends_trans _ _ _ _ hr (cts_cbc_decrypt_tail_extends P W tfm _ req _ _ _)
    · rw [if_neg h2]
      exact cts_cbc_decrypt_tail_extends P W tfm w req _ _ _

theorem essiv_cbc_encrypt_extends (P : AesPrim) (W : Cursor) (ctx : crypto_aes_essiv_cbc_ctx)
    (w : World) (req : skcipher_request) :
    Extends (Event.passes (6 + ctx.key1.key_length / 4)) w
      (essiv_cbc_encrypt P W ctx w req).2 := by
  unfold essiv_cbc_encrypt
  dsimp only
  generalize (skcipher_walk_virt W alg_essiv_cbc req) = v
  by_cases hb : v.2.nbytes / AES_BLOCK_SIZE ≠ 0
  · rw [if_pos hb]
    dsimp only
    have h1 := extends_trans _ _ _ _
      (extends_emit (Event.passes (6 + ctx.key1.key_length / 4)) w _ (passes_virt _ req.cryptlen))
      (passes_call_iv _ (w.emit [Event.skcipher_walk_virt req.cryptlen])
        (aes_essiv_cbc_encrypt P ((w.emit [Event.skcipher_walk_virt req.cryptlen]).view v.2.src)
          ctx.key1.key_enc (6 + ctx.key1.key_length / 4) (v.2.nbytes / AES_BLOCK_SIZE)
          (w.emit [Event.skcipher_walk_virt req.cryptlen]).iv ctx.key2.key_enc).2.2 v.2.dst
        (aes_essiv_cbc_encrypt P ((w.emit [Event.skcipher_walk_virt req.cryptlen]).view v.2.src)
          ctx.key1.key_enc (6 + ctx.key1.key_length / 4) (v.2.nbytes / AES_BLOCK_SIZE)
          (w.emit [Event.skcipher_walk_virt req.cryptlen]).iv ctx.key2.key_enc).1
        (aes_essiv_cbc_encrypt P ((w.emit [Event.skcipher_walk_virt req.cryptlen]).view v.2.src)
          ctx.key1.key_enc (6 + ctx.key1.key_length / 4) (v.2.nbytes / AES_BLOCK_SIZE)
          (w.emit [Event.skcipher_walk_virt req.cryptlen]).iv ctx.key2.key_enc).2.1
        (v.2.nbytes % AES_BLOCK_SIZE) (passes_essiv_encrypt P _ _ _ _ _ _))
    split
    · exact h1
    · exact extends_trans _ _ _ _ h1 (cbc_encrypt_walk_extends P W ctx.key1 _ _)
  · rw [if_neg hb]
    dsimp only
    split
    · exact extends_emit _ w _ (passes_virt _ _)
    · exact extends_trans _ _ _ _ (extends_emit _ w _ (passes_virt _ _))
        (cbc_encrypt_walk_extends P W ctx.key1 _ _)

theorem essiv_cbc_decrypt_extends (P : AesPrim) (W : Cursor) (ctx : crypto_aes_essiv_cbc_ctx)
    (w : World) (req : skcipher_request) :
    Extends (Event.passes (6 + ctx.key1.key_length / 4)) w
      (essiv_cbc_decrypt P W ctx w req).2 := by
  unfold essiv_cbc_decrypt
  dsimp only
  generalize (skcipher_walk_virt W alg_essiv_cbc req) = v
  by_cases hb : v.2.nbytes / AES_BLOCK_SIZE ≠ 0
  · rw [if_pos hb]
    dsimp only
    have h1 := extends_trans _ _ _ _
      (extends_emit (Event.passes (6 + ctx.key1.key_length / 4)) w _ (passes_virt _ req.cryptlen))
      (passes_call_iv _ (w.emit [Event.skcipher_walk_virt req.cryptlen])
        (aes_essiv_cbc_decrypt P ((w.emit [Event.skcipher_walk_virt req.cryptlen]).view v.2.src)
          ctx.key1.key_dec (6 + ctx.key1.key_length / 4) (v.2.nbytes / AES_BLOCK_SIZE)
          (w.emit [Event.skcipher_walk_virt req.cryptlen]).iv ctx.key2.key_enc).2.2 v.2.dst
        (aes_essiv_cbc_decrypt P ((w.emit [Event.skcipher_walk_virt req.cryptlen]).view v.2.src)
          ctx.key1.key_dec (6 + ctx.key1.key_length / 4) (v.2.nbytes / AES_BLOCK_SIZE)
          (w.emit [Event.skcipher_walk_virt req.cryptlen]).iv ctx.key2.key_enc).1
        (aes_essiv_cbc_decrypt P ((w.emit [Event.skcipher_walk_virt req.cryptlen]).view v.2.src)
          ctx.key1.key_dec (6 + ctx.key1.key_length / 4) (v.2.nbytes / AES_BLOCK_SIZE)
          (w.emit [Event.skcipher_walk_virt req.cryptlen]).iv ctx.key2.key_enc).2.1
        (v.2.nbytes % AES_BLOCK_SIZE) (passes_essiv_decrypt P _ _ _ _ _ _))
    split
    · exact h1
    · exact extends_trans _ _ _ _ h1 (cbc_decrypt_walk_extends P W ctx.key1 _ _)
  · rw [if_neg hb]
    dsimp only
    split
    · exact extends_emit _ w _ (passes_virt _ _)
    · exact extends_trans _ _ _ _ (extends_emit _ w _ (passes_virt _ _))
        (cbc_decrypt_walk_extends P W ctx.key1 _ _)

theorem ctr_encrypt_extends (P : AesPrim) (W : Cursor) (tfm : crypto_skcipher) (buf : List Nat)
    (w : World) (req : skcipher_request) :
    Extends (Event.passes (6 + tfm.ctx.key_length / 4)) w
      (ctr_encrypt P W tfm buf w req).2 := by
  unfold ctr_encrypt
  dsimp only
  rw [ctr_encrypt_loop_eq _ _ _ _ _ _ _ _ _ 0]
  exact extends_trans _ _ _ _ (extends_emit _ w _ (passes_virt _ _))
    (ctr_walk_loop_extends _ W buf _ (fun inp n iv _ => passes_ctr_encrypt P inp _ _ n iv)
      (passes_none _ _ rfl) (passes_none _ _ rfl) (fun _ => passes_none _ _ rfl) _ _ _ _ _)

theorem xctr_encrypt_extends (P : AesPrim) (W : Cursor) (tfm : crypto_skcipher) (buf : List Nat)
    (w : World) (req : skcipher_request) :
    Extends (Event.passes (6 + tfm.ctx.key_length / 4)) w
      (xctr_encrypt P W tfm buf w req).2 := by
  unfold xctr_encrypt
  dsimp only
  rw [xctr_encrypt_loop_eq]
  exact extends_trans _ _ _ _ (extends_emit _ w _ (passes_virt _ _))
    (ctr_walk_loop_extends _ W buf _ (fun inp n iv bc => passes_xctr_encrypt P inp _ _ n iv bc)
      (passes_none _ _ rfl) (passes_none _ _ rfl) (fun _ => passes_none _ _ rfl) _ _ _ _ _)

theorem xts_start_extends (R : Nat) (W : Cursor) (w : World) (req : skcipher_request) :
    Extends (Event.passes R) w (xts_start W w req).2.1 := by
  unfold xts_start
  dsimp only
  split
  · exact extends_trans _ _ _ _ (extends_emit _ w _ (passes_virt _ _))
      (extends_emit _ _ _ (passes_abort_virt _ _))
  · exact extends_emit _ w _ (passes_virt _ _)

theorem xts_crypt_tail_extends
    (f : List Nat → Nat → List Nat → Nat → List Nat × List Nat × List Event) (R : Nat)
    (hf : ∀ inp n iv first, ∀ e ∈ (f inp n iv first).2.2, e.passes R)
    (W : Cursor) (w : World) (req : skcipher_request) (tail first : Nat) :
    Extends (Event.passes R) w (xts_crypt_tail f W w req tail first).2 := by
  unfold xts_crypt_tail
  dsimp only
  generalize (skcipher_walk_virt W alg_xts
    { src := scatterwalk_ffwd req.src req.cryptlen,
      dst := if req.dst ≠ req.src then scatterwalk_ffwd req.dst req.cryptlen
        else scatterwalk_ffwd req.src req.cryptlen,
      cryptlen := AES_BLOCK_SIZE + tail }) = v
  by_cases hv : v.1 ≠ 0
  · rw [if_pos hv]
    exact extends_emit _ w _ (passes_virt _ _)
  · rw [if_neg hv]
    exact extends_trans _ _ _ _ (extends_emit _ w _ (passes_virt _ _))
      (passes_call_iv _ _ _ _ _ _ 0 (hf _ _ _ _))

theorem xts_crypt_extends
    (f : List Nat → Nat → List Nat → Nat → List Nat × List Nat × List Event) (R : Nat)
    (hf : ∀ inp n iv first, ∀ e ∈ (f inp n iv first).2.2, e.passes R)
    (W : Cursor) (w : World) (req : skcipher_request) :
    Extends (Event.passes R) w (xts_crypt f W w req).2 := by
  unfold xts_crypt
  dsimp only
  split
  · exact extends_refl _ w
  · have hl := extends_trans _ _ _ _ (xts_start_extends R W w req)
      (xts_walk_loop_extends f W _ hf (passes_none R _ rfl) (passes_none R _ rfl)
        (fun _ => passes_none R _ rfl) (req.cryptlen + 1) (xts_start W w req).2.1
        (xts_start W w req).2.2.1 (xts_start W w req).1 1)
    split
    · exact hl
    · exact extends_trans _ _ _ _ hl (xts_crypt_tail_extends f R hf W _ _ _ _)

theorem xts_encrypt_extends (P : AesPrim) (W : Cursor) (ctx : crypto_aes_xts_ctx) (w : World)
    (req : skcipher_request) :
    Extends (Event.passes (6 + ctx.key1.key_length / 4)) w (xts_encrypt P W ctx w req).2 := by
  rw [xts_encrypt_eq]
  exact xts_crypt_extends _ _ (fun inp n iv first => passes_xts_encrypt P inp _ _ n _ iv first)
    W w req

theorem xts_decrypt_extends (P : AesPrim) (W : Cursor) (ctx : crypto_aes_xts_ctx) (w : World)
    (req : skcipher_request) :
    Extends (Event.passes (6 + ctx.key1.key_length / 4)) w (xts_decrypt P W ctx w req).2 := by
  rw [xts_decrypt_eq]
  exact xts_crypt_extends _ _ (fun inp n iv first => passes_xts_decrypt P inp _ _ n _ iv first)
    W w req

/-- Every call of aes_mac_update by mac_do_update passes the round count of
the key. -/
theorem mac_do_update_loop_passes (P : AesPrim) (ctx : crypto_aes_ctx) (eb : Bool) :
    ∀ (fuel : Nat) (inp : List Nat) (blocks : Nat) (dg : List Nat),
      ∀ e ∈ (mac_do_update_loop P ctx eb fuel inp blocks dg).2,
        e.passes (6 + ctx.key_length / 4) := by
  have hcall : ∀ (inp : List Nat) (blocks : Nat) (dg : List Nat),
      ∀ e ∈ [Event.kernel_neon_begin] ++
        (aes_mac_update P inp ctx.key_enc (6 + ctx.key_length / 4) blocks dg eb (!eb)).2.2 ++
        [Event.kernel_neon_end], e.passes (6 + ctx.key_length / 4) := by
    intro inp blocks dg e he
    simp only [List.mem_append, List.mem_singleton] at he
    rcases he with ((he | he) | he)
    · rw [he]; exact passes_none _ _ rfl
    · exact passes_mac_update P _ _ _ _ _ _ _ e he
    · rw [he]; exact passes_none _ _ rfl
  intro fuel
  induction fuel with
  | zero =>
    intro inp blocks dg e he
    rw [mac_do_update_loop] at he
    exact hcall inp blocks dg e he
  | succ fuel ih =>
    intro inp blocks dg e he
    rw [mac_do_update_loop] at he
    dsimp only at he
    split at he
    · exact hcall inp blocks dg e he
    · rcases List.mem_append.mp he with h | h
      · exact hcall inp blocks dg e h
      · exact ih _ _ _ e h

theorem walk_next_bound (W : Cursor) (walk : skcipher_walk) :
    (skcipher_walk_next W walk).2.nbytes ≤ (skcipher_walk_next W walk).2.total := by
  unfold skcipher_walk_next
  split
  · exact Nat.zero_le _
  · split
    · exact Nat.zero_le _
    · exact Nat.max_le.mpr ⟨Nat.min_le_right _ _, Nat.min_le_left _ _⟩

theorem walk_done_bound (W : Cursor) (walk : skcipher_walk) (res : Nat)
    (hn : walk.nbytes ≠ 0) :
    (skcipher_walk_done W walk res).2.nbytes ≤ (skcipher_walk_done W walk res).2.total := by
  unfold skcipher_walk_done
  rw [if_neg hn]
  simp only []
  split
  · exact walk_next_bound W _
  · exact Nat.zero_le _

/-- The bound on the passes of a stream-mode loop is never reached: every pass
commits at least one byte, so any bound above the remaining byte count gives
the same result. -/
theorem ctr_walk_loop_fuel
    (f : List Nat → Nat → List Nat → Nat → List Nat × List Nat × List Event) (W : Cursor)
    (buf : List Nat) (t : Nat) :
    ∀ (fuel : Nat) (w : World) (walk : skcipher_walk) (err : Int) (bc : Nat),
    walk.total = t → walk.nbytes ≤ walk.total → t + 1 ≤ fuel →
    ctr_walk_loop f W buf fuel w walk err bc = ctr_walk_loop f W buf (t + 1) w walk err bc := by
  induction t using Nat.strong_induction_on with
  | _ t ih =>
    intro fuel w walk err bc ht hle hf
    by_cases hb : walk.nbytes = 0
    · rw [ctr_walk_loop_idle f W buf fuel w walk err bc hb,
        ctr_walk_loop_idle f W buf (t + 1) w walk err bc hb]
    · cases fuel with
      | zero => omega
      | succ fuel =>
        have key : ∀ (c : Nat) (w1 : World) (bc1 : Nat), 0 < c → c ≤ walk.nbytes →
            ctr_walk_loop f W buf fuel w1 (skcipher_walk_done W walk (walk.nbytes - c)).2
              (skcipher_walk_done W walk (walk.nbytes - c)).1 bc1 =
            ctr_walk_loop f W buf t w1 (skcipher_walk_done W walk (walk.nbytes - c)).2
              (skcipher_walk_done W walk (walk.nbytes - c)).1 bc1 := by
          intro c w1 bc1 hc0 hc1
          obtain ⟨d1, d2⟩ := walk_done_total W walk (walk.nbytes - c) hb
          have hbd := walk_done_bound W walk (walk.nbytes - c) hb
          have hsub : walk.nbytes - (walk.nbytes - c) = c := by omega
          rw [hsub] at d1 d2
          by_cases hz : walk.total - c = 0
          · have hn0 := d2 hz
            rw [ctr_walk_loop_idle f W buf fuel _ _ _ _ hn0,
              ctr_walk_loop_idle f W buf t _ _ _ _ hn0]
          · have hlt : walk.total - c < t := by omega
            rw [ih _ hlt fuel _ _ _ _ d1 hbd (by omega), ih _ hlt t _ _ _ _ d1 hbd (by omega)]
        rw [ctr_walk_loop, ctr_walk_loop]
        simp only [AES_BLOCK_SIZE]
        rw [if_neg hb, if_neg hb]
        by_cases ha : walk.nbytes < 16
        · rw [if_pos ha, if_pos ha]
          have := key walk.nbytes
          rw [Nat.sub_self] at this ⊢
          exact this _ _ (by omega) (Nat.le_refl _)
        · rw [if_neg ha, if_neg ha]
          by_cases hl : walk.nbytes < walk.total
          · rw [if_pos hl]
            exact key _ _ _ (by omega) (by omega)
          · rw [if_neg hl]
            exact key _ _ _ (by omega) (Nat.le_refl _)

/-- The bound on the passes of the XTS loop is never reached: every pass
commits at least one block. -/
theorem xts_walk_loop_fuel
    (f : List Nat → Nat → List Nat → Nat → List Nat × List Nat × List Event) (W : Cursor)
    (t : Nat) :
    ∀ (fuel : Nat) (w : World) (walk : skcipher_walk) (err : Int) (first : Nat),
    walk.total = t → walk.nbytes ≤ walk.total → t + 1 ≤ fuel →
    xts_walk_loop f W fuel w walk err first = xts_walk_loop f W (t + 1) w walk err first := by
  induction t using Nat.strong_induction_on with
  | _ t ih =>
    intro fuel w walk err first ht hle hf
    by_cases hb : walk.nbytes < 16
    · rw [xts_walk_loop_idle f W fuel w walk err first hb,
        xts_walk_loop_idle f W (t + 1) w walk err first hb]
    · cases fuel with
      | zero => omega
      | succ fuel =>
        have hn0 : walk.nbytes ≠ 0 := by omega
        have key : ∀ (c : Nat) (w1 : World), 16 ≤ c → c ≤ walk.nbytes →
            xts_walk_loop f W fuel w1 (skcipher_walk_done W walk (walk.nbytes - c)).2
              (skcipher_walk_done W walk (walk.nbytes - c)).1 0 =
            xts_walk_loop f W t w1 (skcipher_walk_done W walk (walk.nbytes - c)).2
              (skcipher_walk_done W walk (walk.nbytes - c)).1 0 := by
          intro c w1 hc0 hc1
          obtain ⟨d1, d2⟩ := walk_done_total W walk (walk.nbytes - c) hn0
          have hbd := walk_done_bound W walk (walk.nbytes - c) hn0
          have hsub : walk.nbytes - (walk.nbytes - c) = c := by omega
          rw [hsub] at d1 d2
          by_cases hz : walk.total - c = 0
          · have h0 := d2 hz
            rw [xts_walk_loop_idle f W fuel _ _ _ _ (by rw [h0]; decide),
              xts_walk_loop_idle f W t _ _ _ _ (by rw [h0]; decide)]
          · have hlt : walk.total - c < t := by omega
            rw [ih _ hlt fuel _ _ _ _ d1 hbd (by omega), ih _ hlt t _ _ _ _ d1 hbd (by omega)]
        rw [xts_walk_loop, xts_walk_loop]
        simp only [AES_BLOCK_SIZE]
        rw [if_neg hb, if_neg hb]
        by_cases hl : walk.nbytes < walk.total
        · rw [if_pos hl]
          exact key _ _ (by omega) (by omega)
        · rw [if_neg hl]
          exact key _ _ (by omega) (Nat.le_refl _)

/-- Invariant rule of the block loops: a relation between state, cursor and
error code that every pass preserves holds when the loop is left. -/
theorem block_walk_loop_inv
    (f : List Nat → Nat → List Nat → List Nat × List Nat × List Event) (W : Cursor)
    (Inv : World → skcipher_walk → Int → Prop)
    (hstep : ∀ w walk err, Inv w walk err → ¬ (walk.nbytes / 16 = 0) →
      Inv (({ (w.emit ([Event.kernel_neon_begin] ++
                (f (w.view walk.src) (walk.nbytes / 16) w.iv).2.2 ++
                [Event.kernel_neon_end])).write walk.dst
                (f (w.view walk.src) (walk.nbytes / 16) w.iv).1 with
              iv := (f (w.view walk.src) (walk.nbytes / 16) w.iv).2.1 } : World).emit
            [Event.skcipher_walk_done (walk.nbytes % 16)])
        (skcipher_walk_done W walk (walk.nbytes % 16)).2
        (skcipher_walk_done W walk (walk.nbytes % 16)).1) :
    ∀ (fuel : Nat) (w : World) (walk : skcipher_walk) (err : Int), Inv w walk err →
      Inv (block_walk_loop f W fuel w walk err).2.1 (block_walk_loop f W fuel w walk err).2.2
        (block_walk_loop f W fuel w walk err).1 := by
  intro fuel
  induction fuel with
  | zero => intro w walk err h; exact h
  | succ fuel ih =>
    intro w walk err h
    by_cases hb : walk.nbytes / 16 = 0
    · rw [block_walk_loop_idle f W _ w walk err hb]; exact h
    · have hnz : ¬ (walk.nbytes / AES_BLOCK_SIZE = 0) := hb
      rw [block_walk_loop]
      simp only []
      rw [if_neg hnz]
      exact ih _ _ _ (hstep w walk err h hb)

/-- A block loop with a bound above the remaining byte count is left because
no whole block is in the current run. -/
theorem block_walk_loop_exit
    (f : List Nat → Nat → List Nat → List Nat × List Nat × List Event) (W : Cursor) :
    ∀ (fuel : Nat) (w : World) (walk : skcipher_walk) (err : Int),
      walk.total < fuel → walk.nbytes ≤ walk.total →
      (block_walk_loop f W fuel w walk err).2.2.nbytes / 16 = 0 := by
  intro fuel
  induction fuel with
  | zero => intro w walk err h; omega
  | succ fuel ih =>
    intro w walk err h hle
    by_cases hb : walk.nbytes / 16 = 0
    · rw [block_walk_loop_idle f W _ w walk err hb]; exact hb
    · have hnz : ¬ (walk.nbytes / AES_BLOCK_SIZE = 0) := hb
      have hn0 : walk.nbytes ≠ 0 := by intro h0; rw [h0] at hb; exact hb rfl
      rw [block_walk_loop]
      simp only []
      rw [if_neg hnz]
      obtain ⟨d1, _⟩ := walk_done_total W walk (walk.nbytes % AES_BLOCK_SIZE) hn0
      have hbd := walk_done_bound W walk (walk.nbytes % AES_BLOCK_SIZE) hn0
      apply ih _ _ _ _ hbd
      rw [d1]
      show walk.total - (walk.nbytes - walk.nbytes % 16) < fuel
      omega

/-- Invariant rule of the stream-mode loops. -/
theorem ctr_walk_loop_inv
    (f : List Nat → Nat → List Nat → Nat → List Nat × List Nat × List Event) (W : Cursor)
    (buf : List Nat) (Inv : World → skcipher_walk → Int → Nat → Prop)
    (hsmall : ∀ w walk err bc, Inv w walk err bc → walk.nbytes ≠ 0 → walk.nbytes < 16 →
      Inv (({ (w.emit ([Event.kernel_neon_begin] ++
                (f ((store buf (16 - walk.nbytes) (load (w.view walk.src) 0 walk.nbytes)).drop
                  (16 - walk.nbytes)) walk.nbytes w.iv bc).2.2 ++
                [Event.kernel_neon_end])).write walk.dst
                (load (store (store buf (16 - walk.nbytes) (load (w.view walk.src) 0 walk.nbytes))
                  (16 - walk.nbytes)
                  (f ((store buf (16 - walk.nbytes)
                    (load (w.view walk.src) 0 walk.nbytes)).drop
                    (16 - walk.nbytes)) walk.nbytes w.iv bc).1) (16 - walk.nbytes) walk.nbytes) with
              iv := (f ((store buf (16 - walk.nbytes)
                    (load (w.view walk.src) 0 walk.nbytes)).drop
                    (16 - walk.nbytes)) walk.nbytes w.iv bc).2.1 } : World).emit
            [Event.skcipher_walk_done (walk.nbytes - walk.nbytes)])
        (skcipher_walk_done W walk (walk.nbytes - walk.nbytes)).2
        (skcipher_walk_done W walk (walk.nbytes - walk.nbytes)).1
        ((bc + walk.nbytes) % 2 ^ 32))
    (hbig : ∀ w walk err bc n, Inv w walk err bc → 16 ≤ walk.nbytes →
      n = (if walk.nbytes < walk.total then walk.nbytes - walk.nbytes % 16 else walk.nbytes) →
      Inv (({ (w.emit ([Event.kernel_neon_begin] ++ (f (w.view walk.src) n w.iv bc).2.2 ++
                [Event.kernel_neon_end])).write walk.dst (f (w.view walk.src) n w.iv bc).1 with
              iv := (f (w.view walk.src) n w.iv bc).2.1 } : World).emit
            [Event.skcipher_walk_done (walk.nbytes - n)])
        (skcipher_walk_done W walk (walk.nbytes - n)).2
        (skcipher_walk_done W walk (walk.nbytes - n)).1
        ((bc + n) % 2 ^ 32)) :
    ∀ (fuel : Nat) (w : World) (walk : skcipher_walk) (err : Int) (bc : Nat),
      Inv w walk err bc →
      ∃ bc1, Inv (ctr_walk_loop f W buf fuel w walk err bc).2.1
        (ctr_walk_loop f W buf fuel w walk err bc).2.2
        (ctr_walk_loop f W buf fuel w walk err bc).1 bc1 := by
  intro fuel
  induction fuel with
  | zero => intro w walk err bc h; exact ⟨bc, h⟩
  | succ fuel ih =>
    intro w walk err bc h
    by_cases hb : walk.nbytes = 0
    · rw [ctr_walk_loop_idle f W buf _ w walk err bc hb]; exact ⟨bc, h⟩
    · rw [ctr_walk_loop]
      simp only [AES_BLOCK_SIZE]
      rw [if_neg hb]
      by_cases ha : walk.nbytes < 16
      · rw [if_pos ha]
        exact ih _ _ _ _ (hsmall w walk err bc h hb ha)
      · rw [if_neg ha]
        exact ih _ _ _ _ (hbig w walk err bc _ h (by omega) rfl)

/-- A stream-mode loop with a bound above the remaining byte count is left
because the current run is empty. -/
theorem ctr_walk_loop_exit
    (f : List Nat → Nat → List Nat → Nat → List Nat × List Nat × List Event) (W : Cursor)
    (buf : List Nat) :
    ∀ (fuel : Nat) (w : World) (walk : skcipher_walk) (err : Int) (bc : Nat),
      walk.total < fuel → walk.nbytes ≤ walk.total →
      (ctr_walk_loop f W buf fuel w walk err bc).2.2.nbytes = 0 := by
  intro fuel
  induction fuel with
  | zero => intro w walk err bc h; omega
  | succ fuel ih =>
    intro w walk err bc h hle
    by_cases hb : walk.nbytes = 0
    · rw [ctr_walk_loop_idle f W buf _ w walk err bc hb]; exact hb
    · have key : ∀ (c : Nat) (w1 : World) (bc1 : Nat), 0 < c → c ≤ walk.nbytes →
          (ctr_walk_loop f W buf fuel w1 (skcipher_walk_done W walk (walk.nbytes - c)).2
            (skcipher_walk_done W walk (walk.nbytes - c)).1 bc1).2.2.nbytes = 0 := by
        intro c w1 bc1 hc0 hc1
        obtain ⟨d1, _⟩ := walk_done_total W walk (walk.nbytes - c) hb
        have hbd := walk_done_bound W walk (walk.nbytes - c) hb
        apply ih _ _ _ _ _ hbd
        rw [d1]
        omega
      rw [ctr_walk_loop]
      simp only [AES_BLOCK_SIZE]
      rw [if_neg hb]
      by_cases ha : walk.nbytes < 16
      · rw [if_pos ha]
        exact key walk.nbytes _ _ (by omega) (Nat.le_refl _)
      · rw [if_neg ha]
        by_cases hl : walk.nbytes < walk.total
        · rw [if_pos hl]
          exact key _ _ _ (by omega) (by omega)
        · rw [if_neg hl]
          exact key _ _ _ (by omega) (Nat.le_refl _)

/-- Invariant rule of the XTS loops. -/
theorem xts_walk_loop_inv
    (f : List Nat → Nat → List Nat → Nat → List Nat × List Nat × List Event) (W : Cursor)
    (Inv : World → skcipher_walk → Int → Nat → Prop)
    (hstep : ∀ w walk err first n, Inv w walk err first → 16 ≤ walk.nbytes →
      n = (if walk.nbytes < walk.total then walk.nbytes - walk.nbytes % 16 else walk.nbytes) →
      Inv (({ (w.emit ([Event.kernel_neon_begin] ++ (f (w.view walk.src) n w.iv first).2.2 ++
                [Event.kernel_neon_end])).write walk.dst (f (w.view walk.src) n w.iv first).1 with
              iv := (f (w.view walk.src) n w.iv first).2.1 } : World).emit
            [Event.skcipher_walk_done (walk.nbytes - n)])
        (skcipher_walk_done W walk (walk.nbytes - n)).2
        (skcipher_walk_done W walk (walk.nbytes - n)).1 0) :
    ∀ (fuel : Nat) (w : World) (walk : skcipher_walk) (err : Int) (first : Nat),
      Inv w walk err first →
      Inv (xts_walk_loop f W fuel w walk err first).2.1
        (xts_walk_loop f W fuel w walk err first).2.2.1
        (xts_walk_loop f W fuel w walk err first).1
        (xts_walk_loop f W fuel w walk err first).2.2.2 := by
  intro fuel
  induction fuel with
  | zero => intro w walk err first h; exact h
  | succ fuel ih =>
    intro w walk err first h
    by_cases hb : walk.nbytes < 16
    · rw [xts_walk_loop_idle f W _ w walk err first hb]; exact h
    · rw [xts_walk_loop]
      simp only [AES_BLOCK_SIZE]
      rw [if_neg hb]
      exact ih _ _ _ _ (hstep w walk err first _ h (by omega) rfl)

/-- An XTS loop with a bound above the remaining byte count is left because
the current run holds less than a block. -/
theorem xts_walk_loop_exit
    (f : List Nat → Nat → List Nat → Nat → List Nat × List Nat × List Event) (W : Cursor) :
    ∀ (fuel : Nat) (w : World) (walk : skcipher_walk) (err : Int) (first : Nat),
      walk.total < fuel → walk.nbytes ≤ walk.total →
      (xts_walk_loop f W fuel w walk err first).2.2.1.nbytes < 16 := by
  intro fuel
  induction fuel with
  | zero => intro w walk err first h; omega
  | succ fuel ih =>
    intro w walk err first h hle
    by_cases hb : walk.nbytes < 16
    · rw [xts_walk_loop_idle f W _ w walk err first hb]; exact hb
    · have hn0 : walk.nbytes ≠ 0 := by omega
      have key : ∀ (c : Nat) (w1 : World), 16 ≤ c → c ≤ walk.nbytes →
          (xts_walk_loop f W fuel w1 (skcipher_walk_done W walk (walk.nbytes - c)).2
            (skcipher_walk_done W walk (walk.nbytes - c)).1 0).2.2.1.nbytes < 16 := by
        intro c w1 hc0 hc1
        obtain ⟨d1, _⟩ := walk_done_total W walk (walk.nbytes - c) hn0
        have hbd := walk_done_bound W walk (walk.nbytes - c) hn0
        apply ih _ _ _ _ _ hbd
        rw [d1]
        omega
      rw [xts_walk_loop]
      simp only [AES_BLOCK_SIZE]
      rw [if_neg hb]
      by_cases hl : walk.nbytes < walk.total
      · rw [if_pos hl]
        exact key _ _ (by omega) (by omega)
      · rw [if_neg hl]
        exact key _ _ (by omega) (Nat.le_refl _)

/-- The two phases of cts_cbc_encrypt on a request of more than one block, for
every cursor: plain CBC as cbc_encrypt runs it over the sub-request of the
leading blocks, then the stealing step on the rest, found by forward-seeking
both buffers by the length of the leading blocks. -/
theorem cts_encrypt_phases (P : AesPrim) (W : Cursor) (ctx : crypto_aes_ctx) (w : World)
    (req : skcipher_request) (h1 : 16 < req.cryptlen) (h2 : req.cryptlen + 15 < 2 ^ 32) :
    cts_cbc_encrypt P W (cts_tfm ctx) w req =
      if cts_lead req.cryptlen = 0 then
        cts_cbc_encrypt_tail P W (cts_tfm ctx) w req req.src req.dst 0
      else if (cbc_encrypt P W (cts_tfm ctx) w
          { src := req.src, dst := req.dst, cryptlen := 16 * cts_lead req.cryptlen }).1 ≠ 0 then
        cbc_encrypt P W (cts_tfm ctx) w
          { src := req.src, dst := req.dst, cryptlen := 16 * cts_lead req.cryptlen }
      else
        cts_cbc_encrypt_tail P W (cts_tfm ctx)
          (cbc_encrypt P W (cts_tfm ctx) w
            { src := req.src, dst := req.dst, cryptlen := 16 * cts_lead req.cryptlen }).2
          req (scatterwalk_ffwd req.src (16 * cts_lead req.cryptlen))
          (scatterwalk_ffwd req.dst (16 * cts_lead req.cryptlen))
          ((cts_lead req.cryptlen : Nat) : Int) := by
  have hcb := cts_cbc_blocks_val req.cryptlen h1 h2
  obtain ⟨b1, b2⟩ := cts_tail_bounds req.cryptlen h1
  have c1 : ¬ (req.cryptlen ≤ 16) := by omega
  have c2 : ¬ (req.cryptlen = 16) := by omega
  unfold cts_cbc_encrypt
  simp only [AES_BLOCK_SIZE, c1, false_and, if_false]
  simp only [AES_BLOCK_SIZE] at hcb
  rw [hcb]
  by_cases hn : cts_lead req.cryptlen = 0
  · rw [if_neg (by rw [hn]; decide), if_pos hn, hn]
    rfl
  · have hnpos : 0 < cts_lead req.cryptlen := Nat.pos_of_ne_zero hn
    rw [if_pos (by omega), if_neg hn]
    have hu := to_u32_lead (cts_lead req.cryptlen) (by omega)
    rw [hu]
    simp only [c2, if_false, ffwd_dst_eq]
    unfold cbc_encrypt
    simp only []
    by_cases hv : (skcipher_walk_virt W (cts_tfm ctx).alg
        { src := req.src, dst := req.dst, cryptlen := 16 * cts_lead req.cryptlen }).1 = 0
    · simp only [hv, ne_eq, not_true_eq_false, if_false]
    · simp only [hv, ne_eq, not_false_eq_true, if_true]

/-- The two phases of cts_cbc_decrypt on a request of more than one block. -/
theorem cts_decrypt_phases (P : AesPrim) (W : Cursor) (ctx : crypto_aes_ctx) (w : World)
    (req : skcipher_request) (h1 : 16 < req.cryptlen) (h2 : req.cryptlen + 15 < 2 ^ 32) :
    cts_cbc_decrypt P W (cts_tfm ctx) w req =
      if cts_lead req.cryptlen = 0 then
        cts_cbc_decrypt_tail P W (cts_tfm ctx) w req req.src req.dst 0
      else if (cbc_decrypt P W (cts_tfm ctx) w
          { src := req.src, dst := req.dst, cryptlen := 16 * cts_lead req.cryptlen }).1 ≠ 0 then
        cbc_decrypt P W (cts_tfm ctx) w
          { src := req.src, dst := req.dst, cryptlen := 16 * cts_lead req.cryptlen }
      else
        cts_cbc_decrypt_tail P W (cts_tfm ctx)
          (cbc_decrypt P W (cts_tfm ctx) w
            { src := req.src, dst := req.dst, cryptlen := 16 * cts_lead req.cryptlen }).2
          req (scatterwalk_ffwd req.src (16 * cts_lead req.cryptlen))
          (scatterwalk_ffwd req.dst (16 * cts_lead req.cryptlen))
          ((cts_lead req.cryptlen : Nat) : Int) := by
  have hcb := cts_cbc_blocks_val req.cryptlen h1 h2
  obtain ⟨b1, b2⟩ := cts_tail_bounds req.cryptlen h1
  have c1 : ¬ (req.cryptlen ≤ 16) := by omega
  have c2 : ¬ (req.cryptlen = 16) := by omega
  unfold cts_cbc_decrypt
  simp only [AES_BLOCK_SIZE, c1, false_and, if_false]
  simp only [AES_BLOCK_SIZE] at hcb
  rw [hcb]
  by_cases hn : cts_lead req.cryptlen = 0
  · rw [if_neg (by rw [hn]; decide), if_pos hn, hn]
    rfl
  · have hnpos : 0 < cts_lead req.cryptlen := Nat.pos_of_ne_zero hn
    rw [if_pos (by omega), if_neg hn]
    have hu := to_u32_lead (cts_lead req.cryptlen) (by omega)
    rw [hu]
    simp only [c2, if_false, ffwd_dst_eq]
    unfold cbc_decrypt
    simp only []
    by_cases hv : (skcipher_walk_virt W (cts_tfm ctx).alg
        { src := req.src, dst := req.dst, cryptlen := 16 * cts_lead req.cryptlen }).1 = 0
    · simp only [hv, ne_eq, not_true_eq_false, if_false]
    · simp only [hv, ne_eq, not_false_eq_true, if_true]

theorem xts_bytes_done_append (a b : List Event) :
    xts_bytes_done (a ++ b) = xts_bytes_done a + xts_bytes_done b := by
  induction a with
  | nil => simp [xts_bytes_done]
  | cons e a ih =>
    cases e <;> simp only [List.cons_append, xts_bytes_done, List.append_eq, ih] <;> omega

theorem xts_bytes_done_replicate (n : Nat) (c : Event)
    (hc : xts_bytes_done [c] = 0) : xts_bytes_done (List.replicate n c) = 0 := by
  induction n with
  | zero => rfl
  | succ n ih =>
    rw [List.replicate_succ, ← List.singleton_append, xts_bytes_done_append, hc, ih]

/-- The length of the sub-request of xts_encrypt and xts_decrypt over the whole
32-bit range of request lengths: the wrap of the rounded-up block count at the
top of the range is undone by the multiplication. -/
theorem xts_blocks_val (L : Nat) (h1 : 16 ≤ L) (hr : L % 16 ≠ 0) (h2 : L < 2 ^ 32) :
    to_u32 (to_int (DIV_ROUND_UP L AES_BLOCK_SIZE + 2 ^ 32 - 2) * ((AES_BLOCK_SIZE : Nat) : Int)) =
      16 * cts_lead L := by
  by_cases hU : L + 15 < 2 ^ 32
  · have hgt : 16 < L := by omega
    rw [cts_cbc_blocks_val L hgt hU]
    have := cts_tail_bounds L hgt
    exact to_u32_lead (cts_lead L) (by omega)
  · have hd : DIV_ROUND_UP L AES_BLOCK_SIZE = 0 := by
      unfold DIV_ROUND_UP
      show (L + 16 - 1) % 2 ^ 32 / 16 = 0
      omega
    have hl : cts_lead L = 268435454 := by
      unfold cts_lead
      omega
    rw [hd, hl]
    decide

/-- The start of xts_encrypt and xts_decrypt on a request with a final partial
block that is not mapped as a single run, for every 32-bit request length. -/
theorem xts_start_sub (W : Cursor) (w : World) (req : skcipher_request)
    (hL : 16 ≤ req.cryptlen) (hU : req.cryptlen < 2 ^ 32)
    (hc : req.cryptlen % 16 ≠ 0 ∧
      (skcipher_walk_virt W alg_xts req).2.nbytes < (skcipher_walk_virt W alg_xts req).2.total) :
    xts_start W w req =
      ((skcipher_walk_virt W alg_xts
          { src := req.src, dst := req.dst, cryptlen := 16 * cts_lead req.cryptlen }).1,
       (w.emit [Event.skcipher_walk_virt req.cryptlen]).emit
         [Event.skcipher_walk_abort, Event.skcipher_walk_virt (16 * cts_lead req.cryptlen)],
       (skcipher_walk_virt W alg_xts
          { src := req.src, dst := req.dst, cryptlen := 16 * cts_lead req.cryptlen }).2,
       { src := req.src, dst := req.dst, cryptlen := 16 * cts_lead req.cryptlen },
       req.cryptlen % 16) := by
  have hu := xts_blocks_val req.cryptlen hL hc.1 hU
  have hc' : req.cryptlen % AES_BLOCK_SIZE > 0 ∧
      (skcipher_walk_virt W alg_xts req).2.nbytes <
        (skcipher_walk_virt W alg_xts req).2.total := ⟨Nat.pos_of_ne_zero hc.1, hc.2⟩
  unfold xts_start
  dsimp only
  rw [if_pos hc', hu]

/-- The call of the XTS primitive after the loop, when the cursor maps the last
whole block and the partial block without failure. -/
theorem xts_crypt_tail_eq
    (f : List Nat → Nat → List Nat → Nat → List Nat × List Nat × List Event)
    (W : Cursor) (w : World) (req : skcipher_request) (tail first : Nat)
    (ht1 : 0 < tail) (ht2 : tail < 16)
    (hf : W.fail (req.src.off + req.cryptlen) (16 + tail) = 0) :
    xts_crypt_tail f W w req tail first =
      (0, { mem := (w.write (scatterwalk_ffwd req.dst req.cryptlen)
              (f (w.view (scatterwalk_ffwd req.src req.cryptlen)) (16 + tail) w.iv first).1).mem,
            iv := (f (w.view (scatterwalk_ffwd req.src req.cryptlen)) (16 + tail) w.iv
              first).2.1,
            trace := w.trace ++ [Event.skcipher_walk_virt (16 + tail)] ++
              ([Event.kernel_neon_begin] ++
                (f (w.view (scatterwalk_ffwd req.src req.cryptlen)) (16 + tail) w.iv
                  first).2.2 ++ [Event.kernel_neon_end]) ++
              [Event.skcipher_walk_done 0] }) := by
  have hv3 := walk_virt_tail W
    { src := scatterwalk_ffwd req.src req.cryptlen,
      dst := scatterwalk_ffwd req.dst req.cryptlen,
      cryptlen := 16 + tail } (16 + tail) (by omega) (by omega) rfl hf
  have hv3' : skcipher_walk_virt W alg_xts
      { src := scatterwalk_ffwd req.src req.cryptlen,
        dst := scatterwalk_ffwd req.dst req.cryptlen,
        cryptlen := 16 + tail } = _ := hv3
  have hdone := walk_done_last W
    { src := scatterwalk_ffwd req.src req.cryptlen,
      dst := scatterwalk_ffwd req.dst req.cryptlen,
      total := 16 + tail, nbytes := 16 + tail,
      blocksize := 16, stride := 32 } 0 (by show ¬ (16 + tail = 0); omega)
    (by show 16 + tail - (16 + tail - 0) = 0; omega)
  unfold xts_crypt_tail
  simp only [AES_BLOCK_SIZE, ffwd_dst_eq, hv3', ne_eq, not_true_eq_false, if_false, hdone]
  rfl

/-- Under a cursor that reports no failure, the XTS loop over a cursor whose
remaining bytes are whole blocks, or whose run is all that remains, hands
every remaining byte to the primitive. -/
theorem xts_walk_loop_bytes
    (f : List Nat → Nat → List Nat → Nat → List Nat × List Nat × List Event)
    (hf : ∀ inp n iv first, xts_bytes_done (f inp n iv first).2.2 = n)
    (W : Cursor) (hW : W.NoFail)
    (fuel : Nat) (w : World) (walk : skcipher_walk) (err : Int) (first : Nat)
    (hfuel : walk.total < fuel) (hst : WalkSt walk)
    (hmul : walk.total % 16 = 0 ∨ walk.nbytes = walk.total)
    (hz : walk.nbytes = 0 → walk.total = 0) :
    xts_bytes_done (xts_walk_loop f W fuel w walk err first).2.1.trace =
      xts_bytes_done w.trace + walk.total := by
  have hinv := xts_walk_loop_inv f W
    (fun w1 walk1 _ _ => WalkSt walk1 ∧ (walk1.total % 16 = 0 ∨ walk1.nbytes = walk1.total) ∧
      (walk1.nbytes = 0 → walk1.total = 0) ∧
      xts_bytes_done w1.trace + walk1.total = xts_bytes_done w.trace + walk.total)
    (by
      intro w1 walk1 err1 first1 n ⟨i1, i2, i3, i4⟩ h16 hn
      have hle : walk1.nbytes ≤ walk1.total := by
        rcases i1.run with h | h
        · omega
        · exact h.2
      have htr : xts_bytes_done
          ((({ (w1.emit ([Event.kernel_neon_begin] ++ (f (w1.view walk1.src) n w1.iv first1).2.2 ++
                [Event.kernel_neon_end])).write walk1.dst
                (f (w1.view walk1.src) n w1.iv first1).1 with
              iv := (f (w1.view walk1.src) n w1.iv first1).2.1 } : World).emit
            [Event.skcipher_walk_done (walk1.nbytes - n)]).trace) =
          xts_bytes_done w1.trace + n := by
        simp only [World.emit, World.write, List.append_eq, xts_bytes_done_append, hf,
          xts_bytes_done]
        omega
      rw [htr]
      by_cases hlt : walk1.nbytes < walk1.total
      · rw [if_pos hlt] at hn
        have hm : walk1.total % 16 = 0 := by
          rcases i2 with h | h
          · exact h
          · omega
        have hres : walk1.nbytes - n = walk1.nbytes % 16 := by omega
        have hn' : n = 16 * (walk1.nbytes / 16) := by omega
        rw [hres]
        obtain ⟨c1, c2, c3⟩ := walk_done_cases W walk1 i1 h16
        refine ⟨c2, Or.inl (by rw [c1]; omega), fun h0 => ?_, by rw [c1]; omega⟩
        rcases c3 h0 with ⟨a, _⟩ | ⟨a, b, _⟩ | ⟨_, _, c⟩
        · rw [c1]; exact a
        · omega
        · exact absurd hW c
      · rw [if_neg hlt] at hn
        have hall : walk1.nbytes = walk1.total := by omega
        have hd := walk_done_last W walk1 (walk1.nbytes - n) (by omega) (by omega)
        rw [hd]
        refine ⟨⟨i1.blocksize, i1.stride, Or.inl rfl⟩, Or.inr ?_, fun _ => ?_, ?_⟩
        · show 0 = walk1.total - (walk1.nbytes - (walk1.nbytes - n)); omega
        · show walk1.total - (walk1.nbytes - (walk1.nbytes - n)) = 0; omega
        · show xts_bytes_done w1.trace + n +
            (walk1.total - (walk1.nbytes - (walk1.nbytes - n))) = _
          omega)
    fuel w walk err first ⟨hst, hmul, hz, rfl⟩
  obtain ⟨e1, _, e3, e4⟩ := hinv
  have hle : walk.nbytes ≤ walk.total := by
    rcases hst.run with h | h
    · omega
    · exact h.2
  have hex := xts_walk_loop_exit f W fuel w walk err first hfuel hle
  have h0 : (xts_walk_loop f W fuel w walk err first).2.2.1.nbytes = 0 := by
    rcases e1.run with h | h
    · exact h
    · omega
  have := e3 h0
  omega

/-- The cursor skcipher_walk_virt creates for a mode with 16-byte blocks. -/
theorem walk_virt_st (W : Cursor) (alg : skcipher_alg) (req : skcipher_request)
    (hb : alg.cra_blocksize = 16) (hs : 16 ≤ alg.walksize) :
    WalkSt (skcipher_walk_virt W alg req).2 ∧
    (skcipher_walk_virt W alg req).2.total = req.cryptlen ∧
    (W.NoFail → req.cryptlen % 16 = 0 → (skcipher_walk_virt W alg req).2.nbytes = 0 →
      req.cryptlen = 0) ∧
    (W.NoFail → 16 ≤ req.cryptlen → 16 ≤ (skcipher_walk_virt W alg req).2.nbytes) := by
  unfold skcipher_walk_virt
  dsimp only
  by_cases h0 : req.cryptlen = 0
  · rw [if_pos h0]
    exact ⟨⟨hb, hs, Or.inl rfl⟩, rfl, fun _ _ _ => h0, fun _ h => by omega⟩
  · rw [if_neg h0]
    obtain ⟨n1, n2, n3⟩ := walk_next_cases W
      { src := req.src, dst := req.dst, total := req.cryptlen, nbytes := 0,
        blocksize := alg.cra_blocksize, stride := alg.walksize } hb hs
    refine ⟨n2, n1, fun hW hm hn => ?_, fun hW h16 => ?_⟩
    · rcases n3 with ⟨a, _⟩ | ⟨_, b, _⟩ | ⟨_, _, _, d, _⟩
      · have a' : req.cryptlen < 16 := a
        omega
      · exact absurd (hW _ _) b
      · omega
    · rcases n3 with ⟨a, _⟩ | ⟨_, b, _⟩ | ⟨_, _, _, d, _⟩
      · have a' : req.cryptlen < 16 := a
        omega
      · exact absurd (hW _ _) b
      · exact d

theorem xts_bytes_encrypt (P : AesPrim) (inp rk1 : List Nat) (rounds bytes : Nat)
    (rk2 iv : List Nat) (first : Nat) :
    xts_bytes_done (aes_xts_encrypt P inp rk1 rounds bytes rk2 iv first).2.2 = bytes := by
  simp only [aes_xts_encrypt, xts_bytes_done,
    xts_bytes_done_replicate _ Event.encrypt_block rfl, Nat.add_zero]

theorem xts_bytes_decrypt (P : AesPrim) (inp rk1 : List Nat) (rounds bytes : Nat)
    (rk2 iv : List Nat) (first : Nat) :
    xts_bytes_done (aes_xts_decrypt P inp rk1 rounds bytes rk2 iv first).2.2 = bytes := by
  simp only [aes_xts_decrypt, xts_bytes_done, xts_bytes_done_append,
    xts_bytes_done_replicate _ Event.encrypt_block rfl,
    xts_bytes_done_replicate _ Event.decrypt_block rfl, Nat.add_zero]

theorem notStart_replicate (n : Nat) (c : Event) (hc : c.notStart) :
    ∀ e ∈ List.replicate n c, e.notStart := by
  intro e he
  rw [(List.mem_replicate.mp he).2]
  exact hc

theorem notStart_xts_encrypt (P : AesPrim) (inp rk1 : List Nat) (rounds bytes : Nat)
    (rk2 iv : List Nat) (first : Nat) :
    ∀ e ∈ (aes_xts_encrypt P inp rk1 rounds bytes rk2 iv first).2.2, e.notStart := by
  intro e he
  simp only [aes_xts_encrypt, List.mem_cons] at he
  rcases he with h | h
  · rw [h]; exact True.intro
  · exact notStart_replicate _ Event.encrypt_block True.intro e h

theorem notStart_xts_decrypt (P : AesPrim) (inp rk1 : List Nat) (rounds bytes : Nat)
    (rk2 iv : List Nat) (first : Nat) :
    ∀ e ∈ (aes_xts_decrypt P inp rk1 rounds bytes rk2 iv first).2.2, e.notStart := by
  intro e he
  simp only [aes_xts_decrypt, List.mem_cons, List.mem_append] at he
  rcases he with h | h | h
  · rw [h]; exact True.intro
  · exact notStart_replicate _ Event.encrypt_block True.intro e h
  · exact notStart_replicate _ Event.decrypt_block True.intro e h

/-- The request has a final partial block and its first run is cut short: the
function runs the loop over the sub-request and, unless that fails, the tail
step. -/
theorem xts_crypt_stolen
    (f : List Nat → Nat → List Nat → Nat → List Nat × List Nat × List Event)
    (W : Cursor) (w : World) (req : skcipher_request)
    (hL : 16 ≤ req.cryptlen) (hU : req.cryptlen < 2 ^ 32)
    (hc : req.cryptlen % 16 ≠ 0 ∧
      (skcipher_walk_virt W alg_xts req).2.nbytes < (skcipher_walk_virt W alg_xts req).2.total) :
    xts_crypt f W w req =
      if (xts_walk_loop f W (req.cryptlen + 1) (xts_start W w req).2.1
          (xts_start W w req).2.2.1 (xts_start W w req).1 1).1 ≠ 0 then
        ((xts_walk_loop f W (req.cryptlen + 1) (xts_start W w req).2.1
          (xts_start W w req).2.2.1 (xts_start W w req).1 1).1,
         (xts_walk_loop f W (req.cryptlen + 1) (xts_start W w req).2.1
          (xts_start W w req).2.2.1 (xts_start W w req).1 1).2.1)
      else
        xts_crypt_tail f W
          (xts_walk_loop f W (req.cryptlen + 1) (xts_start W w req).2.1
            (xts_start W w req).2.2.1 (xts_start W w req).1 1).2.1
          (xts_lead_req req) (req.cryptlen % 16)
          (xts_walk_loop f W (req.cryptlen + 1) (xts_start W w req).2.1
            (xts_start W w req).2.2.1 (xts_start W w req).1 1).2.2.2 := by
  have hs := xts_start_sub W w req hL hU hc
  have h4 : (xts_start W w req).2.2.2.2 = req.cryptlen % 16 := by rw [hs]
  have h3 : (xts_start W w req).2.2.2.1 = xts_lead_req req := by rw [hs]; rfl
  have hlt : ¬ (req.cryptlen < AES_BLOCK_SIZE) := by show ¬ (req.cryptlen < 16); omega
  unfold xts_crypt
  dsimp only
  rw [if_neg hlt, h4, h3]
  generalize xts_walk_loop f W (req.cryptlen + 1) (xts_start W w req).2.1
    (xts_start W w req).2.2.1 (xts_start W w req).1 1 = l
  by_cases hl : l.1 ≠ 0
  · rw [if_pos (Or.inl hl), if_pos hl]
  · rw [if_neg (by intro h; rcases h with h | h; exact hl h; exact hc.1 h), if_neg hl]

/-- The request has whole blocks only, or is mapped as a single run: the
function is its loop over the cursor of the whole request. -/
theorem xts_crypt_direct
    (f : List Nat → Nat → List Nat → Nat → List Nat × List Nat × List Event)
    (W : Cursor) (w : World) (req : skcipher_request) (hL : 16 ≤ req.cryptlen)
    (hc : ¬ (req.cryptlen % 16 ≠ 0 ∧
      (skcipher_walk_virt W alg_xts req).2.nbytes <
        (skcipher_walk_virt W alg_xts req).2.total)) :
    xts_start W w req =
      ((skcipher_walk_virt W alg_xts req).1, w.emit [Event.skcipher_walk_virt req.cryptlen],
       (skcipher_walk_virt W alg_xts req).2, req, 0) ∧
    xts_crypt f W w req =
      ((xts_walk_loop f W (req.cryptlen + 1) (xts_start W w req).2.1
          (xts_start W w req).2.2.1 (xts_start W w req).1 1).1,
       (xts_walk_loop f W (req.cryptlen + 1) (xts_start W w req).2.1
          (xts_start W w req).2.2.1 (xts_start W w req).1 1).2.1) := by
  have hs := xts_start_direct W w req
    (fun h => hc ⟨Nat.pos_iff_ne_zero.mp h.1, h.2⟩)
  have h4 : (xts_start W w req).2.2.2.2 = 0 := by rw [hs]
  have hlt : ¬ (req.cryptlen < AES_BLOCK_SIZE) := by show ¬ (req.cryptlen < 16); omega
  refine ⟨hs, ?_⟩
  unfold xts_crypt
  dsimp only
  rw [if_neg hlt, if_pos (Or.inr h4)]

theorem xts_encrypt_bulk_eq (P : AesPrim) (W : Cursor) (ctx : crypto_aes_xts_ctx) (w : World)
    (req : skcipher_request) :
    xts_encrypt_bulk P W ctx w req =
      xts_walk_loop (fun inp bytes iv fst =>
        aes_xts_encrypt P inp ctx.key1.key_enc (6 + ctx.key1.key_length / 4) bytes
          ctx.key2.key_enc iv fst) W (req.cryptlen + 1)
        (xts_start W w req).2.1 (xts_start W w req).2.2.1 (xts_start W w req).1 1 := by
  unfold xts_encrypt_bulk
  rw [xts_encrypt_loop_eq]

theorem xts_decrypt_bulk_eq (P : AesPrim) (W : Cursor) (ctx : crypto_aes_xts_ctx) (w : World)
    (req : skcipher_request) :
    xts_decrypt_bulk P W ctx w req =
      xts_walk_loop (fun inp bytes iv fst =>
        aes_xts_decrypt P inp ctx.key1.key_dec (6 + ctx.key1.key_length / 4) bytes
          ctx.key2.key_enc iv fst) W (req.cryptlen + 1)
        (xts_start W w req).2.1 (xts_start W w req).2.2.1 (xts_start W w req).1 1 := by
  unfold xts_decrypt_bulk
  rw [xts_decrypt_loop_eq]

/-- The bytes the loop hands to the primitive after a start over the
sub-request, under a cursor that reports no failure. -/
theorem xts_bulk_bytes_sub
    (f : List Nat → Nat → List Nat → Nat → List Nat × List Nat × List Event)
    (hf : ∀ inp n iv first, xts_bytes_done (f inp n iv first).2.2 = n)
    (W : Cursor) (hW : W.NoFail) (w : World) (req : skcipher_request)
    (hL : 16 ≤ req.cryptlen) (hU : req.cryptlen < 2 ^ 32)
    (hc : req.cryptlen % 16 ≠ 0 ∧
      (skcipher_walk_virt W alg_xts req).2.nbytes < (skcipher_walk_virt W alg_xts req).2.total) :
    xts_bytes_done (xts_walk_loop f W (req.cryptlen + 1) (xts_start W w req).2.1
      (xts_start W w req).2.2.1 (xts_start W w req).1 1).2.1.trace =
      xts_bytes_done w.trace + 16 * cts_lead req.cryptlen := by
  rw [xts_start_sub W w req hL hU hc]
  obtain ⟨s1, s2, s3, _⟩ := walk_virt_st W alg_xts
    { src := req.src, dst := req.dst, cryptlen := 16 * cts_lead req.cryptlen } rfl (by decide)
  have s2' : (skcipher_walk_virt W alg_xts
    { src := req.src, dst := req.dst, cryptlen := 16 * cts_lead req.cryptlen }).2.total =
      16 * cts_lead req.cryptlen := s2
  have hlead : 16 * cts_lead req.cryptlen < req.cryptlen + 1 := by
    unfold cts_lead; omega
  rw [xts_walk_loop_bytes f hf W hW _ _ _ _ _ (by rw [s2']; exact hlead) s1
    (Or.inl (by rw [s2']; omega))
    (fun h => by rw [s2']; exact s3 hW (by show 16 * cts_lead req.cryptlen % 16 = 0; omega) h),
    s2']
  simp only [World.emit, xts_bytes_done_append, xts_bytes_done, Nat.add_zero]

/-- The events of the loop after a start over the whole request: no cursor is
created or aborted, and under a cursor that reports no failure every byte of
the request is handed to the primitive. -/
theorem xts_bulk_trace_direct
    (f : List Nat → Nat → List Nat → Nat → List Nat × List Nat × List Event)
    (hf : ∀ inp n iv first, xts_bytes_done (f inp n iv first).2.2 = n)
    (hq : ∀ inp n iv first, ∀ e ∈ (f inp n iv first).2.2, e.notStart)
    (W : Cursor) (w : World) (req : skcipher_request) (hL : 16 ≤ req.cryptlen)
    (hc : ¬ (req.cryptlen % 16 ≠ 0 ∧
      (skcipher_walk_virt W alg_xts req).2.nbytes <
        (skcipher_walk_virt W alg_xts req).2.total)) :
    ∃ tr, (xts_walk_loop f W (req.cryptlen + 1) (xts_start W w req).2.1
        (xts_start W w req).2.2.1 (xts_start W w req).1 1).2.1.trace =
          w.trace ++ [Event.skcipher_walk_virt req.cryptlen] ++ tr ∧
      (∀ e ∈ tr, e.notStart) ∧ (W.NoFail → xts_bytes_done tr = req.cryptlen) := by
  rw [xts_start_direct W w req (fun h => hc ⟨Nat.pos_iff_ne_zero.mp h.1, h.2⟩)]
  obtain ⟨tr, t1, t2⟩ := xts_walk_loop_extends f W Event.notStart hq True.intro True.intro
    (fun _ => True.intro) (req.cryptlen + 1) (w.emit [Event.skcipher_walk_virt req.cryptlen])
    (skcipher_walk_virt W alg_xts req).2 (skcipher_walk_virt W alg_xts req).1 1
  refine ⟨tr, t1, t2, fun hW => ?_⟩
  obtain ⟨s1, s2, _, s4⟩ := walk_virt_st W alg_xts req rfl (by decide)
  have h16 := s4 hW hL
  have hle : (skcipher_walk_virt W alg_xts req).2.nbytes ≤
      (skcipher_walk_virt W alg_xts req).2.total := by
    rcases s1.run with h | h
    · omega
    · exact h.2
  have hb := xts_walk_loop_bytes f hf W hW (req.cryptlen + 1)
    (w.emit [Event.skcipher_walk_virt req.cryptlen]) (skcipher_walk_virt W alg_xts req).2
    (skcipher_walk_virt W alg_xts req).1 1 (by rw [s2]; omega) s1
    (by
      by_cases hr : req.cryptlen % 16 = 0
      · exact Or.inl (by rw [s2]; exact hr)
      · right
        have : ¬ ((skcipher_walk_virt W alg_xts req).2.nbytes <
            (skcipher_walk_virt W alg_xts req).2.total) := fun h => hc ⟨hr, h⟩
        omega)
    (fun h => by omega)
  rw [t1, xts_bytes_done_append, s2] at hb
  omega

/-- After the start of the XTS functions the tail length is not 0 exactly when
the local sub-request has been initialised, and then the request pointer
refers to it. -/
theorem xts_start_subreq (W : Cursor) (w : World) (req : skcipher_request) :
    ((xts_start W w req).2.2.2.2 ≠ 0 ↔ (xts_subreq W req).isSome = true) ∧
    (∀ sub, xts_subreq W req = some sub →
      (xts_start W w req).2.2.2.1 = sub ∧
      (xts_start W w req).2.2.2.2 = req.cryptlen % 16 ∧
      Event.skcipher_walk_abort ∈ (xts_start W w req).2.1.trace) ∧
    (xts_subreq W req = none →
      (xts_start W w req).2.2.2.1 = req ∧
      (xts_start W w req).2.1.trace = w.trace ++ [Event.skcipher_walk_virt req.cryptlen]) := by
  unfold xts_start xts_subreq
  dsimp only
  by_cases hc : req.cryptlen % AES_BLOCK_SIZE > 0 ∧
      (skcipher_walk_virt W alg_xts req).2.nbytes < (skcipher_walk_virt W alg_xts req).2.total
  · rw [if_pos hc, if_pos hc]
    refine ⟨⟨fun _ => rfl, fun _ => Nat.pos_iff_ne_zero.mp hc.1⟩, fun sub hs => ?_,
      fun h => (by cases h)⟩
    refine ⟨Option.some.inj hs, rfl, ?_⟩
    simp only [World.emit, List.mem_append, List.mem_cons, true_or, or_true]
  · rw [if_neg hc, if_neg hc]
    exact ⟨⟨fun h => absurd rfl h, fun h => (by cases h)⟩, fun sub hs => (by cases hs),
      fun _ => ⟨rfl, rfl⟩⟩

theorem xts_encrypt_checked_eq (P : AesPrim) (W : Cursor) (ctx : crypto_aes_xts_ctx)
    (w : World) (req : skcipher_request) :
    xts_encrypt_checked P W ctx w req = some (xts_encrypt P W ctx w req) := by
  obtain ⟨h1, h2, _⟩ := xts_start_subreq W w req
  unfold xts_encrypt_checked xts_encrypt
  dsimp only
  by_cases hlt : req.cryptlen < AES_BLOCK_SIZE
  · rw [if_pos hlt, if_pos hlt]
  · rw [if_neg hlt, if_neg hlt]
    generalize xts_encrypt_loop P W ctx (6 + ctx.key1.key_length / 4) (req.cryptlen + 1)
      (xts_start W w req).2.1 (xts_start W w req).2.2.1 (xts_start W w req).1 1 = l
    by_cases hl : l.1 ≠ 0 ∨ (xts_start W w req).2.2.2.2 = 0
    · rw [if_pos hl, if_pos hl]
    · rw [if_neg hl, if_neg hl]
      have ht : (xts_start W w req).2.2.2.2 ≠ 0 := fun h => hl (Or.inr h)
      have hsome := h1.mp ht
      cases hs : xts_subreq W req with
      | none => rw [hs] at hsome; cases hsome
      | some sub => rw [(h2 sub hs).1]

theorem xts_decrypt_checked_eq (P : AesPrim) (W : Cursor) (ctx : crypto_aes_xts_ctx)
    (w : World) (req : skcipher_request) :
    xts_decrypt_checked P W ctx w req = some (xts_decrypt P W ctx w req) := by
  obtain ⟨h1, h2, _⟩ := xts_start_subreq W w req
  unfold xts_decrypt_checked xts_decrypt
  dsimp only
  by_cases hlt : req.cryptlen < AES_BLOCK_SIZE
  · rw [if_pos hlt, if_pos hlt]
  · rw [if_neg hlt, if_neg hlt]
    generalize xts_decrypt_loop P W ctx (6 + ctx.key1.key_length / 4) (req.cryptlen + 1)
      (xts_start W w req).2.1 (xts_start W w req).2.2.1 (xts_start W w req).1 1 = l
    by_cases hl : l.1 ≠ 0 ∨ (xts_start W w req).2.2.2.2 = 0
    · rw [if_pos hl, if_pos hl]
    · rw [if_neg hl, if_neg hl]
      have ht : (xts_start W w req).2.2.2.2 ≠ 0 := fun h => hl (Or.inr h)
      have hsome := h1.mp ht
      cases hs : xts_subreq W req with
      | none => rw [hs] at hsome; cases hsome
      | some sub => rw [(h2 sub hs).1]

/-- The initialised sub-request covers the whole blocks but the last, and the
request of the tail step the rest of the request. -/
theorem xts_subreq_val (W : Cursor) (req : skcipher_request) (hL : 16 ≤ req.cryptlen)
    (hU : req.cryptlen < 2 ^ 32) (sub : skcipher_request) (hs : xts_subreq W req = some sub) :
    sub = xts_lead_req req ∧
    xts_tail_req sub (req.cryptlen % 16) =
      { src := scatterwalk_ffwd req.src (16 * cts_lead req.cryptlen),
        dst := scatterwalk_ffwd req.dst (16 * cts_lead req.cryptlen),
        cryptlen := 16 + req.cryptlen % 16 } ∧
    16 * cts_lead req.cryptlen + (16 + req.cryptlen % 16) = req.cryptlen := by
  unfold xts_subreq at hs
  dsimp only at hs
  by_cases hc : req.cryptlen % AES_BLOCK_SIZE > 0 ∧
      (skcipher_walk_virt W alg_xts req).2.nbytes < (skcipher_walk_virt W alg_xts req).2.total
  · rw [if_pos hc] at hs
    have hr : req.cryptlen % 16 ≠ 0 := Nat.pos_iff_ne_zero.mp hc.1
    rw [xts_blocks_val req.cryptlen hL hr hU] at hs
    have hsub : sub = xts_lead_req req := (Option.some.inj hs).symm
    refine ⟨hsub, ?_, by unfold cts_lead; omega⟩
    rw [hsub]
    unfold xts_tail_req
    rw [ffwd_dst_eq]
    rfl
  · rw [if_neg hc] at hs
    cases hs

/-- The cursor the tail step creates and what the step does with it, for every
cursor environment. -/
theorem xts_crypt_tail_trace
    (f : List Nat → Nat → List Nat → Nat → List Nat × List Nat × List Event)
    (W : Cursor) (w : World) (sub : skcipher_request) (tail first : Nat) :
    (xts_crypt_tail f W w sub tail first).2.trace =
      w.trace ++ [Event.skcipher_walk_virt (xts_tail_req sub tail).cryptlen] ++
        (if (skcipher_walk_virt W alg_xts (xts_tail_req sub tail)).1 ≠ 0 then []
         else [Event.kernel_neon_begin] ++
           (f (w.view (skcipher_walk_virt W alg_xts (xts_tail_req sub tail)).2.src)
             (skcipher_walk_virt W alg_xts (xts_tail_req sub tail)).2.nbytes w.iv first).2.2 ++
           [Event.kernel_neon_end, Event.skcipher_walk_done 0]) := by
  unfold xts_crypt_tail xts_tail_req
  dsimp only
  generalize skcipher_walk_virt W alg_xts
    { src := scatterwalk_ffwd sub.src sub.cryptlen,
      dst := if sub.dst ≠ sub.src then scatterwalk_ffwd sub.dst sub.cryptlen
        else scatterwalk_ffwd sub.src sub.cryptlen,
      cryptlen := AES_BLOCK_SIZE + tail } = v
  by_cases hv : v.1 ≠ 0
  · rw [if_pos hv, if_pos hv]
    simp only [World.emit, List.append_nil]
  · rw [if_neg hv, if_neg hv]
    simp only [World.emit, World.write, World.view, List.append_assoc, List.cons_append,
      List.nil_append]

theorem run_monitor_append {σ : Type} (step : σ → Event → Option σ) (a b : List Event) :
    ∀ s, run_monitor step s (a ++ b) =
      match run_monitor step s a with
      | none => none
      | some s1 => run_monitor step s1 b := by
  induction a with
  | nil => intro s; rfl
  | cons e a ih =>
    intro s
    simp only [List.cons_append, run_monitor]
    cases step s e with
    | none => rfl
    | some s1 => exact ih s1

theorem run_monitor_append_some {σ : Type} (step : σ → Event → Option σ) (a b : List Event)
    (s s1 s2 : σ) (ha : run_monitor step s a = some s1) (hb : run_monitor step s1 b = some s2) :
    run_monitor step s (a ++ b) = some s2 := by
  rw [run_monitor_append, ha]
  exact hb

theorem run_monitor_replicate {σ : Type} (step : σ → Event → Option σ) (s : σ) (c : Event)
    (hc : step s c = some s) (n : Nat) : run_monitor step s (List.replicate n c) = some s := by
  induction n with
  | zero => rfl
  | succ n ih =>
    rw [List.replicate_succ]
    simp only [run_monitor, hc]
    exact ih

/-- One pass of a stream-mode loop over a run shorter than a block: the bytes
of the run go through the end of the scratch block, the primitive is handed
exactly those bytes, its output goes to the destination and the whole run is
committed. -/
theorem ctr_walk_small_pass
    (f : List Nat → Nat → List Nat → Nat → List Nat × List Nat × List Event) (W : Cursor)
    (buf : List Nat) (hbuf : buf.length = 16) (fuel : Nat) (w : World) (walk : skcipher_walk)
    (err : Int) (bc : Nat) (h0 : walk.nbytes ≠ 0) (h16 : walk.nbytes < 16)
    (hsrc : walk.nbytes ≤ (w.view walk.src).length)
    (hout : (f (load (w.view walk.src) 0 walk.nbytes) walk.nbytes w.iv bc).1.length =
      walk.nbytes) :
    ctr_walk_loop f W buf (fuel + 1) w walk err bc =
      ctr_walk_loop f W buf fuel
        { mem := (w.write walk.dst
            (f (load (w.view walk.src) 0 walk.nbytes) walk.nbytes w.iv bc).1).mem,
          iv := (f (load (w.view walk.src) 0 walk.nbytes) walk.nbytes w.iv bc).2.1,
          trace := w.trace ++ ([Event.kernel_neon_begin] ++
            (f (load (w.view walk.src) 0 walk.nbytes) walk.nbytes w.iv bc).2.2 ++
            [Event.kernel_neon_end]) ++ [Event.skcipher_walk_done 0] }
        (skcipher_walk_done W walk 0).2 (skcipher_walk_done W walk 0).1
        ((bc + walk.nbytes) % 2 ^ 32) := by
  have hll : (load (w.view walk.src) 0 walk.nbytes).length = walk.nbytes :=
    length_load _ _ _ (by omega)
  have hdrop : (store buf (16 - walk.nbytes) (load (w.view walk.src) 0 walk.nbytes)).drop
      (16 - walk.nbytes) = load (w.view walk.src) 0 walk.nbytes :=
    drop_store_end _ _ _ (by rw [hll, hbuf]; omega)
  have hld : load (store (store buf (16 - walk.nbytes) (load (w.view walk.src) 0 walk.nbytes))
      (16 - walk.nbytes) (f (load (w.view walk.src) 0 walk.nbytes) walk.nbytes w.iv bc).1)
      (16 - walk.nbytes) walk.nbytes =
      (f (load (w.view walk.src) 0 walk.nbytes) walk.nbytes w.iv bc).1 := by
    have := load_store_same
      (store buf (16 - walk.nbytes) (load (w.view walk.src) 0 walk.nbytes))
      (16 - walk.nbytes) (f (load (w.view walk.src) 0 walk.nbytes) walk.nbytes w.iv bc).1
      (by rw [length_store _ _ _ (by rw [hll, hbuf]; omega), hbuf]; omega)
    rw [hout] at this
    exact this
  rw [ctr_walk_loop]
  simp only [AES_BLOCK_SIZE]
  rw [if_neg h0, if_pos h16, hdrop, hld, Nat.sub_self]
  rfl

/-- Committing a run moves the cursor on by the committed bytes. -/
theorem walk_done_advance (W : Cursor) (walk : skcipher_walk) (res : Nat)
    (hn : walk.nbytes ≠ 0) :
    (skcipher_walk_done W walk res).2.src = scatterwalk_ffwd walk.src (walk.nbytes - res) ∧
    (skcipher_walk_done W walk res).2.dst = scatterwalk_ffwd walk.dst (walk.nbytes - res) ∧
    (skcipher_walk_done W walk res).2.total = walk.total - (walk.nbytes - res) := by
  unfold skcipher_walk_done
  rw [if_neg hn]
  dsimp only
  split
  · unfold skcipher_walk_next
    split
    · exact ⟨rfl, rfl, rfl⟩
    · split <;> exact ⟨rfl, rfl, rfl⟩
  · exact ⟨rfl, rfl, rfl⟩

theorem take_store (m : List Nat) (off : Nat) (v : List Nat) (h : off ≤ m.length) :
    (store m off v).take off = m.take off := by
  unfold store
  rw [List.append_assoc, List.take_append_of_le_length (by rw [List.length_take]; omega)]
  rw [List.take_take, Nat.min_self]

/-- A write of `n` bytes at a scatterlist pointer changes those bytes only. -/
theorem world_write_only (w : World) (dst : scatterlist) (v : List Nat)
    (h : dst.off + v.length ≤ (w.mem dst.id).length) :
    (∀ i, i ≠ dst.id → (w.write dst v).mem i = w.mem i) ∧
    load ((w.write dst v).mem dst.id) dst.off v.length = v ∧
    ((w.write dst v).mem dst.id).take dst.off = (w.mem dst.id).take dst.off ∧
    ((w.write dst v).mem dst.id).drop (dst.off + v.length) =
      (w.mem dst.id).drop (dst.off + v.length) ∧
    ((w.write dst v).mem dst.id).length = (w.mem dst.id).length := by
  refine ⟨fun i hi => ?_, ?_, ?_, ?_, ?_⟩
  · simp only [World.write, hi, if_false]
  · simp only [World.write, if_true]
    exact load_store_same _ _ _ (by omega)
  · simp only [World.write, if_true]
    exact take_store _ _ _ (by omega)
  · simp only [World.write, if_true]
    exact drop_store_after _ _ _ _ (by omega) (Nat.le_refl _)
  · exact world_write_length w dst v dst.id h

/-- A primitive that leaves the IV buffer as it is receives the initial IV
buffer in every call of a stream-mode loop. -/
theorem ctr_walk_loop_iv
    (f : List Nat → Nat → List Nat → Nat → List Nat × List Nat × List Event)
    (hiv : ∀ inp n iv c, (f inp n iv c).2.1 = iv) (W : Cursor) (buf : List Nat) :
    ∀ (fuel : Nat) (w : World) (walk : skcipher_walk) (err : Int) (bc : Nat) (iv0 : List Nat),
      w.iv = iv0 →
      ctr_walk_loop f W buf fuel w walk err bc =
        ctr_walk_loop (fun inp n _ c => f inp n iv0 c) W buf fuel w walk err bc ∧
      (ctr_walk_loop f W buf fuel w walk err bc).2.1.iv = iv0 := by
  intro fuel
  induction fuel with
  | zero => intro w walk err bc iv0 h; exact ⟨rfl, h⟩
  | succ fuel ih =>
    intro w walk err bc iv0 h
    subst h
    by_cases hb : walk.nbytes = 0
    · rw [ctr_walk_loop_idle f W buf _ w walk err bc hb,
        ctr_walk_loop_idle _ W buf _ w walk err bc hb]
      exact ⟨rfl, rfl⟩
    · rw [ctr_walk_loop, ctr_walk_loop]
      simp only [AES_BLOCK_SIZE]
      rw [if_neg hb, if_neg hb]
      by_cases ha : walk.nbytes < 16
      · rw [if_pos ha, if_pos ha]
        exact ih _ _ _ _ w.iv (hiv _ _ _ _)
      · rw [if_neg ha, if_neg ha]
        exact ih _ _ _ _ w.iv (hiv _ _ _ _)

/-- The running byte offset of a stream-mode loop is, at every call, the
number of bytes the earlier calls have processed. -/
theorem ctr_walk_loop_counter
    (f : List Nat → Nat → List Nat → Nat → List Nat × List Nat × List Event)
    (hf : ∀ inp n iv bc, run_monitor xctr_ctr_step bc (f inp n iv bc).2.2 = some (bc + n))
    (W : Cursor) (buf : List Nat) (L : Nat) (hL : L < 2 ^ 32)
    (fuel : Nat) (w : World) (walk : skcipher_walk) (err : Int)
    (ht : walk.total ≤ L) (hle : walk.nbytes ≤ walk.total) :
    ∃ tr seen, (ctr_walk_loop f W buf fuel w walk err 0).2.1.trace = w.trace ++ tr ∧
      run_monitor xctr_ctr_step 0 tr = some seen ∧ seen ≤ L := by
  have key : ∀ (w1 : World) (walk1 : skcipher_walk) (bc1 n : Nat) (ev : List Event) (res : Nat)
      (dst : scatterlist) (out iv : List Nat),
      (∃ tr seen, w1.trace = w.trace ++ tr ∧ run_monitor xctr_ctr_step 0 tr = some seen ∧
        bc1 = seen ∧ seen + walk1.total ≤ L ∧ walk1.nbytes ≤ walk1.total) →
      walk1.nbytes ≠ 0 → 0 < n → n ≤ walk1.nbytes → res = walk1.nbytes - n →
      run_monitor xctr_ctr_step bc1 ev = some (bc1 + n) →
      ∃ tr seen, (({ (w1.emit ([Event.kernel_neon_begin] ++ ev ++
            [Event.kernel_neon_end])).write dst out with iv := iv } : World).emit
          [Event.skcipher_walk_done res]).trace = w.trace ++ tr ∧
        run_monitor xctr_ctr_step 0 tr = some seen ∧
        (bc1 + n) % 2 ^ 32 = seen ∧
        seen + (skcipher_walk_done W walk1 res).2.total ≤ L ∧
        (skcipher_walk_done W walk1 res).2.nbytes ≤ (skcipher_walk_done W walk1 res).2.total := by
    intro w1 walk1 bc1 n ev res dst out iv ⟨tr, seen, t1, t2, t3, t4, t5⟩ hn0 hn hnle hres hev
    obtain ⟨d1, _⟩ := walk_done_total W walk1 res hn0
    have hbd := walk_done_bound W walk1 res hn0
    refine ⟨tr ++ (([Event.kernel_neon_begin] ++ ev ++ [Event.kernel_neon_end]) ++
      [Event.skcipher_walk_done res]), seen + n, ?_, ?_, ?_, ?_, hbd⟩
    · simp only [World.emit, World.write, t1, List.append_assoc]
    · apply run_monitor_append_some _ _ _ _ _ _ t2
      apply run_monitor_append_some _ _ _ _ (seen + n) (seen + n)
      · show run_monitor xctr_ctr_step seen (ev ++ [Event.kernel_neon_end]) = some (seen + n)
        rw [← t3]
        exact run_monitor_append_some _ _ _ _ _ _ hev rfl
      · rfl
    · rw [t3]
      exact Nat.mod_eq_of_lt (by omega)
    · rw [d1]; omega
  have hinv := ctr_walk_loop_inv f W buf
    (fun w1 walk1 _ bc1 => ∃ tr seen, w1.trace = w.trace ++ tr ∧
      run_monitor xctr_ctr_step 0 tr = some seen ∧ bc1 = seen ∧ seen + walk1.total ≤ L ∧
      walk1.nbytes ≤ walk1.total)
    (by
      intro w1 walk1 err1 bc1 hI hn0 h16
      exact key w1 walk1 bc1 walk1.nbytes _ _ _ _ _ hI hn0 (by omega) (Nat.le_refl _) rfl
        (hf _ _ _ _))
    (by
      intro w1 walk1 err1 bc1 n hI h16 hn
      have hle1 : walk1.nbytes ≤ walk1.total := by
        obtain ⟨_, _, _, _, _, _, h⟩ := hI
        exact h
      by_cases hlt : walk1.nbytes < walk1.total
      · rw [if_pos hlt] at hn
        exact key w1 walk1 bc1 n _ _ _ _ _ hI (by omega) (by omega) (by omega) rfl (hf _ _ _ _)
      · rw [if_neg hlt] at hn
        exact key w1 walk1 bc1 n _ _ _ _ _ hI (by omega) (by omega) (by omega) rfl (hf _ _ _ _))
    fuel w walk err 0 ⟨[], 0, by simp, rfl, rfl, by omega, hle⟩
  obtain ⟨_, tr, seen, t1, t2, _, t4, _⟩ := hinv
  exact ⟨tr, seen, t1, t2, by omega⟩

theorem xctr_counter_call (P : AesPrim) (inp rk : List Nat) (rounds n : Nat) (iv : List Nat)
    (bc : Nat) :
    run_monitor xctr_ctr_step bc (aes_xctr_encrypt P inp rk rounds n iv bc).2.2 =
      some (bc + n) := by
  simp only [aes_xctr_encrypt, run_monitor, xctr_ctr_step, if_true]
  exact run_monitor_replicate _ _ _ rfl _

theorem walk_virt_bound (W : Cursor) (alg : skcipher_alg) (req : skcipher_request) :
    (skcipher_walk_virt W alg req).2.total = req.cryptlen ∧
    (skcipher_walk_virt W alg req).2.nbytes ≤ (skcipher_walk_virt W alg req).2.total := by
  unfold skcipher_walk_virt
  dsimp only
  split
  · exact ⟨rfl, Nat.zero_le _⟩
  · exact ⟨walk_next_total W _, walk_next_bound W _⟩

/-- With a stride of at least 16 bytes the run a cursor maps is empty, or
holds at least 16 bytes or all that remains, and no more than remains. -/
theorem walk_next_run (W : Cursor) (walk : skcipher_walk) (hs : 16 ≤ walk.stride) :
    (skcipher_walk_next W walk).2.stride = walk.stride ∧
    ((skcipher_walk_next W walk).2.nbytes = 0 ∨
     (min 16 (skcipher_walk_next W walk).2.total ≤ (skcipher_walk_next W walk).2.nbytes ∧
      (skcipher_walk_next W walk).2.nbytes ≤ (skcipher_walk_next W walk).2.total)) := by
  unfold skcipher_walk_next
  split
  · exact ⟨rfl, Or.inl rfl⟩
  · split
    · exact ⟨rfl, Or.inl rfl⟩
    · refine ⟨rfl, Or.inr ⟨?_, ?_⟩⟩
      · show min 16 walk.total ≤ max (min walk.stride walk.total) _
        apply Nat.le_trans _ (Nat.le_max_left _ _)
        exact Nat.le_min.mpr ⟨Nat.le_trans (Nat.min_le_left _ _) hs, Nat.min_le_right _ _⟩
      · exact Nat.max_le.mpr ⟨Nat.min_le_right _ _, Nat.min_le_left _ _⟩

theorem walk_virt_run (W : Cursor) (alg : skcipher_alg) (req : skcipher_request)
    (hs : 16 ≤ alg.walksize) :
    16 ≤ (skcipher_walk_virt W alg req).2.stride ∧
    ((skcipher_walk_virt W alg req).2.nbytes = 0 ∨
     (min 16 (skcipher_walk_virt W alg req).2.total ≤ (skcipher_walk_virt W alg req).2.nbytes ∧
      (skcipher_walk_virt W alg req).2.nbytes ≤ (skcipher_walk_virt W alg req).2.total)) := by
  unfold skcipher_walk_virt
  dsimp only
  split
  · exact ⟨hs, Or.inl rfl⟩
  · obtain ⟨a, b⟩ := walk_next_run W
      { src := req.src, dst := req.dst, total := req.cryptlen, nbytes := 0,
        blocksize := alg.cra_blocksize, stride := alg.walksize } hs
    exact ⟨by rw [a]; exact hs, b⟩

theorem walk_done_run (W : Cursor) (walk : skcipher_walk) (res : Nat) (hs : 16 ≤ walk.stride)
    (hn : walk.nbytes ≠ 0) :
    16 ≤ (skcipher_walk_done W walk res).2.stride ∧
    ((skcipher_walk_done W walk res).2.nbytes = 0 ∨
     (min 16 (skcipher_walk_done W walk res).2.total ≤ (skcipher_walk_done W walk res).2.nbytes ∧
      (skcipher_walk_done W walk res).2.nbytes ≤ (skcipher_walk_done W walk res).2.total)) := by
  unfold skcipher_walk_done
  rw [if_neg hn]
  dsimp only
  split
  · obtain ⟨a, b⟩ := walk_next_run W
      { walk with
          src := scatterwalk_ffwd walk.src (walk.nbytes - res),
          dst := scatterwalk_ffwd walk.dst (walk.nbytes - res),
          total := walk.total - (walk.nbytes - res), nbytes := 0 } hs
    exact ⟨by rw [a]; exact hs, b⟩
  · exact ⟨hs, Or.inl rfl⟩

/-- One pass of a stream-mode loop over a run of at least one block that is
not the last: the run is cut down to whole blocks and the rest is handed back
to the cursor. -/
theorem ctr_walk_big_pass
    (f : List Nat → Nat → List Nat → Nat → List Nat × List Nat × List Event) (W : Cursor)
    (buf : List Nat) (fuel : Nat) (w : World) (walk : skcipher_walk)
    (err : Int) (bc : Nat) (h16 : 16 ≤ walk.nbytes) (hlt : walk.nbytes < walk.total) :
    ctr_walk_loop f W buf (fuel + 1) w walk err bc =
      ctr_walk_loop f W buf fuel
        { mem := (w.write walk.dst
            (f (w.view walk.src) (16 * (walk.nbytes / 16)) w.iv bc).1).mem,
          iv := (f (w.view walk.src) (16 * (walk.nbytes / 16)) w.iv bc).2.1,
          trace := w.trace ++ ([Event.kernel_neon_begin] ++
            (f (w.view walk.src) (16 * (walk.nbytes / 16)) w.iv bc).2.2 ++
            [Event.kernel_neon_end]) ++ [Event.skcipher_walk_done (walk.nbytes % 16)] }
        (skcipher_walk_done W walk (walk.nbytes % 16)).2
        (skcipher_walk_done W walk (walk.nbytes % 16)).1
        ((bc + 16 * (walk.nbytes / 16)) % 2 ^ 32) := by
  have h1 : walk.nbytes - walk.nbytes % 16 = 16 * (walk.nbytes / 16) := by omega
  have h2 : walk.nbytes - 16 * (walk.nbytes / 16) = walk.nbytes % 16 := by omega
  rw [ctr_walk_loop]
  simp only [AES_BLOCK_SIZE]
  rw [if_neg (by omega), if_neg (by omega), if_pos hlt, h1, h2]
  rfl

/-- In a stream-mode loop over a cursor with a stride of at least 16 bytes
only the last call is handed a byte count that is not a multiple of 16. -/
theorem ctr_walk_loop_align
    (f : List Nat → Nat → List Nat → Nat → List Nat × List Nat × List Event)
    (hf : ∀ inp n iv bc, 0 < n →
      run_monitor ctr_align_step false (f inp n iv bc).2.2 = some (decide (n % 16 ≠ 0)))
    (W : Cursor) (buf : List Nat) (fuel : Nat) (w : World) (walk : skcipher_walk) (err : Int)
    (bc : Nat) (hs : 16 ≤ walk.stride)
    (hrun : walk.nbytes = 0 ∨ (min 16 walk.total ≤ walk.nbytes ∧ walk.nbytes ≤ walk.total)) :
    ∃ tr short, (ctr_walk_loop f W buf fuel w walk err bc).2.1.trace = w.trace ++ tr ∧
      run_monitor ctr_align_step false tr = some short := by
  have key : ∀ (w1 : World) (walk1 : skcipher_walk) (n : Nat) (ev : List Event) (res : Nat)
      (dst : scatterlist) (out iv : List Nat),
      (∃ tr short, w1.trace = w.trace ++ tr ∧
        run_monitor ctr_align_step false tr = some short ∧ 16 ≤ walk1.stride ∧
        (walk1.nbytes = 0 ∨ (min 16 walk1.total ≤ walk1.nbytes ∧ walk1.nbytes ≤ walk1.total)) ∧
        (short = true → walk1.nbytes = 0)) →
      walk1.nbytes ≠ 0 → 0 < n → res = walk1.nbytes - n → res < 16 →
      (n % 16 ≠ 0 → walk1.total - (walk1.nbytes - res) = 0) →
      run_monitor ctr_align_step false ev = some (decide (n % 16 ≠ 0)) →
      ∃ tr short, (({ (w1.emit ([Event.kernel_neon_begin] ++ ev ++
            [Event.kernel_neon_end])).write dst out with iv := iv } : World).emit
          [Event.skcipher_walk_done res]).trace = w.trace ++ tr ∧
        run_monitor ctr_align_step false tr = some short ∧
        16 ≤ (skcipher_walk_done W walk1 res).2.stride ∧
        ((skcipher_walk_done W walk1 res).2.nbytes = 0 ∨
          (min 16 (skcipher_walk_done W walk1 res).2.total ≤
              (skcipher_walk_done W walk1 res).2.nbytes ∧
            (skcipher_walk_done W walk1 res).2.nbytes ≤
              (skcipher_walk_done W walk1 res).2.total)) ∧
        (short = true → (skcipher_walk_done W walk1 res).2.nbytes = 0) := by
    intro w1 walk1 n ev res dst out iv ⟨tr, short, t1, t2, t3, t4, t5⟩ hn0 hn hres hr16 hlast hev
    have hsh : short = false := by
      cases short with
      | false => rfl
      | true => exact absurd (t5 rfl) hn0
    subst hsh
    obtain ⟨r1, r2⟩ := walk_done_run W walk1 res t3 hn0
    obtain ⟨_, d2⟩ := walk_done_total W walk1 res hn0
    refine ⟨tr ++ (([Event.kernel_neon_begin] ++ ev ++ [Event.kernel_neon_end]) ++
      [Event.skcipher_walk_done res]), decide (n % 16 ≠ 0), ?_, ?_, r1, r2, fun h => ?_⟩
    · simp only [World.emit, World.write, t1, List.append_assoc]
    · apply run_monitor_append_some _ _ _ _ _ _ t2
      apply run_monitor_append_some _ _ _ _ (decide (n % 16 ≠ 0)) (decide (n % 16 ≠ 0))
      · show run_monitor ctr_align_step false (ev ++ [Event.kernel_neon_end]) = _
        exact run_monitor_append_some _ _ _ _ _ _ hev rfl
      · simp only [run_monitor, ctr_align_step, hr16, if_true]
    · exact d2 (hlast (of_decide_eq_true h))
  have hinv := ctr_walk_loop_inv f W buf
    (fun w1 walk1 _ _ => ∃ tr short, w1.trace = w.trace ++ tr ∧
      run_monitor ctr_align_step false tr = some short ∧ 16 ≤ walk1.stride ∧
      (walk1.nbytes = 0 ∨ (min 16 walk1.total ≤ walk1.nbytes ∧ walk1.nbytes ≤ walk1.total)) ∧
      (short = true → walk1.nbytes = 0))
    (by
      intro w1 walk1 err1 bc1 hI hn0 h16
      have hall : walk1.total - (walk1.nbytes - (walk1.nbytes - walk1.nbytes)) = 0 := by
        obtain ⟨_, _, _, _, _, h, _⟩ := hI
        rcases h with h | ⟨h1, h2⟩
        · exact absurd h hn0
        · rcases Nat.le_total 16 walk1.total with h3 | h3
          · rw [Nat.min_eq_left h3] at h1; omega
          · rw [Nat.min_eq_right h3] at h1; omega
      exact key w1 walk1 walk1.nbytes _ _ _ _ _ hI hn0 (by omega) rfl (by omega)
        (fun _ => hall) (hf _ _ _ _ (by omega)))
    (by
      intro w1 walk1 err1 bc1 n hI h16 hn
      have hle1 : walk1.nbytes ≤ walk1.total := by
        obtain ⟨_, _, _, _, _, h, _⟩ := hI
        rcases h with h | ⟨_, h2⟩
        · omega
        · exact h2
      by_cases hlt : walk1.nbytes < walk1.total
      · rw [if_pos hlt] at hn
        exact key w1 walk1 n _ _ _ _ _ hI (by omega) (by omega) rfl (by omega)
          (fun h => absurd (by omega) h) (hf _ _ _ _ (by omega))
      · rw [if_neg hlt] at hn
        exact key w1 walk1 n _ _ _ _ _ hI (by omega) (by omega) rfl (by omega)
          (fun _ => by omega) (hf _ _ _ _ (by omega)))
    fuel w walk err bc ⟨[], false, by simp, rfl, hs, hrun, fun h => by cases h⟩
  obtain ⟨_, tr, short, t1, t2, _⟩ := hinv
  exact ⟨tr, short, t1, t2⟩

theorem ctr_align_call (P : AesPrim) (inp rk : List Nat) (rounds n : Nat) (iv : List Nat)
    (hn : 0 < n) :
    run_monitor ctr_align_step false (aes_ctr_encrypt P inp rk rounds n iv).2.2 =
      some (decide (n % 16 ≠ 0)) := by
  simp only [aes_ctr_encrypt, run_monitor, ctr_align_step, hn, and_self, if_true]
  exact run_monitor_replicate _ _ _ rfl _

theorem xctr_align_call (P : AesPrim) (inp rk : List Nat) (rounds n : Nat) (iv : List Nat)
    (bc : Nat) (hn : 0 < n) :
    run_monitor ctr_align_step false (aes_xctr_encrypt P inp rk rounds n iv bc).2.2 =
      some (decide (n % 16 ≠ 0)) := by
  simp only [aes_xctr_encrypt, run_monitor, ctr_align_step, hn, and_self, if_true]
  exact run_monitor_replicate _ _ _ rfl _

theorem bracketed_refl (w : World) : Bracketed w w := ⟨[], by simp, rfl⟩

theorem bracketed_trans (w w1 w2 : World) (h1 : Bracketed w w1) (h2 : Bracketed w1 w2) :
    Bracketed w w2 := by
  obtain ⟨t1, a1, b1⟩ := h1
  obtain ⟨t2, a2, b2⟩ := h2
  exact ⟨t1 ++ t2, by rw [a2, a1, List.append_assoc], run_monitor_append_some _ _ _ _ _ _ b1 b2⟩

theorem bracketed_virt (w : World) (n : Nat) :
    Bracketed w (w.emit [Event.skcipher_walk_virt n]) := ⟨_, rfl, rfl⟩

theorem bracketed_abort_virt (w : World) (n : Nat) :
    Bracketed w (w.emit [Event.skcipher_walk_abort, Event.skcipher_walk_virt n]) :=
  ⟨_, rfl, rfl⟩

/-- The events of a call of a primitive between the accelerator brackets. -/
theorem neon_bracket (ev : List Event) (h : run_monitor neon_step true ev = some true) :
    run_monitor neon_step false ([Event.kernel_neon_begin] ++ ev ++ [Event.kernel_neon_end]) =
      some false := by
  show run_monitor neon_step true (ev ++ [Event.kernel_neon_end]) = some false
  exact run_monitor_append_some _ _ _ _ _ _ h rfl

/-- One call of a primitive between the accelerator brackets, the write of its
output, the update of the IV buffer and the commit of the run. -/
theorem bracketed_call_iv (w : World) (ev : List Event) (dst : scatterlist)
    (out iv : List Nat) (res : Nat) (h : run_monitor neon_step true ev = some true) :
    Bracketed w
      (({ (w.emit ([Event.kernel_neon_begin] ++ ev ++ [Event.kernel_neon_end])).write dst out
          with iv := iv } : World).emit [Event.skcipher_walk_done res]) := by
  refine ⟨([Event.kernel_neon_begin] ++ ev ++ [Event.kernel_neon_end]) ++
    [Event.skcipher_walk_done res], ?_, ?_⟩
  · simp only [World.emit, World.write, List.append_assoc]
  · exact run_monitor_append_some _ _ _ _ _ _ (neon_bracket ev h) rfl

/-- One call of a primitive between the accelerator brackets that leaves the
IV buffer alone, the write of its output and the commit of the run. -/
theorem bracketed_call (w : World) (ev : List Event) (dst : scatterlist)
    (out : List Nat) (res : Nat) (h : run_monitor neon_step true ev = some true) :
    Bracketed w
      (((w.emit ([Event.kernel_neon_begin] ++ ev ++ [Event.kernel_neon_end])).write dst out).emit
        [Event.skcipher_walk_done res]) := by
  refine ⟨([Event.kernel_neon_begin] ++ ev ++ [Event.kernel_neon_end]) ++
    [Event.skcipher_walk_done res], ?_, ?_⟩
  · simp only [World.emit, World.write, List.append_assoc]
  · exact run_monitor_append_some _ _ _ _ _ _ (neon_bracket ev h) rfl

/-- A call event followed by single-block runs is accepted while the context
is held. -/
theorem neon_held_call (c b : Event) (n : Nat) (hc : neon_step true c = some true)
    (hb : neon_step true b = some true) :
    run_monitor neon_step true (c :: List.replicate n b) = some true := by
  simp only [run_monitor, hc]
  exact run_monitor_replicate _ _ _ hb _

theorem held_ecb_encrypt (P : AesPrim) (inp rk : List Nat) (R b : Nat) :
    run_monitor neon_step true (aes_ecb_encrypt P inp rk R b).2 = some true :=
  neon_held_call _ _ _ rfl rfl

theorem held_ecb_decrypt (P : AesPrim) (inp rk : List Nat) (R b : Nat) :
    run_monitor neon_step true (aes_ecb_decrypt P inp rk R b).2 = some true :=
  neon_held_call _ _ _ rfl rfl

theorem held_cbc_encrypt (P : AesPrim) (inp rk : List Nat) (R b : Nat) (iv : List Nat) :
    run_monitor neon_step true (aes_cbc_encrypt P inp rk R b iv).2.2 = some true :=
  neon_held_call _ _ _ rfl rfl

theorem held_cbc_decrypt (P : AesPrim) (inp rk : List Nat) (R b : Nat) (iv : List Nat) :
    run_monitor neon_step true (aes_cbc_decrypt P inp rk R b iv).2.2 = some true :=
  neon_held_call _ _ _ rfl rfl

theorem held_cbc_cts_encrypt (P : AesPrim) (inp rk : List Nat) (R b : Nat) (iv : List Nat) :
    run_monitor neon_step true (aes_cbc_cts_encrypt P inp rk R b iv).2 = some true := rfl

theorem held_cbc_cts_decrypt (P : AesPrim) (inp rk : List Nat) (R b : Nat) (iv : List Nat) :
    run_monitor neon_step true (aes_cbc_cts_decrypt P inp rk R b iv).2 = some true := rfl

theorem held_essiv_encrypt (P : AesPrim) (inp rk : List Nat) (R b : Nat) (iv rk2 : List Nat) :
    run_monitor neon_step true (aes_essiv_cbc_encrypt P inp rk R b iv rk2).2.2 = some true := by
  simp only [aes_essiv_cbc_encrypt, run_monitor, neon_step, if_true]
  exact run_monitor_replicate _ _ _ rfl _

theorem held_essiv_decrypt (P : AesPrim) (inp rk : List Nat) (R b : Nat) (iv rk2 : List Nat) :
    run_monitor neon_step true (aes_essiv_cbc_decrypt P inp rk R b iv rk2).2.2 = some true := by
  simp only [aes_essiv_cbc_decrypt, run_monitor, neon_step, if_true]
  exact run_monitor_replicate _ _ _ rfl _

theorem held_ctr_encrypt (P : AesPrim) (inp rk : List Nat) (R b : Nat) (iv : List Nat) :
    run_monitor neon_step true (aes_ctr_encrypt P inp rk R b iv).2.2 = some true :=
  neon_held_call _ _ _ rfl rfl

theorem held_xctr_encrypt (P : AesPrim) (inp rk : List Nat) (R b : Nat) (iv : List Nat)
    (bc : Nat) :
    run_monitor neon_step true (aes_xctr_encrypt P inp rk R b iv bc).2.2 = some true :=
  neon_held_call _ _ _ rfl rfl

theorem held_xts_encrypt (P : AesPrim) (inp rk : List Nat) (R b : Nat) (rk2 iv : List Nat)
    (first : Nat) :
    run_monitor neon_step true (aes_xts_encrypt P inp rk R b rk2 iv first).2.2 = some true :=
  neon_held_call _ _ _ rfl rfl

theorem held_xts_decrypt (P : AesPrim) (inp rk : List Nat) (R b : Nat) (rk2 iv : List Nat)
    (first : Nat) :
    run_monitor neon_step true (aes_xts_decrypt P inp rk R b rk2 iv first).2.2 = some true := by
  simp only [aes_xts_decrypt, run_monitor, neon_step, if_true]
  exact run_monitor_append_some _ _ _ _ true true (run_monitor_replicate _ _ _ rfl _)
    (run_monitor_replicate _ _ _ rfl _)

theorem held_mac_update (P : AesPrim) (inp rk : List Nat) (R b : Nat) (dg : List Nat)
    (eb ea : Bool) :
    run_monitor neon_step true (aes_mac_update P inp rk R b dg eb ea).2.2 = some true :=
  neon_held_call _ _ _ rfl rfl

theorem block_walk_loop_bracketed
    (f : List Nat → Nat → List Nat → List Nat × List Nat × List Event) (W : Cursor)
    (hf : ∀ inp b iv, run_monitor neon_step true (f inp b iv).2.2 = some true)
    (fuel : Nat) (w : World) (walk : skcipher_walk) (err : Int) :
    Bracketed w (block_walk_loop f W fuel w walk err).2.1 :=
  block_walk_loop_inv f W (fun w1 _ _ => Bracketed w w1)
    (fun w1 _ _ h _ => bracketed_trans _ _ _ h (bracketed_call_iv w1 _ _ _ _ _ (hf _ _ _)))
    fuel w walk err (bracketed_refl w)

theorem ctr_walk_loop_bracketed
    (f : List Nat → Nat → List Nat → Nat → List Nat × List Nat × List Event) (W : Cursor)
    (buf : List Nat)
    (hf : ∀ inp n iv bc, run_monitor neon_step true (f inp n iv bc).2.2 = some true)
    (fuel : Nat) (w : World) (walk : skcipher_walk) (err : Int) (bc : Nat) :
    Bracketed w (ctr_walk_loop f W buf fuel w walk err bc).2.1 := by
  obtain ⟨_, h⟩ := ctr_walk_loop_inv f W buf (fun w1 _ _ _ => Bracketed w w1)
    (fun w1 _ _ _ h _ _ =>
      bracketed_trans _ _ _ h (bracketed_call_iv w1 _ _ _ _ _ (hf _ _ _ _)))
    (fun w1 _ _ _ _ h _ _ =>
      bracketed_trans _ _ _ h (bracketed_call_iv w1 _ _ _ _ _ (hf _ _ _ _)))
    fuel w walk err bc (bracketed_refl w)
  exact h

theorem xts_walk_loop_bracketed
    (f : List Nat → Nat → List Nat → Nat → List Nat × List Nat × List Event) (W : Cursor)
    (hf : ∀ inp n iv first, run_monitor neon_step true (f inp n iv first).2.2 = some true)
    (fuel : Nat) (w : World) (walk : skcipher_walk) (err : Int) (first : Nat) :
    Bracketed w (xts_walk_loop f W fuel w walk err first).2.1 :=
  xts_walk_loop_inv f W (fun w1 _ _ _ => Bracketed w w1)
    (fun w1 _ _ _ _ h _ _ =>
      bracketed_trans _ _ _ h (bracketed_call_iv w1 _ _ _ _ _ (hf _ _ _ _)))
    fuel w walk err first (bracketed_refl w)

theorem ecb_encrypt_bracketed (P : AesPrim) (W : Cursor) (tfm : crypto_skcipher) (w : World)
    (req : skcipher_request) : Bracketed w (ecb_encrypt P W tfm w req).2 := by
  unfold ecb_encrypt
  dsimp only
  rw [ecb_encrypt_loop_eq]
  exact bracketed_trans _ _ _ (bracketed_virt w _)
    (block_walk_loop_bracketed _ W (fun inp b _ => held_ecb_encrypt P inp _ _ b) _ _ _ _)

theorem ecb_decrypt_bracketed (P : AesPrim) (W : Cursor) (tfm : crypto_skcipher) (w : World)
    (req : skcipher_request) : Bracketed w (ecb_decrypt P W tfm w req).2 := by
  unfold ecb_decrypt
  dsimp only
  rw [ecb_decrypt_loop_eq]
  exact bracketed_trans _ _ _ (bracketed_virt w _)
    (block_walk_loop_bracketed _ W (fun inp b _ => held_ecb_decrypt P inp _ _ b) _ _ _ _)

theorem cbc_encrypt_walk_bracketed (P : AesPrim) (W : Cursor) (ctx : crypto_aes_ctx)
    (w : World) (walk : skcipher_walk) :
    Bracketed w (cbc_encrypt_walk P W ctx w walk).2.1 := by
  unfold cbc_encrypt_walk
  rw [cbc_encrypt_walk_loop_eq]
  exact block_walk_loop_bracketed _ W (fun inp b iv => held_cbc_encrypt P inp _ _ b iv) _ _ _ _

theorem cbc_decrypt_walk_bracketed (P : AesPrim) (W : Cursor) (ctx : crypto_aes_ctx)
    (w : World) (walk : skcipher_walk) :
    Bracketed w (cbc_decrypt_walk P W ctx w walk).2.1 := by
  unfold cbc_decrypt_walk
  rw [cbc_decrypt_walk_loop_eq]
  exact block_walk_loop_bracketed _ W (fun inp b iv => held_cbc_decrypt P inp _ _ b iv) _ _ _ _

theorem cbc_encrypt_bracketed (P : AesPrim) (W : Cursor) (tfm : crypto_skcipher) (w : World)
    (req : skcipher_request) : Bracketed w (cbc_encrypt P W tfm w req).2 := by
  unfold cbc_encrypt
  dsimp only
  split
  · exact bracketed_virt w _
  · exact bracketed_trans _ _ _ (bracketed_virt w _) (cbc_encrypt_walk_bracketed P W tfm.ctx _ _)

theorem cbc_decrypt_bracketed (P : AesPrim) (W : Cursor) (tfm : crypto_skcipher) (w : World)
    (req : skcipher_request) : Bracketed w (cbc_decrypt P W tfm w req).2 := by
  unfold cbc_decrypt
  dsimp only
  split
  · exact bracketed_virt w _
  · exact bracketed_trans _ _ _ (bracketed_virt w _) (cbc_decrypt_walk_bracketed P W tfm.ctx _ _)

theorem cts_cbc_encrypt_tail_bracketed (P : AesPrim) (W : Cursor) (tfm : crypto_skcipher)
    (w : World) (req : skcipher_request) (src dst : scatterlist) (cb : Int) :
    Bracketed w (cts_cbc_encrypt_tail P W tfm w req src dst cb).2 := by
  unfold cts_cbc_encrypt_tail
  dsimp only
  split
  · exact bracketed_virt w _
  · exact bracketed_trans _ _ _ (bracketed_virt w _)
      (bracketed_call _ _ _ _ 0 (held_cbc_cts_encrypt P _ _ _ _ _))

theorem cts_cbc_decrypt_tail_bracketed (P : AesPrim) (W : Cursor) (tfm : crypto_skcipher)
    (w : World) (req : skcipher_request) (src dst : scatterlist) (cb : Int) :
    Bracketed w (cts_cbc_decrypt_tail P W tfm w req src dst cb).2 := by
  unfold cts_cbc_decrypt_tail
  dsimp only
  split
  · exact bracketed_virt w _
  · exact bracketed_trans _ _ _ (bracketed_virt w _)
      (bracketed_call _ _ _ _ 0 (held_cbc_cts_decrypt P _ _ _ _ _))

theorem cts_cbc_encrypt_bracketed (P : AesPrim) (W : Cursor) (tfm : crypto_skcipher)
    (w : World) (req : skcipher_request) : Bracketed w (cts_cbc_encrypt P W tfm w req).2 := by
  unfold cts_cbc_encrypt
  dsimp only
  by_cases h1 : req.cryptlen ≤ AES_BLOCK_SIZE ∧ req.cryptlen < AES_BLOCK_SIZE
  · rw [if_pos h1]
    exact bracketed_refl w
  · rw [if_neg h1]
    generalize (if req.cryptlen ≤ AES_BLOCK_SIZE then (1 : Int)
      else to_int (DIV_ROUND_UP req.cryptlen AES_BLOCK_SIZE + 2 ^ 32 - 2)) = cb
    by_cases h2 : cb > 0
    · rw [if_pos h2]
      generalize (skcipher_walk_virt W tfm.alg
        { src := req.src, dst := req.dst, cryptlen := to_u32 (cb * ↑AES_BLOCK_SIZE) }) = v
      have hr : Bracketed w
          (if v.1 ≠ 0 then
              (v.1, w.emit [Event.skcipher_walk_virt (to_u32 (cb * ↑AES_BLOCK_SIZE))], v.2)
            else cbc_encrypt_walk P W tfm.ctx
              (w.emit [Event.skcipher_walk_virt (to_u32 (cb * ↑AES_BLOCK_SIZE))]) v.2).2.1 := by
        split
        · exact bracketed_virt w _
        · exact bracketed_trans _ _ _ (bracketed_virt w _)
            (cbc_encrypt_walk_bracketed P W tfm.ctx _ _)
      generalize (if v.1 ≠ 0 then
              (v.1, w.emit [Event.skcipher_walk_virt (to_u32 (cb * ↑AES_BLOCK_SIZE))], v.2)
            else cbc_encrypt_walk P W tfm.ctx
              (w.emit [Event.skcipher_walk_virt (to_u32 (cb * ↑AES_BLOCK_SIZE))]) v.2) = r
        at hr
      split
      · exact hr
      · split
        · exact hr
        · exact bracketed_trans _ _ _ hr (cts_cbc_encrypt_tail_bracketed P W tfm _ req _ _ _)
    · rw [if_neg h2]
      exact cts_cbc_encrypt_tail_bracketed P W tfm w req _ _ _

theorem cts_cbc_decrypt_bracketed (P : AesPrim) (W : Cursor) (tfm : crypto_skcipher)
    (w : World) (req : skcipher_request) : Bracketed w (cts_cbc_decrypt P W tfm w req).2 := by
  unfold cts_cbc_decrypt
  dsimp only
  by_cases h1 : req.cryptlen ≤ AES_BLOCK_SIZE ∧ req.cryptlen < AES_BLOCK_SIZE
  · rw [if_pos h1]
    exact bracketed_refl w
  · rw [if_neg h1]
    generalize (if req.cryptlen ≤ AES_BLOCK_SIZE then (1 : Int)
      else to_int (DIV_ROUND_UP req.cryptlen AES_BLOCK_SIZE + 2 ^ 32 - 2)) = cb
    by_cases h2 : cb > 0
    · rw [if_pos h2]
      generalize (skcipher_walk_virt W tfm.alg
        { src := req.src, dst := req.dst, cryptlen := to_u32 (cb * ↑AES_BLOCK_SIZE) }) = v
      have hr : Bracketed w
          (if v.1 ≠ 0 then
              (v.1, w.emit [Event.skcipher_walk_virt (to_u32 (cb * ↑AES_BLOCK_SIZE))], v.2)
            else cbc_decrypt_walk P W tfm.ctx
              (w.emit [Event.skcipher_walk_virt (to_u32 (cb * ↑AES_BLOCK_SIZE))]) v.2).2.1 := by
        split
        · exact bracketed_virt w _
        · exact bracketed_trans _ _ _ (bracketed_virt w _)
            (cbc_decrypt_walk_bracketed P W tfm.ctx _ _)
      generalize (if v.1 ≠ 0 then
              (v.1, w.emit [Event.skcipher_walk_virt (to_u32 (cb * ↑AES_BLOCK_SIZE))], v.2)
            else cbc_decrypt_walk P W tfm.ctx
              (w.emit [Event.skcipher_walk_virt (to_u32 (cb * ↑AES_BLOCK_SIZE))]) v.2) = r
        at hr
      split
      · exact hr
      · split
        · exact hr
        · exact bracketed_trans _ _ _ hr (cts_cbc_decrypt_tail_bracketed P W tfm _ req _ _ _)
    · rw [if_neg h2]
      exact cts_cbc_decrypt_tail_bracketed P W tfm w req _ _ _

theorem essiv_cbc_encrypt_bracketed (P : AesPrim) (W : Cursor) (ctx : crypto_aes_essiv_cbc_ctx)
    (w : World) (req : skcipher_request) : Bracketed w (essiv_cbc_encrypt P W ctx w req).2 := by
  unfold essiv_cbc_encrypt
  dsimp only
  generalize (skcipher_walk_virt W alg_essiv_cbc req) = v
  by_cases hb : v.2.nbytes / AES_BLOCK_SIZE ≠ 0
  · rw [if_pos hb]
    dsimp only
    have h1 := bracketed_trans _ _ _ (bracketed_virt w req.cryptlen)
      (bracketed_call_iv (w.emit [Event.skcipher_walk_virt req.cryptlen])
        (aes_essiv_cbc_encrypt P ((w.emit [Event.skcipher_walk_virt req.cryptlen]).view v.2.src)
          ctx.key1.key_enc (6 + ctx.key1.key_length / 4) (v.2.nbytes / AES_BLOCK_SIZE)
          (w.emit [Event.skcipher_walk_virt req.cryptlen]).iv ctx.key2.key_enc).2.2 v.2.dst
        (aes_essiv_cbc_encrypt P ((w.emit [Event.skcipher_walk_virt req.cryptlen]).view v.2.src)
          ctx.key1.key_enc (6 + ctx.key1.key_length / 4) (v.2.nbytes / AES_BLOCK_SIZE)
          (w.emit [Event.skcipher_walk_virt req.cryptlen]).iv ctx.key2.key_enc).1
        (aes_essiv_cbc_encrypt P ((w.emit [Event.skcipher_walk_virt req.cryptlen]).view v.2.src)
          ctx.key1.key_enc (6 + ctx.key1.key_length / 4) (v.2.nbytes / AES_BLOCK_SIZE)
          (w.emit [Event.skcipher_walk_virt req.cryptlen]).iv ctx.key2.key_enc).2.1
        (v.2.nbytes % AES_BLOCK_SIZE) (held_essiv_encrypt P _ _ _ _ _ _))
    split
    · exact h1
    · exact bracketed_trans _ _ _ h1 (cbc_encrypt_walk_bracketed P W ctx.key1 _ _)
  · rw [if_neg hb]
    dsimp only
    split
    · exact bracketed_virt w _
    · exact bracketed_trans _ _ _ (bracketed_virt w _)
        (cbc_encrypt_walk_bracketed P W ctx.key1 _ _)

theorem essiv_cbc_decrypt_bracketed (P : AesPrim) (W : Cursor) (ctx : crypto_aes_essiv_cbc_ctx)
    (w : World) (req : skcipher_request) : Bracketed w (essiv_cbc_decrypt P W ctx w req).2 := by
  unfold essiv_cbc_decrypt
  dsimp only
  generalize (skcipher_walk_virt W alg_essiv_cbc req) = v
  by_cases hb : v.2.nbytes / AES_BLOCK_SIZE ≠ 0
  · rw [if_pos hb]
    dsimp only
    have h1 := bracketed_trans _ _ _ (bracketed_virt w req.cryptlen)
      (bracketed_call_iv (w.emit [Event.skcipher_walk_virt req.cryptlen])
        (aes_essiv_cbc_decrypt P ((w.emit [Event.skcipher_walk_virt req.cryptlen]).view v.2.src)
          ctx.key1.key_dec (6 + ctx.key1.key_length / 4) (v.2.nbytes / AES_BLOCK_SIZE)
          (w.emit [Event.skcipher_walk_virt req.cryptlen]).iv ctx.key2.key_enc).2.2 v.2.dst
        (aes_essiv_cbc_decrypt P ((w.emit [Event.skcipher_walk_virt req.cryptlen]).view v.2.src)
          ctx.key1.key_dec (6 + ctx.key1.key_length / 4) (v.2.nbytes / AES_BLOCK_SIZE)
          (w.emit [Event.skcipher_walk_virt req.cryptlen]).iv ctx.key2.key_enc).1
        (aes_essiv_cbc_decrypt P ((w.emit [Event.skcipher_walk_virt req.cryptlen]).view v.2.src)
          ctx.key1.key_dec (6 + ctx.key1.key_length / 4) (v.2.nbytes / AES_BLOCK_SIZE)
          (w.emit [Event.skcipher_walk_virt req.cryptlen]).iv ctx.key2.key_enc).2.1
        (v.2.nbytes % AES_BLOCK_SIZE) (held_essiv_decrypt P _ _ _ _ _ _))
    split
    · exact h1
    · exact bracketed_trans _ _ _ h1 (cbc_decrypt_walk_bracketed P W ctx.key1 _ _)
  · rw [if_neg hb]
    dsimp only
    split
    · exact bracketed_virt w _
    · exact bracketed_trans _ _ _ (bracketed_virt w _)
        (cbc_decrypt_walk_bracketed P W ctx.key1 _ _)

theorem ctr_encrypt_bracketed (P : AesPrim) (W : Cursor) (tfm : crypto_skcipher)
    (buf : List Nat) (w : World) (req : skcipher_request) :
    Bracketed w (ctr_encrypt P W tfm buf w req).2 := by
  unfold ctr_encrypt
  dsimp only
  rw [ctr_encrypt_loop_eq _ _ _ _ _ _ _ _ _ 0]
  exact bracketed_trans _ _ _ (bracketed_virt w _)
    (ctr_walk_loop_bracketed _ W buf (fun inp n iv _ => held_ctr_encrypt P inp _ _ n iv)
      _ _ _ _ _)

theorem xctr_encrypt_bracketed (P : AesPrim) (W : Cursor) (tfm : crypto_skcipher)
    (buf : List Nat) (w : World) (req : skcipher_request) :
    Bracketed w (xctr_encrypt P W tfm buf w req).2 := by
  unfold xctr_encrypt
  dsimp only
  rw [xctr_encrypt_loop_eq]
  exact bracketed_trans _ _ _ (bracketed_virt w _)
    (ctr_walk_loop_bracketed _ W buf (fun inp n iv bc => held_xctr_encrypt P inp _ _ n iv bc)
      _ _ _ _ _)

theorem xts_start_bracketed (W : Cursor) (w : World) (req : skcipher_request) :
    Bracketed w (xts_start W w req).2.1 := by
  unfold xts_start
  dsimp only
  split
  · exact bracketed_trans _ _ _ (bracketed_virt w _) (bracketed_abort_virt _ _)
  · exact bracketed_virt w _

theorem xts_crypt_tail_bracketed
    (f : List Nat → Nat → List Nat → Nat → List Nat × List Nat × List Event)
    (hf : ∀ inp n iv first, run_monitor neon_step true (f inp n iv first).2.2 = some true)
    (W : Cursor) (w : World) (req : skcipher_request) (tail first : Nat) :
    Bracketed w (xts_crypt_tail f W w req tail first).2 := by
  unfold xts_crypt_tail
  dsimp only
  generalize (skcipher_walk_virt W alg_xts
    { src := scatterwalk_ffwd req.src req.cryptlen,
      dst := if req.dst ≠ req.src then scatterwalk_ffwd req.dst req.cryptlen
        else scatterwalk_ffwd req.src req.cryptlen,
      cryptlen := AES_BLOCK_SIZE + tail }) = v
  by_cases hv : v.1 ≠ 0
  · rw [if_pos hv]
    exact bracketed_virt w _
  · rw [if_neg hv]
    exact bracketed_trans _ _ _ (bracketed_virt w _)
      (bracketed_call_iv _ _ _ _ _ 0 (hf _ _ _ _))

theorem xts_crypt_bracketed
    (f : List Nat → Nat → List Nat → Nat → List Nat × List Nat × List Event)
    (hf : ∀ inp n iv first, run_monitor neon_step true (f inp n iv first).2.2 = some true)
    (W : Cursor) (w : World) (req : skcipher_request) :
    Bracketed w (xts_crypt f W w req).2 := by
  unfold xts_crypt
  dsimp only
  split
  · exact bracketed_refl w
  · have hl := bracketed_trans _ _ _ (xts_start_bracketed W w req)
      (xts_walk_loop_bracketed f W hf (req.cryptlen + 1) (xts_start W w req).2.1
        (xts_start W w req).2.2.1 (xts_start W w req).1 1)
    split
    · exact hl
    · exact bracketed_trans _ _ _ hl (xts_crypt_tail_bracketed f hf W _ _ _ _)

theorem xts_encrypt_bracketed (P : AesPrim) (W : Cursor) (ctx : crypto_aes_xts_ctx)
    (w : World) (req : skcipher_request) : Bracketed w (xts_encrypt P W ctx w req).2 := by
  rw [xts_encrypt_eq]
  exact xts_crypt_bracketed _ (fun inp n iv first => held_xts_encrypt P inp _ _ n _ iv first)
    W w req

theorem xts_decrypt_bracketed (P : AesPrim) (W : Cursor) (ctx : crypto_aes_xts_ctx)
    (w : World) (req : skcipher_request) : Bracketed w (xts_decrypt P W ctx w req).2 := by
  rw [xts_decrypt_eq]
  exact xts_crypt_bracketed _ (fun inp n iv first => held_xts_decrypt P inp _ _ n _ iv first)
    W w req

/-- Every call of aes_mac_update by mac_do_update lies between its own pair of
accelerator brackets. -/
theorem mac_do_update_loop_bracketed (P : AesPrim) (ctx : crypto_aes_ctx) (eb : Bool) :
    ∀ (fuel : Nat) (inp : List Nat) (blocks : Nat) (dg : List Nat),
      run_monitor neon_step false (mac_do_update_loop P ctx eb fuel inp blocks dg).2 =
        some false := by
  have hcall : ∀ (inp : List Nat) (blocks : Nat) (dg : List Nat),
      run_monitor neon_step false ([Event.kernel_neon_begin] ++
        (aes_mac_update P inp ctx.key_enc (6 + ctx.key_length / 4) blocks dg eb (!eb)).2.2 ++
        [Event.kernel_neon_end]) = some false :=
    fun inp blocks dg => neon_bracket _ (held_mac_update P _ _ _ _ _ _ _)
  intro fuel
  induction fuel with
  | zero =>
    intro inp blocks dg
    rw [mac_do_update_loop]
    exact hcall inp blocks dg
  | succ fuel ih =>
    intro inp blocks dg
    rw [mac_do_update_loop]
    dsimp only
    split
    · exact hcall inp blocks dg
    · exact run_monitor_append_some _ _ _ _ _ _ (hcall inp blocks dg) (ih _ _ _)

theorem mac_entry_bracketed (P : AesPrim) (tctx : mac_tfm_ctx) (ctx : mac_desc_ctx)
    (p : List Nat) (len : Nat) :
    run_monitor neon_step false (mac_update P tctx ctx p len).2.2 = some false ∧
    run_monitor neon_step false (cbcmac_finup P tctx ctx p len).2.2.2 = some false ∧
    run_monitor neon_step false (cmac_finup P tctx ctx p len).2.2.2 = some false := by
  refine ⟨?_, ?_, ?_⟩
  · exact mac_do_update_loop_bracketed P tctx.key false _ _ _ _
  · unfold cbcmac_finup
    split
    · exact mac_do_update_loop_bracketed P tctx.key true _ _ _ _
    · rfl
  · exact mac_do_update_loop_bracketed P tctx.key false _ _ _ _

theorem mac_setkey_bracketed (P : AesPrim) (ctx : mac_tfm_ctx) (in_key : List Nat)
    (key_len : Nat) :
    run_monitor neon_step false (cmac_setkey P ctx in_key key_len).2.2 = some false ∧
    run_monitor neon_step false (xcbc_setkey P ctx in_key key_len).2.2 = some false := by
  constructor
  · unfold cmac_setkey
    dsimp only
    split
    · rfl
    · exact neon_bracket _ (held_ecb_encrypt P _ _ _ _)
  · unfold xcbc_setkey
    dsimp only
    split
    · rfl
    · show run_monitor neon_step false ([Event.kernel_neon_begin] ++ _ ++ _ ++
        [Event.kernel_neon_end]) = some false
      rw [List.append_assoc [Event.kernel_neon_begin]]
      exact neon_bracket _ (run_monitor_append_some _ _ _ _ true true
        (held_ecb_encrypt P _ _ _ _) (held_ecb_encrypt P _ _ _ _))

theorem mac_calls_append (a b : List Event) :
    mac_calls (a ++ b) = mac_calls a + mac_calls b := by
  induction a with
  | nil => simp [mac_calls]
  | cons e a ih =>
    cases e <;> simp only [List.cons_append, List.append_eq, mac_calls, ih]
    omega

theorem mac_calls_replicate (n : Nat) :
    mac_calls (List.replicate n Event.encrypt_block) = 0 := by
  induction n with
  | zero => rfl
  | succ n ih => simp only [List.replicate_succ, mac_calls, ih]

theorem mac_calls_call (rk : List Nat) (rounds blocks n : Nat) (eb ea : Bool) :
    mac_calls ([Event.kernel_neon_begin] ++
      (Event.aes_mac_update rk rounds blocks eb ea :: List.replicate n Event.encrypt_block) ++
      [Event.kernel_neon_end]) = 1 := by
  rw [mac_calls_append, mac_calls_append]
  show 0 + (mac_calls (List.replicate n Event.encrypt_block) + 1) + 0 = 1
  rw [mac_calls_replicate]

theorem macSite_call (rk : List Nat) (rounds blocks n : Nat) (eb : Bool)
    (h : eb = true → blocks = 0) :
    ∀ e ∈ ([Event.kernel_neon_begin] ++
      (Event.aes_mac_update rk rounds blocks eb (!eb) ::
        List.replicate n Event.encrypt_block) ++ [Event.kernel_neon_end]), e.macSite := by
  intro e he
  simp only [List.mem_append, List.mem_cons, List.mem_singleton, List.not_mem_nil,
    or_false] at he
  rcases he with (he | he | he) | he
  · subst he; exact True.intro
  · subst he; exact ⟨h, rfl⟩
  · rw [List.eq_of_mem_replicate he]; exact True.intro
  · subst he; exact True.intro

theorem mac_chain_blocks (P : AesPrim) (rk : List Nat) (rounds : Nat) (k b c : Nat)
    (inp dg : List Nat) :
    mac_chain P rk rounds true k b inp dg = mac_chain P rk rounds true k c inp dg := by
  induction k generalizing b c inp dg with
  | zero => rfl
  | succ k ih =>
    simp only [mac_chain]
    rw [if_neg (by simp), if_neg (by simp), ih (b - 1) (c - 1)]

theorem mac_chain_count (P : AesPrim) (rk : List Nat) (rounds : Nat) (k b : Nat)
    (inp dg : List Nat) :
    (mac_chain P rk rounds true k b inp dg).2 = k := by
  induction k generalizing b inp dg with
  | zero => rfl
  | succ k ih =>
    simp only [mac_chain]
    rw [if_neg (by simp)]
    simp only [ih]

theorem mac_chain_add (P : AesPrim) (rk : List Nat) (rounds : Nat) (k m b : Nat)
    (inp dg : List Nat) :
    (mac_chain P rk rounds true (k + m) b inp dg).1 =
      (mac_chain P rk rounds true m b (inp.drop (k * AES_BLOCK_SIZE))
        (mac_chain P rk rounds true k b inp dg).1).1 := by
  induction k generalizing b inp dg with
  | zero => simp [mac_chain]
  | succ k ih =>
    have e : k + 1 + m = (k + m) + 1 := by omega
    rw [e]
    simp only [mac_chain]
    rw [if_neg (by simp), if_neg (by simp)]
    simp only []
    rw [ih (b - 1), List.drop_drop, mac_chain_blocks P rk rounds m (b - 1) b]
    have e2 : AES_BLOCK_SIZE + k * AES_BLOCK_SIZE = (k + 1) * AES_BLOCK_SIZE := by
      simp only [AES_BLOCK_SIZE]; omega
    rw [e2]

theorem mac_chain_prim (P Q : AesPrim) (h : Q.encrypt = P.encrypt) (rk : List Nat)
    (rounds : Nat) (ea : Bool) (k b : Nat) (inp dg : List Nat) :
    mac_chain Q rk rounds ea k b inp dg = mac_chain P rk rounds ea k b inp dg := by
  induction k generalizing b inp dg with
  | zero => rfl
  | succ k ih => simp only [mac_chain, h, ih]

theorem mac_progress_no_yield (P : AesPrim) (b : Nat) : mac_progress (no_yield P) b = b := by
  unfold mac_progress no_yield
  by_cases h : b = 0
  · rw [if_pos h, h]
  · rw [if_neg h]; simp only []; omega

/-- The loop of mac_do_update at a call site that does not encrypt first: the
digest is the chain over all the blocks whatever the yield points, with one
encryption per block and at most one call per block. -/
theorem mac_do_update_loop_single (P : AesPrim) (ctx : crypto_aes_ctx) (blocks : Nat) :
    ∀ (fuel : Nat) (inp dg : List Nat), blocks ≤ fuel →
    (mac_do_update_loop P ctx false fuel inp blocks dg).1 =
      (mac_chain P ctx.key_enc (6 + ctx.key_length / 4) true blocks blocks inp dg).1 ∧
    encryptions (mac_do_update_loop P ctx false fuel inp blocks dg).2 = blocks ∧
    1 ≤ mac_calls (mac_do_update_loop P ctx false fuel inp blocks dg).2 ∧
    mac_calls (mac_do_update_loop P ctx false fuel inp blocks dg).2 ≤ max 1 blocks ∧
    (∀ e ∈ (mac_do_update_loop P ctx false fuel inp blocks dg).2, e.macSite) := by
  induction blocks using Nat.strong_induction_on with
  | _ blocks ih =>
    intro fuel inp dg hf
    rcases Nat.eq_zero_or_pos blocks with hk | hk
    · subst hk
      have e : mac_do_update_loop P ctx false fuel inp 0 dg =
          (dg, [Event.kernel_neon_begin] ++
            (Event.aes_mac_update ctx.key_enc (6 + ctx.key_length / 4) 0 false (!false) ::
              List.replicate 0 Event.encrypt_block) ++ [Event.kernel_neon_end]) := by
        cases fuel <;>
          simp [mac_do_update_loop, aes_mac_update, mac_progress_zero, mac_chain]
      rw [e]
      refine ⟨rfl, encryptions_call _ _ (by simp), ?_, ?_, macSite_call _ _ _ _ _ (by simp)⟩
      · rw [mac_calls_call]
      · rw [mac_calls_call]; decide
    · obtain ⟨k1, k2⟩ := mac_progress_pos P blocks hk
      have hc := mac_chain_count P ctx.key_enc (6 + ctx.key_length / 4)
        (mac_progress P blocks) blocks inp dg
      cases fuel with
      | zero => omega
      | succ fuel =>
        rw [mac_do_update_loop]
        simp only [aes_mac_update, Bool.not_false, Bool.false_eq_true, if_false, hc,
          Nat.zero_add]
        by_cases hr : blocks - mac_progress P blocks = 0
        · have hkb : mac_progress P blocks = blocks := by omega
          rw [if_pos hr, hkb]
          refine ⟨rfl, encryptions_call _ _ (by simp), ?_, ?_, ?_⟩
          · rw [mac_calls_call]
          · rw [mac_calls_call]; omega
          · exact macSite_call _ _ _ _ false (by simp)
        · rw [if_neg hr]
          have hsub : blocks - (blocks - mac_progress P blocks) = mac_progress P blocks := by
            omega
          have hlt : blocks - mac_progress P blocks < blocks := by omega
          obtain ⟨h1, h2, h3, h4, h5⟩ := ih (blocks - mac_progress P blocks) hlt fuel
            (inp.drop ((blocks - (blocks - mac_progress P blocks)) * AES_BLOCK_SIZE))
            (mac_chain P ctx.key_enc (6 + ctx.key_length / 4) true (mac_progress P blocks)
              blocks inp dg).1 (by omega)
          refine ⟨?_, ?_, ?_, ?_, ?_⟩
          · simp only []
            rw [h1, hsub]
            have hb : blocks = mac_progress P blocks + (blocks - mac_progress P blocks) := by
              omega
            conv => rhs; rw [hb, mac_chain_add]
            rw [mac_chain_blocks P _ _ (blocks - mac_progress P blocks)
              (blocks - mac_progress P blocks)
              (mac_progress P blocks + (blocks - mac_progress P blocks)),
              mac_chain_blocks P _ _ (mac_progress P blocks) blocks
              (mac_progress P blocks + (blocks - mac_progress P blocks))]
          · simp only []
            rw [encryptions_append, h2, encryptions_call _ _ (by simp)]
            omega
          · simp only []
            rw [mac_calls_append, mac_calls_call]; omega
          · simp only []
            rw [mac_calls_append, mac_calls_call]; omega
          · simp only []
            intro e he
            rcases List.mem_append.mp he with he | he
            · exact macSite_call _ _ _ _ false (by simp) e he
            · exact h5 e he

/-- The loop of mac_do_update at the call site that encrypts first: no block
is handed over, a single call encrypts the digest once. -/
theorem mac_do_update_loop_final (P : AesPrim) (ctx : crypto_aes_ctx) (fuel : Nat)
    (inp dg : List Nat) :
    mac_do_update_loop P ctx true fuel inp 0 dg =
      (P.encrypt ctx.key_enc (6 + ctx.key_length / 4) dg,
       [Event.kernel_neon_begin] ++
        (Event.aes_mac_update ctx.key_enc (6 + ctx.key_length / 4) 0 true (!true) ::
          List.replicate 1 Event.encrypt_block) ++ [Event.kernel_neon_end]) := by
  cases fuel <;> simp [mac_do_update_loop, aes_mac_update, mac_progress_zero, mac_chain]

/-- The digest of mac_do_update does not depend on the yield points when the
digest is encrypted first only with no block handed over. -/
theorem mac_do_update_digest (P : AesPrim) (ctx : crypto_aes_ctx) (inp : List Nat)
    (blocks : Nat) (dg : List Nat) (eb : Bool) (hsite : eb = true → blocks = 0) :
    (mac_do_update P ctx inp blocks dg eb).1 =
      (aes_mac_update (no_yield P) inp ctx.key_enc (6 + ctx.key_length / 4) blocks dg eb
        (!eb)).2.1 := by
  cases eb with
  | true =>
    have hb := hsite rfl
    subst hb
    unfold mac_do_update
    rw [mac_do_update_loop_final]
    simp [aes_mac_update, mac_progress_zero, mac_chain, no_yield]
  | false =>
    unfold mac_do_update
    rw [(mac_do_update_loop_single P ctx blocks blocks inp dg (Nat.le_refl _)).1]
    simp only [aes_mac_update, Bool.not_false, Bool.false_eq_true, if_false,
      mac_progress_no_yield]
    rw [mac_chain_prim P (no_yield P) rfl]
/-- Why the call sites matter: handed two blocks with the encrypt-before flag
set, a primitive that yields after the first block encrypts the digest again
on the resumed call, and the digest differs from that of a single call. -/
theorem mac_do_update_resume_differs :
    (mac_do_update (yield_each toyPrim) toyMacKeyed.key toyMsg 2 (List.replicate 16 0) true).1 ≠
      (mac_do_update (no_yield toyPrim) toyMacKeyed.key toyMsg 2 (List.replicate 16 0) true).1 ∧
    mac_calls
      (mac_do_update (yield_each toyPrim) toyMacKeyed.key toyMsg 2 (List.replicate 16 0)
        true).2 = 2 ∧
    encryptions
      (mac_do_update (yield_each toyPrim) toyMacKeyed.key toyMsg 2 (List.replicate 16 0)
        true).2 = 3 ∧
    encryptions
      (mac_do_update (no_yield toyPrim) toyMacKeyed.key toyMsg 2 (List.replicate 16 0)
        true).2 = 2 := by
  decide

theorem mac_update_site (P : AesPrim) (tctx : mac_tfm_ctx) (ctx : mac_desc_ctx)
    (p : List Nat) (len : Nat) :
    ∀ e ∈ (mac_update P tctx ctx p len).2.2, e.macSite :=
  (mac_do_update_loop_single P tctx.key (len / AES_BLOCK_SIZE) (len / AES_BLOCK_SIZE) p ctx.dg
    (Nat.le_refl _)).2.2.2.2

theorem cbcmac_finup_site (P : AesPrim) (tctx : mac_tfm_ctx) (ctx : mac_desc_ctx)
    (src : List Nat) (len : Nat) :
    ∀ e ∈ (cbcmac_finup P tctx ctx src len).2.2.2, e.macSite := by
  unfold cbcmac_finup
  by_cases h : len ≠ 0
  · rw [if_pos h]
    simp only []
    unfold mac_do_update
    rw [mac_do_update_loop_final]
    exact macSite_call _ _ _ _ true (fun _ => rfl)
  · rw [if_neg h]
    intro e he
    cases he

theorem cmac_finup_site (P : AesPrim) (tctx : mac_tfm_ctx) (ctx : mac_desc_ctx)
    (src : List Nat) (len : Nat) :
    ∀ e ∈ (cmac_finup P tctx ctx src len).2.2.2, e.macSite :=
  (mac_do_update_loop_single P tctx.key 1 1 _ _ (Nat.le_refl _)).2.2.2.2
theorem crypto_xor_drop (d s : List Nat) (n : Nat) :
    (crypto_xor d s n).drop n = d.drop n := by
  induction d generalizing s n with
  | nil => cases s <;> cases n <;> rfl
  | cons a d ih =>
    cases s with
    | nil => cases n <;> rfl
    | cons b s =>
      cases n with
      | zero => rfl
      | succ n =>
        show (crypto_xor d s n).drop n = d.drop n
        exact ih s n

theorem xor_byte_inside (a : List Nat) (i v : Nat) (h : i < a.length) :
    xor_byte a i v = some (a.set i (a.getD i 0 ^^^ v)) := by
  unfold xor_byte
  rw [if_pos h]

theorem xor_byte_outside (a : List Nat) (i v : Nat) (h : a.length ≤ i) :
    xor_byte a i v = none := by
  unfold xor_byte
  rw [if_neg (by omega)]
/-- Dropping the record of the scratch accesses gives the loop of
ctr_encrypt, for every contents and size of the scratch block. -/
theorem ctr_encrypt_loop_scratch_fst (P : AesPrim) (W : Cursor) (ctx : crypto_aes_ctx)
    (rounds : Nat) (buf : List Nat) :
    ∀ (fuel : Nat) (w : World) (walk : skcipher_walk) (err : Int),
      (ctr_encrypt_loop_scratch P W ctx rounds buf fuel w walk err).1 =
        ctr_encrypt_loop P W ctx rounds buf fuel w walk err := by
  intro fuel
  induction fuel with
  | zero => intro w walk err; rfl
  | succ fuel ih =>
    intro w walk err
    rw [ctr_encrypt_loop_scratch, ctr_encrypt_loop]
    simp only []
    split
    · rfl
    · split
      · rw [ih]
      · rw [ih]

/-- Dropping the record of the scratch accesses gives the loop of
xctr_encrypt, for every contents and size of the scratch block. -/
theorem xctr_encrypt_loop_scratch_fst (P : AesPrim) (W : Cursor) (ctx : crypto_aes_ctx)
    (rounds : Nat) (buf : List Nat) :
    ∀ (fuel : Nat) (w : World) (walk : skcipher_walk) (err : Int) (bc : Nat),
      (xctr_encrypt_loop_scratch P W ctx rounds buf fuel w walk err bc).1 =
        xctr_encrypt_loop P W ctx rounds buf fuel w walk err bc := by
  intro fuel
  induction fuel with
  | zero => intro w walk err bc; rfl
  | succ fuel ih =>
    intro w walk err bc
    rw [xctr_encrypt_loop_scratch, xctr_encrypt_loop]
    simp only []
    split
    · rfl
    · split
      · rw [ih]
      · rw [ih]

theorem ctr_encrypt_scratch_fst (P : AesPrim) (W : Cursor) (tfm : crypto_skcipher)
    (buf : List Nat) (w : World) (req : skcipher_request) :
    (ctr_encrypt_scratch P W tfm buf w req).1 = ctr_encrypt P W tfm buf w req := by
  unfold ctr_encrypt_scratch ctr_encrypt
  simp only [ctr_encrypt_loop_scratch_fst]

theorem xctr_encrypt_scratch_fst (P : AesPrim) (W : Cursor) (tfm : crypto_skcipher)
    (buf : List Nat) (w : World) (req : skcipher_request) :
    (xctr_encrypt_scratch P W tfm buf w req).1 = xctr_encrypt P W tfm buf w req := by
  unfold xctr_encrypt_scratch xctr_encrypt
  simp only [xctr_encrypt_loop_scratch_fst]

/-- A store that ends where the buffer ends keeps the bytes before it and
nothing after it. -/
theorem store_end (buf v : List Nat) (off : Nat) (h : off + v.length = buf.length) :
    store buf off v = buf.take off ++ v := by
  unfold store
  rw [List.drop_of_length_le (by omega), List.append_nil]

/-- The scratch block of a short pass: the block after the memcpy into it and
after the primitive has run in place, and what is read back from it. -/
theorem scratch_blocks (buf src out : List Nat) (n : Nat) (hbuf : buf.length = 16)
    (hn : n ≤ 16) (hs : src.length = n) (ho : out.length = n) :
    store buf (16 - n) src = buf.take (16 - n) ++ src ∧
    (store buf (16 - n) src).drop (16 - n) = src ∧
    store (store buf (16 - n) src) (16 - n) out = buf.take (16 - n) ++ out ∧
    load (store (store buf (16 - n) src) (16 - n) out) (16 - n) n = out := by
  have h1 : store buf (16 - n) src = buf.take (16 - n) ++ src :=
    store_end _ _ _ (by rw [hs, hbuf]; omega)
  have hl : (store buf (16 - n) src).length = 16 := by
    rw [length_store _ _ _ (by rw [hs, hbuf]; omega), hbuf]
  refine ⟨h1, drop_store_end _ _ _ (by rw [hs, hbuf]; omega), ?_, ?_⟩
  · rw [store_end _ _ _ (by rw [ho, hl]; omega), take_store _ _ _ (by rw [hbuf]; omega)]
  · have := load_store_same (store buf (16 - n) src) (16 - n) out (by rw [hl]; omega)
    rw [ho] at this
    exact this
/-! ## Claims -/

/-- C1: cmac_gf128_mul_by_x writes to the be128 object at `y` the double of the
128-bit big-endian value of the object at `x`, that is 2*X mod 2^128 xored
with 0x87 exactly when the top bit of X was set; `y` may be `x` itself. The
buffer keeps its length, stays a byte buffer, and no byte outside the 16 bytes
at `y` changes. -/
theorem cmac_gf128_mul_by_x_double (mem : List Nat) (y x : Nat)
    (hb : IsBytes mem) (hx : x + 16 ≤ mem.length) (hy : y + 16 ≤ mem.length) :
    be128_val (cmac_gf128_mul_by_x mem y x) y = spec_double (be128_val mem x) ∧
    (cmac_gf128_mul_by_x mem y x).length = mem.length ∧
    IsBytes (cmac_gf128_mul_by_x mem y x) ∧
    (∀ o n, o + n ≤ y ∨ y + 16 ≤ o →
      load (cmac_gf128_mul_by_x mem y x) o n = load mem o n) :=
  mul_by_x_spec mem y x hb hx hy

/-- The NIST SP 800-38B AES-128 subkey vectors: doubling in place yields K1,
and doubling K1 into the following be128 slot yields K2. -/
theorem cmac_gf128_mul_by_x_double_witness :
    IsBytes [0x7d, 0xf7, 0x6b, 0x0c, 0x1a, 0xb8, 0x99, 0xb3,
             0x3e, 0x42, 0xf0, 0x47, 0xb9, 0x1b, 0x54, 0x6f] ∧
    be128_val (cmac_gf128_mul_by_x
        [0x7d, 0xf7, 0x6b, 0x0c, 0x1a, 0xb8, 0x99, 0xb3,
         0x3e, 0x42, 0xf0, 0x47, 0xb9, 0x1b, 0x54, 0x6f] 0 0) 0 =
      spec_double 0x7df76b0c1ab899b33e42f047b91b546f ∧
    cmac_gf128_mul_by_x
        [0x7d, 0xf7, 0x6b, 0x0c, 0x1a, 0xb8, 0x99, 0xb3,
         0x3e, 0x42, 0xf0, 0x47, 0xb9, 0x1b, 0x54, 0x6f] 0 0 =
      [0xfb, 0xee, 0xd6, 0x18, 0x35, 0x71, 0x33, 0x66,
       0x7c, 0x85, 0xe0, 0x8f, 0x72, 0x36, 0xa8, 0xde] ∧
    cmac_gf128_mul_by_x
        [0xfb, 0xee, 0xd6, 0x18, 0x35, 0x71, 0x33, 0x66,
         0x7c, 0x85, 0xe0, 0x8f, 0x72, 0x36, 0xa8, 0xde] 0 0 =
      [0xf7, 0xdd, 0xac, 0x30, 0x6a, 0xe2, 0x66, 0xcc,
       0xf9, 0x0b, 0xc1, 0x1e, 0xe4, 0x6d, 0x51, 0x3b] :=
  ⟨by decide,
   (cmac_gf128_mul_by_x_double _ 0 0 (by decide) (by decide) (by decide)).1,
   by decide, by decide⟩

/-- C2: when key expansion succeeds, cmac_setkey stores the key schedule of
the raw key, K1 = double(E_k(16 zero bytes)) in consts[0..16) and
K2 = double(K1) in consts[16..32), with one block encryption; when key
expansion fails, that error is returned, the context is unchanged and nothing
is computed. -/
theorem cmac_setkey_subkeys (P : AesPrim) (hP : BlockPreserving P) (hB : BytePreserving P)
    (ctx : mac_tfm_ctx) (in_key : List Nat) (key_len : Nat)
    (hc : ctx.consts.length = 32) (hcb : IsBytes ctx.consts) :
    ((aes_expandkey P ctx.key in_key key_len).1 = 0 →
      (cmac_setkey P ctx in_key key_len).1 = 0 ∧
      (cmac_setkey P ctx in_key key_len).2.1.key =
        { key_enc := P.expand_enc (in_key.take key_len),
          key_dec := P.expand_dec (in_key.take key_len),
          key_length := key_len } ∧
      be128_val (cmac_setkey P ctx in_key key_len).2.1.consts 0 =
        spec_double (be128_val
          (P.encrypt (P.expand_enc (in_key.take key_len)) (6 + key_len / 4)
            (List.replicate 16 0)) 0) ∧
      be128_val (cmac_setkey P ctx in_key key_len).2.1.consts 16 =
        spec_double (be128_val (cmac_setkey P ctx in_key key_len).2.1.consts 0) ∧
      (cmac_setkey P ctx in_key key_len).2.1.consts.length = 32 ∧
      IsBytes (cmac_setkey P ctx in_key key_len).2.1.consts ∧
      encryptions (cmac_setkey P ctx in_key key_len).2.2 = 1) ∧
    ((aes_expandkey P ctx.key in_key key_len).1 ≠ 0 →
      cmac_setkey P ctx in_key key_len =
        ((aes_expandkey P ctx.key in_key key_len).1, ctx, [])) := by
  constructor
  · intro h
    have hk := aes_expandkey_ok P ctx.key in_key key_len h
    have hz : load (List.replicate AES_BLOCK_SIZE 0) 0 AES_BLOCK_SIZE =
        List.replicate 16 0 := by decide
    have hL : (P.encrypt (P.expand_enc (in_key.take key_len)) (6 + key_len / 4)
        (List.replicate 16 0)).length = 16 := (hP _ _ _ (by decide)).1
    have hLb : IsBytes (P.encrypt (P.expand_enc (in_key.take key_len)) (6 + key_len / 4)
        (List.replicate 16 0)) := (hB _ _ _ (by decide)).1
    simp only [cmac_setkey, cbcmac_setkey, h, ne_eq, not_true_eq_false, if_false, hk,
      ecb_encrypt_one, hz]
    generalize hLdef : P.encrypt (P.expand_enc (in_key.take key_len)) (6 + key_len / 4)
      (List.replicate 16 0) = L at hL hLb
    have hs1 : (store ctx.consts 0 L).length = 32 := by
      rw [length_store _ _ _ (by omega)]; exact hc
    have hs1b : IsBytes (store ctx.consts 0 L) := isBytes_store _ _ _ hcb hLb
    obtain ⟨a1, a2, a3, _⟩ := mul_by_x_spec (store ctx.consts 0 L) 0 0 hs1b (by omega) (by omega)
    obtain ⟨b1, b2, b3, b4⟩ := mul_by_x_spec (cmac_gf128_mul_by_x (store ctx.consts 0 L) 0 0)
      16 0 a3 (by omega) (by omega)
    have hv0 : be128_val (cmac_gf128_mul_by_x
        (cmac_gf128_mul_by_x (store ctx.consts 0 L) 0 0) 16 0) 0 =
        be128_val (cmac_gf128_mul_by_x (store ctx.consts 0 L) 0 0) 0 :=
      be128_val_congr _ _ 0 (fun o n ho => b4 o n (Or.inl (by omega)))
    refine ⟨trivial, trivial, ?_, ?_, ?_, b3, ?_⟩
    · show be128_val (cmac_gf128_mul_by_x
        (cmac_gf128_mul_by_x (store ctx.consts 0 L) 0 0) AES_BLOCK_SIZE 0) 0 = _
      rw [show AES_BLOCK_SIZE = 16 from rfl, hv0, a1, be128_val_store _ _ 0 hL (Nat.zero_le _)]
    · show be128_val (cmac_gf128_mul_by_x
        (cmac_gf128_mul_by_x (store ctx.consts 0 L) 0 0) AES_BLOCK_SIZE 0) 16 =
        spec_double (be128_val (cmac_gf128_mul_by_x
        (cmac_gf128_mul_by_x (store ctx.consts 0 L) 0 0) AES_BLOCK_SIZE 0) 0)
      rw [show AES_BLOCK_SIZE = 16 from rfl, hv0, b1]
    · show (cmac_gf128_mul_by_x
        (cmac_gf128_mul_by_x (store ctx.consts 0 L) 0 0) AES_BLOCK_SIZE 0).length = 32
      rw [show AES_BLOCK_SIZE = 16 from rfl, b2, a2, hs1]
    · exact encryptions_call _ 1 (by simp)
  · intro h
    have hk := aes_expandkey_fail P ctx.key in_key key_len h
    simp [cmac_setkey, cbcmac_setkey, hk, EINVAL]

/-- Instance of C2 on the small primitive: a 16-byte key is accepted and the
second stored subkey is the double of the first. -/
theorem cmac_setkey_subkeys_witness :
    toyMacCtx.consts.length = 32 ∧ IsBytes toyMacCtx.consts ∧
    (aes_expandkey toyPrim toyMacCtx.key toyKey 16).1 = 0 ∧
    (cmac_setkey toyPrim toyMacCtx toyKey 16).1 = 0 ∧
    be128_val (cmac_setkey toyPrim toyMacCtx toyKey 16).2.1.consts 16 =
      spec_double (be128_val (cmac_setkey toyPrim toyMacCtx toyKey 16).2.1.consts 0) :=
  ⟨by decide, by decide, by decide,
   ((cmac_setkey_subkeys toyPrim toyPrim_blockPreserving toyPrim_bytePreserving toyMacCtx
      toyKey 16 (by decide) (by decide)).1 (by decide)).1,
   ((cmac_setkey_subkeys toyPrim toyPrim_blockPreserving toyPrim_bytePreserving toyMacCtx
      toyKey 16 (by decide) (by decide)).1 (by decide)).2.2.2.1⟩

/-- C3: cmac_finup on a 16-byte running digest and a final segment of `len`
bytes, len ≤ 16, returns 0 and outputs E(d xor src xor S1) for a full final
block, S1 being consts[0..16), and E(d xor pad(src) xor S2) otherwise, S2 being
consts[16..32) and pad(src) the segment followed by one 0x80 byte and zeros;
exactly one block encryption is performed. -/
theorem cmac_finup_final_block (P : AesPrim) (hP : BlockPreserving P) (tctx : mac_tfm_ctx)
    (ctx : mac_desc_ctx) (src : List Nat) (len : Nat)
    (hd : ctx.dg.length = 16) (hl : len ≤ 16) (hs : len ≤ src.length)
    (hc : tctx.consts.length = 32) :
    (cmac_finup P tctx ctx src len).1 = 0 ∧
    (len = 16 → (cmac_finup P tctx ctx src len).2.2.1 =
      P.encrypt tctx.key.key_enc (6 + tctx.key.key_length / 4)
        (xor_block (xor_block ctx.dg (src.take 16)) (load tctx.consts 0 16))) ∧
    (len ≠ 16 → (cmac_finup P tctx ctx src len).2.2.1 =
      P.encrypt tctx.key.key_enc (6 + tctx.key.key_length / 4)
        (xor_block (xor_block ctx.dg (cmac_pad src len)) (load tctx.consts 16 16))) ∧
    (cmac_finup P tctx ctx src len).2.1.dg = (cmac_finup P tctx ctx src len).2.2.1 ∧
    encryptions (cmac_finup P tctx ctx src len).2.2.2 = 1 := by
  have hxl : (crypto_xor ctx.dg src len).length = AES_BLOCK_SIZE := by
    rw [length_crypto_xor]; exact hd
  by_cases h16 : len = 16
  · subst h16
    have hone := mac_do_update_one P hP tctx.key tctx.consts (crypto_xor ctx.dg src 16) hxl
      (by simp only [AES_BLOCK_SIZE]; omega)
    have hx : crypto_xor ctx.dg src 16 = xor_block ctx.dg (src.take 16) := by
      have := crypto_xor_zero_extend ctx.dg src 16 16 hd (Nat.le_refl _) hs
      simpa using this
    have hout : ((mac_do_update P tctx.key tctx.consts 1 (crypto_xor ctx.dg src 16)
        false).1).length = AES_BLOCK_SIZE := by
      rw [hone.1]; apply (hP _ _ _ _).1
      rw [length_xor_block, hxl, length_load _ _ _ (by simp only [AES_BLOCK_SIZE]; omega)]
      simp
    simp only [cmac_finup, AES_BLOCK_SIZE, ne_eq, not_true_eq_false, if_false]
    refine ⟨trivial, fun _ => ?_, fun h => h.elim, ?_, hone.2⟩
    · rw [load_zero_eq _ _ hout, hone.1, hx]
    · rw [load_zero_eq _ _ hout]
  · have hlt : len < 16 := by omega
    have hpad := crypto_xor_pad ctx.dg src len 16 hd hlt hs
    have hdl : ((crypto_xor ctx.dg src len).set len
        ((crypto_xor ctx.dg src len).getD len 0 ^^^ 0x80)).length = AES_BLOCK_SIZE := by
      rw [List.length_set]; exact hxl
    have hone := mac_do_update_one P hP tctx.key (tctx.consts.drop AES_BLOCK_SIZE) _ hdl
      (by simp only [List.length_drop, AES_BLOCK_SIZE]; omega)
    have hld : load (tctx.consts.drop AES_BLOCK_SIZE) 0 AES_BLOCK_SIZE =
        load tctx.consts 16 16 := by
      simp [load, AES_BLOCK_SIZE]
    have hout : ((mac_do_update P tctx.key (tctx.consts.drop AES_BLOCK_SIZE) 1
        ((crypto_xor ctx.dg src len).set len
          ((crypto_xor ctx.dg src len).getD len 0 ^^^ 0x80)) false).1).length =
        AES_BLOCK_SIZE := by
      rw [hone.1]; apply (hP _ _ _ _).1
      rw [length_xor_block, hdl, hld, length_load _ _ _ (by omega)]
      simp [AES_BLOCK_SIZE]
    simp only [cmac_finup, show (len ≠ AES_BLOCK_SIZE) = True from by
      simp [AES_BLOCK_SIZE, h16], if_true]
    refine ⟨trivial, fun h => absurd h h16, fun _ => ?_, ?_, hone.2⟩
    · rw [load_zero_eq _ _ hout, hone.1, hld, hpad]; rfl
    · rw [load_zero_eq _ _ hout]

/-- Instance of C3 on the small primitive: a final segment of 5 bytes. -/
theorem cmac_finup_final_block_witness :
    (5 : Nat) ≤ 16 ∧ 5 ≤ toyMsg.length ∧ toyMacKeyed.consts.length = 32 ∧
    encryptions (cmac_finup toyPrim toyMacKeyed (mac_init { dg := [] }).2 toyMsg 5).2.2.2 = 1 :=
  ⟨by decide, by decide, by decide,
   (cmac_finup_final_block toyPrim toyPrim_blockPreserving toyMacKeyed
      (mac_init { dg := [] }).2 toyMsg 5 (by decide) (by decide) (by decide)
      (by decide)).2.2.2.2⟩

/-- C4: when key expansion succeeds, xcbc_setkey returns 0, stores
E_k(16 bytes of 0x02) in consts[0..16) and E_k(16 bytes of 0x03) in
consts[16..32), both under the schedule of the original key, and leaves as
cipher key the schedule of the 16-byte replacement key E_k(16 bytes of 0x01),
so later chaining runs with 10 rounds; when key expansion fails, that error is
returned, the context is unchanged and nothing is computed. -/
theorem xcbc_setkey_subkeys (P : AesPrim) (hP : BlockPreserving P) (ctx : mac_tfm_ctx)
    (in_key : List Nat) (key_len : Nat) (hc : ctx.consts.length = 32) :
    ((aes_expandkey P ctx.key in_key key_len).1 = 0 →
      (xcbc_setkey P ctx in_key key_len).1 = 0 ∧
      load (xcbc_setkey P ctx in_key key_len).2.1.consts 0 16 =
        P.encrypt (P.expand_enc (in_key.take key_len)) (6 + key_len / 4)
          (List.replicate 16 0x2) ∧
      load (xcbc_setkey P ctx in_key key_len).2.1.consts 16 16 =
        P.encrypt (P.expand_enc (in_key.take key_len)) (6 + key_len / 4)
          (List.replicate 16 0x3) ∧
      (xcbc_setkey P ctx in_key key_len).2.1.key =
        { key_enc := P.expand_enc
            (P.encrypt (P.expand_enc (in_key.take key_len)) (6 + key_len / 4)
              (List.replicate 16 0x1)),
          key_dec := P.expand_dec
            (P.encrypt (P.expand_enc (in_key.take key_len)) (6 + key_len / 4)
              (List.replicate 16 0x1)),
          key_length := 16 } ∧
      6 + (xcbc_setkey P ctx in_key key_len).2.1.key.key_length / 4 = 10 ∧
      (xcbc_setkey P ctx in_key key_len).2.1.consts.length = 32) ∧
    ((aes_expandkey P ctx.key in_key key_len).1 ≠ 0 →
      xcbc_setkey P ctx in_key key_len =
        ((aes_expandkey P ctx.key in_key key_len).1, ctx, [])) := by
  constructor
  · intro h
    have hk := aes_expandkey_ok P ctx.key in_key key_len h
    have h1 : load (xcbc_ks.drop 0) 0 AES_BLOCK_SIZE = List.replicate 16 0x1 := by decide
    have h2 : load (xcbc_ks.drop AES_BLOCK_SIZE) 0 AES_BLOCK_SIZE = List.replicate 16 0x2 := by
      decide
    have h3 : load (xcbc_ks.drop AES_BLOCK_SIZE) AES_BLOCK_SIZE AES_BLOCK_SIZE =
        List.replicate 16 0x3 := by decide
    have l1 : (P.encrypt (P.expand_enc (in_key.take key_len)) (6 + key_len / 4)
        (List.replicate 16 0x1)).length = 16 :=
      (hP (P.expand_enc (in_key.take key_len)) (6 + key_len / 4)
        (List.replicate 16 0x1) (by decide)).1
    have l2 : (P.encrypt (P.expand_enc (in_key.take key_len)) (6 + key_len / 4)
        (List.replicate 16 0x2)).length = 16 :=
      (hP (P.expand_enc (in_key.take key_len)) (6 + key_len / 4)
        (List.replicate 16 0x2) (by decide)).1
    have l3 : (P.encrypt (P.expand_enc (in_key.take key_len)) (6 + key_len / 4)
        (List.replicate 16 0x3)).length = 16 :=
      (hP (P.expand_enc (in_key.take key_len)) (6 + key_len / 4)
        (List.replicate 16 0x3) (by decide)).1
    simp only [xcbc_setkey, cbcmac_setkey, h, ne_eq, not_true_eq_false, if_false, hk,
      ecb_encrypt_one, ecb_encrypt_two, h1, h2, h3]
    generalize P.encrypt (P.expand_enc (in_key.take key_len)) (6 + key_len / 4)
      (List.replicate 16 0x1) = K at l1
    generalize P.encrypt (P.expand_enc (in_key.take key_len)) (6 + key_len / 4)
      (List.replicate 16 0x2) = K2 at l2
    generalize P.encrypt (P.expand_enc (in_key.take key_len)) (6 + key_len / 4)
      (List.replicate 16 0x3) = K3 at l3
    have hok : (aes_expandkey P
        { key_enc := P.expand_enc (in_key.take key_len),
          key_dec := P.expand_dec (in_key.take key_len), key_length := key_len }
        K AES_BLOCK_SIZE).1 = 0 := by
      rw [aes_expandkey_ok_iff]; exact Or.inl rfl
    have hk2 := aes_expandkey_ok P _ K AES_BLOCK_SIZE hok
    have hK : K.take AES_BLOCK_SIZE = K := by
      rw [show AES_BLOCK_SIZE = K.length from l1.symm]; exact List.take_length K
    rw [hK] at hk2
    have e0 := load_store_within ctx.consts 0 (K2 ++ K3) 0 16 (by simp; omega) (Nat.zero_le _)
    have e1 := load_store_within ctx.consts 0 (K2 ++ K3) 16 16 (by simp; omega) (Nat.zero_le _)
    have f0 : load (K2 ++ K3) 0 16 = K2 := by
      simp only [load, List.drop_zero]; exact List.take_left' l2
    have f1 : load (K2 ++ K3) 16 16 = K3 := by
      simp only [load]; rw [List.drop_left' l2, ← l3]; exact List.take_length K3
    refine ⟨hok, ?_, ?_, ?_, ?_, ?_⟩
    · exact e0.trans f0
    · exact e1.trans f1
    · exact hk2
    · show 6 + (aes_expandkey P _ K AES_BLOCK_SIZE).2.key_length / 4 = 10
      rw [hk2]
      show 6 + 16 / 4 = 10
      decide
    · show (store ctx.consts 0 (K2 ++ K3)).length = 32
      rw [length_store _ _ _ (by simp; omega)]; exact hc
  · intro h
    have hk := aes_expandkey_fail P ctx.key in_key key_len h
    simp [xcbc_setkey, cbcmac_setkey, hk, EINVAL]

/-- Instance of C4 on the small primitive with a 16-byte key. -/
theorem xcbc_setkey_subkeys_witness :
    toyMacCtx.consts.length = 32 ∧
    (aes_expandkey toyPrim toyMacCtx.key toyKey 16).1 = 0 ∧
    (xcbc_setkey toyPrim toyMacCtx toyKey 16).1 = 0 ∧
    6 + (xcbc_setkey toyPrim toyMacCtx toyKey 16).2.1.key.key_length / 4 = 10 :=
  ⟨by decide, by decide,
   ((xcbc_setkey_subkeys toyPrim toyPrim_blockPreserving toyMacCtx toyKey 16
      (by decide)).1 (by decide)).1,
   ((xcbc_setkey_subkeys toyPrim toyPrim_blockPreserving toyMacCtx toyKey 16
      (by decide)).1 (by decide)).2.2.2.2.1⟩

/-- C5: cbcmac_finup on a 16-byte running digest and `len` < 16 remaining bytes
returns 0; with len = 0 the output is the digest unchanged and nothing is
run; with len > 0 the output is E(d xor src zero-extended to 16 bytes), with
exactly one block encryption. -/
theorem cbcmac_finup_output (P : AesPrim) (hP : BlockPreserving P) (tctx : mac_tfm_ctx)
    (ctx : mac_desc_ctx) (src : List Nat) (len : Nat)
    (hd : ctx.dg.length = 16) (hl : len < 16) (hs : len ≤ src.length) :
    (cbcmac_finup P tctx ctx src len).1 = 0 ∧
    (len = 0 → (cbcmac_finup P tctx ctx src len).2.2.1 = ctx.dg ∧
      (cbcmac_finup P tctx ctx src len).2.1 = ctx ∧
      (cbcmac_finup P tctx ctx src len).2.2.2 = []) ∧
    (0 < len → (cbcmac_finup P tctx ctx src len).2.2.1 =
        P.encrypt tctx.key.key_enc (6 + tctx.key.key_length / 4)
          (xor_block ctx.dg (zero_extend src len)) ∧
      (cbcmac_finup P tctx ctx src len).2.1.dg = (cbcmac_finup P tctx ctx src len).2.2.1 ∧
      encryptions (cbcmac_finup P tctx ctx src len).2.2.2 = 1) := by
  refine ⟨?_, ?_, ?_⟩
  · unfold cbcmac_finup; split <;> rfl
  · intro h0
    subst h0
    simp only [cbcmac_finup, ne_eq, not_true_eq_false, if_false]
    exact ⟨load_zero_eq _ _ hd, trivial, trivial⟩
  · intro hpos
    have hx := crypto_xor_zero_extend ctx.dg src len 16 hd (by omega) hs
    have hxl : (xor_block ctx.dg (zero_extend src len)).length = AES_BLOCK_SIZE := by
      rw [length_xor_block, hd]
      simp only [zero_extend, AES_BLOCK_SIZE, List.length_append, List.length_take,
        List.length_replicate]
      omega
    have hout := (hP tctx.key.key_enc (6 + tctx.key.key_length / 4) _ hxl).1
    simp only [cbcmac_finup, show (len ≠ 0) = True from by simp; omega, if_true,
      mac_do_update_final, hx]
    refine ⟨?_, ?_, rfl⟩
    · exact load_zero_eq _ _ hout
    · exact (load_zero_eq _ _ hout).symm

/-- Instance of C5 on the small primitive: 5 remaining bytes. -/
theorem cbcmac_finup_output_witness :
    (5 : Nat) < 16 ∧ 5 ≤ toyMsg.length ∧
    (cbcmac_finup toyPrim toyMacKeyed (mac_init { dg := [] }).2 toyMsg 5).1 = 0 :=
  ⟨by decide, by decide,
   (cbcmac_finup_output toyPrim toyPrim_blockPreserving toyMacKeyed
      (mac_init { dg := [] }).2 toyMsg 5 (by decide) (by decide) (by decide)).1⟩

/-- C6: from the digest of mac_init (16 zero bytes), mac_update on `len` bytes
of `p` returns len mod 16 and leaves the digest equal to the CBC-MAC chain
d' = E(d xor p_i) over the first len / 16 blocks of `p`, with one block
encryption per block; the trailing len mod 16 bytes do not influence it. -/
theorem mac_update_chain (P : AesPrim) (hP : BlockPreserving P) (tctx : mac_tfm_ctx)
    (ctx : mac_desc_ctx) (p : List Nat) (len : Nat) (hp : len ≤ p.length) :
    (mac_init ctx).2.dg = List.replicate 16 0 ∧
    (mac_update P tctx (mac_init ctx).2 p len).1 = len % 16 ∧
    (mac_update P tctx (mac_init ctx).2 p len).2.1.dg =
      cbcmac_chain (P.encrypt tctx.key.key_enc (6 + tctx.key.key_length / 4)) (len / 16) p
        (List.replicate 16 0) ∧
    encryptions (mac_update P tctx (mac_init ctx).2 p len).2.2 = len / 16 ∧
    (∀ q : List Nat, len ≤ q.length → q.take (16 * (len / 16)) = p.take (16 * (len / 16)) →
      (mac_update P tctx (mac_init ctx).2 q len).2.1.dg =
        (mac_update P tctx (mac_init ctx).2 p len).2.1.dg) := by
  have hz : (mac_init ctx).2.dg.length = AES_BLOCK_SIZE := rfl
  obtain ⟨a1, a2, a3⟩ := mac_update_from P hP tctx (mac_init ctx).2 p len hz hp
  refine ⟨rfl, a1, a2, a3, ?_⟩
  intro q hq hqp
  obtain ⟨_, b2, _⟩ := mac_update_from P hP tctx (mac_init ctx).2 q len hz hq
  rw [a2, b2]
  exact cbcmac_chain_congr _ _ _ _ _ hqp

/-- Instance of C6 on the small primitive: 37 bytes leave 5 bytes deferred
and chain two blocks. -/
theorem mac_update_chain_witness :
    (37 : Nat) ≤ toyMsg.length ∧
    (mac_update toyPrim toyMacKeyed (mac_init { dg := [] }).2 toyMsg 37).1 = 5 ∧
    encryptions (mac_update toyPrim toyMacKeyed (mac_init { dg := [] }).2 toyMsg 37).2.2 = 2 :=
  ⟨by decide,
   (mac_update_chain toyPrim toyPrim_blockPreserving toyMacKeyed { dg := [] } toyMsg 37
      (by decide)).2.1,
   (mac_update_chain toyPrim toyPrim_blockPreserving toyMacKeyed { dg := [] } toyMsg 37
      (by decide)).2.2.2.1⟩

/-- C7: for every request length below 16, cts_cbc_encrypt and cts_cbc_decrypt
return -EINVAL and leave the state as it was: no cursor is created, no
primitive runs, no destination or IV byte is written. -/
theorem cts_cbc_short_request (P : AesPrim) (W : Cursor) (tfm : crypto_skcipher) (w : World)
    (req : skcipher_request) (h : req.cryptlen < 16) :
    cts_cbc_encrypt P W tfm w req = (-EINVAL, w) ∧
    cts_cbc_decrypt P W tfm w req = (-EINVAL, w) := by
  have h1 : req.cryptlen ≤ AES_BLOCK_SIZE ∧ req.cryptlen < AES_BLOCK_SIZE :=
    ⟨Nat.le_of_lt h, h⟩
  constructor
  · unfold cts_cbc_encrypt
    simp only []
    rw [if_pos h1]
  · unfold cts_cbc_decrypt
    simp only []
    rw [if_pos h1]

/-- Instance of C7: a request of 15 bytes. -/
theorem cts_cbc_short_request_witness :
    (toyReq 15).cryptlen < 16 ∧
    (cts_cbc_encrypt toyPrim toyCursor (cts_tfm toyCtx) toyWorld (toyReq 15)).1 = -22 ∧
    (cts_cbc_encrypt toyPrim toyCursor (cts_tfm toyCtx) toyWorld (toyReq 15)).2.trace = [] :=
  ⟨by decide,
   congrArg Prod.fst
     (cts_cbc_short_request toyPrim toyCursor (cts_tfm toyCtx) toyWorld (toyReq 15)
       (by decide)).1,
   congrArg (fun r => r.2.trace)
     (cts_cbc_short_request toyPrim toyCursor (cts_tfm toyCtx) toyWorld (toyReq 15)
       (by decide)).1⟩

/-- C10: CBC-CTS round trip. For a block cipher whose directions are mutually
inverse, every IV, every plaintext of 16 to 63 bytes and every segmentation of
the buffers by cursors that report no failure, cts_cbc_encrypt returns 0, and
cts_cbc_decrypt of its output under the same key and IV returns 0 and yields
the original plaintext. -/
theorem cts_cbc_round_trip (P : AesPrim) (hP : BlockPreserving P) (ctx : crypto_aes_ctx)
    (hI : Inverse P ctx) (W1 W2 : Cursor) (hW1 : W1.NoFail) (hW2 : W2.NoFail)
    (w : World) (req dreq : skcipher_request)
    (hL1 : 16 ≤ req.cryptlen) (hL2 : req.cryptlen ≤ 63)
    (hdl : dreq.cryptlen = req.cryptlen) (hds : dreq.src = req.dst)
    (hiv : w.iv.length = 16)
    (hsrc : req.src.off + req.cryptlen ≤ (w.mem req.src.id).length)
    (hdst : req.dst.off + req.cryptlen ≤ (w.mem req.dst.id).length)
    (hddst : dreq.dst.off + req.cryptlen ≤ (w.mem dreq.dst.id).length)
    (hal : req.src = req.dst ∨ req.src.id ≠ req.dst.id)
    (hdal : dreq.src = dreq.dst ∨ dreq.src.id ≠ dreq.dst.id) :
    (cts_cbc_encrypt P W1 (cts_tfm ctx) w req).1 = 0 ∧
    (cts_cbc_decrypt P W2 (cts_tfm ctx)
      { (cts_cbc_encrypt P W1 (cts_tfm ctx) w req).2 with iv := w.iv } dreq).1 = 0 ∧
    load ((cts_cbc_decrypt P W2 (cts_tfm ctx)
      { (cts_cbc_encrypt P W1 (cts_tfm ctx) w req).2 with iv := w.iv } dreq).2.mem dreq.dst.id)
      dreq.dst.off req.cryptlen =
      load (w.mem req.src.id) req.src.off req.cryptlen := by
  have hinp : req.cryptlen ≤ (w.view req.src).length := by
    simp only [World.view, List.length_drop]; omega
  have hload : load (w.mem req.src.id) req.src.off req.cryptlen =
      (w.view req.src).take req.cryptlen := rfl
  rcases Nat.lt_or_ge 16 req.cryptlen with hgt | hle
  · obtain ⟨e1, e2⟩ := cts_encrypt_effect P hP W1 hW1 ctx w req hgt (by omega) hiv hsrc hdst hal
    obtain ⟨r1, r2⟩ := cts_bytes_round_trip P hP ctx hI req.cryptlen hgt (w.view req.src) w.iv
      ((w.mem req.dst.id).drop (req.dst.off + req.cryptlen)) hinp hiv
    have hlen : ∀ i, (((cts_cbc_encrypt P W1 (cts_tfm ctx) w req).2.mem) i).length =
        (w.mem i).length := by
      intro i; rw [e2]; exact world_write_length _ _ _ _ (by rw [r2]; exact hdst)
    obtain ⟨d1, d2⟩ := cts_decrypt_effect P hP W2 hW2 ctx
      { (cts_cbc_encrypt P W1 (cts_tfm ctx) w req).2 with iv := w.iv } dreq
      (by rw [hdl]; exact hgt) (by rw [hdl]; omega) hiv
      (by rw [hdl, hds]; show _ ≤ (((cts_cbc_encrypt P W1 (cts_tfm ctx) w req).2.mem) _).length
          rw [hlen]; exact hdst)
      (by rw [hdl]; show _ ≤ (((cts_cbc_encrypt P W1 (cts_tfm ctx) w req).2.mem) _).length
          rw [hlen]; exact hddst)
      hdal
    have hview : World.view { (cts_cbc_encrypt P W1 (cts_tfm ctx) w req).2 with iv := w.iv }
        dreq.src = cts_enc_bytes P ctx req.cryptlen (w.view req.src) w.iv ++
          (w.mem req.dst.id).drop (req.dst.off + req.cryptlen) := by
      rw [hds]
      have := view_after_write w
        { (cts_cbc_encrypt P W1 (cts_tfm ctx) w req).2 with iv := w.iv } req.dst _ e2 (by omega)
      rw [r2] at this
      exact this
    have hdec : cts_dec_bytes P ctx dreq.cryptlen
        (World.view { (cts_cbc_encrypt P W1 (cts_tfm ctx) w req).2 with iv := w.iv } dreq.src)
        w.iv = (w.view req.src).take req.cryptlen := by
      rw [hdl, hview]; exact r1
    have d2' : (cts_cbc_decrypt P W2 (cts_tfm ctx)
        { (cts_cbc_encrypt P W1 (cts_tfm ctx) w req).2 with iv := w.iv } dreq).2.mem =
        (World.write { (cts_cbc_encrypt P W1 (cts_tfm ctx) w req).2 with iv := w.iv } dreq.dst
          ((w.view req.src).take req.cryptlen)).mem := by
      rw [← hdec]; exact d2
    refine ⟨e1, d1, ?_⟩
    rw [hload]
    apply load_after_write _ _ _ _ _ d2'
    · show _ ≤ (((cts_cbc_encrypt P W1 (cts_tfm ctx) w req).2.mem) _).length
      rw [hlen]; omega
    · rw [List.length_take]; omega
  · have h16 : req.cryptlen = 16 := by omega
    have e := cts_cbc_encrypt_16_ok P W1 alg_cts_cbc ctx w req rfl (by decide) h16 (hW1 _ _)
    have hrt := cbc_blocks_round_trip P hP ctx hI 1 (w.view req.src) w.iv
      ((w.mem req.dst.id).drop (req.dst.off + 16)) (by omega) hiv
    obtain ⟨l1, _⟩ := cbc_encrypt_blocks_len P hP ctx.key_enc (6 + ctx.key_length / 4) 1
      (w.view req.src) w.iv (by omega) hiv
    have e' : cts_cbc_encrypt P W1 (cts_tfm ctx) w req = _ := e
    rw [e']
    have d := cts_cbc_decrypt_16_ok P W2 alg_cts_cbc ctx
      { mem := (w.write req.dst (cbc_encrypt_blocks P ctx.key_enc (6 + ctx.key_length / 4) 1
          (w.view req.src) w.iv).1).mem,
        iv := w.iv,
        trace := w.trace ++
          [Event.skcipher_walk_virt 16, Event.kernel_neon_begin,
           Event.aes_cbc_encrypt ctx.key_enc (6 + ctx.key_length / 4) 1,
           Event.encrypt_block, Event.kernel_neon_end, Event.skcipher_walk_done 0] }
      dreq rfl (by decide) (by rw [hdl, h16]) (hW2 _ _)
    have d' : cts_cbc_decrypt P W2 (cts_tfm ctx) _ dreq = _ := d
    simp only []
    rw [d']
    refine ⟨trivial, rfl, ?_⟩
    simp only []
    have hview := view_after_write w
      { mem := (w.write req.dst (cbc_encrypt_blocks P ctx.key_enc (6 + ctx.key_length / 4) 1
          (w.view req.src) w.iv).1).mem,
        iv := w.iv,
        trace := w.trace ++
          [Event.skcipher_walk_virt 16, Event.kernel_neon_begin,
           Event.aes_cbc_encrypt ctx.key_enc (6 + ctx.key_length / 4) 1,
           Event.encrypt_block, Event.kernel_neon_end, Event.skcipher_walk_done 0] }
      req.dst _ rfl (by omega)
    rw [l1] at hview
    rw [hds, hview, hrt, hload, h16]
    apply load_after_write _ _ _ _ _ rfl
    · show dreq.dst.off ≤ ((w.write req.dst _).mem dreq.dst.id).length
      rw [world_write_length _ _ _ _ (by rw [l1]; omega)]; omega
    · rw [List.length_take]; omega

/-- C8: for a request of exactly 16 bytes, cts_cbc_encrypt (cts_cbc_decrypt)
gives the result of cbc_encrypt (cbc_decrypt) on the same request and never
calls a ciphertext-stealing primitive; when the cursor maps the block without
failure it returns 0 after one plain CBC call over one block, the destination
holding that block's CBC encryption (decryption) and the IV buffer the new
chain. -/
theorem cts_cbc_one_block (P : AesPrim) (W : Cursor) (ctx : crypto_aes_ctx) (w : World)
    (req : skcipher_request) (h : req.cryptlen = 16) :
    cts_cbc_encrypt P W (cts_tfm ctx) w req = cbc_encrypt P W (cbc_tfm ctx) w req ∧
    cts_cbc_decrypt P W (cts_tfm ctx) w req = cbc_decrypt P W (cbc_tfm ctx) w req ∧
    cts_calls (cts_cbc_encrypt P W (cts_tfm ctx) w req).2.trace = cts_calls w.trace ∧
    cts_calls (cts_cbc_decrypt P W (cts_tfm ctx) w req).2.trace = cts_calls w.trace ∧
    (W.fail req.src.off 16 = 0 →
      cts_cbc_encrypt P W (cts_tfm ctx) w req =
        (0, { mem := (w.write req.dst
                (P.encrypt ctx.key_enc (6 + ctx.key_length / 4)
                  (xor_block (load (w.view req.src) 0 16) w.iv))).mem,
              iv := P.encrypt ctx.key_enc (6 + ctx.key_length / 4)
                (xor_block (load (w.view req.src) 0 16) w.iv),
              trace := w.trace ++
                [Event.skcipher_walk_virt 16, Event.kernel_neon_begin,
                 Event.aes_cbc_encrypt ctx.key_enc (6 + ctx.key_length / 4) 1,
                 Event.encrypt_block, Event.kernel_neon_end, Event.skcipher_walk_done 0] }) ∧
      cts_cbc_decrypt P W (cts_tfm ctx) w req =
        (0, { mem := (w.write req.dst
                (xor_block (P.decrypt ctx.key_dec (6 + ctx.key_length / 4)
                  (load (w.view req.src) 0 16)) w.iv)).mem,
              iv := load (w.view req.src) 0 16,
              trace := w.trace ++
                [Event.skcipher_walk_virt 16, Event.kernel_neon_begin,
                 Event.aes_cbc_decrypt ctx.key_dec (6 + ctx.key_length / 4) 1,
                 Event.decrypt_block, Event.kernel_neon_end, Event.skcipher_walk_done 0] })) := by
  by_cases hf : W.fail req.src.off 16 = 0
  · have e := cts_cbc_encrypt_16_ok P W alg_cts_cbc ctx w req rfl (by decide) h hf
    have d := cts_cbc_decrypt_16_ok P W alg_cts_cbc ctx w req rfl (by decide) h hf
    have e2 := cts_cbc_encrypt_16_ok P W alg_cbc ctx w req rfl (by decide) h hf
    have d2 := cts_cbc_decrypt_16_ok P W alg_cbc ctx w req rfl (by decide) h hf
    have c := cbc_encrypt_16_ok P W alg_cbc ctx w req rfl (by decide) h hf
    have c2 := cbc_decrypt_16_ok P W alg_cbc ctx w req rfl (by decide) h hf
    simp only [cbc_encrypt_blocks, cbc_decrypt_blocks, List.append_nil] at e d e2 d2
    refine ⟨?_, ?_, ?_, ?_, fun _ => ⟨e, d⟩⟩
    · exact e.trans (c.trans e2).symm
    · exact d.trans (c2.trans d2).symm
    · show cts_calls (cts_cbc_encrypt P W { alg := alg_cts_cbc, ctx := ctx } w req).2.trace = _
      rw [e]
      simp only [cts_calls_append, cts_calls, Nat.add_zero]
    · show cts_calls (cts_cbc_decrypt P W { alg := alg_cts_cbc, ctx := ctx } w req).2.trace = _
      rw [d]
      simp only [cts_calls_append, cts_calls, Nat.add_zero]
  · obtain ⟨e1, _⟩ := cts_cbc_encrypt_16_fail P W alg_cts_cbc ctx w req rfl h hf
    obtain ⟨_, e2⟩ := cts_cbc_encrypt_16_fail P W alg_cbc ctx w req rfl h hf
    obtain ⟨d1, _⟩ := cts_cbc_decrypt_16_fail P W alg_cts_cbc ctx w req rfl h hf
    obtain ⟨_, d2⟩ := cts_cbc_decrypt_16_fail P W alg_cbc ctx w req rfl h hf
    refine ⟨e1.trans e2.symm, d1.trans d2.symm, ?_, ?_, fun h0 => absurd h0 hf⟩
    · show cts_calls (cts_cbc_encrypt P W { alg := alg_cts_cbc, ctx := ctx } w req).2.trace = _
      rw [e1]
      simp only [World.emit, cts_calls_append, cts_calls, Nat.add_zero]
    · show cts_calls (cts_cbc_decrypt P W { alg := alg_cts_cbc, ctx := ctx } w req).2.trace = _
      rw [d1]
      simp only [World.emit, cts_calls_append, cts_calls, Nat.add_zero]

/-- Instance of C8: a request of 16 bytes over segments of 7 bytes. -/
theorem cts_cbc_one_block_witness :
    (toyReq 16).cryptlen = 16 ∧
    cts_cbc_encrypt toyPrim toyCursor (cts_tfm toyCtx) toyWorld (toyReq 16) =
      cbc_encrypt toyPrim toyCursor (cbc_tfm toyCtx) toyWorld (toyReq 16) ∧
    (cts_cbc_encrypt toyPrim toyCursor (cts_tfm toyCtx) toyWorld (toyReq 16)).1 = 0 :=
  ⟨rfl,
   (cts_cbc_one_block toyPrim toyCursor toyCtx toyWorld (toyReq 16) rfl).1,
   congrArg Prod.fst
     ((cts_cbc_one_block toyPrim toyCursor toyCtx toyWorld (toyReq 16) rfl).2.2.2.2 rfl).1⟩

/-- C9 as stated fails: a request of 17 bytes runs no block through plain CBC
before the stealing step, and a request of 16 bytes runs one. -/
theorem cts_cbc_leading_blocks_counterexample :
    cbc_blocks_done
      (cts_cbc_encrypt toyPrim toyCursor (cts_tfm toyCtx) toyWorld (toyReq 17)).2.trace = 0 ∧
    cbc_blocks_done
      (cts_cbc_encrypt toyPrim toyCursor (cts_tfm toyCtx) toyWorld (toyReq 17)).2.trace ≠ 1 ∧
    cts_calls
      (cts_cbc_encrypt toyPrim toyCursor (cts_tfm toyCtx) toyWorld (toyReq 17)).2.trace = 1 ∧
    cbc_blocks_done
      (cts_cbc_encrypt toyPrim toyCursor (cts_tfm toyCtx) toyWorld (toyReq 16)).2.trace = 1 ∧
    cbc_blocks_done
      (cts_cbc_encrypt toyPrim toyCursor (cts_tfm toyCtx) toyWorld (toyReq 16)).2.trace ≠ 0 := by
  decide

/-- C9 amended: for a request of more than 16 and at most 32 bytes,
cts_cbc_encrypt runs no block through plain CBC, and when the cursor maps the
request without failure the stealing primitive is called once on all its
bytes; for a request of exactly 16 bytes no stealing primitive is called, and
when the cursor maps the block without failure exactly one block runs through
plain CBC. -/
theorem cts_cbc_leading_blocks (P : AesPrim) (W : Cursor) (ctx : crypto_aes_ctx) (w : World)
    (req : skcipher_request) :
    (16 < req.cryptlen → req.cryptlen ≤ 32 →
      cbc_blocks_done (cts_cbc_encrypt P W (cts_tfm ctx) w req).2.trace =
        cbc_blocks_done w.trace ∧
      (W.fail req.src.off req.cryptlen = 0 →
        (cts_cbc_encrypt P W (cts_tfm ctx) w req).2.trace = w.trace ++
          [Event.skcipher_walk_virt req.cryptlen, Event.kernel_neon_begin,
           Event.aes_cbc_cts_encrypt ctx.key_enc (6 + ctx.key_length / 4) req.cryptlen,
           Event.encrypt_block, Event.encrypt_block, Event.kernel_neon_end,
           Event.skcipher_walk_done 0])) ∧
    (req.cryptlen = 16 →
      cts_calls (cts_cbc_encrypt P W (cts_tfm ctx) w req).2.trace = cts_calls w.trace ∧
      (W.fail req.src.off 16 = 0 →
        cbc_blocks_done (cts_cbc_encrypt P W (cts_tfm ctx) w req).2.trace =
          cbc_blocks_done w.trace + 1)) := by
  constructor
  · intro h1 h2
    have hval : to_u32 ((req.cryptlen : Int) - ((0 : Nat) : Int) * ((16 : Nat) : Int)) =
        req.cryptlen := by
      have := to_u32_tail req.cryptlen 0 (by omega) (by omega)
      rw [this]; omega
    rw [cts_cbc_encrypt_small P W _ w req h1 h2]
    by_cases hf : W.fail req.src.off req.cryptlen = 0
    · have := cts_encrypt_tail_ok P W ctx w req req.src req.dst ((0 : Nat) : Int) req.cryptlen
        hval (by omega) h2 hf
      have this' : cts_cbc_encrypt_tail P W (cts_tfm ctx) w req req.src req.dst 0 = _ := this
      rw [this']
      refine ⟨?_, fun _ => rfl⟩
      simp only [cbc_blocks_done_append, cbc_blocks_done, Nat.add_zero]
    · have := cts_encrypt_tail_fail P W ctx w req req.src req.dst ((0 : Nat) : Int) req.cryptlen
        hval (by omega) hf
      have this' : cts_cbc_encrypt_tail P W (cts_tfm ctx) w req req.src req.dst 0 = _ := this
      rw [this']
      refine ⟨?_, fun h0 => absurd h0 hf⟩
      simp only [World.emit, cbc_blocks_done_append, cbc_blocks_done, Nat.add_zero]
  · intro h
    by_cases hf : W.fail req.src.off 16 = 0
    · have e := cts_cbc_encrypt_16_ok P W alg_cts_cbc ctx w req rfl (by decide) h hf
      have e' : cts_cbc_encrypt P W (cts_tfm ctx) w req = _ := e
      rw [e']
      refine ⟨?_, fun _ => ?_⟩
      · simp only [cts_calls_append, cts_calls, Nat.add_zero]
      · simp only [cbc_blocks_done_append, cbc_blocks_done, Nat.add_zero]
    · obtain ⟨e1, _⟩ := cts_cbc_encrypt_16_fail P W alg_cts_cbc ctx w req rfl h hf
      have e' : cts_cbc_encrypt P W (cts_tfm ctx) w req = _ := e1
      rw [e']
      refine ⟨?_, fun h0 => absurd h0 hf⟩
      simp only [World.emit, cts_calls_append, cts_calls, Nat.add_zero]

/-- Instance of the amended C9: a request of 20 bytes over segments of 7 bytes
calls the stealing primitive on all 20 bytes. -/
theorem cts_cbc_leading_blocks_witness :
    16 < (toyReq 20).cryptlen ∧ (toyReq 20).cryptlen ≤ 32 ∧
    cbc_blocks_done
      (cts_cbc_encrypt toyPrim toyCursor (cts_tfm toyCtx) toyWorld (toyReq 20)).2.trace =
        cbc_blocks_done toyWorld.trace :=
  ⟨by decide, by decide,
   ((cts_cbc_leading_blocks toyPrim toyCursor toyCtx toyWorld (toyReq 20)).1
      (by decide) (by decide)).1⟩

/-- Instance of C10: 50 bytes, encrypted from buffer 0 to buffer 1 and
decrypted from buffer 1 to buffer 2, both over segments of 7 bytes. -/
theorem cts_cbc_round_trip_witness :
    16 ≤ (toyReq 50).cryptlen ∧ (toyReq 50).cryptlen ≤ 63 ∧
    (cts_cbc_encrypt toyPrim toyCursor (cts_tfm toyCtx) toyWorld (toyReq 50)).1 = 0 ∧
    load ((cts_cbc_decrypt toyPrim toyCursor (cts_tfm toyCtx)
      { (cts_cbc_encrypt toyPrim toyCursor (cts_tfm toyCtx) toyWorld (toyReq 50)).2 with
        iv := toyWorld.iv } (toyReqBack 50)).2.mem 2) 0 50 =
      load (toyWorld.mem 0) 0 50 :=
  ⟨by decide, by decide,
   (cts_cbc_round_trip toyPrim toyPrim_blockPreserving toyCtx toyPrim_inverse toyCursor
      toyCursor toyCursor_noFail toyCursor_noFail toyWorld (toyReq 50) (toyReqBack 50)
      (by decide) (by decide) rfl rfl (by decide) (by decide) (by decide) (by decide)
      (Or.inr (by decide)) (Or.inr (by decide))).1,
   (cts_cbc_round_trip toyPrim toyPrim_blockPreserving toyCtx toyPrim_inverse toyCursor
      toyCursor toyCursor_noFail toyCursor_noFail toyWorld (toyReq 50) (toyReqBack 50)
      (by decide) (by decide) rfl rfl (by decide) (by decide) (by decide) (by decide)
      (Or.inr (by decide)) (Or.inr (by decide))).2.2⟩

/-- C13: a key of length n accepted by the key check has even length, and
xts_set_key expands the data key from bytes [0, n/2) and the tweak key from
bytes [n/2, n); when the key check fails, or the expansion of the first half
fails, that error is returned and the context, the tweak key included, is left
as it was. -/
theorem xts_set_key_halves (P : AesPrim) (policy : List Nat → Nat → Int)
    (ctx : crypto_aes_xts_ctx) (in_key : List Nat) (key_len : Nat) :
    (xts_verify_key policy in_key key_len = 0 →
      key_len % 2 = 0 ∧
      ((aes_expandkey P ctx.key1 in_key (key_len / 2)).1 = 0 →
        (xts_set_key P policy ctx in_key key_len).1 = 0 ∧
        (xts_set_key P policy ctx in_key key_len).2.key1 =
          { key_enc := P.expand_enc (load in_key 0 (key_len / 2)),
            key_dec := P.expand_dec (load in_key 0 (key_len / 2)),
            key_length := key_len / 2 } ∧
        (xts_set_key P policy ctx in_key key_len).2.key2 =
          { key_enc := P.expand_enc (load in_key (key_len / 2) (key_len - key_len / 2)),
            key_dec := P.expand_dec (load in_key (key_len / 2) (key_len - key_len / 2)),
            key_length := key_len / 2 }) ∧
      ((aes_expandkey P ctx.key1 in_key (key_len / 2)).1 ≠ 0 →
        xts_set_key P policy ctx in_key key_len = (-EINVAL, ctx))) ∧
    (xts_verify_key policy in_key key_len ≠ 0 →
      xts_set_key P policy ctx in_key key_len = (xts_verify_key policy in_key key_len, ctx)) := by
  constructor
  · intro hv
    have hev : key_len % 2 = 0 := by
      unfold xts_verify_key at hv
      by_cases h : key_len % 2 ≠ 0
      · rw [if_pos h] at hv; simp [EINVAL] at hv
      · omega
    refine ⟨hev, ?_, ?_⟩
    · intro h1
      have h2 : (aes_expandkey P ctx.key2 (in_key.drop (key_len / 2)) (key_len / 2)).1 = 0 :=
        (aes_expandkey_ok_iff P _ _ _).mpr ((aes_expandkey_ok_iff P _ _ _).mp h1)
      have k1 := aes_expandkey_ok P ctx.key1 in_key (key_len / 2) h1
      have k2 := aes_expandkey_ok P ctx.key2 (in_key.drop (key_len / 2)) (key_len / 2) h2
      have hh : key_len - key_len / 2 = key_len / 2 := by omega
      simp only [xts_set_key, hv, ne_eq, not_true_eq_false, if_false, h1, if_true, h2, k1, k2,
        load, List.drop_zero, hh]
      exact ⟨trivial, trivial, trivial⟩
    · intro h1
      have k1 := aes_expandkey_fail P ctx.key1 in_key (key_len / 2) h1
      simp only [xts_set_key, hv, ne_eq, not_true_eq_false, if_false, k1]
      rw [if_neg (by simp [EINVAL])]
  · intro hv
    simp only [xts_set_key, ne_eq, hv, not_false_eq_true, if_true]

/-- C13 on a 32-byte key: both halves are accepted, the data key is the
schedule of bytes 0..15 and the tweak key that of bytes 16..31; a 33-byte key
is refused and the context is left alone. -/
theorem xts_set_key_halves_witness :
    (xts_set_key toyPrim toyPolicy toyXtsEmpty (List.range 32) 32).1 = 0 ∧
    (xts_set_key toyPrim toyPolicy toyXtsEmpty (List.range 32) 32).2.key1 =
      { key_enc := toyPrim.expand_enc (load (List.range 32) 0 (32 / 2)),
        key_dec := toyPrim.expand_dec (load (List.range 32) 0 (32 / 2)),
        key_length := 32 / 2 } ∧
    (xts_set_key toyPrim toyPolicy toyXtsEmpty (List.range 32) 32).2.key2 =
      { key_enc := toyPrim.expand_enc (load (List.range 32) (32 / 2) (32 - 32 / 2)),
        key_dec := toyPrim.expand_dec (load (List.range 32) (32 / 2) (32 - 32 / 2)),
        key_length := 32 / 2 } ∧
    xts_set_key toyPrim toyPolicy toyXtsEmpty (List.range 33) 33 =
      (xts_verify_key toyPolicy (List.range 33) 33, toyXtsEmpty) :=
  ⟨(((xts_set_key_halves toyPrim toyPolicy toyXtsEmpty (List.range 32) 32).1 (by decide)).2.1
      (by decide)).1,
   (((xts_set_key_halves toyPrim toyPolicy toyXtsEmpty (List.range 32) 32).1 (by decide)).2.1
      (by decide)).2.1,
   (((xts_set_key_halves toyPrim toyPolicy toyXtsEmpty (List.range 32) 32).1 (by decide)).2.1
      (by decide)).2.2,
   (xts_set_key_halves toyPrim toyPolicy toyXtsEmpty (List.range 33) 33).2 (by decide)⟩

/-- C14: when the expansion of the raw key k succeeds, essiv_cbc_set_key sets
the primary schedule to expand(k) and the secondary schedule to the expansion
of the 32-byte digest of the raw key bytes, an AES-256 schedule of 14 rounds
whatever the length of k, with one digest computation; when the expansion of k
fails, that error is returned, the context is unchanged and no digest is
computed. -/
theorem essiv_cbc_set_key_schedules (P : AesPrim) (ctx : crypto_aes_essiv_cbc_ctx)
    (in_key : List Nat) (key_len : Nat) :
    ((aes_expandkey P ctx.key1 in_key key_len).1 = 0 →
      (essiv_cbc_set_key P ctx in_key key_len).1 = 0 ∧
      (essiv_cbc_set_key P ctx in_key key_len).2.1.key1 =
        { key_enc := P.expand_enc (in_key.take key_len),
          key_dec := P.expand_dec (in_key.take key_len),
          key_length := key_len } ∧
      (essiv_cbc_set_key P ctx in_key key_len).2.1.key2 =
        { key_enc := P.expand_enc ((ctx.hash (in_key.take key_len)).take 32),
          key_dec := P.expand_dec ((ctx.hash (in_key.take key_len)).take 32),
          key_length := 32 } ∧
      ((ctx.hash (in_key.take key_len)).length = SHA256_DIGEST_SIZE →
        (ctx.hash (in_key.take key_len)).take 32 = ctx.hash (in_key.take key_len)) ∧
      6 + (essiv_cbc_set_key P ctx in_key key_len).2.1.key2.key_length / 4 = 14 ∧
      (essiv_cbc_set_key P ctx in_key key_len).2.1.hash = ctx.hash ∧
      (essiv_cbc_set_key P ctx in_key key_len).2.2 = [Event.crypto_shash_tfm_digest key_len]) ∧
    ((aes_expandkey P ctx.key1 in_key key_len).1 ≠ 0 →
      (essiv_cbc_set_key P ctx in_key key_len).1 = (aes_expandkey P ctx.key1 in_key key_len).1 ∧
      (essiv_cbc_set_key P ctx in_key key_len).2.1.key1 = ctx.key1 ∧
      (essiv_cbc_set_key P ctx in_key key_len).2.1.key2 = ctx.key2 ∧
      (essiv_cbc_set_key P ctx in_key key_len).2.1.hash = ctx.hash ∧
      (essiv_cbc_set_key P ctx in_key key_len).2.2 = []) := by
  constructor
  · intro h1
    have k1 := aes_expandkey_ok P ctx.key1 in_key key_len h1
    have h2 : ∀ d, (aes_expandkey P ctx.key2 d 32).1 = 0 := fun d =>
      (aes_expandkey_ok_iff P _ _ _).mpr (Or.inr (Or.inr rfl))
    have k2 := fun d => aes_expandkey_ok P ctx.key2 d 32 (h2 d)
    simp only [essiv_cbc_set_key, h1, ne_eq, not_true_eq_false, if_false, k1, h2, k2,
      crypto_shash_tfm_digest, SHA256_DIGEST_SIZE, List.take_take, Nat.min_self]
    refine ⟨trivial, trivial, trivial, ?_, trivial, trivial, trivial⟩
    intro hl
    exact List.take_of_length_le (by omega)
  · intro h1
    have k1 := aes_expandkey_fail P ctx.key1 in_key key_len h1
    have hne : ¬ (-EINVAL = 0) := by simp [EINVAL]
    simp only [essiv_cbc_set_key, ne_eq, k1, hne, not_false_eq_true, if_true]
    exact ⟨trivial, trivial, trivial, trivial, trivial⟩

/-- C14 on a 16-byte key: the primary schedule is that of the key, the
secondary schedule that of the 32-byte digest, with key length 32. -/
theorem essiv_cbc_set_key_schedules_witness :
    (essiv_cbc_set_key toyPrim toyEssivEmpty toyKey 16).1 = 0 ∧
    (essiv_cbc_set_key toyPrim toyEssivEmpty toyKey 16).2.1.key2 =
      { key_enc := toyPrim.expand_enc ((toyHash (toyKey.take 16)).take 32),
        key_dec := toyPrim.expand_dec ((toyHash (toyKey.take 16)).take 32),
        key_length := 32 } ∧
    (essiv_cbc_set_key toyPrim toyEssivEmpty toyKey 16).2.2 =
      [Event.crypto_shash_tfm_digest 16] ∧
    (essiv_cbc_set_key toyPrim toyEssivEmpty (List.range 20) 20).2.2 = [] :=
  ⟨((essiv_cbc_set_key_schedules toyPrim toyEssivEmpty toyKey 16).1 (by decide)).1,
   ((essiv_cbc_set_key_schedules toyPrim toyEssivEmpty toyKey 16).1 (by decide)).2.2.1,
   ((essiv_cbc_set_key_schedules toyPrim toyEssivEmpty toyKey 16).1 (by decide)).2.2.2.2.2.2,
   ((essiv_cbc_set_key_schedules toyPrim toyEssivEmpty (List.range 20) 20).2
      (by decide)).2.2.2.2⟩

/-- C18: on a request whose length is not a multiple of 16, ecb_encrypt and
ecb_decrypt return an error for every cursor, the invalid-length error
-EINVAL when the cursor reports no mapping failure and, for lengths below 16,
whatever the cursor does; on a request whose length is a multiple of 16 they
return 0 when the cursor reports no failure. -/
theorem ecb_invalid_length (P : AesPrim) (W : Cursor) (ctx : crypto_aes_ctx) (w : World)
    (req : skcipher_request) :
    (req.cryptlen % 16 ≠ 0 →
      (ecb_encrypt P W (ecb_tfm ctx) w req).1 ≠ 0 ∧
      (ecb_decrypt P W (ecb_tfm ctx) w req).1 ≠ 0 ∧
      (W.NoFail → (ecb_encrypt P W (ecb_tfm ctx) w req).1 = -EINVAL ∧
        (ecb_decrypt P W (ecb_tfm ctx) w req).1 = -EINVAL) ∧
      (req.cryptlen < 16 → (ecb_encrypt P W (ecb_tfm ctx) w req).1 = -EINVAL ∧
        (ecb_decrypt P W (ecb_tfm ctx) w req).1 = -EINVAL)) ∧
    (req.cryptlen % 16 = 0 → W.NoFail →
      (ecb_encrypt P W (ecb_tfm ctx) w req).1 = 0 ∧
      (ecb_decrypt P W (ecb_tfm ctx) w req).1 = 0) := by
  have he := block_request_err (fun inp b iv =>
      ((aes_ecb_encrypt P inp ctx.key_enc (6 + ctx.key_length / 4) b).1, iv,
       (aes_ecb_encrypt P inp ctx.key_enc (6 + ctx.key_length / 4) b).2)) W alg_ecb
    (w.emit [Event.skcipher_walk_virt req.cryptlen]) req rfl (by decide)
  have hd := block_request_err (fun inp b iv =>
      ((aes_ecb_decrypt P inp ctx.key_dec (6 + ctx.key_length / 4) b).1, iv,
       (aes_ecb_decrypt P inp ctx.key_dec (6 + ctx.key_length / 4) b).2)) W alg_ecb
    (w.emit [Event.skcipher_walk_virt req.cryptlen]) req rfl (by decide)
  rw [← ecb_encrypt_loop_eq] at he
  rw [← ecb_decrypt_loop_eq] at hd
  constructor
  · intro hrem
    obtain ⟨e1, e2, e3⟩ := he.1 hrem
    obtain ⟨d1, d2, d3⟩ := hd.1 hrem
    exact ⟨e1, d1, fun hW => ⟨e2 hW, d2 hW⟩, fun hlt => ⟨e3 hlt, d3 hlt⟩⟩
  · intro hrem hW
    exact ⟨he.2 hrem hW, hd.2 hrem hW⟩

/-- C18 on requests of 37, 5 and 32 bytes cut into runs of at most 7 bytes. -/
theorem ecb_invalid_length_witness :
    (ecb_encrypt toyPrim toyCursor (ecb_tfm toyCtx) toyWorld (toyReq 37)).1 = -EINVAL ∧
    (ecb_decrypt toyPrim toyCursor (ecb_tfm toyCtx) toyWorld (toyReq 5)).1 = -EINVAL ∧
    (ecb_encrypt toyPrim toyCursor (ecb_tfm toyCtx) toyWorld (toyReq 32)).1 = 0 :=
  ⟨(((ecb_invalid_length toyPrim toyCursor toyCtx toyWorld (toyReq 37)).1
      (by decide)).2.2.1 toyCursor_noFail).1,
   (((ecb_invalid_length toyPrim toyCursor toyCtx toyWorld (toyReq 5)).1
      (by decide)).2.2.2 (by decide)).2,
   ((ecb_invalid_length toyPrim toyCursor toyCtx toyWorld (toyReq 32)).2
      (by decide) toyCursor_noFail).1⟩

/-- C17: for a request of n*16 bytes and every cursor that reports no mapping
failure, however it cuts the request into runs, cbc_encrypt returns 0 and
writes C[i] = E(P[i] xor C[i-1]) with C[-1] = IV, leaving memory and the IV
buffer exactly as the single-run cursor does; likewise cbc_decrypt writes
P[i] = D(C[i]) xor C[i-1]. -/
theorem cbc_segmentation_independent (P : AesPrim) (hP : BlockPreserving P) (W : Cursor)
    (hW : W.NoFail) (ctx : crypto_aes_ctx) (w : World) (req : skcipher_request) (n : Nat)
    (hc : req.cryptlen = 16 * n) (hiv : w.iv.length = 16)
    (hsrc : req.src.off + 16 * n ≤ (w.mem req.src.id).length)
    (hdst : req.dst.off + 16 * n ≤ (w.mem req.dst.id).length)
    (hal : req.src = req.dst ∨ req.src.id ≠ req.dst.id) :
    ((cbc_encrypt P W (cbc_tfm ctx) w req).1 = 0 ∧
     (∀ i, i < n →
        load ((cbc_encrypt P W (cbc_tfm ctx) w req).2.view req.dst) (16 * i) 16 =
          P.encrypt ctx.key_enc (6 + ctx.key_length / 4)
            (xor_block (load (w.view req.src) (16 * i) 16)
              (if i = 0 then w.iv
               else load ((cbc_encrypt P W (cbc_tfm ctx) w req).2.view req.dst)
                 (16 * (i - 1)) 16))) ∧
     (cbc_encrypt P W (cbc_tfm ctx) w req).2.mem =
       (cbc_encrypt P Cursor.whole (cbc_tfm ctx) w req).2.mem ∧
     (cbc_encrypt P W (cbc_tfm ctx) w req).2.iv =
       (cbc_encrypt P Cursor.whole (cbc_tfm ctx) w req).2.iv) ∧
    ((cbc_decrypt P W (cbc_tfm ctx) w req).1 = 0 ∧
     (∀ i, i < n →
        load ((cbc_decrypt P W (cbc_tfm ctx) w req).2.view req.dst) (16 * i) 16 =
          xor_block (P.decrypt ctx.key_dec (6 + ctx.key_length / 4)
              (load (w.view req.src) (16 * i) 16))
            (if i = 0 then w.iv else load (w.view req.src) (16 * (i - 1)) 16)) ∧
     (cbc_decrypt P W (cbc_tfm ctx) w req).2.mem =
       (cbc_decrypt P Cursor.whole (cbc_tfm ctx) w req).2.mem ∧
     (cbc_decrypt P W (cbc_tfm ctx) w req).2.iv =
       (cbc_decrypt P Cursor.whole (cbc_tfm ctx) w req).2.iv) := by
  have hin : 16 * n ≤ (w.view req.src).length := by
    simp only [World.view, List.length_drop]; omega
  obtain ⟨e1, e2, e3⟩ := cbc_encrypt_effect P hP W hW ctx w req n hc hiv hsrc hdst hal
  obtain ⟨f1, f2, f3⟩ := cbc_encrypt_effect P hP Cursor.whole whole_noFail ctx w req n hc hiv
    hsrc hdst hal
  obtain ⟨d1, d2, d3⟩ := cbc_decrypt_effect P hP W hW ctx w req n hc hiv hsrc hdst hal
  obtain ⟨g1, g2, g3⟩ := cbc_decrypt_effect P hP Cursor.whole whole_noFail ctx w req n hc hiv
    hsrc hdst hal
  have hel := (cbc_encrypt_blocks_len P hP ctx.key_enc (6 + ctx.key_length / 4) n
    (w.view req.src) w.iv hin hiv).1
  have hdl := (cbc_decrypt_blocks_len P hP ctx.key_dec (6 + ctx.key_length / 4) n
    (w.view req.src) w.iv hin hiv).1
  refine ⟨⟨e1, fun i hi => ?_, by rw [e2, f2], by rw [e3, f3]⟩,
    ⟨d1, fun i hi => ?_, by rw [d2, g2], by rw [d3, g3]⟩⟩
  · rw [load_view_written w _ req.dst _ i n e2 (by omega) hel hi,
      cbc_encrypt_blocks_block P hP _ _ n _ _ i hi hin hiv]
    congr 2
    by_cases h0 : i = 0
    · rw [if_pos h0, if_pos h0]
    · rw [if_neg h0, if_neg h0,
        load_view_written w _ req.dst _ (i - 1) n e2 (by omega) hel (by omega)]
  · rw [load_view_written w _ req.dst _ i n d2 (by omega) hdl hi,
      cbc_decrypt_blocks_block P hP _ _ n _ _ i hi hin hiv]

/-- C17 on a request of 48 bytes cut into runs offered 7 bytes at a time. -/
theorem cbc_segmentation_independent_witness :
    (cbc_encrypt toyPrim toyCursor (cbc_tfm toyCtx) toyWorld (toyReq 48)).1 = 0 ∧
    (cbc_encrypt toyPrim toyCursor (cbc_tfm toyCtx) toyWorld (toyReq 48)).2.mem =
      (cbc_encrypt toyPrim Cursor.whole (cbc_tfm toyCtx) toyWorld (toyReq 48)).2.mem ∧
    (cbc_decrypt toyPrim toyCursor (cbc_tfm toyCtx) toyWorld (toyReq 48)).2.mem =
      (cbc_decrypt toyPrim Cursor.whole (cbc_tfm toyCtx) toyWorld (toyReq 48)).2.mem :=
  ⟨(cbc_segmentation_independent toyPrim toyPrim_blockPreserving toyCursor toyCursor_noFail
      toyCtx toyWorld (toyReq 48) 3 rfl rfl (by decide) (by decide) (by decide)).1.1,
   (cbc_segmentation_independent toyPrim toyPrim_blockPreserving toyCursor toyCursor_noFail
      toyCtx toyWorld (toyReq 48) 3 rfl rfl (by decide) (by decide) (by decide)).1.2.2.1,
   (cbc_segmentation_independent toyPrim toyPrim_blockPreserving toyCursor toyCursor_noFail
      toyCtx toyWorld (toyReq 48) 3 rfl rfl (by decide) (by decide) (by decide)).2.2.2.1⟩

/-- C15: on a request of n >= 1 whole blocks, for every cursor that reports no
mapping failure, essiv_cbc_encrypt returns 0; its first output block is
E_key1(P[0] xor E_key2(IV)); every later block is ordinary CBC under the
primary key, C[i] = E_key1(P[i] xor C[i-1]); the ESSIV primitive, which
encrypts the IV under the secondary key, is called exactly once; and the
output is a fixed function of the key pair, the IV and the plaintext, so two
calls with identical inputs give identical output. -/
theorem essiv_cbc_encrypt_first_block (P : AesPrim) (hP : BlockPreserving P) (W : Cursor)
    (hW : W.NoFail) (ctx : crypto_aes_essiv_cbc_ctx) (w : World) (req : skcipher_request)
    (n : Nat) (hn : 0 < n)
    (hc : req.cryptlen = 16 * n) (hiv : w.iv.length = 16)
    (hsrc : req.src.off + 16 * n ≤ (w.mem req.src.id).length)
    (hdst : req.dst.off + 16 * n ≤ (w.mem req.dst.id).length)
    (hal : req.src = req.dst ∨ req.src.id ≠ req.dst.id) :
    (essiv_cbc_encrypt P W ctx w req).1 = 0 ∧
    load ((essiv_cbc_encrypt P W ctx w req).2.view req.dst) 0 16 =
      P.encrypt ctx.key1.key_enc (6 + ctx.key1.key_length / 4)
        (xor_block (load (w.view req.src) 0 16) (P.encrypt ctx.key2.key_enc 14 w.iv)) ∧
    (∀ i, 0 < i → i < n →
      load ((essiv_cbc_encrypt P W ctx w req).2.view req.dst) (16 * i) 16 =
        P.encrypt ctx.key1.key_enc (6 + ctx.key1.key_length / 4)
          (xor_block (load (w.view req.src) (16 * i) 16)
            (load ((essiv_cbc_encrypt P W ctx w req).2.view req.dst) (16 * (i - 1)) 16))) ∧
    essiv_calls (essiv_cbc_encrypt P W ctx w req).2.trace = essiv_calls w.trace + 1 ∧
    load ((essiv_cbc_encrypt P W ctx w req).2.view req.dst) 0 (16 * n) =
      essiv_spec_encrypt P ctx w.iv (load (w.view req.src) 0 (16 * n)) := by
  have hin : 16 * n ≤ (w.view req.src).length := by
    simp only [World.view, List.length_drop]; omega
  have hiv0 : (P.encrypt ctx.key2.key_enc 14 w.iv).length = 16 := (hP _ _ _ hiv).1
  obtain ⟨e1, e2, _⟩ := essiv_cbc_encrypt_effect P hP W hW ctx w req n hn hc hiv hsrc hdst hal
  have hel := (cbc_encrypt_blocks_len P hP ctx.key1.key_enc (6 + ctx.key1.key_length / 4) n
    (w.view req.src) (P.encrypt ctx.key2.key_enc 14 w.iv) hin hiv0).1
  have hblk := fun i hi => cbc_encrypt_blocks_block P hP ctx.key1.key_enc
    (6 + ctx.key1.key_length / 4) n (w.view req.src) (P.encrypt ctx.key2.key_enc 14 w.iv) i hi
    hin hiv0
  refine ⟨e1, ?_, fun i hi0 hi => ?_, essiv_cbc_encrypt_calls P W hW ctx w req n hn hc hal, ?_⟩
  · have := load_view_written w _ req.dst _ 0 n e2 (by omega) hel hn
    rw [Nat.mul_zero] at this
    rw [this]
    have hb := hblk 0 hn
    rw [Nat.mul_zero, if_pos rfl] at hb
    exact hb
  · rw [load_view_written w _ req.dst _ i n e2 (by omega) hel hi,
      load_view_written w _ req.dst _ (i - 1) n e2 (by omega) hel (by omega), hblk i hi,
      if_neg (by omega)]
  · have hp := load_view_whole w _ req.dst _ e2 (by omega)
    rw [hel] at hp
    rw [hp]
    unfold essiv_spec_encrypt
    have hll : (load (w.view req.src) 0 (16 * n)).length = 16 * n :=
      length_load _ _ _ (by omega)
    rw [hll, show 16 * n / 16 = n from by omega]
    show _ = (cbc_encrypt_blocks P ctx.key1.key_enc (6 + ctx.key1.key_length / 4) n
      ((w.view req.src).take (16 * n)) (P.encrypt ctx.key2.key_enc 14 w.iv)).1
    rw [cbc_encrypt_blocks_take _ _ _ _ _ _ _ (Nat.le_refl _)]

/-- C15 on a request of 48 bytes cut into runs offered 7 bytes at a time. -/
theorem essiv_cbc_encrypt_first_block_witness :
    0 < 3 ∧
    load ((essiv_cbc_encrypt toyPrim toyCursor toyEssivCtx toyWorld (toyReq 48)).2.view
      (toyReq 48).dst) 0 16 =
      toyPrim.encrypt toyEssivCtx.key1.key_enc (6 + toyEssivCtx.key1.key_length / 4)
        (xor_block (load (toyWorld.view (toyReq 48).src) 0 16)
          (toyPrim.encrypt toyEssivCtx.key2.key_enc 14 toyWorld.iv)) ∧
    essiv_calls (essiv_cbc_encrypt toyPrim toyCursor toyEssivCtx toyWorld (toyReq 48)).2.trace =
      essiv_calls toyWorld.trace + 1 :=
  ⟨by decide,
   (essiv_cbc_encrypt_first_block toyPrim toyPrim_blockPreserving toyCursor toyCursor_noFail
      toyEssivCtx toyWorld (toyReq 48) 3 (by decide) rfl rfl (by decide) (by decide)
      (Or.inr (by decide))).2.1,
   (essiv_cbc_encrypt_first_block toyPrim toyPrim_blockPreserving toyCursor toyCursor_noFail
      toyEssivCtx toyWorld (toyReq 48) 3 (by decide) rfl rfl (by decide) (by decide)
      (Or.inr (by decide))).2.2.2.1⟩

/-- C16: essiv_cbc_decrypt on n >= 1 whole blocks is CBC decryption under the
primary key started from the IV encrypted under the secondary key's encryption
schedule, with one call of the ESSIV primitive; hence, for a block cipher
whose directions are mutually inverse, every IV, every plaintext of whole
blocks and all cursors that report no failure, essiv_cbc_encrypt returns 0 and
essiv_cbc_decrypt of its output under the same keys and IV returns 0 and
yields the original plaintext. -/
theorem essiv_cbc_round_trip (P : AesPrim) (hP : BlockPreserving P)
    (ctx : crypto_aes_essiv_cbc_ctx) (hI : Inverse P ctx.key1) (W1 W2 : Cursor)
    (hW1 : W1.NoFail) (hW2 : W2.NoFail) (w : World) (req dreq : skcipher_request) (n : Nat)
    (hc : req.cryptlen = 16 * n)
    (hdl : dreq.cryptlen = req.cryptlen) (hds : dreq.src = req.dst)
    (hiv : w.iv.length = 16)
    (hsrc : req.src.off + 16 * n ≤ (w.mem req.src.id).length)
    (hdst : req.dst.off + 16 * n ≤ (w.mem req.dst.id).length)
    (hddst : dreq.dst.off + 16 * n ≤ (w.mem dreq.dst.id).length)
    (hal : req.src = req.dst ∨ req.src.id ≠ req.dst.id)
    (hdal : dreq.src = dreq.dst ∨ dreq.src.id ≠ dreq.dst.id) :
    (essiv_cbc_encrypt P W1 ctx w req).1 = 0 ∧
    (essiv_cbc_decrypt P W2 ctx
      { (essiv_cbc_encrypt P W1 ctx w req).2 with iv := w.iv } dreq).1 = 0 ∧
    (0 < n →
      (essiv_cbc_decrypt P W2 ctx
        { (essiv_cbc_encrypt P W1 ctx w req).2 with iv := w.iv } dreq).2.mem =
      (World.write { (essiv_cbc_encrypt P W1 ctx w req).2 with iv := w.iv } dreq.dst
        (cbc_decrypt_blocks P ctx.key1.key_dec (6 + ctx.key1.key_length / 4) n
          (World.view { (essiv_cbc_encrypt P W1 ctx w req).2 with iv := w.iv } dreq.src)
          (P.encrypt ctx.key2.key_enc 14 w.iv)).1).mem ∧
      essiv_calls (essiv_cbc_decrypt P W2 ctx
        { (essiv_cbc_encrypt P W1 ctx w req).2 with iv := w.iv } dreq).2.trace =
        essiv_calls (essiv_cbc_encrypt P W1 ctx w req).2.trace + 1) ∧
    load ((essiv_cbc_decrypt P W2 ctx
      { (essiv_cbc_encrypt P W1 ctx w req).2 with iv := w.iv } dreq).2.mem dreq.dst.id)
      dreq.dst.off (16 * n) =
      load (w.mem req.src.id) req.src.off (16 * n) := by
  rcases Nat.eq_zero_or_pos n with hn | hn
  · subst hn
    rw [essiv_cbc_encrypt_empty P W1 ctx w req (by omega),
      essiv_cbc_decrypt_empty P W2 ctx _ dreq (by omega)]
    refine ⟨rfl, rfl, fun h => absurd h (by decide), ?_⟩
    simp [load]
  · have hin : 16 * n ≤ (w.view req.src).length := by
      simp only [World.view, List.length_drop]; omega
    have hiv0 : (P.encrypt ctx.key2.key_enc 14 w.iv).length = 16 := (hP _ _ _ hiv).1
    obtain ⟨e1, e2, _⟩ := essiv_cbc_encrypt_effect P hP W1 hW1 ctx w req n hn hc hiv hsrc hdst hal
    have hel := (cbc_encrypt_blocks_len P hP ctx.key1.key_enc (6 + ctx.key1.key_length / 4) n
      (w.view req.src) (P.encrypt ctx.key2.key_enc 14 w.iv) hin hiv0).1
    have hlen : ∀ i, (((essiv_cbc_encrypt P W1 ctx w req).2.mem) i).length =
        (w.mem i).length := by
      intro i; rw [e2]; exact world_write_length _ _ _ _ (by rw [hel]; exact hdst)
    obtain ⟨d1, d2, _⟩ := essiv_cbc_decrypt_effect P hP W2 hW2 ctx
      { (essiv_cbc_encrypt P W1 ctx w req).2 with iv := w.iv } dreq n hn (by rw [hdl, hc]) hiv
      (by rw [hds]; show _ ≤ (((essiv_cbc_encrypt P W1 ctx w req).2.mem) _).length
          rw [hlen]; exact hdst)
      (by show _ ≤ (((essiv_cbc_encrypt P W1 ctx w req).2.mem) _).length
          rw [hlen]; exact hddst)
      hdal
    have hcalls := essiv_cbc_decrypt_calls P W2 hW2 ctx
      { (essiv_cbc_encrypt P W1 ctx w req).2 with iv := w.iv } dreq n hn (by rw [hdl, hc]) hdal
    refine ⟨e1, d1, fun _ => ⟨d2, hcalls⟩, ?_⟩
    have hx : ((w.view req.src).take (16 * n)).length = 16 * n := by
      rw [List.length_take]; omega
    have hrt := round_trip_load w (essiv_cbc_encrypt P W1 ctx w req).2 _ w.iv
      (essiv_cbc_encrypt P W1 ctx w req).2.trace req dreq _ ((w.view req.src).take (16 * n))
      (fun inp => (cbc_decrypt_blocks P ctx.key1.key_dec (6 + ctx.key1.key_length / 4) n inp
        (P.encrypt ctx.key2.key_enc 14 w.iv)).1)
      e2 hds (by rw [hel]; exact hdst) (by omega) d2
      (fun rest => by
        show (cbc_decrypt_blocks P ctx.key1.key_dec (6 + ctx.key1.key_length / 4) n _ _).1 = _
        rw [cbc_blocks_round_trip P hP ctx.key1 hI n (w.view req.src) _ rest hin hiv0])
    rw [hx] at hrt
    exact hrt

/-- C16 on 48 bytes, encrypted from buffer 0 to buffer 1 and decrypted from
buffer 1 to buffer 2, both over segments of 7 bytes. -/
theorem essiv_cbc_round_trip_witness :
    (essiv_cbc_encrypt toyPrim toyCursor toyEssivCtx toyWorld (toyReq 48)).1 = 0 ∧
    load ((essiv_cbc_decrypt toyPrim toyCursor toyEssivCtx
      { (essiv_cbc_encrypt toyPrim toyCursor toyEssivCtx toyWorld (toyReq 48)).2 with
        iv := toyWorld.iv } (toyReqBack 48)).2.mem 2) 0 (16 * 3) =
      load (toyWorld.mem 0) 0 (16 * 3) :=
  ⟨(essiv_cbc_round_trip toyPrim toyPrim_blockPreserving toyEssivCtx toyPrim_inverse toyCursor
      toyCursor toyCursor_noFail toyCursor_noFail toyWorld (toyReq 48) (toyReqBack 48) 3
      rfl rfl rfl rfl (by decide) (by decide) (by decide)
      (Or.inr (by decide)) (Or.inr (by decide))).1,
   (essiv_cbc_round_trip toyPrim toyPrim_blockPreserving toyEssivCtx toyPrim_inverse toyCursor
      toyCursor toyCursor_noFail toyCursor_noFail toyWorld (toyReq 48) (toyReqBack 48) 3
      rfl rfl rfl rfl (by decide) (by decide) (by decide)
      (Or.inr (by decide)) (Or.inr (by decide))).2.2.2⟩

/-- C19: "ctr(aes)" and "xctr(aes)" register ctr_encrypt, resp. xctr_encrypt,
for both directions; and for every key, initial IV, request of any length
(whole blocks, a final partial block, or less than a block), scratch contents
and cursors that report no failure, the operation returns 0 and applying it a
second time to its output with the same key and initial IV returns 0 and
yields the original bytes. -/
theorem ctr_xctr_self_inverse (P : AesPrim) (hP : BlockPreserving P) (ctx : crypto_aes_ctx)
    (W1 W2 : Cursor) (hW1 : W1.NoFail) (hW2 : W2.NoFail) (buf1 buf2 : List Nat)
    (hb1 : buf1.length = 16) (hb2 : buf2.length = 16)
    (w : World) (req dreq : skcipher_request) (hlen : req.cryptlen < 2 ^ 32)
    (hdl : dreq.cryptlen = req.cryptlen) (hds : dreq.src = req.dst)
    (hiv : w.iv.length = 16)
    (hsrc : req.src.off + req.cryptlen ≤ (w.mem req.src.id).length)
    (hdst : req.dst.off + req.cryptlen ≤ (w.mem req.dst.id).length)
    (hddst : dreq.dst.off + req.cryptlen ≤ (w.mem dreq.dst.id).length)
    (hal : req.src = req.dst ∨ req.src.id ≠ req.dst.id)
    (hdal : dreq.src = dreq.dst ∨ dreq.src.id ≠ dreq.dst.id) :
    (aes_algs_ctr.encrypt = ctr_encrypt ∧ aes_algs_ctr.decrypt = ctr_encrypt ∧
     aes_algs_xctr.encrypt = xctr_encrypt ∧ aes_algs_xctr.decrypt = xctr_encrypt) ∧
    ((aes_algs_ctr.encrypt P W1 (ctr_tfm ctx) buf1 w req).1 = 0 ∧
     (aes_algs_ctr.decrypt P W2 (ctr_tfm ctx) buf2
       { (aes_algs_ctr.encrypt P W1 (ctr_tfm ctx) buf1 w req).2 with iv := w.iv } dreq).1 = 0 ∧
     load ((aes_algs_ctr.decrypt P W2 (ctr_tfm ctx) buf2
       { (aes_algs_ctr.encrypt P W1 (ctr_tfm ctx) buf1 w req).2 with iv := w.iv } dreq).2.mem
         dreq.dst.id) dreq.dst.off req.cryptlen =
       load (w.mem req.src.id) req.src.off req.cryptlen) ∧
    ((aes_algs_xctr.encrypt P W1 (xctr_tfm ctx) buf1 w req).1 = 0 ∧
     (aes_algs_xctr.decrypt P W2 (xctr_tfm ctx) buf2
       { (aes_algs_xctr.encrypt P W1 (xctr_tfm ctx) buf1 w req).2 with iv := w.iv } dreq).1 = 0 ∧
     load ((aes_algs_xctr.decrypt P W2 (xctr_tfm ctx) buf2
       { (aes_algs_xctr.encrypt P W1 (xctr_tfm ctx) buf1 w req).2 with iv := w.iv } dreq).2.mem
         dreq.dst.id) dreq.dst.off req.cryptlen =
       load (w.mem req.src.id) req.src.off req.cryptlen) := by
  have hin : req.cryptlen ≤ (w.view req.src).length := by
    simp only [World.view, List.length_drop]; omega
  have hx : ((w.view req.src).take req.cryptlen).length = req.cryptlen := by
    rw [List.length_take]; omega
  refine ⟨⟨rfl, rfl, rfl, rfl⟩, ?_, ?_⟩
  · show (ctr_encrypt P W1 (ctr_tfm ctx) buf1 w req).1 = 0 ∧
      (ctr_encrypt P W2 (ctr_tfm ctx) buf2
        { (ctr_encrypt P W1 (ctr_tfm ctx) buf1 w req).2 with iv := w.iv } dreq).1 = 0 ∧
      load ((ctr_encrypt P W2 (ctr_tfm ctx) buf2
        { (ctr_encrypt P W1 (ctr_tfm ctx) buf1 w req).2 with iv := w.iv } dreq).2.mem
          dreq.dst.id) dreq.dst.off req.cryptlen =
        load (w.mem req.src.id) req.src.off req.cryptlen
    obtain ⟨e1, e2⟩ := ctr_encrypt_effect P hP W1 hW1 ctx buf1 hb1 w req hlen hiv hsrc hdst hal
    have hel := ((ctr_bytes_chained P hP ctx.key_enc (6 + ctx.key_length / 4)).len req.cryptlen
      (w.view req.src) w.iv 0 hin hiv).1
    have hlm : ∀ i, (((ctr_encrypt P W1 (ctr_tfm ctx) buf1 w req).2.mem) i).length =
        (w.mem i).length := by
      intro i; rw [e2]; exact world_write_length _ _ _ _ (by rw [hel]; exact hdst)
    obtain ⟨d1, d2⟩ := ctr_encrypt_effect P hP W2 hW2 ctx buf2 hb2
      { (ctr_encrypt P W1 (ctr_tfm ctx) buf1 w req).2 with iv := w.iv } dreq
      (by rw [hdl]; exact hlen) hiv
      (by rw [hdl, hds]; show _ ≤ (((ctr_encrypt P W1 (ctr_tfm ctx) buf1 w req).2.mem) _).length
          rw [hlm]; exact hdst)
      (by rw [hdl]; show _ ≤ (((ctr_encrypt P W1 (ctr_tfm ctx) buf1 w req).2.mem) _).length
          rw [hlm]; exact hddst)
      hdal
    refine ⟨e1, d1, ?_⟩
    rw [hdl] at d2
    have hrt := round_trip_load w (ctr_encrypt P W1 (ctr_tfm ctx) buf1 w req).2 _ w.iv
      (ctr_encrypt P W1 (ctr_tfm ctx) buf1 w req).2.trace req dreq _
      ((w.view req.src).take req.cryptlen)
      (fun inp => (ctr_bytes P ctx.key_enc (6 + ctx.key_length / 4) req.cryptlen inp w.iv 0).1)
      e2 hds (by rw [hel]; exact hdst) (by omega) d2
      (fun rest => ctr_bytes_twice P hP _ _ _ _ _ rest 0 hin hiv)
    rw [hx] at hrt
    exact hrt
  · show (xctr_encrypt P W1 (xctr_tfm ctx) buf1 w req).1 = 0 ∧
      (xctr_encrypt P W2 (xctr_tfm ctx) buf2
        { (xctr_encrypt P W1 (xctr_tfm ctx) buf1 w req).2 with iv := w.iv } dreq).1 = 0 ∧
      load ((xctr_encrypt P W2 (xctr_tfm ctx) buf2
        { (xctr_encrypt P W1 (xctr_tfm ctx) buf1 w req).2 with iv := w.iv } dreq).2.mem
          dreq.dst.id) dreq.dst.off req.cryptlen =
        load (w.mem req.src.id) req.src.off req.cryptlen
    obtain ⟨e1, e2⟩ := xctr_encrypt_effect P hP W1 hW1 ctx buf1 hb1 w req hlen hiv hsrc hdst hal
    have hel := ((xctr_bytes_chained P hP ctx.key_enc (6 + ctx.key_length / 4)).len req.cryptlen
      (w.view req.src) w.iv 0 hin hiv).1
    have hlm : ∀ i, (((xctr_encrypt P W1 (xctr_tfm ctx) buf1 w req).2.mem) i).length =
        (w.mem i).length := by
      intro i; rw [e2]; exact world_write_length _ _ _ _ (by rw [hel]; exact hdst)
    obtain ⟨d1, d2⟩ := xctr_encrypt_effect P hP W2 hW2 ctx buf2 hb2
      { (xctr_encrypt P W1 (xctr_tfm ctx) buf1 w req).2 with iv := w.iv } dreq
      (by rw [hdl]; exact hlen) hiv
      (by rw [hdl, hds]; show _ ≤ (((xctr_encrypt P W1 (xctr_tfm ctx) buf1 w req).2.mem) _).length
          rw [hlm]; exact hdst)
      (by rw [hdl]; show _ ≤ (((xctr_encrypt P W1 (xctr_tfm ctx) buf1 w req).2.mem) _).length
          rw [hlm]; exact hddst)
      hdal
    refine ⟨e1, d1, ?_⟩
    rw [hdl] at d2
    have hrt := round_trip_load w (xctr_encrypt P W1 (xctr_tfm ctx) buf1 w req).2 _ w.iv
      (xctr_encrypt P W1 (xctr_tfm ctx) buf1 w req).2.trace req dreq _
      ((w.view req.src).take req.cryptlen)
      (fun inp => (xctr_bytes P ctx.key_enc (6 + ctx.key_length / 4) req.cryptlen inp w.iv 0).1)
      e2 hds (by rw [hel]; exact hdst) (by omega) d2
      (fun rest => xctr_bytes_twice P hP _ _ _ _ _ rest 0 hin hiv)
    rw [hx] at hrt
    exact hrt

/-- C19 on 37 bytes (two blocks and 5 bytes), processed from buffer 0 to
buffer 1 and again from buffer 1 to buffer 2, both over segments of 7 bytes. -/
theorem ctr_xctr_self_inverse_witness :
    load ((aes_algs_ctr.decrypt toyPrim toyCursor (ctr_tfm toyCtx) toyBuf
      { (aes_algs_ctr.encrypt toyPrim toyCursor (ctr_tfm toyCtx) toyBuf toyWorld
          (toyReq 37)).2 with iv := toyWorld.iv } (toyReqBack 37)).2.mem 2) 0 37 =
      load (toyWorld.mem 0) 0 37 ∧
    load ((aes_algs_xctr.decrypt toyPrim toyCursor (xctr_tfm toyCtx) toyBuf
      { (aes_algs_xctr.encrypt toyPrim toyCursor (xctr_tfm toyCtx) toyBuf toyWorld
          (toyReq 37)).2 with iv := toyWorld.iv } (toyReqBack 37)).2.mem 2) 0 37 =
      load (toyWorld.mem 0) 0 37 :=
  ⟨(ctr_xctr_self_inverse toyPrim toyPrim_blockPreserving toyCtx toyCursor toyCursor
      toyCursor_noFail toyCursor_noFail toyBuf toyBuf rfl rfl toyWorld (toyReq 37)
      (toyReqBack 37) (by decide) rfl rfl rfl (by decide) (by decide) (by decide)
      (Or.inr (by decide)) (Or.inr (by decide))).2.1.2.2,
   (ctr_xctr_self_inverse toyPrim toyPrim_blockPreserving toyCtx toyCursor toyCursor
      toyCursor_noFail toyCursor_noFail toyBuf toyBuf rfl rfl toyWorld (toyReq 37)
      (toyReqBack 37) (by decide) rfl rfl rfl (by decide) (by decide) (by decide)
      (Or.inr (by decide)) (Or.inr (by decide))).2.2.2.2⟩

/-- C11: for every request length below 16, xts_encrypt and xts_decrypt return
-EINVAL and leave the state as it was: destination, IV buffer and trace are
untouched, so no cursor was created and no primitive was called. -/
theorem xts_short_request (P : AesPrim) (W : Cursor) (ctx : crypto_aes_xts_ctx) (w : World)
    (req : skcipher_request) (h : req.cryptlen < 16) :
    xts_encrypt P W ctx w req = (-EINVAL, w) ∧ xts_decrypt P W ctx w req = (-EINVAL, w) := by
  have h' : req.cryptlen < AES_BLOCK_SIZE := h
  unfold xts_encrypt xts_decrypt
  dsimp only
  rw [if_pos h', if_pos h']
  exact ⟨rfl, rfl⟩

/-- C11 on a request of 15 bytes. -/
theorem xts_short_request_witness :
    xts_encrypt toyPrim toyCursor toyXtsCtx toyWorld (toyReq 15) = (-EINVAL, toyWorld) ∧
    xts_decrypt toyPrim toyCursor toyXtsCtx toyWorld (toyReq 15) = (-EINVAL, toyWorld) :=
  xts_short_request toyPrim toyCursor toyXtsCtx toyWorld (toyReq 15) (by decide)

/-- C12: XTS round trip. For a block cipher whose directions are mutually
inverse under the data key, every tweak key, IV and plaintext of 16 bytes or
more (below 2^32 - 15), whole blocks or not, and all cursors that report no
failure, however they cut the buffers, xts_encrypt returns 0 and xts_decrypt
of its output with the same key pair and IV returns 0 and yields the original
plaintext. -/
theorem xts_round_trip (P : AesPrim) (hP : BlockPreserving P) (ctx : crypto_aes_xts_ctx)
    (hI : Inverse P ctx.key1) (W1 W2 : Cursor) (hW1 : W1.NoFail) (hW2 : W2.NoFail)
    (w : World) (req dreq : skcipher_request)
    (hL : 16 ≤ req.cryptlen) (hU : req.cryptlen + 15 < 2 ^ 32)
    (hdl : dreq.cryptlen = req.cryptlen) (hds : dreq.src = req.dst)
    (hiv : w.iv.length = 16)
    (hsrc : req.src.off + req.cryptlen ≤ (w.mem req.src.id).length)
    (hdst : req.dst.off + req.cryptlen ≤ (w.mem req.dst.id).length)
    (hddst : dreq.dst.off + req.cryptlen ≤ (w.mem dreq.dst.id).length)
    (hal : req.src = req.dst ∨ req.src.id ≠ req.dst.id)
    (hdal : dreq.src = dreq.dst ∨ dreq.src.id ≠ dreq.dst.id) :
    (xts_encrypt P W1 ctx w req).1 = 0 ∧
    (xts_decrypt P W2 ctx { (xts_encrypt P W1 ctx w req).2 with iv := w.iv } dreq).1 = 0 ∧
    load ((xts_decrypt P W2 ctx
      { (xts_encrypt P W1 ctx w req).2 with iv := w.iv } dreq).2.mem dreq.dst.id)
      dreq.dst.off req.cryptlen =
      load (w.mem req.src.id) req.src.off req.cryptlen := by
  have hin : req.cryptlen ≤ (w.view req.src).length := by
    simp only [World.view, List.length_drop]; omega
  have hx : ((w.view req.src).take req.cryptlen).length = req.cryptlen := by
    rw [List.length_take]; omega
  have hE : ∀ b : List Nat, b.length = 16 →
      (P.encrypt ctx.key1.key_enc (6 + ctx.key1.key_length / 4) b).length = 16 :=
    fun b hb => (hP _ _ b hb).1
  have ht0 : (P.encrypt ctx.key2.key_enc (6 + ctx.key1.key_length / 4) w.iv).length = 16 :=
    (hP _ _ _ hiv).1
  obtain ⟨e1, e2⟩ := xts_encrypt_effect P hP W1 hW1 ctx w req hL hU hiv hsrc hdst hal
  have hel := (xts_encrypt_prim P hP ctx.key1.key_enc ctx.key2.key_enc
    (6 + ctx.key1.key_length / 4)).len (w.view req.src) req.cryptlen w.iv 1 hL hin hiv
  have hel' : (xts_bytes (P.encrypt ctx.key1.key_enc (6 + ctx.key1.key_length / 4))
      (xts_steal_encrypt (P.encrypt ctx.key1.key_enc (6 + ctx.key1.key_length / 4)))
      req.cryptlen (w.view req.src)
      (P.encrypt ctx.key2.key_enc (6 + ctx.key1.key_length / 4) w.iv)).1.length =
      req.cryptlen := hel
  have hlm : ∀ i, (((xts_encrypt P W1 ctx w req).2.mem) i).length = (w.mem i).length := by
    intro i; rw [e2]; exact world_write_length _ _ _ _ (by rw [hel']; exact hdst)
  obtain ⟨d1, d2⟩ := xts_decrypt_effect P hP W2 hW2 ctx
    { (xts_encrypt P W1 ctx w req).2 with iv := w.iv } dreq
    (by rw [hdl]; exact hL) (by rw [hdl]; exact hU) hiv
    (by rw [hdl, hds]; show _ ≤ (((xts_encrypt P W1 ctx w req).2.mem) _).length
        rw [hlm]; exact hdst)
    (by rw [hdl]; show _ ≤ (((xts_encrypt P W1 ctx w req).2.mem) _).length
        rw [hlm]; exact hddst)
    hdal
  refine ⟨e1, d1, ?_⟩
  rw [hdl] at d2
  have hrt := round_trip_load w (xts_encrypt P W1 ctx w req).2 _ w.iv
    (xts_encrypt P W1 ctx w req).2.trace req dreq _
    ((w.view req.src).take req.cryptlen)
    (fun inp => (xts_bytes (P.decrypt ctx.key1.key_dec (6 + ctx.key1.key_length / 4))
          (xts_steal_decrypt (P.decrypt ctx.key1.key_dec (6 + ctx.key1.key_length / 4)))
          req.cryptlen inp
          (P.encrypt ctx.key2.key_enc (6 + ctx.key1.key_length / 4) w.iv)).1)
    e2 hds (by rw [hel']; exact hdst) (by omega) d2
    (fun rest => xts_bytes_round_trip _ _ hE hI req.cryptlen (w.view req.src) _ rest hL hin ht0)
  rw [hx] at hrt
  exact hrt

/-- C12 on 37 bytes (two blocks and 5 bytes), encrypted from buffer 0 to
buffer 1 and decrypted from buffer 1 to buffer 2, both over segments of 7
bytes. -/
theorem xts_round_trip_witness :
    (xts_encrypt toyPrim toyCursor toyXtsCtx toyWorld (toyReq 37)).1 = 0 ∧
    load ((xts_decrypt toyPrim toyCursor toyXtsCtx
      { (xts_encrypt toyPrim toyCursor toyXtsCtx toyWorld (toyReq 37)).2 with
        iv := toyWorld.iv } (toyReqBack 37)).2.mem 2) 0 37 =
      load (toyWorld.mem 0) 0 37 :=
  ⟨(xts_round_trip toyPrim toyPrim_blockPreserving toyXtsCtx toyPrim_inverse toyCursor
      toyCursor toyCursor_noFail toyCursor_noFail toyWorld (toyReq 37) (toyReqBack 37)
      (by decide) (by decide) rfl rfl rfl (by decide) (by decide) (by decide)
      (Or.inr (by decide)) (Or.inr (by decide))).1,
   (xts_round_trip toyPrim toyPrim_blockPreserving toyXtsCtx toyPrim_inverse toyCursor
      toyCursor toyCursor_noFail toyCursor_noFail toyWorld (toyReq 37) (toyReqBack 37)
      (by decide) (by decide) rfl rfl rfl (by decide) (by decide) (by decide)
      (Or.inr (by decide)) (Or.inr (by decide))).2.2⟩

/-- C20: the round count 6 + key_length/4 is 10, 12 and 14 for key lengths of
16, 24 and 32 bytes, the only lengths a successful key expansion leaves in a
context; and in every state, for every cursor and request, every call of a
block primitive made by ecb_encrypt, ecb_decrypt, cbc_encrypt, cbc_decrypt,
cts_cbc_encrypt, cts_cbc_decrypt, ctr_encrypt, xctr_encrypt and mac_do_update
passes 6 + key_length/4 of the transform's key, and every call made by
xts_encrypt, xts_decrypt, essiv_cbc_encrypt and essiv_cbc_decrypt passes
6 + key_length/4 of the data (primary) key. -/
theorem rounds_from_key_length (P : AesPrim) (W : Cursor) (tfm : crypto_skcipher)
    (xctx : crypto_aes_xts_ctx) (ectx : crypto_aes_essiv_cbc_ctx) (buf : List Nat)
    (w : World) (req : skcipher_request) (inp dg : List Nat) (blocks : Nat) (eb : Bool) :
    (∀ (ctx0 : crypto_aes_ctx) (in_key : List Nat) (key_len : Nat),
      (aes_expandkey P ctx0 in_key key_len).1 = 0 →
      (aes_expandkey P ctx0 in_key key_len).2.key_length = key_len ∧
      ((key_len = 16 ∧ 6 + (aes_expandkey P ctx0 in_key key_len).2.key_length / 4 = 10) ∨
       (key_len = 24 ∧ 6 + (aes_expandkey P ctx0 in_key key_len).2.key_length / 4 = 12) ∨
       (key_len = 32 ∧ 6 + (aes_expandkey P ctx0 in_key key_len).2.key_length / 4 = 14))) ∧
    (RoundsOK (6 + tfm.ctx.key_length / 4) w.trace →
      RoundsOK (6 + tfm.ctx.key_length / 4) (ecb_encrypt P W tfm w req).2.trace ∧
      RoundsOK (6 + tfm.ctx.key_length / 4) (ecb_decrypt P W tfm w req).2.trace ∧
      RoundsOK (6 + tfm.ctx.key_length / 4) (cbc_encrypt P W tfm w req).2.trace ∧
      RoundsOK (6 + tfm.ctx.key_length / 4) (cbc_decrypt P W tfm w req).2.trace ∧
      RoundsOK (6 + tfm.ctx.key_length / 4) (cts_cbc_encrypt P W tfm w req).2.trace ∧
      RoundsOK (6 + tfm.ctx.key_length / 4) (cts_cbc_decrypt P W tfm w req).2.trace ∧
      RoundsOK (6 + tfm.ctx.key_length / 4) (ctr_encrypt P W tfm buf w req).2.trace ∧
      RoundsOK (6 + tfm.ctx.key_length / 4) (xctr_encrypt P W tfm buf w req).2.trace) ∧
    (RoundsOK (6 + xctx.key1.key_length / 4) w.trace →
      RoundsOK (6 + xctx.key1.key_length / 4) (xts_encrypt P W xctx w req).2.trace ∧
      RoundsOK (6 + xctx.key1.key_length / 4) (xts_decrypt P W xctx w req).2.trace) ∧
    (RoundsOK (6 + ectx.key1.key_length / 4) w.trace →
      RoundsOK (6 + ectx.key1.key_length / 4) (essiv_cbc_encrypt P W ectx w req).2.trace ∧
      RoundsOK (6 + ectx.key1.key_length / 4) (essiv_cbc_decrypt P W ectx w req).2.trace) ∧
    RoundsOK (6 + tfm.ctx.key_length / 4) (mac_do_update P tfm.ctx inp blocks dg eb).2 := by
  refine ⟨fun ctx0 in_key key_len h => ?_, fun h0 => ?_, fun h0 => ?_, fun h0 => ?_, ?_⟩
  · have hk := aes_expandkey_ok P ctx0 in_key key_len h
    have hl := (aes_expandkey_ok_iff P ctx0 in_key key_len).mp h
    rw [hk]
    refine ⟨rfl, ?_⟩
    show (key_len = 16 ∧ 6 + key_len / 4 = 10) ∨ (key_len = 24 ∧ 6 + key_len / 4 = 12) ∨
      (key_len = 32 ∧ 6 + key_len / 4 = 14)
    omega
  · exact ⟨roundsOK_extends _ _ _ (ecb_encrypt_extends P W tfm w req) h0,
      roundsOK_extends _ _ _ (ecb_decrypt_extends P W tfm w req) h0,
      roundsOK_extends _ _ _ (cbc_encrypt_extends P W tfm w req) h0,
      roundsOK_extends _ _ _ (cbc_decrypt_extends P W tfm w req) h0,
      roundsOK_extends _ _ _ (cts_cbc_encrypt_extends P W tfm w req) h0,
      roundsOK_extends _ _ _ (cts_cbc_decrypt_extends P W tfm w req) h0,
      roundsOK_extends _ _ _ (ctr_encrypt_extends P W tfm buf w req) h0,
      roundsOK_extends _ _ _ (xctr_encrypt_extends P W tfm buf w req) h0⟩
  · exact ⟨roundsOK_extends _ _ _ (xts_encrypt_extends P W xctx w req) h0,
      roundsOK_extends _ _ _ (xts_decrypt_extends P W xctx w req) h0⟩
  · exact ⟨roundsOK_extends _ _ _ (essiv_cbc_encrypt_extends P W ectx w req) h0,
      roundsOK_extends _ _ _ (essiv_cbc_decrypt_extends P W ectx w req) h0⟩
  · exact mac_do_update_loop_passes P tfm.ctx eb _ _ _ _

/-- C20 for a 16-byte key: from the empty trace, every call made by
ecb_encrypt and by xts_encrypt on a request of 37 bytes passes 10 rounds. -/
theorem rounds_from_key_length_witness :
    RoundsOK 10 (ecb_encrypt toyPrim toyCursor (ecb_tfm toyCtx) toyWorld (toyReq 37)).2.trace ∧
    RoundsOK 10 (xts_encrypt toyPrim toyCursor toyXtsCtx toyWorld (toyReq 37)).2.trace :=
  ⟨((rounds_from_key_length toyPrim toyCursor (ecb_tfm toyCtx) toyXtsCtx toyEssivCtx toyBuf
      toyWorld (toyReq 37) [] [] 0 false).2.1 (fun e he => by cases he)).1,
   ((rounds_from_key_length toyPrim toyCursor (ecb_tfm toyCtx) toyXtsCtx toyEssivCtx toyBuf
      toyWorld (toyReq 37) [] [] 0 false).2.2.1 (fun e he => by cases he)).1⟩

/-- C21 does not hold of the code at the top of the 32-bit length range. On a
request of L = 2^32 - 1 bytes the claimed split is cbc_blocks = ceil(L/16) - 2
= 268435454, plain CBC over the first 16 * 268435454 bytes and the stealing
step on the last 31 bytes. In cts_cbc_encrypt and cts_cbc_decrypt the
rounded-up block count wraps to 0 in 32 bits, cbc_blocks is -2, the test
cbc_blocks > 0 fails so that no block runs through plain CBC, the length
L + 32 of the stealing step wraps to 31, and the functions return 0 after one
call of the stealing primitive on 31 bytes: over zeroed buffers the first 31
bytes of the destination hold the output of that call and the 64 bytes after
them are still zero. -/
theorem cts_cbc_split_wrap :
    16 < (toyReq 4294967295).cryptlen ∧
    cts_lead 4294967295 = 268435454 ∧
    16 * cts_lead 4294967295 = 4294967264 ∧
    4294967295 - 16 * cts_lead 4294967295 = 31 ∧
    DIV_ROUND_UP (toyReq 4294967295).cryptlen AES_BLOCK_SIZE = 0 ∧
    to_int (DIV_ROUND_UP (toyReq 4294967295).cryptlen AES_BLOCK_SIZE + 2 ^ 32 - 2) = -2 ∧
    (cts_cbc_encrypt toyPrim toyCursor (cts_tfm toyCtx) toyWorldLarge
      (toyReq 4294967295)).1 = 0 ∧
    cbc_blocks_done (cts_cbc_encrypt toyPrim toyCursor (cts_tfm toyCtx) toyWorldLarge
      (toyReq 4294967295)).2.trace = 0 ∧
    (cts_cbc_encrypt toyPrim toyCursor (cts_tfm toyCtx) toyWorldLarge
      (toyReq 4294967295)).2.trace =
      [Event.skcipher_walk_virt 31, Event.kernel_neon_begin,
       Event.aes_cbc_cts_encrypt [7] 10 31, Event.encrypt_block, Event.encrypt_block,
       Event.kernel_neon_end, Event.skcipher_walk_done 0] ∧
    ((cts_cbc_encrypt toyPrim toyCursor (cts_tfm toyCtx) toyWorldLarge
      (toyReq 4294967295)).2.mem 1).take 31 =
      (aes_cbc_cts_encrypt toyPrim (List.replicate 31 0) [7] 10 31 (List.range 16)).1 ∧
    (aes_cbc_cts_encrypt toyPrim (List.replicate 31 0) [7] 10 31 (List.range 16)).1 ≠
      List.replicate 31 0 ∧
    load ((cts_cbc_encrypt toyPrim toyCursor (cts_tfm toyCtx) toyWorldLarge
      (toyReq 4294967295)).2.mem 1) 31 64 = List.replicate 64 0 ∧
    (cts_cbc_decrypt toyPrim toyCursor (cts_tfm toyCtx) toyWorldLarge
      (toyReq 4294967295)).1 = 0 ∧
    (cts_cbc_decrypt toyPrim toyCursor (cts_tfm toyCtx) toyWorldLarge
      (toyReq 4294967295)).2.trace =
      [Event.skcipher_walk_virt 31, Event.kernel_neon_begin,
       Event.aes_cbc_cts_decrypt [7] 10 31, Event.decrypt_block, Event.decrypt_block,
       Event.kernel_neon_end, Event.skcipher_walk_done 0] := by
  decide

/-- The split of cts_cbc_encrypt and cts_cbc_decrypt where the 32-bit length
arithmetic does not wrap: for every request length L with 16 < L <= 2^32 - 16,
the functions compute cbc_blocks = ceil(L/16) - 2 >= 0;
for every cursor they run plain CBC, as cbc_encrypt and cbc_decrypt do, over
the sub-request of the first 16*cbc_blocks bytes (nothing when cbc_blocks is
0), and unless that fails they hand the stealing step the sub-request of
L - 16*cbc_blocks bytes that starts at offset 16*cbc_blocks of source and
destination; that tail has 17 to 32 bytes and the two lengths add up to L;
when the cursor maps the tail without failure the stealing primitive is called
once on exactly those bytes. -/
theorem cts_cbc_split (P : AesPrim) (W : Cursor) (ctx : crypto_aes_ctx) (w : World)
    (req : skcipher_request) (h1 : 16 < req.cryptlen) (h2 : req.cryptlen + 15 < 2 ^ 32) :
    (to_int (DIV_ROUND_UP req.cryptlen AES_BLOCK_SIZE + 2 ^ 32 - 2) =
       ((cts_lead req.cryptlen : Nat) : Int) ∧
     cts_lead req.cryptlen = (req.cryptlen + 15) / 16 - 2 ∧
     17 ≤ req.cryptlen - 16 * cts_lead req.cryptlen ∧
     req.cryptlen - 16 * cts_lead req.cryptlen ≤ 32 ∧
     16 * cts_lead req.cryptlen + (req.cryptlen - 16 * cts_lead req.cryptlen) = req.cryptlen) ∧
    (cts_cbc_encrypt P W (cts_tfm ctx) w req =
      if cts_lead req.cryptlen ≠ 0 ∧ (cbc_encrypt P W (cts_tfm ctx) w
          { src := req.src, dst := req.dst, cryptlen := 16 * cts_lead req.cryptlen }).1 ≠ 0 then
        cbc_encrypt P W (cts_tfm ctx) w
          { src := req.src, dst := req.dst, cryptlen := 16 * cts_lead req.cryptlen }
      else
        cts_cbc_encrypt_tail P W (cts_tfm ctx)
          (if cts_lead req.cryptlen = 0 then w else
            (cbc_encrypt P W (cts_tfm ctx) w
              { src := req.src, dst := req.dst, cryptlen := 16 * cts_lead req.cryptlen }).2)
          req (scatterwalk_ffwd req.src (16 * cts_lead req.cryptlen))
          (scatterwalk_ffwd req.dst (16 * cts_lead req.cryptlen))
          ((cts_lead req.cryptlen : Nat) : Int)) ∧
    (cts_cbc_decrypt P W (cts_tfm ctx) w req =
      if cts_lead req.cryptlen ≠ 0 ∧ (cbc_decrypt P W (cts_tfm ctx) w
          { src := req.src, dst := req.dst, cryptlen := 16 * cts_lead req.cryptlen }).1 ≠ 0 then
        cbc_decrypt P W (cts_tfm ctx) w
          { src := req.src, dst := req.dst, cryptlen := 16 * cts_lead req.cryptlen }
      else
        cts_cbc_decrypt_tail P W (cts_tfm ctx)
          (if cts_lead req.cryptlen = 0 then w else
            (cbc_decrypt P W (cts_tfm ctx) w
              { src := req.src, dst := req.dst, cryptlen := 16 * cts_lead req.cryptlen }).2)
          req (scatterwalk_ffwd req.src (16 * cts_lead req.cryptlen))
          (scatterwalk_ffwd req.dst (16 * cts_lead req.cryptlen))
          ((cts_lead req.cryptlen : Nat) : Int)) ∧
    (∀ w1 : World,
      W.fail (req.src.off + 16 * cts_lead req.cryptlen)
        (req.cryptlen - 16 * cts_lead req.cryptlen) = 0 →
      cts_cbc_encrypt_tail P W (cts_tfm ctx) w1 req
          (scatterwalk_ffwd req.src (16 * cts_lead req.cryptlen))
          (scatterwalk_ffwd req.dst (16 * cts_lead req.cryptlen))
          ((cts_lead req.cryptlen : Nat) : Int) =
        (0, { mem := (w1.write (scatterwalk_ffwd req.dst (16 * cts_lead req.cryptlen))
                (aes_cbc_cts_encrypt P
                  (w1.view (scatterwalk_ffwd req.src (16 * cts_lead req.cryptlen)))
                  ctx.key_enc (6 + ctx.key_length / 4)
                  (req.cryptlen - 16 * cts_lead req.cryptlen) w1.iv).1).mem,
              iv := w1.iv,
              trace := w1.trace ++
                [Event.skcipher_walk_virt (req.cryptlen - 16 * cts_lead req.cryptlen),
                 Event.kernel_neon_begin,
                 Event.aes_cbc_cts_encrypt ctx.key_enc (6 + ctx.key_length / 4)
                   (req.cryptlen - 16 * cts_lead req.cryptlen),
                 Event.encrypt_block, Event.encrypt_block, Event.kernel_neon_end,
                 Event.skcipher_walk_done 0] }) ∧
      cts_cbc_decrypt_tail P W (cts_tfm ctx) w1 req
          (scatterwalk_ffwd req.src (16 * cts_lead req.cryptlen))
          (scatterwalk_ffwd req.dst (16 * cts_lead req.cryptlen))
          ((cts_lead req.cryptlen : Nat) : Int) =
        (0, { mem := (w1.write (scatterwalk_ffwd req.dst (16 * cts_lead req.cryptlen))
                (aes_cbc_cts_decrypt P
                  (w1.view (scatterwalk_ffwd req.src (16 * cts_lead req.cryptlen)))
                  ctx.key_dec (6 + ctx.key_length / 4)
                  (req.cryptlen - 16 * cts_lead req.cryptlen) w1.iv).1).mem,
              iv := w1.iv,
              trace := w1.trace ++
                [Event.skcipher_walk_virt (req.cryptlen - 16 * cts_lead req.cryptlen),
                 Event.kernel_neon_begin,
                 Event.aes_cbc_cts_decrypt ctx.key_dec (6 + ctx.key_length / 4)
                   (req.cryptlen - 16 * cts_lead req.cryptlen),
                 Event.decrypt_block, Event.decrypt_block, Event.kernel_neon_end,
                 Event.skcipher_walk_done 0] })) := by
  obtain ⟨b1, b2⟩ := cts_tail_bounds req.cryptlen h1
  have ht := to_u32_tail req.cryptlen (cts_lead req.cryptlen) (by omega) (by omega)
  refine ⟨⟨cts_cbc_blocks_val req.cryptlen h1 h2, rfl, by omega, by omega, by omega⟩,
    ?_, ?_, ?_⟩
  · rw [cts_encrypt_phases P W ctx w req h1 h2]
    by_cases hn : cts_lead req.cryptlen = 0
    · simp only [hn, ne_eq, not_true_eq_false, false_and, if_false, if_true, Nat.mul_zero,
        scatterwalk_ffwd_zero]
      rfl
    · simp only [hn, ne_eq, not_false_eq_true, true_and, if_false]
  · rw [cts_decrypt_phases P W ctx w req h1 h2]
    by_cases hn : cts_lead req.cryptlen = 0
    · simp only [hn, ne_eq, not_true_eq_false, false_and, if_false, if_true, Nat.mul_zero,
        scatterwalk_ffwd_zero]
      rfl
    · simp only [hn, ne_eq, not_false_eq_true, true_and, if_false]
  · intro w1 hf
    exact ⟨cts_encrypt_tail_ok P W ctx w1 req _ _ _ _ ht (by omega) (by omega) hf,
      cts_decrypt_tail_ok P W ctx w1 req _ _ _ _ ht (by omega) (by omega) hf⟩

/-- The split on a request of 50 bytes: it has cbc_blocks = 2 and a
tail of 18 bytes, and over segments of 7 bytes the stealing primitive is
called on those 18 bytes after two blocks of plain CBC. -/
theorem cts_cbc_split_witness :
    16 < (toyReq 50).cryptlen ∧ (toyReq 50).cryptlen + 15 < 2 ^ 32 ∧
    (to_int (DIV_ROUND_UP (toyReq 50).cryptlen AES_BLOCK_SIZE + 2 ^ 32 - 2) =
       ((cts_lead (toyReq 50).cryptlen : Nat) : Int) ∧
     cts_lead (toyReq 50).cryptlen = ((toyReq 50).cryptlen + 15) / 16 - 2 ∧
     17 ≤ (toyReq 50).cryptlen - 16 * cts_lead (toyReq 50).cryptlen ∧
     (toyReq 50).cryptlen - 16 * cts_lead (toyReq 50).cryptlen ≤ 32 ∧
     16 * cts_lead (toyReq 50).cryptlen +
       ((toyReq 50).cryptlen - 16 * cts_lead (toyReq 50).cryptlen) = (toyReq 50).cryptlen) ∧
    cbc_blocks_done
      (cts_cbc_encrypt toyPrim toyCursor (cts_tfm toyCtx) toyWorld (toyReq 50)).2.trace = 2 ∧
    Event.aes_cbc_cts_encrypt [7] 10 18 ∈
      (cts_cbc_encrypt toyPrim toyCursor (cts_tfm toyCtx) toyWorld (toyReq 50)).2.trace :=
  ⟨by decide, by decide,
   (cts_cbc_split toyPrim toyCursor toyCtx toyWorld (toyReq 50) (by decide) (by decide)).1,
   by decide, by decide⟩

/-- C22: for every 32-bit request length L >= 16. When L mod 16 = r is not 0
and the first run of the cursor is shorter than the request, xts_encrypt and
xts_decrypt abort the cursor and run the loop over a cursor on the sub-request
of 16*(ceil(L/16) - 2) bytes, which under a cursor that reports no failure
hands exactly that many bytes to the primitive; unless the loop fails they
then run the tail step, one call on exactly 16 + r bytes found at offset
16*(ceil(L/16) - 2) of source and destination, and the two lengths add up to
L. When r = 0 or the first run is the whole request, the functions are their
loop over the cursor of the whole request: no cursor is aborted or created
after the first, and under a cursor that reports no failure the loop hands
all L bytes to the primitive. -/
theorem xts_tail_split (P : AesPrim) (W : Cursor) (ctx : crypto_aes_xts_ctx) (w : World)
    (req : skcipher_request) (hL : 16 ≤ req.cryptlen) (hU : req.cryptlen < 2 ^ 32) :
    (req.cryptlen % 16 ≠ 0 ∧ (skcipher_walk_virt W alg_xts req).2.nbytes < req.cryptlen →
      (cts_lead req.cryptlen = (req.cryptlen + 15) / 16 - 2 ∧
       16 * cts_lead req.cryptlen + (16 + req.cryptlen % 16) = req.cryptlen) ∧
      (xts_start W w req).2.1.trace = w.trace ++
        [Event.skcipher_walk_virt req.cryptlen, Event.skcipher_walk_abort,
         Event.skcipher_walk_virt (16 * cts_lead req.cryptlen)] ∧
      (xts_start W w req).2.2.1 = (skcipher_walk_virt W alg_xts (xts_lead_req req)).2 ∧
      (xts_encrypt P W ctx w req =
        if (xts_encrypt_bulk P W ctx w req).1 ≠ 0 then
          ((xts_encrypt_bulk P W ctx w req).1, (xts_encrypt_bulk P W ctx w req).2.1)
        else xts_encrypt_tail P W ctx (6 + ctx.key1.key_length / 4)
          (xts_encrypt_bulk P W ctx w req).2.1 (xts_lead_req req) (req.cryptlen % 16)
          (xts_encrypt_bulk P W ctx w req).2.2.2) ∧
      (xts_decrypt P W ctx w req =
        if (xts_decrypt_bulk P W ctx w req).1 ≠ 0 then
          ((xts_decrypt_bulk P W ctx w req).1, (xts_decrypt_bulk P W ctx w req).2.1)
        else xts_decrypt_tail P W ctx (6 + ctx.key1.key_length / 4)
          (xts_decrypt_bulk P W ctx w req).2.1 (xts_lead_req req) (req.cryptlen % 16)
          (xts_decrypt_bulk P W ctx w req).2.2.2) ∧
      (W.NoFail →
        xts_bytes_done (xts_encrypt_bulk P W ctx w req).2.1.trace =
          xts_bytes_done w.trace + 16 * cts_lead req.cryptlen ∧
        xts_bytes_done (xts_decrypt_bulk P W ctx w req).2.1.trace =
          xts_bytes_done w.trace + 16 * cts_lead req.cryptlen) ∧
      (∀ (w1 : World) (first : Nat),
        W.fail (req.src.off + 16 * cts_lead req.cryptlen) (16 + req.cryptlen % 16) = 0 →
        xts_encrypt_tail P W ctx (6 + ctx.key1.key_length / 4) w1 (xts_lead_req req)
            (req.cryptlen % 16) first =
          (0, { mem := (w1.write (scatterwalk_ffwd req.dst (16 * cts_lead req.cryptlen))
                  (aes_xts_encrypt P
                    (w1.view (scatterwalk_ffwd req.src (16 * cts_lead req.cryptlen)))
                    ctx.key1.key_enc (6 + ctx.key1.key_length / 4) (16 + req.cryptlen % 16)
                    ctx.key2.key_enc w1.iv first).1).mem,
                iv := (aes_xts_encrypt P
                    (w1.view (scatterwalk_ffwd req.src (16 * cts_lead req.cryptlen)))
                    ctx.key1.key_enc (6 + ctx.key1.key_length / 4) (16 + req.cryptlen % 16)
                    ctx.key2.key_enc w1.iv first).2.1,
                trace := w1.trace ++ [Event.skcipher_walk_virt (16 + req.cryptlen % 16)] ++
                  ([Event.kernel_neon_begin] ++
                    (aes_xts_encrypt P
                      (w1.view (scatterwalk_ffwd req.src (16 * cts_lead req.cryptlen)))
                      ctx.key1.key_enc (6 + ctx.key1.key_length / 4) (16 + req.cryptlen % 16)
                      ctx.key2.key_enc w1.iv first).2.2 ++ [Event.kernel_neon_end]) ++
                  [Event.skcipher_walk_done 0] }) ∧
        xts_decrypt_tail P W ctx (6 + ctx.key1.key_length / 4) w1 (xts_lead_req req)
            (req.cryptlen % 16) first =
          (0, { mem := (w1.write (scatterwalk_ffwd req.dst (16 * cts_lead req.cryptlen))
                  (aes_xts_decrypt P
                    (w1.view (scatterwalk_ffwd req.src (16 * cts_lead req.cryptlen)))
                    ctx.key1.key_dec (6 + ctx.key1.key_length / 4) (16 + req.cryptlen % 16)
                    ctx.key2.key_enc w1.iv first).1).mem,
                iv := (aes_xts_decrypt P
                    (w1.view (scatterwalk_ffwd req.src (16 * cts_lead req.cryptlen)))
                    ctx.key1.key_dec (6 + ctx.key1.key_length / 4) (16 + req.cryptlen % 16)
                    ctx.key2.key_enc w1.iv first).2.1,
                trace := w1.trace ++ [Event.skcipher_walk_virt (16 + req.cryptlen % 16)] ++
                  ([Event.kernel_neon_begin] ++
                    (aes_xts_decrypt P
                      (w1.view (scatterwalk_ffwd req.src (16 * cts_lead req.cryptlen)))
                      ctx.key1.key_dec (6 + ctx.key1.key_length / 4) (16 + req.cryptlen % 16)
                      ctx.key2.key_enc w1.iv first).2.2 ++ [Event.kernel_neon_end]) ++
                  [Event.skcipher_walk_done 0] }))) ∧
    (¬ (req.cryptlen % 16 ≠ 0 ∧ (skcipher_walk_virt W alg_xts req).2.nbytes < req.cryptlen) →
      xts_encrypt P W ctx w req =
        ((xts_encrypt_bulk P W ctx w req).1, (xts_encrypt_bulk P W ctx w req).2.1) ∧
      xts_decrypt P W ctx w req =
        ((xts_decrypt_bulk P W ctx w req).1, (xts_decrypt_bulk P W ctx w req).2.1) ∧
      (∃ tr, (xts_encrypt_bulk P W ctx w req).2.1.trace =
          w.trace ++ [Event.skcipher_walk_virt req.cryptlen] ++ tr ∧
        (∀ e ∈ tr, e.notStart) ∧ (W.NoFail → xts_bytes_done tr = req.cryptlen)) ∧
      (∃ tr, (xts_decrypt_bulk P W ctx w req).2.1.trace =
          w.trace ++ [Event.skcipher_walk_virt req.cryptlen] ++ tr ∧
        (∀ e ∈ tr, e.notStart) ∧ (W.NoFail → xts_bytes_done tr = req.cryptlen))) := by
  have htot : (skcipher_walk_virt W alg_xts req).2.total = req.cryptlen :=
    (walk_virt_st W alg_xts req rfl (by decide)).2.1
  constructor
  · intro hc0
    have hc : req.cryptlen % 16 ≠ 0 ∧
        (skcipher_walk_virt W alg_xts req).2.nbytes <
          (skcipher_walk_virt W alg_xts req).2.total := ⟨hc0.1, by rw [htot]; exact hc0.2⟩
    have hs := xts_start_sub W w req hL hU hc
    refine ⟨⟨rfl, by unfold cts_lead; omega⟩, ?_, ?_, ?_, ?_, ?_, ?_⟩
    · rw [hs]
      simp only [World.emit, List.append_assoc, List.singleton_append]
    · rw [hs]
      rfl
    · rw [xts_encrypt_eq, xts_crypt_stolen _ W w req hL hU hc, xts_encrypt_bulk_eq]
      rfl
    · rw [xts_decrypt_eq, xts_crypt_stolen _ W w req hL hU hc, xts_decrypt_bulk_eq]
      rfl
    · intro hW
      rw [xts_encrypt_bulk_eq, xts_decrypt_bulk_eq]
      exact ⟨xts_bulk_bytes_sub _ (fun _ _ _ _ => xts_bytes_encrypt P _ _ _ _ _ _ _) W hW w req
          hL hU hc,
        xts_bulk_bytes_sub _ (fun _ _ _ _ => xts_bytes_decrypt P _ _ _ _ _ _ _) W hW w req
          hL hU hc⟩
    · intro w1 first hf
      have hr : 0 < req.cryptlen % 16 := Nat.pos_of_ne_zero hc.1
      exact ⟨xts_crypt_tail_eq (fun inp bytes iv fst =>
            aes_xts_encrypt P inp ctx.key1.key_enc (6 + ctx.key1.key_length / 4) bytes
              ctx.key2.key_enc iv fst) W w1 (xts_lead_req req) (req.cryptlen % 16) first hr
            (Nat.mod_lt _ (by decide)) hf,
        xts_crypt_tail_eq (fun inp bytes iv fst =>
            aes_xts_decrypt P inp ctx.key1.key_dec (6 + ctx.key1.key_length / 4) bytes
              ctx.key2.key_enc iv fst) W w1 (xts_lead_req req) (req.cryptlen % 16) first hr
            (Nat.mod_lt _ (by decide)) hf⟩
  · intro hc0
    have hc : ¬ (req.cryptlen % 16 ≠ 0 ∧
        (skcipher_walk_virt W alg_xts req).2.nbytes <
          (skcipher_walk_virt W alg_xts req).2.total) :=
      fun h => hc0 ⟨h.1, by rw [← htot]; exact h.2⟩
    refine ⟨?_, ?_, ?_, ?_⟩
    · rw [xts_encrypt_eq, (xts_crypt_direct _ W w req hL hc).2, xts_encrypt_bulk_eq]
    · rw [xts_decrypt_eq, (xts_crypt_direct _ W w req hL hc).2, xts_decrypt_bulk_eq]
    · rw [xts_encrypt_bulk_eq]
      exact xts_bulk_trace_direct _ (fun _ _ _ _ => xts_bytes_encrypt P _ _ _ _ _ _ _)
        (fun _ _ _ _ => notStart_xts_encrypt P _ _ _ _ _ _ _) W w req hL hc
    · rw [xts_decrypt_bulk_eq]
      exact xts_bulk_trace_direct _ (fun _ _ _ _ => xts_bytes_decrypt P _ _ _ _ _ _ _)
        (fun _ _ _ _ => notStart_xts_decrypt P _ _ _ _ _ _ _) W w req hL hc

/-- C22 on a request of 37 bytes over segments of 7 bytes: the first run of 32
bytes is shorter than the request, the loop is handed 16 bytes and the tail
step 21 bytes, and 16 + 21 = 37. -/
theorem xts_tail_split_witness :
    16 ≤ (toyReq 37).cryptlen ∧ (toyReq 37).cryptlen < 2 ^ 32 ∧
    ((toyReq 37).cryptlen % 16 ≠ 0 ∧
      (skcipher_walk_virt toyCursor alg_xts (toyReq 37)).2.nbytes < (toyReq 37).cryptlen) ∧
    (cts_lead (toyReq 37).cryptlen = ((toyReq 37).cryptlen + 15) / 16 - 2 ∧
     16 * cts_lead (toyReq 37).cryptlen + (16 + (toyReq 37).cryptlen % 16) =
       (toyReq 37).cryptlen) ∧
    (xts_encrypt toyPrim toyCursor toyXtsCtx toyWorld (toyReq 37)).2.trace =
      [Event.skcipher_walk_virt 37, Event.skcipher_walk_abort, Event.skcipher_walk_virt 16,
       Event.kernel_neon_begin, Event.aes_xts_encrypt [7] 10 16 [11] 1,
       Event.encrypt_block, Event.encrypt_block, Event.kernel_neon_end,
       Event.skcipher_walk_done 0,
       Event.skcipher_walk_virt 21, Event.kernel_neon_begin,
       Event.aes_xts_encrypt [7] 10 21 [11] 0, Event.encrypt_block, Event.encrypt_block,
       Event.kernel_neon_end, Event.skcipher_walk_done 0] :=
  ⟨by decide, by decide, by decide,
   ((xts_tail_split toyPrim toyCursor toyXtsCtx toyWorld (toyReq 37) (by decide)
      (by decide)).1 (by decide)).1,
   by decide⟩

/-- C29: with the uses of the local sub-request checked, xts_encrypt and
xts_decrypt never reach the tail step while the sub-request is uninitialised:
the checked functions always return what the functions return. After the start
the tail length is not 0 exactly when the sub-request has been initialised in
the branch, and then the cursor has been aborted and the request pointer
refers to the sub-request; when it is uninitialised the functions return from
the loop. The initialised sub-request covers the whole blocks but the last,
and the cursor of the tail step is created over the request of 16 + (L mod 16)
bytes that starts where the sub-request ends and ends where the request
ends. -/
theorem xts_tail_after_subreq (P : AesPrim) (W : Cursor) (ctx : crypto_aes_xts_ctx)
    (w : World) (req : skcipher_request) :
    xts_encrypt_checked P W ctx w req = some (xts_encrypt P W ctx w req) ∧
    xts_decrypt_checked P W ctx w req = some (xts_decrypt P W ctx w req) ∧
    ((xts_start W w req).2.2.2.2 ≠ 0 ↔ (xts_subreq W req).isSome = true) ∧
    (∀ sub, xts_subreq W req = some sub →
      (xts_start W w req).2.2.2.1 = sub ∧
      (xts_start W w req).2.2.2.2 = req.cryptlen % 16 ∧
      Event.skcipher_walk_abort ∈ (xts_start W w req).2.1.trace) ∧
    (xts_subreq W req = none → 16 ≤ req.cryptlen →
      xts_encrypt P W ctx w req =
        ((xts_encrypt_bulk P W ctx w req).1, (xts_encrypt_bulk P W ctx w req).2.1) ∧
      xts_decrypt P W ctx w req =
        ((xts_decrypt_bulk P W ctx w req).1, (xts_decrypt_bulk P W ctx w req).2.1)) ∧
    (16 ≤ req.cryptlen → req.cryptlen < 2 ^ 32 →
      ∀ sub, xts_subreq W req = some sub →
        sub = xts_lead_req req ∧
        xts_tail_req sub (req.cryptlen % 16) =
          { src := scatterwalk_ffwd req.src (16 * cts_lead req.cryptlen),
            dst := scatterwalk_ffwd req.dst (16 * cts_lead req.cryptlen),
            cryptlen := 16 + req.cryptlen % 16 } ∧
        16 * cts_lead req.cryptlen + (16 + req.cryptlen % 16) = req.cryptlen) ∧
    (∀ (w1 : World) (sub : skcipher_request) (tail first : Nat),
      (xts_encrypt_tail P W ctx (6 + ctx.key1.key_length / 4) w1 sub tail first).2.trace =
        w1.trace ++ [Event.skcipher_walk_virt (xts_tail_req sub tail).cryptlen] ++
          (if (skcipher_walk_virt W alg_xts (xts_tail_req sub tail)).1 ≠ 0 then []
           else [Event.kernel_neon_begin] ++
             (aes_xts_encrypt P
               (w1.view (skcipher_walk_virt W alg_xts (xts_tail_req sub tail)).2.src)
               ctx.key1.key_enc (6 + ctx.key1.key_length / 4)
               (skcipher_walk_virt W alg_xts (xts_tail_req sub tail)).2.nbytes
               ctx.key2.key_enc w1.iv first).2.2 ++
             [Event.kernel_neon_end, Event.skcipher_walk_done 0]) ∧
      (xts_decrypt_tail P W ctx (6 + ctx.key1.key_length / 4) w1 sub tail first).2.trace =
        w1.trace ++ [Event.skcipher_walk_virt (xts_tail_req sub tail).cryptlen] ++
          (if (skcipher_walk_virt W alg_xts (xts_tail_req sub tail)).1 ≠ 0 then []
           else [Event.kernel_neon_begin] ++
             (aes_xts_decrypt P
               (w1.view (skcipher_walk_virt W alg_xts (xts_tail_req sub tail)).2.src)
               ctx.key1.key_dec (6 + ctx.key1.key_length / 4)
               (skcipher_walk_virt W alg_xts (xts_tail_req sub tail)).2.nbytes
               ctx.key2.key_enc w1.iv first).2.2 ++
             [Event.kernel_neon_end, Event.skcipher_walk_done 0])) := by
  obtain ⟨s1, s2, s3⟩ := xts_start_subreq W w req
  refine ⟨xts_encrypt_checked_eq P W ctx w req, xts_decrypt_checked_eq P W ctx w req, s1, s2,
    fun hn hL => ?_, fun hL hU sub hs => xts_subreq_val W req hL hU sub hs,
    fun w1 sub tail first => ?_⟩
  · have ht : (xts_start W w req).2.2.2.2 = 0 := by
      by_cases h0 : (xts_start W w req).2.2.2.2 = 0
      · exact h0
      · have := s1.mp h0
        rw [hn] at this
        cases this
    have hlt : ¬ (req.cryptlen < AES_BLOCK_SIZE) := by show ¬ (req.cryptlen < 16); omega
    constructor
    · unfold xts_encrypt xts_encrypt_bulk
      dsimp only
      rw [if_neg hlt, if_pos (Or.inr ht)]
    · unfold xts_decrypt xts_decrypt_bulk
      dsimp only
      rw [if_neg hlt, if_pos (Or.inr ht)]
  · exact ⟨xts_crypt_tail_trace (fun inp bytes iv fst =>
          aes_xts_encrypt P inp ctx.key1.key_enc (6 + ctx.key1.key_length / 4) bytes
            ctx.key2.key_enc iv fst) W w1 sub tail first,
      xts_crypt_tail_trace (fun inp bytes iv fst =>
          aes_xts_decrypt P inp ctx.key1.key_dec (6 + ctx.key1.key_length / 4) bytes
            ctx.key2.key_enc iv fst) W w1 sub tail first⟩

/-- C29 on requests of 37 and 32 bytes over segments of 7 bytes: the first
initialises the sub-request of 16 bytes and its tail step covers the 21 bytes
from offset 16; the second leaves the sub-request uninitialised and returns
from the loop. -/
theorem xts_tail_after_subreq_witness :
    xts_subreq toyCursor (toyReq 37) = some (xts_lead_req (toyReq 37)) ∧
    (16 ≤ (toyReq 37).cryptlen ∧ (toyReq 37).cryptlen < 2 ^ 32) ∧
    xts_tail_req (xts_lead_req (toyReq 37)) ((toyReq 37).cryptlen % 16) =
      { src := scatterwalk_ffwd (toyReq 37).src (16 * cts_lead (toyReq 37).cryptlen),
        dst := scatterwalk_ffwd (toyReq 37).dst (16 * cts_lead (toyReq 37).cryptlen),
        cryptlen := 16 + (toyReq 37).cryptlen % 16 } ∧
    (xts_subreq toyCursor (toyReq 32) = none ∧ 16 ≤ (toyReq 32).cryptlen) ∧
    xts_encrypt toyPrim toyCursor toyXtsCtx toyWorld (toyReq 32) =
      ((xts_encrypt_bulk toyPrim toyCursor toyXtsCtx toyWorld (toyReq 32)).1,
       (xts_encrypt_bulk toyPrim toyCursor toyXtsCtx toyWorld (toyReq 32)).2.1) :=
  ⟨by decide, ⟨by decide, by decide⟩,
   ((xts_tail_after_subreq toyPrim toyCursor toyXtsCtx toyWorld (toyReq 37)).2.2.2.2.2.1
      (by decide) (by decide) (xts_lead_req (toyReq 37)) (by decide)).2.1,
   ⟨by decide, by decide⟩,
   ((xts_tail_after_subreq toyPrim toyCursor toyXtsCtx toyWorld (toyReq 32)).2.2.2.2.1
      (by decide) (by decide)).1⟩

/-- C24: a pass of the loop of ctr_encrypt or xctr_encrypt over a run of
n < 16 bytes, with a 16-byte scratch block of any contents. In the loops with
the scratch accesses recorded, which are the loops (and the functions)
themselves once the record is dropped, the pass makes exactly three accesses: the memcpy of the n source
bytes to offset 16 - n of the block, after which the block is its first
16 - n bytes followed by the source bytes; the call of the primitive with
both pointers at offset 16 - n and byte count n, after which the block is its
first 16 - n bytes followed by the n output bytes; and the memcpy of the n
output bytes from offset 16 - n to the destination run. The pass is the rest
of the loop from the state in which exactly those n bytes have been written at
the destination run and the cursor has committed the whole run (leftover 0),
so that it has moved on by n bytes; no other byte of any buffer is
changed. -/
theorem ctr_scratch_run (P : AesPrim) (hP : BlockPreserving P) (W : Cursor)
    (ctx : crypto_aes_ctx) (rounds : Nat) (buf : List Nat) (hbuf : buf.length = 16)
    (fuel : Nat) (w : World) (walk : skcipher_walk) (err : Int) (bc : Nat)
    (hiv : w.iv.length = 16) (h0 : 0 < walk.nbytes) (h16 : walk.nbytes < 16)
    (hsrc : walk.src.off + walk.nbytes ≤ (w.mem walk.src.id).length)
    (hdst : walk.dst.off + walk.nbytes ≤ (w.mem walk.dst.id).length) :
    (∀ (b : List Nat) (k : Nat) (w1 : World) (walk1 : skcipher_walk) (e1 : Int) (c1 : Nat),
      (ctr_encrypt_loop_scratch P W ctx rounds b k w1 walk1 e1).1 =
        ctr_encrypt_loop P W ctx rounds b k w1 walk1 e1 ∧
      (xctr_encrypt_loop_scratch P W ctx rounds b k w1 walk1 e1 c1).1 =
        xctr_encrypt_loop P W ctx rounds b k w1 walk1 e1 c1) ∧
    (∀ (tfm : crypto_skcipher) (b : List Nat) (w1 : World) (req : skcipher_request),
      (ctr_encrypt_scratch P W tfm b w1 req).1 = ctr_encrypt P W tfm b w1 req ∧
      (xctr_encrypt_scratch P W tfm b w1 req).1 = xctr_encrypt P W tfm b w1 req) ∧
    (ctr_encrypt_loop_scratch P W ctx rounds buf (fuel + 1) w walk err =
      ((ctr_encrypt_loop_scratch P W ctx rounds buf fuel
        { mem := (w.write walk.dst
            (aes_ctr_encrypt P (load (w.view walk.src) 0 walk.nbytes) ctx.key_enc rounds
              walk.nbytes w.iv).1).mem,
          iv := (aes_ctr_encrypt P (load (w.view walk.src) 0 walk.nbytes) ctx.key_enc rounds
              walk.nbytes w.iv).2.1,
          trace := w.trace ++ ([Event.kernel_neon_begin] ++
            (aes_ctr_encrypt P (load (w.view walk.src) 0 walk.nbytes) ctx.key_enc rounds
              walk.nbytes w.iv).2.2 ++ [Event.kernel_neon_end]) ++
            [Event.skcipher_walk_done 0] }
        (skcipher_walk_done W walk 0).2 (skcipher_walk_done W walk 0).1).1,
       [ScratchOp.memcpy_to (16 - walk.nbytes) walk.nbytes
          (buf.take (16 - walk.nbytes) ++ load (w.view walk.src) 0 walk.nbytes),
        ScratchOp.prim_call (16 - walk.nbytes) (16 - walk.nbytes) walk.nbytes
          (buf.take (16 - walk.nbytes) ++
            (aes_ctr_encrypt P (load (w.view walk.src) 0 walk.nbytes) ctx.key_enc rounds
              walk.nbytes w.iv).1),
        ScratchOp.memcpy_from (16 - walk.nbytes) walk.nbytes
          (aes_ctr_encrypt P (load (w.view walk.src) 0 walk.nbytes) ctx.key_enc rounds
            walk.nbytes w.iv).1] ++
       (ctr_encrypt_loop_scratch P W ctx rounds buf fuel
        { mem := (w.write walk.dst
            (aes_ctr_encrypt P (load (w.view walk.src) 0 walk.nbytes) ctx.key_enc rounds
              walk.nbytes w.iv).1).mem,
          iv := (aes_ctr_encrypt P (load (w.view walk.src) 0 walk.nbytes) ctx.key_enc rounds
              walk.nbytes w.iv).2.1,
          trace := w.trace ++ ([Event.kernel_neon_begin] ++
            (aes_ctr_encrypt P (load (w.view walk.src) 0 walk.nbytes) ctx.key_enc rounds
              walk.nbytes w.iv).2.2 ++ [Event.kernel_neon_end]) ++
            [Event.skcipher_walk_done 0] }
        (skcipher_walk_done W walk 0).2 (skcipher_walk_done W walk 0).1).2)) ∧
    (xctr_encrypt_loop_scratch P W ctx rounds buf (fuel + 1) w walk err bc =
      ((xctr_encrypt_loop_scratch P W ctx rounds buf fuel
        { mem := (w.write walk.dst
            (aes_xctr_encrypt P (load (w.view walk.src) 0 walk.nbytes) ctx.key_enc rounds
              walk.nbytes w.iv bc).1).mem,
          iv := (aes_xctr_encrypt P (load (w.view walk.src) 0 walk.nbytes) ctx.key_enc rounds
              walk.nbytes w.iv bc).2.1,
          trace := w.trace ++ ([Event.kernel_neon_begin] ++
            (aes_xctr_encrypt P (load (w.view walk.src) 0 walk.nbytes) ctx.key_enc rounds
              walk.nbytes w.iv bc).2.2 ++ [Event.kernel_neon_end]) ++
            [Event.skcipher_walk_done 0] }
        (skcipher_walk_done W walk 0).2 (skcipher_walk_done W walk 0).1
        ((bc + walk.nbytes) % 2 ^ 32)).1,
       [ScratchOp.memcpy_to (16 - walk.nbytes) walk.nbytes
          (buf.take (16 - walk.nbytes) ++ load (w.view walk.src) 0 walk.nbytes),
        ScratchOp.prim_call (16 - walk.nbytes) (16 - walk.nbytes) walk.nbytes
          (buf.take (16 - walk.nbytes) ++
            (aes_xctr_encrypt P (load (w.view walk.src) 0 walk.nbytes) ctx.key_enc rounds
              walk.nbytes w.iv bc).1),
        ScratchOp.memcpy_from (16 - walk.nbytes) walk.nbytes
          (aes_xctr_encrypt P (load (w.view walk.src) 0 walk.nbytes) ctx.key_enc rounds
            walk.nbytes w.iv bc).1] ++
       (xctr_encrypt_loop_scratch P W ctx rounds buf fuel
        { mem := (w.write walk.dst
            (aes_xctr_encrypt P (load (w.view walk.src) 0 walk.nbytes) ctx.key_enc rounds
              walk.nbytes w.iv bc).1).mem,
          iv := (aes_xctr_encrypt P (load (w.view walk.src) 0 walk.nbytes) ctx.key_enc rounds
              walk.nbytes w.iv bc).2.1,
          trace := w.trace ++ ([Event.kernel_neon_begin] ++
            (aes_xctr_encrypt P (load (w.view walk.src) 0 walk.nbytes) ctx.key_enc rounds
              walk.nbytes w.iv bc).2.2 ++ [Event.kernel_neon_end]) ++
            [Event.skcipher_walk_done 0] }
        (skcipher_walk_done W walk 0).2 (skcipher_walk_done W walk 0).1
        ((bc + walk.nbytes) % 2 ^ 32)).2)) ∧
    (ctr_encrypt_loop P W ctx rounds buf (fuel + 1) w walk err =
      ctr_encrypt_loop P W ctx rounds buf fuel
        { mem := (w.write walk.dst
            (aes_ctr_encrypt P (load (w.view walk.src) 0 walk.nbytes) ctx.key_enc rounds
              walk.nbytes w.iv).1).mem,
          iv := (aes_ctr_encrypt P (load (w.view walk.src) 0 walk.nbytes) ctx.key_enc rounds
              walk.nbytes w.iv).2.1,
          trace := w.trace ++ ([Event.kernel_neon_begin] ++
            (aes_ctr_encrypt P (load (w.view walk.src) 0 walk.nbytes) ctx.key_enc rounds
              walk.nbytes w.iv).2.2 ++ [Event.kernel_neon_end]) ++
            [Event.skcipher_walk_done 0] }
        (skcipher_walk_done W walk 0).2 (skcipher_walk_done W walk 0).1) ∧
    (xctr_encrypt_loop P W ctx rounds buf (fuel + 1) w walk err bc =
      xctr_encrypt_loop P W ctx rounds buf fuel
        { mem := (w.write walk.dst
            (aes_xctr_encrypt P (load (w.view walk.src) 0 walk.nbytes) ctx.key_enc rounds
              walk.nbytes w.iv bc).1).mem,
          iv := (aes_xctr_encrypt P (load (w.view walk.src) 0 walk.nbytes) ctx.key_enc rounds
              walk.nbytes w.iv bc).2.1,
          trace := w.trace ++ ([Event.kernel_neon_begin] ++
            (aes_xctr_encrypt P (load (w.view walk.src) 0 walk.nbytes) ctx.key_enc rounds
              walk.nbytes w.iv bc).2.2 ++ [Event.kernel_neon_end]) ++
            [Event.skcipher_walk_done 0] }
        (skcipher_walk_done W walk 0).2 (skcipher_walk_done W walk 0).1
        ((bc + walk.nbytes) % 2 ^ 32)) ∧
    ((buf.take (16 - walk.nbytes)).length = 16 - walk.nbytes ∧
     (load (w.view walk.src) 0 walk.nbytes).length = walk.nbytes) ∧
    (∀ out : List Nat,
      out = (aes_ctr_encrypt P (load (w.view walk.src) 0 walk.nbytes) ctx.key_enc rounds
          walk.nbytes w.iv).1 ∨
      out = (aes_xctr_encrypt P (load (w.view walk.src) 0 walk.nbytes) ctx.key_enc rounds
          walk.nbytes w.iv bc).1 →
      out.length = walk.nbytes ∧
      (∀ i, i ≠ walk.dst.id → (w.write walk.dst out).mem i = w.mem i) ∧
      load ((w.write walk.dst out).mem walk.dst.id) walk.dst.off walk.nbytes = out ∧
      ((w.write walk.dst out).mem walk.dst.id).take walk.dst.off =
        (w.mem walk.dst.id).take walk.dst.off ∧
      ((w.write walk.dst out).mem walk.dst.id).drop (walk.dst.off + walk.nbytes) =
        (w.mem walk.dst.id).drop (walk.dst.off + walk.nbytes) ∧
      ((w.write walk.dst out).mem walk.dst.id).length = (w.mem walk.dst.id).length) ∧
    ((skcipher_walk_done W walk 0).2.src = scatterwalk_ffwd walk.src walk.nbytes ∧
     (skcipher_walk_done W walk 0).2.dst = scatterwalk_ffwd walk.dst walk.nbytes ∧
     (skcipher_walk_done W walk 0).2.total = walk.total - walk.nbytes) := by
  have hn0 : walk.nbytes ≠ 0 := by omega
  have hvl : walk.nbytes ≤ (w.view walk.src).length := by
    simp only [World.view, List.length_drop]; omega
  have hll : (load (w.view walk.src) 0 walk.nbytes).length = walk.nbytes :=
    length_load _ _ _ (by omega)
  have hc : (aes_ctr_encrypt P (load (w.view walk.src) 0 walk.nbytes) ctx.key_enc rounds
      walk.nbytes w.iv).1.length = walk.nbytes :=
    ((ctr_bytes_chained P hP ctx.key_enc rounds).len walk.nbytes
      (load (w.view walk.src) 0 walk.nbytes) w.iv 0 (by rw [hll]) hiv).1
  have hx : (aes_xctr_encrypt P (load (w.view walk.src) 0 walk.nbytes) ctx.key_enc rounds
      walk.nbytes w.iv bc).1.length = walk.nbytes :=
    ((xctr_bytes_chained P hP ctx.key_enc rounds).len walk.nbytes
      (load (w.view walk.src) 0 walk.nbytes) w.iv bc (by rw [hll]) hiv).1
  refine ⟨fun b k w1 walk1 e1 c1 =>
      ⟨ctr_encrypt_loop_scratch_fst P W ctx rounds b k w1 walk1 e1,
       xctr_encrypt_loop_scratch_fst P W ctx rounds b k w1 walk1 e1 c1⟩,
    fun tfm b w1 req =>
      ⟨ctr_encrypt_scratch_fst P W tfm b w1 req, xctr_encrypt_scratch_fst P W tfm b w1 req⟩,
    ?_, ?_, ?_, ?_, ⟨?_, hll⟩, ?_, ?_⟩
  · obtain ⟨b1, b2, b3, b4⟩ := scratch_blocks buf _ _ walk.nbytes hbuf (by omega) hll hc
    rw [ctr_encrypt_loop_scratch]
    simp only [AES_BLOCK_SIZE]
    rw [if_neg hn0, if_pos h16, b2, b4, b3, b1, Nat.sub_self]
    rfl
  · obtain ⟨b1, b2, b3, b4⟩ := scratch_blocks buf _ _ walk.nbytes hbuf (by omega) hll hx
    rw [xctr_encrypt_loop_scratch]
    simp only [AES_BLOCK_SIZE]
    rw [if_neg hn0, if_pos h16, b2, b4, b3, b1, Nat.sub_self]
    rfl
  · rw [ctr_encrypt_loop_eq P W ctx rounds buf (fuel + 1) w walk err 0,
      ctr_encrypt_loop_eq P W ctx rounds buf fuel _ _ _ ((0 + walk.nbytes) % 2 ^ 32)]
    exact ctr_walk_small_pass _ W buf hbuf fuel w walk err 0 hn0 h16 hvl hc
  · rw [xctr_encrypt_loop_eq, xctr_encrypt_loop_eq]
    exact ctr_walk_small_pass _ W buf hbuf fuel w walk err bc hn0 h16 hvl hx
  · rw [List.length_take, hbuf]; omega
  · intro out ho
    have hol : out.length = walk.nbytes := by
      rcases ho with h | h
      · rw [h]; exact hc
      · rw [h]; exact hx
    obtain ⟨m1, m2, m3, m4, m5⟩ := world_write_only w walk.dst out (by rw [hol]; exact hdst)
    rw [hol] at m2 m4
    exact ⟨hol, m1, m2, m3, m4, m5⟩
  · have := walk_done_advance W walk 0 hn0
    rw [Nat.sub_zero] at this
    exact this

/-- C24 on a run of 5 bytes at offset 32 of a request of 37 bytes, with a
scratch block of sixteen bytes 170: the 5 source bytes 132..136 are stored at
positions 11..15 of the block, the primitive is called in place at offset 11
on 5 bytes, and the 5 output bytes are copied from offset 11 to offset 32 of
the destination, whose bytes after them stay as they were. The whole request
over buffers that offer 20 contiguous bytes makes these three accesses and no
other. -/
theorem ctr_scratch_run_witness :
    toyBuf.length = 16 ∧ toyWorld.iv.length = 16 ∧
    (ctr_encrypt_loop_scratch toyPrim toyCursor toyCtx 10 toyBuf 1 toyWorld
      { src := { id := 0, off := 32 }, dst := { id := 1, off := 32 }, total := 5, nbytes := 5,
        blocksize := 1, stride := 16 } 0).2 =
      [ScratchOp.memcpy_to 11 5
         [170, 170, 170, 170, 170, 170, 170, 170, 170, 170, 170, 132, 133, 134, 135, 136],
       ScratchOp.prim_call 11 11 5
         [170, 170, 170, 170, 170, 170, 170, 170, 170, 170, 170, 140, 140, 140, 140, 132],
       ScratchOp.memcpy_from 11 5 [140, 140, 140, 140, 132]] ∧
    ((toyWorld.write { id := 1, off := 32 }
        (aes_ctr_encrypt toyPrim (load (toyWorld.view { id := 0, off := 32 }) 0 5) [7] 10 5
          toyWorld.iv).1).mem 1).drop (32 + 5) = (toyWorld.mem 1).drop (32 + 5) ∧
    (ctr_encrypt_scratch toyPrim toyCursor (ctr_tfm toyCtx) toyBuf toyWorld (toyReq 37)).1 =
      ctr_encrypt toyPrim toyCursor (ctr_tfm toyCtx) toyBuf toyWorld (toyReq 37) ∧
    (ctr_encrypt_scratch toyPrim toyCursorWide (ctr_tfm toyCtx) toyBuf toyWorld (toyReq 37)).2 =
      [ScratchOp.memcpy_to 11 5
         [170, 170, 170, 170, 170, 170, 170, 170, 170, 170, 170, 132, 133, 134, 135, 136],
       ScratchOp.prim_call 11 11 5
         [170, 170, 170, 170, 170, 170, 170, 170, 170, 170, 170, 146, 140, 140, 140, 132],
       ScratchOp.memcpy_from 11 5 [146, 140, 140, 140, 132]] :=
  ⟨by decide, by decide,
   (congrArg Prod.snd
      (ctr_scratch_run toyPrim toyPrim_blockPreserving toyCursor toyCtx 10 toyBuf (by decide) 0
        toyWorld
        { src := { id := 0, off := 32 }, dst := { id := 1, off := 32 }, total := 5,
          nbytes := 5, blocksize := 1, stride := 16 } 0 0 (by decide) (by decide) (by decide)
        (by decide) (by decide)).2.2.1).trans (by decide),
   ((ctr_scratch_run toyPrim toyPrim_blockPreserving toyCursor toyCtx 10 toyBuf (by decide) 0
      toyWorld
      { src := { id := 0, off := 32 }, dst := { id := 1, off := 32 }, total := 5, nbytes := 5,
        blocksize := 1, stride := 16 } 0 0 (by decide) (by decide) (by decide) (by decide)
      (by decide)).2.2.2.2.2.2.2.1 _ (Or.inl rfl)).2.2.2.2.1,
   ((ctr_scratch_run toyPrim toyPrim_blockPreserving toyCursor toyCtx 10 toyBuf (by decide) 0
      toyWorld
      { src := { id := 0, off := 32 }, dst := { id := 1, off := 32 }, total := 5, nbytes := 5,
        blocksize := 1, stride := 16 } 0 0 (by decide) (by decide) (by decide) (by decide)
      (by decide)).2.1 (ctr_tfm toyCtx) toyBuf toyWorld (toyReq 37)).1,
   by decide⟩
/-- C25: within one xctr_encrypt request of a 32-bit length, for every cursor
and scratch block, the byte offset passed to the XCTR primitive is 0 at the
first call and at every call the sum of the byte counts of the earlier calls
of the request, the byte count of a call being what the primitive processes
and not the length of the run: the monitor of the byte offset accepts the
events of the request from 0. The IV buffer is the same after the request, and
every call receives the IV buffer as it was at the start: the request is the
loop in which the primitive is always handed the initial IV. -/
theorem xctr_byte_counter (P : AesPrim) (W : Cursor) (tfm : crypto_skcipher) (buf : List Nat)
    (w : World) (req : skcipher_request) (hL : req.cryptlen < 2 ^ 32) :
    (∃ tr seen, (xctr_encrypt P W tfm buf w req).2.trace = w.trace ++ tr ∧
      run_monitor xctr_ctr_step 0 tr = some seen ∧ seen ≤ req.cryptlen) ∧
    (xctr_encrypt P W tfm buf w req).2.iv = w.iv ∧
    xctr_encrypt P W tfm buf w req =
      ((ctr_walk_loop (fun inp n _ c =>
          aes_xctr_encrypt P inp tfm.ctx.key_enc (6 + tfm.ctx.key_length / 4) n w.iv c)
          W buf (req.cryptlen + 1) (w.emit [Event.skcipher_walk_virt req.cryptlen])
          (skcipher_walk_virt W tfm.alg req).2 (skcipher_walk_virt W tfm.alg req).1 0).1,
       (ctr_walk_loop (fun inp n _ c =>
          aes_xctr_encrypt P inp tfm.ctx.key_enc (6 + tfm.ctx.key_length / 4) n w.iv c)
          W buf (req.cryptlen + 1) (w.emit [Event.skcipher_walk_virt req.cryptlen])
          (skcipher_walk_virt W tfm.alg req).2 (skcipher_walk_virt W tfm.alg req).1 0).2.1) := by
  obtain ⟨v1, v2⟩ := walk_virt_bound W tfm.alg req
  obtain ⟨i1, i2⟩ := ctr_walk_loop_iv
    (fun inp n iv c =>
      aes_xctr_encrypt P inp tfm.ctx.key_enc (6 + tfm.ctx.key_length / 4) n iv c)
    (fun _ _ _ _ => rfl) W buf (req.cryptlen + 1)
    (w.emit [Event.skcipher_walk_virt req.cryptlen])
    (skcipher_walk_virt W tfm.alg req).2 (skcipher_walk_virt W tfm.alg req).1 0 w.iv rfl
  obtain ⟨tr, seen, t1, t2, t3⟩ := ctr_walk_loop_counter
    (fun inp n iv c =>
      aes_xctr_encrypt P inp tfm.ctx.key_enc (6 + tfm.ctx.key_length / 4) n iv c)
    (fun inp n iv bc => xctr_counter_call P inp _ _ n iv bc) W buf req.cryptlen hL
    (req.cryptlen + 1) (w.emit [Event.skcipher_walk_virt req.cryptlen])
    (skcipher_walk_virt W tfm.alg req).2 (skcipher_walk_virt W tfm.alg req).1
    (by rw [v1]) v2
  have hx : xctr_encrypt P W tfm buf w req =
      ((ctr_walk_loop (fun inp n iv c =>
          aes_xctr_encrypt P inp tfm.ctx.key_enc (6 + tfm.ctx.key_length / 4) n iv c)
          W buf (req.cryptlen + 1) (w.emit [Event.skcipher_walk_virt req.cryptlen])
          (skcipher_walk_virt W tfm.alg req).2 (skcipher_walk_virt W tfm.alg req).1 0).1,
       (ctr_walk_loop (fun inp n iv c =>
          aes_xctr_encrypt P inp tfm.ctx.key_enc (6 + tfm.ctx.key_length / 4) n iv c)
          W buf (req.cryptlen + 1) (w.emit [Event.skcipher_walk_virt req.cryptlen])
          (skcipher_walk_virt W tfm.alg req).2 (skcipher_walk_virt W tfm.alg req).1 0).2.1) := by
    unfold xctr_encrypt
    dsimp only
    rw [xctr_encrypt_loop_eq]
  refine ⟨?_, ?_, ?_⟩
  · rw [hx]
    refine ⟨[Event.skcipher_walk_virt req.cryptlen] ++ tr, seen, ?_, ?_, t3⟩
    · show (ctr_walk_loop _ W buf (req.cryptlen + 1) _ _ _ 0).2.1.trace = _
      rw [t1]
      simp only [World.emit, List.append_assoc]
    · exact run_monitor_append_some _ _ _ _ 0 _ rfl t2
  · rw [hx]
    exact i2
  · rw [hx, ← i1]

/-- C25 on a request of 37 bytes over buffers that offer 20 contiguous bytes:
the runs of 20 bytes are cut down to 16, the 4 bytes left over are handed back
to the cursor, and the byte offsets passed are 0, 16 and 32. -/
theorem xctr_byte_counter_witness :
    (toyReq 37).cryptlen < 2 ^ 32 ∧
    (xctr_encrypt toyPrim toyCursorWide (xctr_tfm toyCtx) toyBuf toyWorld (toyReq 37)).2.iv =
      toyWorld.iv ∧
    (xctr_encrypt toyPrim toyCursorWide (xctr_tfm toyCtx) toyBuf toyWorld
        (toyReq 37)).2.trace.filter
        (fun e => decide (e.rounds ≠ none) || decide (e = Event.skcipher_walk_done 4)) =
      [Event.aes_xctr_encrypt [7] 10 16 0, Event.skcipher_walk_done 4,
       Event.aes_xctr_encrypt [7] 10 16 16, Event.skcipher_walk_done 4,
       Event.aes_xctr_encrypt [7] 10 5 32] :=
  ⟨by decide,
   (xctr_byte_counter toyPrim toyCursorWide (xctr_tfm toyCtx) toyBuf toyWorld (toyReq 37)
      (by decide)).2.1,
   by decide⟩

/-- C30: for a transform whose stride (walksize) is at least 16 bytes, as it
is for "ctr(aes)" and "xctr(aes)", so that the cursor yields no run shorter
than 16 bytes but the last, and for every cursor environment and scratch
block: within one ctr_encrypt or xctr_encrypt request every call of the
primitive has a positive byte count, a call with a byte count that is not a
multiple of 16 is followed by no other call, and every leftover handed back to
the cursor is below 16 bytes: the monitor of the byte counts accepts the
events of the request. A pass over a run of at least 16 bytes that is not the
last hands the primitive the run length rounded down to a multiple of 16 and
hands the remainder back to the cursor. -/
theorem ctr_block_aligned (P : AesPrim) (W : Cursor) (tfm : crypto_skcipher) (buf : List Nat)
    (w : World) (req : skcipher_request) (hs : 16 ≤ tfm.alg.walksize) :
    (∃ tr short, (ctr_encrypt P W tfm buf w req).2.trace = w.trace ++ tr ∧
      run_monitor ctr_align_step false tr = some short) ∧
    (∃ tr short, (xctr_encrypt P W tfm buf w req).2.trace = w.trace ++ tr ∧
      run_monitor ctr_align_step false tr = some short) ∧
    (alg_ctr.walksize = 16 ∧ alg_xctr.walksize = 16) ∧
    (∀ (fuel : Nat) (w1 : World) (walk : skcipher_walk) (err : Int) (bc : Nat),
      16 ≤ walk.nbytes → walk.nbytes < walk.total →
      (0 < 16 * (walk.nbytes / 16) ∧ 16 * (walk.nbytes / 16) % 16 = 0 ∧
       walk.nbytes % 16 < 16 ∧ 16 * (walk.nbytes / 16) + walk.nbytes % 16 = walk.nbytes) ∧
      ctr_encrypt_loop P W tfm.ctx (6 + tfm.ctx.key_length / 4) buf (fuel + 1) w1 walk err =
        ctr_encrypt_loop P W tfm.ctx (6 + tfm.ctx.key_length / 4) buf fuel
          { mem := (w1.write walk.dst
              (aes_ctr_encrypt P (w1.view walk.src) tfm.ctx.key_enc
                (6 + tfm.ctx.key_length / 4) (16 * (walk.nbytes / 16)) w1.iv).1).mem,
            iv := (aes_ctr_encrypt P (w1.view walk.src) tfm.ctx.key_enc
                (6 + tfm.ctx.key_length / 4) (16 * (walk.nbytes / 16)) w1.iv).2.1,
            trace := w1.trace ++ ([Event.kernel_neon_begin] ++
              (aes_ctr_encrypt P (w1.view walk.src) tfm.ctx.key_enc
                (6 + tfm.ctx.key_length / 4) (16 * (walk.nbytes / 16)) w1.iv).2.2 ++
              [Event.kernel_neon_end]) ++ [Event.skcipher_walk_done (walk.nbytes % 16)] }
          (skcipher_walk_done W walk (walk.nbytes % 16)).2
          (skcipher_walk_done W walk (walk.nbytes % 16)).1 ∧
      xctr_encrypt_loop P W tfm.ctx (6 + tfm.ctx.key_length / 4) buf (fuel + 1) w1 walk err bc =
        xctr_encrypt_loop P W tfm.ctx (6 + tfm.ctx.key_length / 4) buf fuel
          { mem := (w1.write walk.dst
              (aes_xctr_encrypt P (w1.view walk.src) tfm.ctx.key_enc
                (6 + tfm.ctx.key_length / 4) (16 * (walk.nbytes / 16)) w1.iv bc).1).mem,
            iv := (aes_xctr_encrypt P (w1.view walk.src) tfm.ctx.key_enc
                (6 + tfm.ctx.key_length / 4) (16 * (walk.nbytes / 16)) w1.iv bc).2.1,
            trace := w1.trace ++ ([Event.kernel_neon_begin] ++
              (aes_xctr_encrypt P (w1.view walk.src) tfm.ctx.key_enc
                (6 + tfm.ctx.key_length / 4) (16 * (walk.nbytes / 16)) w1.iv bc).2.2 ++
              [Event.kernel_neon_end]) ++ [Event.skcipher_walk_done (walk.nbytes % 16)] }
          (skcipher_walk_done W walk (walk.nbytes % 16)).2
          (skcipher_walk_done W walk (walk.nbytes % 16)).1
          ((bc + 16 * (walk.nbytes / 16)) % 2 ^ 32)) := by
  obtain ⟨r1, r2⟩ := walk_virt_run W tfm.alg req hs
  refine ⟨?_, ?_, ⟨rfl, rfl⟩, fun fuel w1 walk err bc h16 hlt => ⟨by omega, ?_, ?_⟩⟩
  · obtain ⟨tr, short, t1, t2⟩ := ctr_walk_loop_align
      (fun inp n iv _ =>
        aes_ctr_encrypt P inp tfm.ctx.key_enc (6 + tfm.ctx.key_length / 4) n iv)
      (fun inp n iv _ hn => ctr_align_call P inp _ _ n iv hn) W buf (req.cryptlen + 1)
      (w.emit [Event.skcipher_walk_virt req.cryptlen])
      (skcipher_walk_virt W tfm.alg req).2 (skcipher_walk_virt W tfm.alg req).1 0 r1 r2
    refine ⟨[Event.skcipher_walk_virt req.cryptlen] ++ tr, short, ?_, ?_⟩
    · unfold ctr_encrypt
      dsimp only
      rw [ctr_encrypt_loop_eq P W tfm.ctx _ buf _ _ _ _ 0, t1]
      simp only [World.emit, List.append_assoc]
    · exact run_monitor_append_some _ _ _ _ false _ rfl t2
  · obtain ⟨tr, short, t1, t2⟩ := ctr_walk_loop_align
      (fun inp n iv c =>
        aes_xctr_encrypt P inp tfm.ctx.key_enc (6 + tfm.ctx.key_length / 4) n iv c)
      (fun inp n iv bc hn => xctr_align_call P inp _ _ n iv bc hn) W buf (req.cryptlen + 1)
      (w.emit [Event.skcipher_walk_virt req.cryptlen])
      (skcipher_walk_virt W tfm.alg req).2 (skcipher_walk_virt W tfm.alg req).1 0 r1 r2
    refine ⟨[Event.skcipher_walk_virt req.cryptlen] ++ tr, short, ?_, ?_⟩
    · unfold xctr_encrypt
      dsimp only
      rw [xctr_encrypt_loop_eq, t1]
      simp only [World.emit, List.append_assoc]
    · exact run_monitor_append_some _ _ _ _ false _ rfl t2
  · rw [ctr_encrypt_loop_eq P W tfm.ctx _ buf (fuel + 1) w1 walk err 0,
      ctr_encrypt_loop_eq P W tfm.ctx _ buf fuel _ _ _
        ((0 + 16 * (walk.nbytes / 16)) % 2 ^ 32)]
    exact ctr_walk_big_pass _ W buf fuel w1 walk err 0 h16 hlt
  · rw [xctr_encrypt_loop_eq, xctr_encrypt_loop_eq]
    exact ctr_walk_big_pass _ W buf fuel w1 walk err bc h16 hlt

/-- C30 on a request of 37 bytes over buffers that offer 20 contiguous bytes:
ctr_encrypt calls the primitive on 16, 16 and 5 bytes and hands 4 bytes back
to the cursor after each of the first two calls. -/
theorem ctr_block_aligned_witness :
    16 ≤ (ctr_tfm toyCtx).alg.walksize ∧
    (∃ tr short,
      (ctr_encrypt toyPrim toyCursorWide (ctr_tfm toyCtx) toyBuf toyWorld (toyReq 37)).2.trace =
        toyWorld.trace ++ tr ∧
      run_monitor ctr_align_step false tr = some short) ∧
    (ctr_encrypt toyPrim toyCursorWide (ctr_tfm toyCtx) toyBuf toyWorld
        (toyReq 37)).2.trace.filter
        (fun e => decide (e.rounds ≠ none) || decide (e = Event.skcipher_walk_done 4)) =
      [Event.aes_ctr_encrypt [7] 10 16, Event.skcipher_walk_done 4,
       Event.aes_ctr_encrypt [7] 10 16, Event.skcipher_walk_done 4,
       Event.aes_ctr_encrypt [7] 10 5] :=
  ⟨by decide,
   (ctr_block_aligned toyPrim toyCursorWide (ctr_tfm toyCtx) toyBuf toyWorld (toyReq 37)
      (by decide)).1,
   by decide⟩

/-- C26: in every execution of every cipher-mode and MAC entry point, for
every cursor environment, key, request and message, the events the entry point
adds are accepted by the monitor of the accelerator context from the state
"not held" and leave it in the state "not held": kernel_neon_begin and
kernel_neon_end alternate starting with kernel_neon_begin, every call of a
block primitive lies between a kernel_neon_begin and the next kernel_neon_end,
no cursor creation, commit or abort occurs while the context is held, and the
context is not held when the entry point returns, whatever its return
value. -/
theorem neon_bracketing (P : AesPrim) (W : Cursor) (tfm : crypto_skcipher)
    (xctx : crypto_aes_xts_ctx) (ectx : crypto_aes_essiv_cbc_ctx) (buf : List Nat)
    (w : World) (req : skcipher_request) (tctx : mac_tfm_ctx) (ctx : mac_desc_ctx)
    (p : List Nat) (len : Nat) (in_key : List Nat) (key_len : Nat) :
    (Bracketed w (ecb_encrypt P W tfm w req).2 ∧
     Bracketed w (ecb_decrypt P W tfm w req).2 ∧
     Bracketed w (cbc_encrypt P W tfm w req).2 ∧
     Bracketed w (cbc_decrypt P W tfm w req).2 ∧
     Bracketed w (cts_cbc_encrypt P W tfm w req).2 ∧
     Bracketed w (cts_cbc_decrypt P W tfm w req).2 ∧
     Bracketed w (essiv_cbc_encrypt P W ectx w req).2 ∧
     Bracketed w (essiv_cbc_decrypt P W ectx w req).2 ∧
     Bracketed w (ctr_encrypt P W tfm buf w req).2 ∧
     Bracketed w (xctr_encrypt P W tfm buf w req).2 ∧
     Bracketed w (xts_encrypt P W xctx w req).2 ∧
     Bracketed w (xts_decrypt P W xctx w req).2) ∧
    (run_monitor neon_step false (mac_do_update P tctx.key p len ctx.dg false).2 = some false ∧
     run_monitor neon_step false (mac_do_update P tctx.key p len ctx.dg true).2 = some false ∧
     run_monitor neon_step false (mac_update P tctx ctx p len).2.2 = some false ∧
     run_monitor neon_step false (cbcmac_finup P tctx ctx p len).2.2.2 = some false ∧
     run_monitor neon_step false (cmac_finup P tctx ctx p len).2.2.2 = some false ∧
     run_monitor neon_step false (cmac_setkey P tctx in_key key_len).2.2 = some false ∧
     run_monitor neon_step false (xcbc_setkey P tctx in_key key_len).2.2 = some false) :=
  ⟨⟨ecb_encrypt_bracketed P W tfm w req, ecb_decrypt_bracketed P W tfm w req,
    cbc_encrypt_bracketed P W tfm w req, cbc_decrypt_bracketed P W tfm w req,
    cts_cbc_encrypt_bracketed P W tfm w req, cts_cbc_decrypt_bracketed P W tfm w req,
    essiv_cbc_encrypt_bracketed P W ectx w req, essiv_cbc_decrypt_bracketed P W ectx w req,
    ctr_encrypt_bracketed P W tfm buf w req, xctr_encrypt_bracketed P W tfm buf w req,
    xts_encrypt_bracketed P W xctx w req, xts_decrypt_bracketed P W xctx w req⟩,
   mac_do_update_loop_bracketed P tctx.key false _ _ _ _,
   mac_do_update_loop_bracketed P tctx.key true _ _ _ _,
   (mac_entry_bracketed P tctx ctx p len).1, (mac_entry_bracketed P tctx ctx p len).2.1,
   (mac_entry_bracketed P tctx ctx p len).2.2,
   (mac_setkey_bracketed P tctx in_key key_len).1,
   (mac_setkey_bracketed P tctx in_key key_len).2⟩

/-- C26 on a request of 37 bytes over segments of 7 bytes: the events of
xts_encrypt, which aborts its first cursor and runs a tail step, and of a
failing ecb_encrypt are accepted by the monitor; a trace that creates a cursor
between the brackets is not. -/
theorem neon_bracketing_witness :
    Bracketed toyWorld (xts_encrypt toyPrim toyCursor toyXtsCtx toyWorld (toyReq 37)).2 ∧
    Bracketed toyWorld (ecb_encrypt toyPrim toyCursor (ecb_tfm toyCtx) toyWorld (toyReq 37)).2 ∧
    (ecb_encrypt toyPrim toyCursor (ecb_tfm toyCtx) toyWorld (toyReq 37)).1 = -EINVAL ∧
    run_monitor neon_step false
      (xts_encrypt toyPrim toyCursor toyXtsCtx toyWorld (toyReq 37)).2.trace = some false ∧
    run_monitor neon_step false
      [Event.kernel_neon_begin, Event.skcipher_walk_virt 16, Event.kernel_neon_end] = none :=
  ⟨(neon_bracketing toyPrim toyCursor (ecb_tfm toyCtx) toyXtsCtx toyEssivCtx toyBuf toyWorld
      (toyReq 37) toyMacKeyed { dg := [] } [] 0 [] 0).1.2.2.2.2.2.2.2.2.2.2.1,
   (neon_bracketing toyPrim toyCursor (ecb_tfm toyCtx) toyXtsCtx toyEssivCtx toyBuf toyWorld
      (toyReq 37) toyMacKeyed { dg := [] } [] 0 [] 0).1.1,
   by decide, by decide, by decide⟩

/-- C27: mac_do_update terminates and does not depend on where the primitive
yields. Any bound of at least `blocks` passes gives the result of the
function, which makes between one and max 1 blocks calls of aes_mac_update.
When the encrypt-before flag is set only with no block handed over, the
digest is that of one call of the primitive that never yields (which leaves
no block), two primitives with the same block cipher give the same digest,
the digest is encrypted once per block plus once for the flag, and every call
in the trace has the flag clear or no block. The three call sites mac_update,
cbcmac_finup and cmac_finup only make such calls. -/
theorem mac_do_update_yield_free (P Q : AesPrim) (ctx : crypto_aes_ctx) (inp : List Nat)
    (blocks : Nat) (dg : List Nat) (eb : Bool)
    (hQ : Q.encrypt = P.encrypt) (hsite : eb = true → blocks = 0) :
    (∀ fuel, blocks ≤ fuel →
      mac_do_update_loop P ctx eb fuel inp blocks dg = mac_do_update P ctx inp blocks dg eb) ∧
    1 ≤ mac_calls (mac_do_update P ctx inp blocks dg eb).2 ∧
    mac_calls (mac_do_update P ctx inp blocks dg eb).2 ≤ max 1 blocks ∧
    (aes_mac_update (no_yield P) inp ctx.key_enc (6 + ctx.key_length / 4) blocks dg eb
      (!eb)).1 = 0 ∧
    (mac_do_update P ctx inp blocks dg eb).1 =
      (aes_mac_update (no_yield P) inp ctx.key_enc (6 + ctx.key_length / 4) blocks dg eb
        (!eb)).2.1 ∧
    (mac_do_update Q ctx inp blocks dg eb).1 = (mac_do_update P ctx inp blocks dg eb).1 ∧
    encryptions (mac_do_update P ctx inp blocks dg eb).2 = blocks + (if eb then 1 else 0) ∧
    (∀ e ∈ (mac_do_update P ctx inp blocks dg eb).2, e.macSite) ∧
    (∀ (tctx : mac_tfm_ctx) (dctx : mac_desc_ctx) (p : List Nat) (len : Nat),
      ∀ e ∈ (mac_update P tctx dctx p len).2.2, e.macSite) ∧
    (∀ (tctx : mac_tfm_ctx) (dctx : mac_desc_ctx) (src : List Nat) (len : Nat),
      ∀ e ∈ (cbcmac_finup P tctx dctx src len).2.2.2, e.macSite) ∧
    (∀ (tctx : mac_tfm_ctx) (dctx : mac_desc_ctx) (src : List Nat) (len : Nat),
      ∀ e ∈ (cmac_finup P tctx dctx src len).2.2.2, e.macSite) := by
  refine ⟨fun fuel hf => mac_do_update_loop_fuel P ctx eb blocks fuel inp dg hf, ?_, ?_, ?_,
    mac_do_update_digest P ctx inp blocks dg eb hsite, ?_, ?_, ?_,
    mac_update_site P, cbcmac_finup_site P, cmac_finup_site P⟩
  · cases eb with
    | true =>
      rw [hsite rfl]; unfold mac_do_update
      rw [mac_do_update_loop_final, mac_calls_call]
    | false =>
      exact (mac_do_update_loop_single P ctx blocks blocks inp dg (Nat.le_refl _)).2.2.1
  · cases eb with
    | true =>
      rw [hsite rfl]; unfold mac_do_update
      rw [mac_do_update_loop_final, mac_calls_call]; decide
    | false =>
      exact (mac_do_update_loop_single P ctx blocks blocks inp dg (Nat.le_refl _)).2.2.2.1
  · rw [aes_mac_update_rem, mac_progress_no_yield, Nat.sub_self]
  · rw [mac_do_update_digest P ctx inp blocks dg eb hsite,
      mac_do_update_digest Q ctx inp blocks dg eb hsite]
    cases eb with
    | true =>
      simp only [aes_mac_update, if_true]
      rw [mac_chain_prim (no_yield P) (no_yield Q) hQ]
      show (mac_chain (no_yield P) _ _ _ _ _ _ (Q.encrypt _ _ _)).1 = _
      rw [hQ]
      rfl
    | false =>
      simp only [aes_mac_update, Bool.false_eq_true, if_false]
      rw [mac_chain_prim (no_yield P) (no_yield Q) hQ, mac_progress_no_yield,
        mac_progress_no_yield]
  · cases eb with
    | true =>
      rw [hsite rfl]; unfold mac_do_update
      rw [mac_do_update_loop_final]
      exact encryptions_call _ _ (by simp)
    | false =>
      exact (mac_do_update_loop_single P ctx blocks blocks inp dg (Nat.le_refl _)).2.1
  · cases eb with
    | true =>
      rw [hsite rfl]; unfold mac_do_update
      rw [mac_do_update_loop_final]
      exact macSite_call _ _ _ _ true (fun _ => rfl)
    | false =>
      exact (mac_do_update_loop_single P ctx blocks blocks inp dg (Nat.le_refl _)).2.2.2.2

/-- Instance of C27 on the small primitive: two blocks chained by a primitive
that yields after every block take two calls and leave the digest of the
primitive that yields after two. -/
theorem mac_do_update_yield_free_witness :
    toyPrim.encrypt = (yield_each toyPrim).encrypt ∧
    ((false : Bool) = true → (2 : Nat) = 0) ∧
    mac_calls
      (mac_do_update (yield_each toyPrim) toyMacKeyed.key toyMsg 2 (List.replicate 16 0)
        false).2 = 2 ∧
    (mac_do_update toyPrim toyMacKeyed.key toyMsg 2 (List.replicate 16 0) false).1 =
      (mac_do_update (yield_each toyPrim) toyMacKeyed.key toyMsg 2 (List.replicate 16 0)
        false).1 ∧
    encryptions
      (mac_do_update (yield_each toyPrim) toyMacKeyed.key toyMsg 2 (List.replicate 16 0)
        false).2 = 2 + (if false then 1 else 0) :=
  ⟨rfl, by decide, by decide,
   (mac_do_update_yield_free (yield_each toyPrim) toyPrim toyMacKeyed.key toyMsg 2
      (List.replicate 16 0) false rfl (by decide)).2.2.2.2.2.1,
   (mac_do_update_yield_free (yield_each toyPrim) toyPrim toyMacKeyed.key toyMsg 2
      (List.replicate 16 0) false rfl (by decide)).2.2.2.2.2.2.1⟩
/-- C28: with a digest of 16 bytes and len at most 16, every access of
cmac_finup to the digest is inside it: the checked function returns what
cmac_finup returns. The xor of the source keeps the digest 16 bytes long and
leaves the bytes from index len on as they were. The padding write happens
only when len is not 16, then at an index below 16, where the checked byte
update succeeds and changes no other byte; with len equal to 16 the digest
handed to mac_do_update is the xored one and the first stored subkey is used.
A length above 16 is refused by the checked function. -/
theorem cmac_pad_in_bounds (P : AesPrim) (tctx : mac_tfm_ctx) (ctx : mac_desc_ctx)
    (src : List Nat) (len : Nat) (hd : ctx.dg.length = AES_BLOCK_SIZE)
    (hl : len ≤ AES_BLOCK_SIZE) :
    cmac_finup_checked P tctx ctx src len = some (cmac_finup P tctx ctx src len) ∧
    (crypto_xor ctx.dg src len).length = AES_BLOCK_SIZE ∧
    (crypto_xor ctx.dg src len).drop len = ctx.dg.drop len ∧
    (len ≠ AES_BLOCK_SIZE →
      len < 16 ∧
      xor_byte (crypto_xor ctx.dg src len) len 0x80 =
        some ((crypto_xor ctx.dg src len).set len
          ((crypto_xor ctx.dg src len).getD len 0 ^^^ 0x80)) ∧
      ((crypto_xor ctx.dg src len).set len
          ((crypto_xor ctx.dg src len).getD len 0 ^^^ 0x80)).length = AES_BLOCK_SIZE ∧
      (∀ i, i ≠ len →
        ((crypto_xor ctx.dg src len).set len
          ((crypto_xor ctx.dg src len).getD len 0 ^^^ 0x80)).getD i 0 =
          (crypto_xor ctx.dg src len).getD i 0) ∧
      (cmac_finup P tctx ctx src len).2.1.dg =
        (mac_do_update P tctx.key (tctx.consts.drop AES_BLOCK_SIZE) 1
          ((crypto_xor ctx.dg src len).set len
            ((crypto_xor ctx.dg src len).getD len 0 ^^^ 0x80)) false).1) ∧
    (len = AES_BLOCK_SIZE →
      (cmac_finup P tctx ctx src len).2.1.dg =
        (mac_do_update P tctx.key tctx.consts 1 (crypto_xor ctx.dg src len) false).1) ∧
    (∀ n, AES_BLOCK_SIZE < n → cmac_finup_checked P tctx ctx src n = none) := by
  have hx : (crypto_xor ctx.dg src len).length = AES_BLOCK_SIZE := by
    rw [length_crypto_xor, hd]
  refine ⟨?_, hx, crypto_xor_drop _ _ _, ?_, ?_, ?_⟩
  · unfold cmac_finup_checked cmac_finup
    rw [if_pos (by rw [hd]; exact hl)]
    by_cases h : len ≠ AES_BLOCK_SIZE
    · have hlt : len < (crypto_xor ctx.dg src len).length := by
        rw [hx]; exact Nat.lt_of_le_of_ne hl h
      simp only [if_pos h, xor_byte_inside _ _ _ hlt]
    · simp only [if_neg h]
  · intro h
    have hlt : len < (crypto_xor ctx.dg src len).length := by
      rw [hx]; exact Nat.lt_of_le_of_ne hl h
    refine ⟨by rw [hx] at hlt; exact hlt, xor_byte_inside _ _ _ hlt, ?_, ?_, ?_⟩
    · rw [List.length_set, hx]
    · intro i hi
      simp only [List.getD_eq_getElem?_getD]
      rw [List.getElem?_set_ne (Ne.symm hi)]
    · unfold cmac_finup
      simp only [if_pos h]
  · intro h
    unfold cmac_finup
    simp only [if_neg (not_not.mpr h)]
  · intro n hn
    unfold cmac_finup_checked
    rw [if_neg (by rw [hd]; omega)]

/-- Instance of C28 on the small MAC context: a final segment of 5 bytes is
padded at index 5. -/
theorem cmac_pad_in_bounds_witness :
    (mac_init { dg := [] }).2.dg.length = AES_BLOCK_SIZE ∧ (5 : Nat) ≤ AES_BLOCK_SIZE ∧
    cmac_finup_checked toyPrim toyMacKeyed (mac_init { dg := [] }).2 toyMsg 5 =
      some (cmac_finup toyPrim toyMacKeyed (mac_init { dg := [] }).2 toyMsg 5) ∧
    xor_byte (crypto_xor (mac_init { dg := [] }).2.dg toyMsg 5) 5 0x80 =
      some [1, 4, 7, 10, 13, 128, 0, 0, 0, 0, 0, 0, 0, 0, 0, 0] :=
  ⟨rfl, by decide,
   (cmac_pad_in_bounds toyPrim toyMacKeyed (mac_init { dg := [] }).2 toyMsg 5 rfl
      (by decide)).1,
   ((cmac_pad_in_bounds toyPrim toyMacKeyed (mac_init { dg := [] }).2 toyMsg 5 rfl
      (by decide)).2.2.2.1 (by decide)).2.1⟩
end AesGlue
